import Mathlib

/-!
# A tree-walking interpreter: arbitrary-precision integers, values, environment, evaluator

Shallow embedding of `src/Evalvisitor.h` and `src/Evalvisitor.cpp`.

* `std::vector<int>` is a `List Int` (least significant digit first), `int`
  arithmetic is done in `Int` with the truncating `Int.tdiv` / `Int.tmod` of C++.
* `long long` is an `Int` wrapped into `[-2^63, 2^63)` where the code can overflow.
* A thrown C++ exception, an access outside a vector, and a loop that is still
  running when the fuel of the model is used up are the constructors of `Err`.
-/

namespace PyInterp

/-- Ways in which a computation of the interpreter ends without a value. -/
inductive Err where
  /-- Embeds `throw std::runtime_error("Division by zero")` -/
  | divisionByZero
  /-- an index outside a `std::vector` (undefined behaviour in the source) -/
  | outOfBounds
  /-- Embeds `std::invalid_argument` / `std::out_of_range` thrown by `std::stod` -/
  | invalidArgument
  /-- the model ran out of fuel: the source is still looping -/
  | outOfFuel
  deriving DecidableEq, Repr

/-! ## BigInteger -/

/-- Embeds `class BigInteger`: decimal digits, least significant first, and a sign flag. -/
@[ext]
structure BigInteger where
  digits : List Int
  negative : Bool
  deriving DecidableEq, Repr

namespace BigInteger

/-- The `while` loop of `removeLeadingZeros`: pop the most significant digit while
it is `0` and more than one digit is left. The loop runs at most `digits.size()` times. -/
def popLoop : Nat → List Int → List Int
  | 0, ds => ds
  | fuel + 1, ds =>
    if 1 < ds.length ∧ ds.getLast? = some 0 then popLoop fuel ds.dropLast else ds

/-- Embeds `bool isZero() const` -/
def isZero (a : BigInteger) : Bool :=
  a.digits.length == 1 && a.digits.head? == some 0

/-- Embeds `void removeLeadingZeros()` -/
def removeLeadingZeros (a : BigInteger) : BigInteger :=
  let ds := popLoop a.digits.length a.digits
  if ds.length = 1 ∧ ds.head? = some 0 then ⟨ds, false⟩ else ⟨ds, a.negative⟩

/-- Embeds `BigInteger()`: the digit `0`, not negative. -/
def zero : BigInteger := ⟨[0], false⟩

/-- Wrap an integer into the range of `long long`. -/
def wrapLL (x : Int) : Int := (x + 2 ^ 63) % 2 ^ 64 - 2 ^ 63

/-- Embeds `std::abs` on `long long`; on the most negative value the result wraps. -/
def llabs (x : Int) : Int := wrapLL (if x < 0 then -x else x)

/-- The loop `while (num > 0) { digits.push_back(num % 10); num /= 10; }`.
`num` shrinks in every round, so `num.toNat` rounds are enough. -/
def pushLoop : Nat → Int → List Int
  | 0, _ => []
  | fuel + 1, num => if 0 < num then num.tmod 10 :: pushLoop fuel (num.tdiv 10) else []

/-- Embeds `BigInteger(long long num)` -/
def ofLongLong (num : Int) : BigInteger :=
  if num = 0 then ⟨[0], false⟩
  else
    let n := llabs num
    ⟨pushLoop n.toNat n, decide (num < 0)⟩

/-- The digit `str[i] - '0'` of a character. -/
def charDigit (c : Char) : Int := (c.toNat : Int) - 48

/-- Embeds `BigInteger(const std::string& str)` -/
def ofString (str : String) : BigInteger :=
  if str.data = [] ∨ str = "0" then ⟨[0], false⟩
  else
    let start : Nat := if str.data.head? = some '-' ∨ str.data.head? = some '+' then 1 else 0
    removeLeadingZeros
      ⟨((str.data.drop start).reverse).map charDigit, decide (str.data.head? = some '-')⟩

/-- The character `char('0' + d)`. -/
def digitChar (d : Int) : Char := Char.ofNat ((48 + d) % 256).toNat

/-- Embeds `std::string toString() const` -/
def toString (a : BigInteger) : String :=
  if a.digits = [] ∨ (a.digits.length = 1 ∧ a.digits.head? = some 0) then "0"
  else String.mk ((if a.negative then ['-'] else []) ++ a.digits.reverse.map digitChar)

/-- Embeds `bool isNegative() const` -/
def isNegative (a : BigInteger) : Bool := a.negative && !a.isZero

/-- Embeds `BigInteger abs() const` -/
def abs (a : BigInteger) : BigInteger := { a with negative := false }

/-- Embeds `BigInteger operator-() const` (unary minus) -/
def neg (a : BigInteger) : BigInteger :=
  if !a.isZero then { a with negative := !a.negative } else a

/-- The `for` loop of `absLess` on two digit lists of the same length, most
significant digit first: the first position where they differ decides. -/
def absLessLoop : List Int → List Int → Bool
  | x :: xs, y :: ys => if x ≠ y then decide (x < y) else absLessLoop xs ys
  | _, _ => false

/-- Embeds `bool absLess(const BigInteger& other) const` -/
def absLess (a other : BigInteger) : Bool :=
  if a.digits.length ≠ other.digits.length then decide (a.digits.length < other.digits.length)
  else absLessLoop a.digits.reverse other.digits.reverse

/-- Embeds `bool operator<(const BigInteger& other) const` -/
def lt (a other : BigInteger) : Bool :=
  if a.negative ≠ other.negative then a.negative
  else if a.negative then other.absLess a
  else a.absLess other

/-- Embeds `bool operator>(const BigInteger& other) const` -/
def gt (a other : BigInteger) : Bool := other.lt a

/-- Embeds `bool operator<=(const BigInteger& other) const` -/
def le (a other : BigInteger) : Bool := !(other.lt a)

/-- Embeds `bool operator>=(const BigInteger& other) const` -/
def ge (a other : BigInteger) : Bool := !(a.lt other)

/-- Embeds `bool operator==(const BigInteger& other) const` -/
def eq (a other : BigInteger) : Bool :=
  a.negative == other.negative && a.digits == other.digits

/-- Embeds `bool operator!=(const BigInteger& other) const` -/
def ne (a other : BigInteger) : Bool := !(a.eq other)

/-- The rounds of the loop of `operator+` with `i >= maxSize`: they go on while
`carry` is not `0`. `carry` gets closer to `0` in every round, so `carry.natAbs`
rounds are enough. -/
def carryLoop : Nat → Int → List Int
  | 0, _ => []
  | fuel + 1, carry =>
    if carry ≠ 0 then carry.tmod 10 :: carryLoop fuel (carry.tdiv 10) else []

/-- The rounds of the loop of `operator+` in which only one operand still has digits. -/
def addRest : List Int → Int → List Int
  | [], carry => carryLoop carry.natAbs carry
  | x :: xs, carry => (carry + x).tmod 10 :: addRest xs ((carry + x).tdiv 10)

/-- The loop of `operator+` (`for (i = 0; i < maxSize || carry; i++)`), on the digits
of both operands from index `i` on. -/
def addLoop : List Int → List Int → Int → List Int
  | x :: xs, y :: ys, carry =>
    (carry + x + y).tmod 10 :: addLoop xs ys ((carry + x + y).tdiv 10)
  | xs, [], carry => addRest xs carry
  | [], ys, carry => addRest ys carry

/-- The loop of `operator-`, on the digits of `this` from index `i` on and the
digits of `other` from index `i` on. -/
def subLoop : List Int → List Int → Int → List Int
  | [], _, _ => []
  | x :: xs, ys, borrow =>
    let diff := x - borrow - (match ys with | y :: _ => y | [] => 0)
    if diff < 0 then (diff + 10) :: subLoop xs ys.tail 1
    else diff :: subLoop xs ys.tail 0

mutual

/-- Embeds `operator+` with a bound on the depth of the calls between `operator+` and `operator-`. -/
def addF : Nat → BigInteger → BigInteger → Option BigInteger
  | 0, _, _ => none
  | fuel + 1, a, other =>
    if a.negative = other.negative then
      some ⟨addLoop a.digits other.digits 0, a.negative⟩
    else if a.negative then subF fuel other a.abs
    else subF fuel a other.abs

/-- Embeds `operator-` with a bound on the depth of the calls between `operator+` and `operator-`. -/
def subF : Nat → BigInteger → BigInteger → Option BigInteger
  | 0, _, _ => none
  | fuel + 1, a, other =>
    if a.negative ≠ other.negative then
      (addF fuel a.abs other.abs).map fun result => { result with negative := a.negative }
    else if a.abs.lt other.abs then
      (subF fuel other.abs a.abs).map fun result => { result with negative := !a.negative }
    else
      some (removeLeadingZeros ⟨subLoop a.digits other.digits 0, a.negative⟩)

end

/-- Embeds `BigInteger operator+(const BigInteger& other) const`. The calls between
`operator+` and `operator-` are never nested deeper than three (`addF_eq_add`), and
`add` obeys the recursion of the source (`add_unfold`). -/
def add (a other : BigInteger) : BigInteger := (addF 3 a other).getD zero

/-- Embeds `BigInteger operator-(const BigInteger& other) const`. The calls between
`operator+` and `operator-` are never nested deeper than two (`subF_eq_sub`), and
`sub` obeys the recursion of the source (`sub_unfold`). -/
def sub (a other : BigInteger) : BigInteger := (subF 2 a other).getD zero

/-- The inner loop of `operator*`, `for (j = 0; j < other.digits.size() || carry; j++)`,
for the digit `x = digits[i]`, on the result buffer `res`. Every round is at index
`i + j` of the buffer, so it ends after at most `res.length + 1` rounds or leaves
the buffer. -/
def mulInner (x : Int) (other : List Int) (i : Nat) :
    Nat → Nat → Int → List Int → Except Err (List Int)
  | 0, _, _, _ => .error .outOfFuel
  | fuel + 1, j, carry, res =>
    if j < other.length ∨ carry ≠ 0 then
      match res[i + j]? with
      | none => .error .outOfBounds
      | some r =>
        let cur := r + x * (if j < other.length then other.getD j 0 else 0) + carry
        mulInner x other i fuel (j + 1) (cur.tdiv 10) (res.set (i + j) (cur.tmod 10))
    else .ok res

/-- The outer loop of `operator*`, on the digits of `this` from index `i` on. -/
def mulOuter (other : List Int) : List Int → Nat → List Int → Except Err (List Int)
  | [], _, res => .ok res
  | x :: xs, i, res =>
    match mulInner x other i (res.length + 1) 0 0 res with
    | .error e => .error e
    | .ok res1 => mulOuter other xs (i + 1) res1

/-- Embeds `BigInteger operator*(const BigInteger& other) const` -/
def mul (a other : BigInteger) : Except Err BigInteger :=
  match mulOuter other.digits a.digits 0
      (List.replicate (a.digits.length + other.digits.length) 0) with
  | .error e => .error e
  | .ok res =>
    let result := removeLeadingZeros ⟨res, false⟩
    .ok { result with negative := (a.negative != other.negative) && !result.isZero }

/-- The loop `while (!(current < divisor)) { current = current - divisor; quotient++; }`
of `operator/`. -/
def divWhile (divisor : BigInteger) : Nat → BigInteger → Int → Except Err (BigInteger × Int)
  | 0, _, _ => .error .outOfFuel
  | fuel + 1, current, quotient =>
    if !(current.lt divisor) then divWhile divisor fuel (current.sub divisor) (quotient + 1)
    else .ok (current, quotient)

/-- The `for` loop of `operator/` on the digits of the dividend that are still to be
brought down, most significant first. -/
def divFor (fuel : Nat) (divisor : BigInteger) :
    List Int → BigInteger → List Int → Except Err (List Int)
  | [], _, res => .ok res
  | d :: ds, current, res =>
    match divWhile divisor fuel
        (removeLeadingZeros { current with digits := d :: current.digits }) 0 with
    | .error e => .error e
    | .ok (current1, quotient) => divFor fuel divisor ds current1 (quotient :: res)

/-- Embeds `BigInteger operator/(const BigInteger& other) const`; `fuel` bounds the rounds
of each run of the inner `while` loop. -/
def div (fuel : Nat) (a other : BigInteger) : Except Err BigInteger :=
  if other.isZero then .error .divisionByZero
  else if a.abs.lt other.abs then .ok (ofLongLong 0)
  else
    match divFor fuel other.abs a.abs.digits.reverse ⟨[], false⟩ [] with
    | .error e => .error e
    | .ok res =>
      let result := removeLeadingZeros ⟨res, false⟩
      .ok { result with negative := (a.negative != other.negative) && !result.isZero }

/-- Embeds `BigInteger operator%(const BigInteger& other) const` -/
def mod (fuel : Nat) (a other : BigInteger) : Except Err BigInteger :=
  match div fuel a other with
  | .error e => .error e
  | .ok quotient =>
    match quotient.mul other with
    | .error e => .error e
    | .ok prod => .ok (a.sub prod)

/-- The integer denoted by a digit list, least significant digit first. -/
def digVal : List Int → Int
  | [] => 0
  | d :: ds => d + 10 * digVal ds

/-- The integer denoted by a `BigInteger`. -/
def toInt (a : BigInteger) : Int :=
  if a.negative then -digVal a.digits else digVal a.digits

/-- Canonical form: at least one digit, every digit in `0..9`, no most significant
zero unless it is the only digit, and zero is not negative. -/
def Canonical (a : BigInteger) : Prop :=
  a.digits ≠ [] ∧ (∀ d ∈ a.digits, 0 ≤ d ∧ d ≤ 9) ∧
    (1 < a.digits.length → a.digits.getLast? ≠ some 0) ∧
    (a.digits = [0] → a.negative = false)

instance (a : BigInteger) : Decidable (Canonical a) := by
  unfold Canonical; infer_instance

/-- Every digit is a decimal digit. -/
def Digits (ds : List Int) : Prop := ∀ d ∈ ds, 0 ≤ d ∧ d ≤ 9

/-- The most significant digit, if there is one, is not zero. -/
def NL (ds : List Int) : Prop := ds.getLast? ≠ some 0

/-- A digit list in the form of a canonical magnitude. -/
def Mag (ds : List Int) : Prop := ds ≠ [] ∧ Digits ds ∧ (1 < ds.length → NL ds)

/-- The last branch of `operator-`: digit-wise subtraction with borrow. -/
def subDirect (a other : BigInteger) : BigInteger :=
  removeLeadingZeros ⟨subLoop a.digits other.digits 0, a.negative⟩

/-- The invariant of the result buffer of `operator*`: decimal digits, and zero from index `z` on. -/
def Buf (res : List Int) (L z : Nat) : Prop :=
  Digits res ∧ res.length = L ∧ ∀ k r, z ≤ k → res[k]? = some r → r = 0

/-- The floor quotient that `performFloorDiv` and `performMod` compute from the results
of `operator/` and `operator%`. -/
def floorQuot (a b q0 r0 : BigInteger) : BigInteger :=
  if !r0.isZero && (a.isNegative != b.isNegative) then q0.sub (ofLongLong 1) else q0

/-- The natural number that a run of decimal digit characters denotes: each further
digit multiplies what was read so far by ten. -/
def decimalValue (cs : List Char) : Nat :=
  cs.foldl (fun n c => 10 * n + (c.toNat - 48)) 0

/-- One round of the inner loop of `operator*`: the indices `i` and `j` of the round,
which reads and writes `result.digits[i + j]`, the digit `cur % 10` that it stores
there, and the carry `cur / 10` that it leaves. -/
structure MulWrite where
  i : Nat
  j : Nat
  digit : Int
  carry : Int
  deriving DecidableEq, Repr

/-- The inner loop of `operator*` as `mulInner`, which also lists its rounds in the order
in which they run. -/
def mulInnerLog (x : Int) (other : List Int) (i : Nat) :
    Nat → Nat → Int → List Int → Except Err (List Int × List MulWrite)
  | 0, _, _, _ => .error .outOfFuel
  | fuel + 1, j, carry, res =>
    if j < other.length ∨ carry ≠ 0 then
      match res[i + j]? with
      | none => .error .outOfBounds
      | some r =>
        let cur := r + x * (if j < other.length then other.getD j 0 else 0) + carry
        match mulInnerLog x other i fuel (j + 1) (cur.tdiv 10) (res.set (i + j) (cur.tmod 10)) with
        | .error e => .error e
        | .ok (res1, log) => .ok (res1, ⟨i, j, cur.tmod 10, cur.tdiv 10⟩ :: log)
    else .ok (res, [])

/-- The outer loop of `operator*` as `mulOuter`, which also lists the rounds of the inner
loop in the order in which they run. -/
def mulOuterLog (other : List Int) :
    List Int → Nat → List Int → Except Err (List Int × List MulWrite)
  | [], _, res => .ok (res, [])
  | x :: xs, i, res =>
    match mulInnerLog x other i (res.length + 1) 0 0 res with
    | .error e => .error e
    | .ok (res1, log1) =>
      match mulOuterLog other xs (i + 1) res1 with
      | .error e => .error e
      | .ok (res2, log2) => .ok (res2, log1 ++ log2)

/-- The rounds of the loops of `a * other`, on the buffer that `operator*` sets up:
`digits.size() + other.digits.size()` zeros. -/
def mulLog (a other : BigInteger) : Except Err (List Int × List MulWrite) :=
  mulOuterLog other.digits a.digits 0
    (List.replicate (a.digits.length + other.digits.length) 0)

end BigInteger

/-- Equality of results is decidable. -/
instance {ε α : Type} [DecidableEq ε] [DecidableEq α] : DecidableEq (Except ε α)
  | .ok a, .ok b => if h : a = b then isTrue (by rw [h]) else isFalse (by intro e; cases e; exact h rfl)
  | .error a, .error b => if h : a = b then isTrue (by rw [h]) else isFalse (by intro e; cases e; exact h rfl)
  | .ok _, .error _ => isFalse (by intro e; cases e)
  | .error _, .ok _ => isFalse (by intro e; cases e)

/-! ## double -/

/-- The operations on `double` that the source uses. Floating point is not modelled:
the operations are parameters, and every statement holds for all of them. -/
structure DoubleOps (F : Type) where
  /-- conversion of an integer to `double` -/
  ofInt : Int → F
  add : F → F → F
  sub : F → F → F
  mul : F → F → F
  div : F → F → F
  neg : F → F
  /-- Embeds `std::floor` -/
  floor : F → F
  /-- Embeds `==` on `double` -/
  eq : F → F → Bool
  /-- Embeds `<` on `double` -/
  lt : F → F → Bool
  /-- the cast `(long long)` -/
  toLongLong : F → Int
  /-- Embeds `std::stod`; `none` when it throws -/
  stod : String → Option F
  /-- output with `std::fixed << std::setprecision(6)` -/
  fixed6 : F → String

/-- A model of the `double` operations for programs that use no `double`: one value. -/
def DoubleOps.trivial : DoubleOps Unit where
  ofInt := fun _ => ()
  add := fun _ _ => ()
  sub := fun _ _ => ()
  mul := fun _ _ => ()
  div := fun _ _ => ()
  neg := fun _ => ()
  floor := fun _ => ()
  eq := fun _ _ => true
  lt := fun _ _ => false
  toLongLong := fun _ => 0
  stod := fun _ => some ()
  fixed6 := fun _ => "0.000000"

namespace BigInteger

/-- The loop of `toDouble` on the digits from index `i` on. -/
def toDoubleLoop {F : Type} (ops : DoubleOps F) : List Int → F → F → F
  | [], result, _ => result
  | d :: ds, result, base =>
    toDoubleLoop ops ds (ops.add result (ops.mul (ops.ofInt d) base)) (ops.mul base (ops.ofInt 10))

/-- Embeds `double toDouble() const` -/
def toDouble {F : Type} (ops : DoubleOps F) (a : BigInteger) : F :=
  let result := toDoubleLoop ops a.digits (ops.ofInt 0) (ops.ofInt 1)
  if a.negative then ops.neg result else result

end BigInteger

/-! ## Value -/

/-- Embeds `class Value`: the tag `type` and the payload that belongs to it. The enumerator
`ValueType::FUNCTION` is never used by the source and has no constructor here. -/
inductive Value (F : Type) where
  | none
  | bool (b : Bool)
  | int (i : BigInteger)
  | float (f : F)
  | str (s : String)
  | tuple (t : List (Value F))

namespace Value

variable {F : Type}

/-- The field `intVal`. Every `Value` is made by one of the static factories from a
default `Value`, so on a `Value` that is not an Int the field is `BigInteger()`. -/
def intVal : Value F → BigInteger
  | .int i => i
  | _ => BigInteger.zero

/-- The field `boolVal`; the source reads it only from a Bool. -/
def boolVal : Value F → Bool
  | .bool b => b
  | _ => false

/-- Embeds `type == ValueType::INT` -/
def isInt : Value F → Bool
  | .int _ => true
  | _ => false

/-- Embeds `type == ValueType::FLOAT` -/
def isFloat : Value F → Bool
  | .float _ => true
  | _ => false

mutual

/-- Embeds `std::string Value::toString() const` -/
def toString (ops : DoubleOps F) : Value F → String
  | .none => "None"
  | .bool b => if b then "True" else "False"
  | .int i => i.toString
  | .float f => ops.fixed6 f
  | .str s => s
  | .tuple t =>
    if t.isEmpty then "()"
    else "(" ++ toStringElems ops t true ++ (if t.length = 1 then "," else "") ++ ")"

/-- The loop over `tupleVal` in `Value::toString`; `first` says that `i == 0`. -/
def toStringElems (ops : DoubleOps F) : List (Value F) → Bool → String
  | [], _ => ""
  | v :: vs, first => (if first then "" else ", ") ++ toString ops v ++ toStringElems ops vs false

end

/-- Embeds `bool Value::toBool() const` -/
def toBool (ops : DoubleOps F) : Value F → Bool
  | .none => false
  | .bool b => b
  | .int i => !i.isZero
  | .float f => !(ops.eq f (ops.ofInt 0))
  | .str s => !(s.data.isEmpty)
  | .tuple t => !t.isEmpty

/-- The operand as a `double`:
`(a.type == ValueType::FLOAT) ? a.floatVal : a.intVal.toDouble()`. -/
def numVal (ops : DoubleOps F) : Value F → F
  | .float f => f
  | v => v.intVal.toDouble ops

end Value

/-! ## Operators and conversions -/

section Operators

variable {F : Type}

/-- The loop `while (count > zero) { result += a.strVal; count = count - BigInteger(1); }`
of `performAdd` and `performMul`. -/
def repeatLoop (s : String) : Nat → BigInteger → String → Except Err String
  | 0, _, _ => .error .outOfFuel
  | fuel + 1, count, result =>
    if count.gt (BigInteger.ofLongLong 0) then
      repeatLoop s fuel (count.sub (BigInteger.ofLongLong 1)) (result ++ s)
    else .ok result

/-- Embeds `Value EvalVisitor::performAdd(const Value& a, const Value& b)` -/
def performAdd (ops : DoubleOps F) (fuel : Nat) (a b : Value F) : Except Err (Value F) :=
  match a, b with
  | .int x, .int y => .ok (.int (x.add y))
  | _, _ =>
    if a.isFloat || b.isFloat then .ok (.float (ops.add (a.numVal ops) (b.numVal ops)))
    else
      match a, b with
      | .str s, .str t => .ok (.str (s ++ t))
      | .str s, .int n =>
        match repeatLoop s fuel n "" with
        | .error e => .error e
        | .ok r => .ok (.str r)
      | _, _ => .ok .none

/-- Embeds `Value EvalVisitor::performSub(const Value& a, const Value& b)` -/
def performSub (ops : DoubleOps F) (a b : Value F) : Value F :=
  match a, b with
  | .int x, .int y => .int (x.sub y)
  | _, _ =>
    if a.isFloat || b.isFloat then .float (ops.sub (a.numVal ops) (b.numVal ops))
    else .none

/-- The branch of `performMul` for a String and an Int. -/
def mulStr (fuel : Nat) (s : String) (n : BigInteger) : Except Err (Value F) :=
  match repeatLoop s fuel n "" with
  | .error e => .error e
  | .ok r => .ok (.str r)

/-- Embeds `Value EvalVisitor::performMul(const Value& a, const Value& b)`; for an Int and a
String it calls itself with the operands swapped. -/
def performMul (ops : DoubleOps F) (fuel : Nat) (a b : Value F) : Except Err (Value F) :=
  match a, b with
  | .int x, .int y =>
    match x.mul y with
    | .error e => .error e
    | .ok p => .ok (.int p)
  | _, _ =>
    if a.isFloat || b.isFloat then .ok (.float (ops.mul (a.numVal ops) (b.numVal ops)))
    else
      match a, b with
      | .str s, .int n => mulStr fuel s n
      | .int n, .str s => mulStr fuel s n
      | _, _ => .ok .none

/-- Embeds `Value EvalVisitor::performDiv(const Value& a, const Value& b)` -/
def performDiv (ops : DoubleOps F) (a b : Value F) : Value F :=
  .float (ops.div (a.numVal ops) (b.numVal ops))

/-- Embeds `Value EvalVisitor::performFloorDiv(const Value& a, const Value& b)` -/
def performFloorDiv (ops : DoubleOps F) (fuel : Nat) (a b : Value F) : Except Err (Value F) :=
  match a, b with
  | .int x, .int y =>
    match x.div fuel y with
    | .error e => .error e
    | .ok result =>
      match x.mod fuel y with
      | .error e => .error e
      | .ok remainder =>
        if !remainder.isZero && (x.isNegative != y.isNegative) then
          .ok (.int (result.sub (BigInteger.ofLongLong 1)))
        else .ok (.int result)
  | _, _ => .ok (.float (ops.floor (ops.div (a.numVal ops) (b.numVal ops))))

/-- Embeds `Value EvalVisitor::performMod(const Value& a, const Value& b)` -/
def performMod (ops : DoubleOps F) (fuel : Nat) (a b : Value F) : Except Err (Value F) :=
  match a, b with
  | .int x, .int y =>
    match x.div fuel y with
    | .error e => .error e
    | .ok floorDiv =>
      match x.mod fuel y with
      | .error e => .error e
      | .ok remainder =>
        let floorDiv1 :=
          if !remainder.isZero && (x.isNegative != y.isNegative) then
            floorDiv.sub (BigInteger.ofLongLong 1)
          else floorDiv
        match floorDiv1.mul y with
        | .error e => .error e
        | .ok p => .ok (.int (x.sub p))
  | _, _ =>
    let aVal := a.numVal ops
    let bVal := b.numVal ops
    .ok (.float (ops.sub aVal (ops.mul (ops.floor (ops.div aVal bVal)) bVal)))

/-- The value of `result` at the end of the branch `op == "=="` of `performCompare`. -/
def compareEq (ops : DoubleOps F) (a b : Value F) : Bool :=
  match a, b with
  | .int x, .int y => x.eq y
  | .float x, .float y => ops.eq x y
  | .str s, .str t => decide (s = t)
  | .bool x, .bool y => x == y
  | .none, .none => true
  | .tuple _, .tuple _ => false
  | .int x, .float y => ops.eq (x.toDouble ops) y
  | .float x, .int y => ops.eq x (y.toDouble ops)
  | _, _ => false

/-- The value of `result` at the end of the branch `op == "<"` of `performCompare`. -/
def compareLt (ops : DoubleOps F) (a b : Value F) : Bool :=
  match a, b with
  | .int x, .int y => x.lt y
  | .float x, .float y => ops.lt x y
  | .int x, .float y => ops.lt (x.toDouble ops) y
  | .float x, .int y => ops.lt x (y.toDouble ops)
  | .str s, .str t => decide (s < t)
  | _, _ => false

/-- Embeds `Value EvalVisitor::performCompare(const Value& a, const Value& b, const std::string& op)`.
The calls of `performCompare` to itself with `"=="` and `"<"` are `compareEq` and
`compareLt`. -/
def performCompare (ops : DoubleOps F) (a b : Value F) (op : String) : Value F :=
  if op = "==" then .bool (compareEq ops a b)
  else if op = "!=" then .bool (!(Value.bool (F := F) (compareEq ops a b)).boolVal)
  else if op = "<" then .bool (compareLt ops a b)
  else if op = ">" then .bool (compareLt ops b a)
  else if op = "<=" then .bool (!(Value.bool (F := F) (compareLt ops b a)).boolVal)
  else if op = ">=" then .bool (!(Value.bool (F := F) (compareLt ops a b)).boolVal)
  else .bool false

/-- Embeds `Value EvalVisitor::convertToInt(const Value& v)` -/
def convertToInt (ops : DoubleOps F) (v : Value F) : Value F :=
  match v with
  | .int _ => v
  | .float f => .int (BigInteger.ofLongLong (ops.toLongLong f))
  | .bool b => .int (BigInteger.ofLongLong (if b then 1 else 0))
  | .str s => .int (BigInteger.ofString s)
  | _ => .int (BigInteger.ofLongLong 0)

/-- Embeds `Value EvalVisitor::convertToFloat(const Value& v)` -/
def convertToFloat (ops : DoubleOps F) (v : Value F) : Except Err (Value F) :=
  match v with
  | .float _ => .ok v
  | .int i => .ok (.float (i.toDouble ops))
  | .bool b => .ok (.float (ops.ofInt (if b then 1 else 0)))
  | .str s =>
    match ops.stod s with
    | some f => .ok (.float f)
    | none => .error .invalidArgument
  | _ => .ok (.float (ops.ofInt 0))

/-- Embeds `Value EvalVisitor::convertToStr(const Value& v)` -/
def convertToStr (ops : DoubleOps F) (v : Value F) : Value F :=
  match v with
  | .str _ => v
  | _ => .str (v.toString ops)

/-- Embeds `Value EvalVisitor::convertToBool(const Value& v)` -/
def convertToBool (ops : DoubleOps F) (v : Value F) : Value F :=
  .bool (v.toBool ops)

end Operators

/-! ## Parse tree

The nodes of the parse tree that the visitor reads, one type for each rule of the
grammar that has a `visit` method with a body; a node keeps the children and the
token texts that the visitor asks for. -/

mutual

/-- Embeds `test`: its source text (`getText()`) and its `or_test`. -/
inductive Test where
  | mk (text : String) (orTest : OrTest)

/-- Embeds `or_test`: `and_test ('or' and_test)*` -/
inductive OrTest where
  | mk (first : AndTest) (rest : List AndTest)

/-- Embeds `and_test`: `not_test ('and' not_test)*` -/
inductive AndTest where
  | mk (first : NotTest) (rest : List NotTest)

/-- Embeds `not_test`: `'not' not_test | comparison` -/
inductive NotTest where
  | not (t : NotTest)
  | comparison (c : Comparison)

/-- Embeds `comparison`: `arith_expr (comp_op arith_expr)*`, each operator with its text -/
inductive Comparison where
  | mk (first : ArithExpr) (rest : List (String × ArithExpr))

/-- Embeds `arith_expr`: `term (addorsub_op term)*`, each operator with its text -/
inductive ArithExpr where
  | mk (first : Term) (rest : List (String × Term))

/-- Embeds `term`: `factor (muldivmod_op factor)*`, each operator with its text -/
inductive Term where
  | mk (first : Factor) (rest : List (String × Factor))

/-- Embeds `factor`: `('+' | '-') factor | atom_expr`; `minus` says that the sign is `-` -/
inductive Factor where
  | signed (minus : Bool) (f : Factor)
  | atomExpr (a : AtomExpr)

/-- Embeds `atom_expr`: `atom trailer?` -/
inductive AtomExpr where
  | mk (atom : Atom) (trailer : Option Trailer)

/-- Embeds `trailer`: `'(' arglist? ')'` -/
inductive Trailer where
  | mk (arglist : Option (List Argument))

/-- Embeds `argument`: `test | test '=' test` -/
inductive Argument where
  | positional (t : Test)
  | keyword (name : Test) (value : Test)

/-- Embeds `atom`, with the text of its `NAME`, `NUMBER` or `STRING` tokens -/
inductive Atom where
  | none
  | true
  | false
  | name (n : String)
  | number (text : String)
  | strings (tokens : List String)
  | formatString (children : List FChild)
  | paren (t : Test)

/-- A child of `format_string`: a `FORMAT_STRING_LITERAL` token, another token, or a
`testlist`. -/
inductive FChild where
  | literal (text : String)
  | token
  | testlist (tests : List Test)

end

/-- Embeds `Test::getText()` -/
def Test.text : Test → String
  | .mk text _ => text

/-- Embeds `flow_stmt`: `break_stmt | continue_stmt | return_stmt`, the last with its
optional `testlist` -/
inductive FlowStmt where
  | break
  | continue
  | return (testlist : Option (List Test))

/-- Embeds `expr_stmt`: `testlist ((augassign testlist) | ('=' testlist)*)`: the first
`testlist`, the others, and the text of `augassign` when there is one. -/
structure ExprStmt where
  first : List Test
  rest : List (List Test)
  augassign : Option String

/-- Embeds `small_stmt`: `expr_stmt | flow_stmt` -/
inductive SmallStmt where
  | expr (e : ExprStmt)
  | flow (f : FlowStmt)

mutual

/-- Embeds `stmt`: `simple_stmt | compound_stmt`; a `simple_stmt` is one `small_stmt` -/
inductive Stmt where
  | simple (s : SmallStmt)
  | compound (c : CompoundStmt)

/-- Embeds `compound_stmt`: `if_stmt | while_stmt | funcdef`. An `if_stmt` has one suite for
each test and an optional `else` suite; the `typedargslist` of a `funcdef` is the list
of its parameter names, each with its optional default. -/
inductive CompoundStmt where
  | ifStmt (branches : List (Test × Suite)) (elseSuite : Option Suite)
  | whileStmt (test : Test) (suite : Suite)
  | funcdef (name : String) (typedargslist : Option (List (String × Option Test)))
      (suite : Suite)

/-- Embeds `suite`: `simple_stmt | NEWLINE INDENT stmt+ DEDENT` -/
inductive Suite where
  | simple (s : SmallStmt)
  | block (stmts : List Stmt)

end

/-! ## Environment -/

/-- Embeds `std::map<std::string, T>` as a list of bindings, one for each key. -/
abbrev StrMap (α : Type) := List (String × α)

namespace StrMap

variable {α : Type}

/-- Embeds `m.find(name)`: the bound value, `none` for `m.end()` -/
def find : StrMap α → String → Option α
  | [], _ => Option.none
  | (k, v) :: rest, name => if k = name then some v else find rest name

/-- Embeds `m[name] = value` -/
def insert : StrMap α → String → α → StrMap α
  | [], name, value => [(name, value)]
  | (k, v) :: rest, name, value =>
    if k = name then (k, value) :: rest else (k, v) :: insert rest name value

end StrMap

/-- Embeds `struct FunctionDef` -/
structure FunctionDef (F : Type) where
  params : List String
  defaults : List (Value F)
  body : Suite

/-- The fields of `class EvalVisitor`, and the text written to `std::cout` so far.
`scopes` lists the stack of local frames from the top: its head is `scopes.back()`. -/
structure State (F : Type) where
  globalVars : StrMap (Value F)
  scopes : List (StrMap (Value F))
  functions : StrMap (FunctionDef F)
  breakFlag : Bool
  continueFlag : Bool
  returnFlag : Bool
  returnValue : Value F
  output : String

namespace State

variable {F : Type}

/-- The state of a fresh `EvalVisitor`. -/
def init : State F :=
  { globalVars := [], scopes := [], functions := [], breakFlag := false,
    continueFlag := false, returnFlag := false, returnValue := .none, output := "" }

/-- Embeds `void setVariable(const std::string& name, const Value& value)` -/
def setVariable (st : State F) (name : String) (value : Value F) : State F :=
  match st.scopes with
  | [] => { st with globalVars := st.globalVars.insert name value }
  | top :: below => { st with scopes := top.insert name value :: below }

/-- The loop of `getVariable` over the frames, from `scopes.back()` down to `scopes[0]`. -/
def findInScopes : List (StrMap (Value F)) → String → Option (Value F)
  | [], _ => Option.none
  | scope :: below, name =>
    match scope.find name with
    | some v => some v
    | Option.none => findInScopes below name

/-- Embeds `Value getVariable(const std::string& name)` -/
def getVariable (st : State F) (name : String) : Value F :=
  match findInScopes st.scopes name with
  | some v => v
  | Option.none =>
    match st.globalVars.find name with
    | some v => v
    | Option.none => .none

end State

/-! ## Builtins and helpers of the evaluator -/

section Evaluator

variable {F : Type}

/-- Embeds `void EvalVisitor::printValue(const Value& v)` -/
def printValue (ops : DoubleOps F) (v : Value F) (st : State F) : State F :=
  match v with
  | .str s => { st with output := st.output ++ s }
  | _ => { st with output := st.output ++ v.toString ops }

/-- The loop of the branch `name == "print"` of `callBuiltinFunction`; `first` says
that `i == 0`. -/
def printLoop (ops : DoubleOps F) : List (Value F) → Bool → State F → State F
  | [], _, st => st
  | v :: vs, first, st =>
    printLoop ops vs false
      (printValue ops v (if first then st else { st with output := st.output ++ " " }))

/-- Embeds `Value EvalVisitor::callBuiltinFunction(const std::string& name, const std::vector<Value>& args)` -/
def callBuiltinFunction (ops : DoubleOps F) (name : String) (args : List (Value F))
    (st : State F) : Except Err (Value F × State F) :=
  if name = "print" then
    let st1 := printLoop ops args true st
    .ok (.none, { st1 with output := st1.output ++ "\n" })
  else if name = "int" then
    match args with
    | v :: _ => .ok (convertToInt ops v, st)
    | [] => .ok (.none, st)
  else if name = "float" then
    match args with
    | v :: _ =>
      match convertToFloat ops v with
      | .error e => .error e
      | .ok r => .ok (r, st)
    | [] => .ok (.none, st)
  else if name = "str" then
    match args with
    | v :: _ => .ok (convertToStr ops v, st)
    | [] => .ok (.none, st)
  else if name = "bool" then
    match args with
    | v :: _ => .ok (convertToBool ops v, st)
    | [] => .ok (.none, st)
  else .ok (.none, st)

/-- Embeds `name == "print" || name == "int" || name == "float" || name == "str" || name == "bool"` -/
def isBuiltinName (name : String) : Bool :=
  name == "print" || name == "int" || name == "float" || name == "str" || name == "bool"

/-- The loop of `visitFormat_string` over the characters of a literal chunk:
`{{` gives `{`, `}}` gives `}`. -/
def unescapeBraces : List Char → List Char
  | '{' :: '{' :: rest => '{' :: unescapeBraces rest
  | '}' :: '}' :: rest => '}' :: unescapeBraces rest
  | c :: rest => c :: unescapeBraces rest
  | [] => []

/-- The text that `visitFormat_string` appends for one value of an embedded `testlist`. -/
def formatValue (ops : DoubleOps F) (v : Value F) : String :=
  match v with
  | .bool b => if b then "True" else "False"
  | .str s => s
  | _ => v.toString ops

/-- The loop of `visitFormat_string` over the values of an embedded `testlist`; `first`
says that `j == 0`. -/
def formatValues (ops : DoubleOps F) : List (Value F) → Bool → String
  | [], _ => ""
  | v :: vs, first => (if first then "" else ", ") ++ formatValue ops v ++ formatValues ops vs false

/-- The text of a `STRING` token without its quotes: `s.substr(1, s.length() - 2)`. -/
def stripQuotes (s : String) : String :=
  String.mk ((s.data.drop 1).take (s.data.length - 2))

/-- The loop of `visitComparison` over the operators, on the values of the operands. -/
def compareChain (ops : DoubleOps F) : Value F → List (String × Value F) → Value F
  | _, [] => .bool true
  | v, (op, w) :: rest =>
    if !((performCompare ops v w op).toBool ops) then .bool false
    else compareChain ops w rest

/-- The inner loop of a plain assignment in `visitExpr_stmt`: the targets of one
`testlist` get the values at the same positions. -/
def assignTargets : State F → List Test → List (Value F) → State F
  | st, t :: ts, v :: vs => assignTargets (st.setVariable t.text v) ts vs
  | st, _, _ => st

/-- The outer loop of a plain assignment in `visitExpr_stmt`, on the target lists in
the order of the loop (from `testlists[size - 2]` down to `testlists[0]`). -/
def assignAll : State F → List (List Test) → List (Value F) → State F
  | st, [], _ => st
  | st, tl :: tls, vals => assignAll (assignTargets st tl vals) tls vals

/-- The operator of an augmented assignment in `visitExpr_stmt`; an operator text that
is none of the six leaves the default `Value`. -/
def applyAugassign (ops : DoubleOps F) (fuel : Nat) (op : String) (current right : Value F) :
    Except Err (Value F) :=
  if op = "+=" then performAdd ops fuel current right
  else if op = "-=" then .ok (performSub ops current right)
  else if op = "*=" then performMul ops fuel current right
  else if op = "/=" then .ok (performDiv ops current right)
  else if op = "//=" then performFloorDiv ops fuel current right
  else if op = "%=" then performMod ops fuel current right
  else .ok .none

/-- The operator of one round of `visitTerm`; another operator text leaves `result`. -/
def applyTermOp (ops : DoubleOps F) (fuel : Nat) (op : String) (result right : Value F) :
    Except Err (Value F) :=
  if op = "*" then performMul ops fuel result right
  else if op = "/" then .ok (performDiv ops result right)
  else if op = "//" then performFloorDiv ops fuel result right
  else if op = "%" then performMod ops fuel result right
  else .ok result

/-- The loop "bind positional arguments" of `callFunction`. -/
def bindPositional : List String → List (Value F) → StrMap (Value F) → StrMap (Value F)
  | p :: ps, v :: vs, scope => bindPositional ps vs (scope.insert p v)
  | _, _, scope => scope

/-- The loop "bind keyword arguments" of `callFunction`. The keys of `kwArgs` are
distinct, so the order of the loop does not change the bindings. -/
def bindKeywords : List (String × Value F) → StrMap (Value F) → StrMap (Value F)
  | [], scope => scope
  | (k, v) :: kws, scope => bindKeywords kws (scope.insert k v)

/-- The loop "bind default values for missing parameters" of `callFunction`, on the
parameters from index `i` on. -/
def bindDefaults (defaults : List (Value F)) (firstDefaultIdx : Nat) :
    List String → Nat → StrMap (Value F) → Except Err (StrMap (Value F))
  | [], _, scope => .ok scope
  | p :: ps, i, scope =>
    match scope.find p with
    | some _ => bindDefaults defaults firstDefaultIdx ps (i + 1) scope
    | Option.none =>
      if firstDefaultIdx ≤ i then
        match defaults[i - firstDefaultIdx]? with
        | some d => bindDefaults defaults firstDefaultIdx ps (i + 1) (scope.insert p d)
        | Option.none => .error .outOfBounds
      else bindDefaults defaults firstDefaultIdx ps (i + 1) scope

/-- The tests of a `typedargslist`, `ctx->test()`. -/
def typedargsTests : List (String × Option Test) → List Test
  | [] => []
  | (_, some t) :: rest => t :: typedargsTests rest
  | (_, Option.none) :: rest => typedargsTests rest

/-! ## The visitor -/

mutual

/-- Embeds `visitTest` -/
def visitTest (ops : DoubleOps F) : Nat → Test → State F → Except Err (Value F × State F)
  | 0, _, _ => .error .outOfFuel
  | fuel + 1, .mk _ orTest, st => visitOr_test ops fuel orTest st

/-- Embeds `visitOr_test` -/
def visitOr_test (ops : DoubleOps F) : Nat → OrTest → State F → Except Err (Value F × State F)
  | 0, _, _ => .error .outOfFuel
  | fuel + 1, .mk first rest, st =>
    match visitAnd_test ops fuel first st with
    | .error e => .error e
    | .ok (result, st1) => orLoop ops fuel rest result st1

/-- The loop of `visitOr_test` over `andTests[1..]`. -/
def orLoop (ops : DoubleOps F) :
    Nat → List AndTest → Value F → State F → Except Err (Value F × State F)
  | 0, _, _, _ => .error .outOfFuel
  | _ + 1, [], result, st => .ok (result, st)
  | fuel + 1, t :: ts, result, st =>
    if result.toBool ops then .ok (result, st)
    else
      match visitAnd_test ops fuel t st with
      | .error e => .error e
      | .ok (result1, st1) => orLoop ops fuel ts result1 st1

/-- Embeds `visitAnd_test` -/
def visitAnd_test (ops : DoubleOps F) : Nat → AndTest → State F → Except Err (Value F × State F)
  | 0, _, _ => .error .outOfFuel
  | fuel + 1, .mk first rest, st =>
    match visitNot_test ops fuel first st with
    | .error e => .error e
    | .ok (result, st1) => andLoop ops fuel rest result st1

/-- The loop of `visitAnd_test` over `notTests[1..]`. -/
def andLoop (ops : DoubleOps F) :
    Nat → List NotTest → Value F → State F → Except Err (Value F × State F)
  | 0, _, _, _ => .error .outOfFuel
  | _ + 1, [], result, st => .ok (result, st)
  | fuel + 1, t :: ts, result, st =>
    if !(result.toBool ops) then .ok (result, st)
    else
      match visitNot_test ops fuel t st with
      | .error e => .error e
      | .ok (result1, st1) => andLoop ops fuel ts result1 st1

/-- Embeds `visitNot_test` -/
def visitNot_test (ops : DoubleOps F) : Nat → NotTest → State F → Except Err (Value F × State F)
  | 0, _, _ => .error .outOfFuel
  | fuel + 1, .not t, st =>
    match visitNot_test ops fuel t st with
    | .error e => .error e
    | .ok (val, st1) => .ok (.bool (!(val.toBool ops)), st1)
  | fuel + 1, .comparison c, st => visitComparison ops fuel c st

/-- Embeds `visitComparison` -/
def visitComparison (ops : DoubleOps F) :
    Nat → Comparison → State F → Except Err (Value F × State F)
  | 0, _, _ => .error .outOfFuel
  | fuel + 1, .mk first [], st => visitArith_expr ops fuel first st
  | fuel + 1, .mk first (r :: rest), st =>
    match visitArith_expr ops fuel first st with
    | .error e => .error e
    | .ok (v, st1) =>
      match comparisonValues ops fuel (r :: rest) st1 with
      | .error e => .error e
      | .ok (vs, st2) => .ok (compareChain ops v vs, st2)

/-- The loop of `visitComparison` that evaluates the operands `exprs[1..]`; each value
is kept with the text of the operator in front of it. -/
def comparisonValues (ops : DoubleOps F) :
    Nat → List (String × ArithExpr) → State F → Except Err (List (String × Value F) × State F)
  | 0, _, _ => .error .outOfFuel
  | _ + 1, [], st => .ok ([], st)
  | fuel + 1, (op, e) :: rest, st =>
    match visitArith_expr ops fuel e st with
    | .error e => .error e
    | .ok (v, st1) =>
      match comparisonValues ops fuel rest st1 with
      | .error e => .error e
      | .ok (vs, st2) => .ok ((op, v) :: vs, st2)

/-- Embeds `visitArith_expr` -/
def visitArith_expr (ops : DoubleOps F) :
    Nat → ArithExpr → State F → Except Err (Value F × State F)
  | 0, _, _ => .error .outOfFuel
  | fuel + 1, .mk first rest, st =>
    match visitTerm ops fuel first st with
    | .error e => .error e
    | .ok (result, st1) => arithLoop ops fuel rest result st1

/-- The loop of `visitArith_expr` over the operators. -/
def arithLoop (ops : DoubleOps F) :
    Nat → List (String × Term) → Value F → State F → Except Err (Value F × State F)
  | 0, _, _, _ => .error .outOfFuel
  | _ + 1, [], result, st => .ok (result, st)
  | fuel + 1, (op, t) :: rest, result, st =>
    match visitTerm ops fuel t st with
    | .error e => .error e
    | .ok (right, st1) =>
      if op = "+" then
        match performAdd ops fuel result right with
        | .error e => .error e
        | .ok result1 => arithLoop ops fuel rest result1 st1
      else arithLoop ops fuel rest (performSub ops result right) st1

/-- Embeds `visitTerm` -/
def visitTerm (ops : DoubleOps F) : Nat → Term → State F → Except Err (Value F × State F)
  | 0, _, _ => .error .outOfFuel
  | fuel + 1, .mk first rest, st =>
    match visitFactor ops fuel first st with
    | .error e => .error e
    | .ok (result, st1) => termLoop ops fuel rest result st1

/-- The loop of `visitTerm` over the operators. -/
def termLoop (ops : DoubleOps F) :
    Nat → List (String × Factor) → Value F → State F → Except Err (Value F × State F)
  | 0, _, _, _ => .error .outOfFuel
  | _ + 1, [], result, st => .ok (result, st)
  | fuel + 1, (op, f) :: rest, result, st =>
    match visitFactor ops fuel f st with
    | .error e => .error e
    | .ok (right, st1) =>
      match applyTermOp ops fuel op result right with
      | .error e => .error e
      | .ok result1 => termLoop ops fuel rest result1 st1

/-- Embeds `visitFactor` -/
def visitFactor (ops : DoubleOps F) : Nat → Factor → State F → Except Err (Value F × State F)
  | 0, _, _ => .error .outOfFuel
  | fuel + 1, .signed minus f, st =>
    match visitFactor ops fuel f st with
    | .error e => .error e
    | .ok (val, st1) =>
      if minus then
        match val with
        | .int i => .ok (.int i.neg, st1)
        | .float x => .ok (.float (ops.neg x), st1)
        | _ => .ok (val, st1)
      else .ok (val, st1)
  | fuel + 1, .atomExpr a, st => visitAtom_expr ops fuel a st

/-- Embeds `visitAtom_expr` -/
def visitAtom_expr (ops : DoubleOps F) :
    Nat → AtomExpr → State F → Except Err (Value F × State F)
  | 0, _, _ => .error .outOfFuel
  | fuel + 1, .mk atom Option.none, st => visitAtom ops fuel atom st
  | fuel + 1, .mk atom (some trailer), st =>
    match visitAtom ops fuel atom st with
    | .error e => .error e
    | .ok (result, st1) =>
      match visitTrailer ops fuel trailer st1 with
      | .error e => .error e
      | .ok ((posArgs, kwArgs), st2) =>
        match result with
        | .str funcName => callFunction ops fuel funcName posArgs kwArgs st2
        | _ => .ok (result, st2)

/-- Embeds `visitTrailer` -/
def visitTrailer (ops : DoubleOps F) : Nat → Trailer → State F →
    Except Err ((List (Value F) × StrMap (Value F)) × State F)
  | 0, _, _ => .error .outOfFuel
  | fuel + 1, .mk (some args), st => visitArglist ops fuel args [] [] st
  | _ + 1, .mk Option.none, st => .ok (([], []), st)

/-- Embeds `visitArglist`, on the arguments that are still to be visited, with `posArgs` and
`kwArgs` as they are so far; a keyword argument (`visitArgument` with two tests) is bound
under the text of its first test. -/
def visitArglist (ops : DoubleOps F) : Nat → List Argument → List (Value F) →
    StrMap (Value F) → State F → Except Err ((List (Value F) × StrMap (Value F)) × State F)
  | 0, _, _, _, _ => .error .outOfFuel
  | _ + 1, [], posArgs, kwArgs, st => .ok ((posArgs, kwArgs), st)
  | fuel + 1, .positional t :: rest, posArgs, kwArgs, st =>
    match visitTest ops fuel t st with
    | .error e => .error e
    | .ok (v, st1) => visitArglist ops fuel rest (posArgs ++ [v]) kwArgs st1
  | fuel + 1, .keyword name value :: rest, posArgs, kwArgs, st =>
    match visitTest ops fuel value st with
    | .error e => .error e
    | .ok (v, st1) => visitArglist ops fuel rest posArgs (kwArgs.insert name.text v) st1

/-- Embeds `visitAtom` -/
def visitAtom (ops : DoubleOps F) : Nat → Atom → State F → Except Err (Value F × State F)
  | 0, _, _ => .error .outOfFuel
  | _ + 1, .none, st => .ok (.none, st)
  | _ + 1, .true, st => .ok (.bool true, st)
  | _ + 1, .false, st => .ok (.bool false, st)
  | _ + 1, .name n, st =>
    if (st.functions.find n).isSome || isBuiltinName n then .ok (.str n, st)
    else .ok (st.getVariable n, st)
  | _ + 1, .number text, st =>
    if text.data.contains '.' then
      match ops.stod text with
      | some x => .ok (.float x, st)
      | Option.none => .error .invalidArgument
    else .ok (.int (BigInteger.ofString text), st)
  | _ + 1, .strings tokens, st =>
    .ok (.str (tokens.foldl (fun result s => result ++ stripQuotes s) ""), st)
  | fuel + 1, .formatString children, st => visitFormat_string ops fuel children "" st
  | fuel + 1, .paren t, st => visitTest ops fuel t st

/-- Embeds `visitFormat_string`, on the children that are still to be visited, with `result`
as it is so far. -/
def visitFormat_string (ops : DoubleOps F) :
    Nat → List FChild → String → State F → Except Err (Value F × State F)
  | 0, _, _, _ => .error .outOfFuel
  | _ + 1, [], result, st => .ok (.str result, st)
  | fuel + 1, .literal text :: rest, result, st =>
    visitFormat_string ops fuel rest (result ++ String.mk (unescapeBraces text.data)) st
  | fuel + 1, .token :: rest, result, st => visitFormat_string ops fuel rest result st
  | fuel + 1, .testlist tests :: rest, result, st =>
    match visitTestlist ops fuel tests st with
    | .error e => .error e
    | .ok (values, st1) =>
      visitFormat_string ops fuel rest (result ++ formatValues ops values true) st1

/-- Embeds `visitTestlist` -/
def visitTestlist (ops : DoubleOps F) :
    Nat → List Test → State F → Except Err (List (Value F) × State F)
  | 0, _, _ => .error .outOfFuel
  | _ + 1, [], st => .ok ([], st)
  | fuel + 1, t :: ts, st =>
    match visitTest ops fuel t st with
    | .error e => .error e
    | .ok (v, st1) =>
      match visitTestlist ops fuel ts st1 with
      | .error e => .error e
      | .ok (vs, st2) => .ok (v :: vs, st2)

/-- Embeds `Value EvalVisitor::callFunction(name, posArgs, kwArgs)` -/
def callFunction (ops : DoubleOps F) : Nat → String → List (Value F) → StrMap (Value F) →
    State F → Except Err (Value F × State F)
  | 0, _, _, _, _ => .error .outOfFuel
  | fuel + 1, name, posArgs, kwArgs, st =>
    if isBuiltinName name then callBuiltinFunction ops name posArgs st
    else
      match st.functions.find name with
      | Option.none => .ok (.none, st)
      | some func =>
        let firstDefaultIdx := func.params.length - func.defaults.length
        let scope := bindKeywords kwArgs (bindPositional func.params posArgs [])
        match bindDefaults func.defaults firstDefaultIdx func.params 0 scope with
        | .error e => .error e
        | .ok scope1 =>
          match visitSuite ops fuel func.body
              { st with scopes := scope1 :: st.scopes, returnFlag := false,
                        returnValue := .none } with
          | .error e => .error e
          | .ok st1 =>
            .ok (st1.returnValue,
              { st1 with returnFlag := false, returnValue := .none, scopes := st1.scopes.tail })

/-- Embeds `visitSuite` -/
def visitSuite (ops : DoubleOps F) : Nat → Suite → State F → Except Err (State F)
  | 0, _, _ => .error .outOfFuel
  | fuel + 1, .simple s, st => visitSmall_stmt ops fuel s st
  | fuel + 1, .block stmts, st => suiteLoop ops fuel stmts st

/-- The loop of `visitSuite` over the statements. -/
def suiteLoop (ops : DoubleOps F) : Nat → List Stmt → State F → Except Err (State F)
  | 0, _, _ => .error .outOfFuel
  | _ + 1, [], st => .ok st
  | fuel + 1, s :: rest, st =>
    match visitStmt ops fuel s st with
    | .error e => .error e
    | .ok st1 =>
      if st1.breakFlag || st1.continueFlag || st1.returnFlag then .ok st1
      else suiteLoop ops fuel rest st1

/-- Embeds `visitStmt`, with `visitSimple_stmt` and `visitCompound_stmt` -/
def visitStmt (ops : DoubleOps F) : Nat → Stmt → State F → Except Err (State F)
  | 0, _, _ => .error .outOfFuel
  | fuel + 1, .simple s, st => visitSmall_stmt ops fuel s st
  | fuel + 1, .compound (.ifStmt branches elseSuite), st =>
    visitIf_stmt ops fuel branches elseSuite st
  | fuel + 1, .compound (.whileStmt test suite), st => visitWhile_stmt ops fuel test suite st
  | fuel + 1, .compound (.funcdef name typedargslist suite), st =>
    visitFuncdef ops fuel name typedargslist suite st

/-- Embeds `visitSmall_stmt`, with `visitFlow_stmt`, `visitBreak_stmt` and `visitContinue_stmt` -/
def visitSmall_stmt (ops : DoubleOps F) : Nat → SmallStmt → State F → Except Err (State F)
  | 0, _, _ => .error .outOfFuel
  | fuel + 1, .expr e, st => visitExpr_stmt ops fuel e st
  | _ + 1, .flow .break, st => .ok { st with breakFlag := true }
  | _ + 1, .flow .continue, st => .ok { st with continueFlag := true }
  | fuel + 1, .flow (.return testlist), st => visitReturn_stmt ops fuel testlist st

/-- Embeds `visitReturn_stmt` -/
def visitReturn_stmt (ops : DoubleOps F) :
    Nat → Option (List Test) → State F → Except Err (State F)
  | 0, _, _ => .error .outOfFuel
  | _ + 1, Option.none, st => .ok { st with returnFlag := true, returnValue := .none }
  | fuel + 1, some testlist, st =>
    match visitTestlist ops fuel testlist { st with returnFlag := true } with
    | .error e => .error e
    | .ok (values, st1) =>
      match values with
      | [v] => .ok { st1 with returnValue := v }
      | _ => .ok { st1 with returnValue := .tuple values }

/-- Embeds `visitExpr_stmt` -/
def visitExpr_stmt (ops : DoubleOps F) : Nat → ExprStmt → State F → Except Err (State F)
  | 0, _, _ => .error .outOfFuel
  | fuel + 1, e, st =>
    match e.rest with
    | [] =>
      match visitTestlist ops fuel e.first st with
      | .error err => .error err
      | .ok (_, st1) => .ok st1
    | second :: others =>
      match e.augassign with
      | some op =>
        match e.first with
        | [target] =>
          let current := st.getVariable target.text
          match visitTestlist ops fuel second st with
          | .error err => .error err
          | .ok (rightList, st1) =>
            match rightList with
            | [] => .error .outOfBounds
            | right :: _ =>
              match applyAugassign ops fuel op current right with
              | .error err => .error err
              | .ok result => .ok (st1.setVariable target.text result)
        | _ => .ok st
      | Option.none =>
        match visitTestlist ops fuel ((second :: others).getLast (by simp)) st with
        | .error err => .error err
        | .ok (rightList, st1) =>
          .ok (assignAll st1 ((e.first :: (second :: others).dropLast).reverse) rightList)

/-- Embeds `visitIf_stmt`, on the tests that are still to be tried. -/
def visitIf_stmt (ops : DoubleOps F) :
    Nat → List (Test × Suite) → Option Suite → State F → Except Err (State F)
  | 0, _, _, _ => .error .outOfFuel
  | _ + 1, [], Option.none, st => .ok st
  | fuel + 1, [], some suite, st => visitSuite ops fuel suite st
  | fuel + 1, (test, suite) :: rest, elseSuite, st =>
    match visitTest ops fuel test st with
    | .error e => .error e
    | .ok (condition, st1) =>
      if condition.toBool ops then visitSuite ops fuel suite st1
      else visitIf_stmt ops fuel rest elseSuite st1

/-- Embeds `visitWhile_stmt`; a call is one round of `while (true)`. -/
def visitWhile_stmt (ops : DoubleOps F) : Nat → Test → Suite → State F → Except Err (State F)
  | 0, _, _, _ => .error .outOfFuel
  | fuel + 1, test, suite, st =>
    match visitTest ops fuel test st with
    | .error e => .error e
    | .ok (condition, st1) =>
      if !(condition.toBool ops) then .ok st1
      else
        match visitSuite ops fuel suite st1 with
        | .error e => .error e
        | .ok st2 =>
          if st2.breakFlag then .ok { st2 with breakFlag := false }
          else if st2.continueFlag then
            visitWhile_stmt ops fuel test suite { st2 with continueFlag := false }
          else if st2.returnFlag then .ok st2
          else visitWhile_stmt ops fuel test suite st2

/-- Embeds `visitFuncdef` -/
def visitFuncdef (ops : DoubleOps F) : Nat → String → Option (List (String × Option Test)) →
    Suite → State F → Except Err (State F)
  | 0, _, _, _, _ => .error .outOfFuel
  | _ + 1, funcName, Option.none, suite, st =>
    .ok { st with functions := st.functions.insert funcName ⟨[], [], suite⟩ }
  | fuel + 1, funcName, some typedargslist, suite, st =>
    let tfpdefs := typedargslist.map Prod.fst
    let tests := typedargsTests typedargslist
    match visitTypedargslist ops tests (tfpdefs.length - tests.length) fuel tfpdefs 0 [] st with
    | .error e => .error e
    | .ok (defaults, st1) =>
      .ok { st1 with functions := st1.functions.insert funcName ⟨tfpdefs, defaults, suite⟩ }

/-- The loop of `visitTypedargslist`, on the parameters from index `i` on, with
`defaults` as it is so far; the result `params` is the list of all the names. -/
def visitTypedargslist (ops : DoubleOps F) (tests : List Test) (defaultStart : Nat) :
    Nat → List String → Nat → List (Value F) → State F →
    Except Err (List (Value F) × State F)
  | 0, _, _, _, _ => .error .outOfFuel
  | _ + 1, [], _, defaults, st => .ok (defaults, st)
  | fuel + 1, _ :: names, i, defaults, st =>
    if defaultStart ≤ i then
      match tests[i - defaultStart]? with
      | Option.none => .error .outOfBounds
      | some t =>
        match visitTest ops fuel t st with
        | .error e => .error e
        | .ok (v, st1) =>
          visitTypedargslist ops tests defaultStart fuel names (i + 1) (defaults ++ [v]) st1
    else visitTypedargslist ops tests defaultStart fuel names (i + 1) defaults st

end

/-- The loop of `visitFile_input` over the statements. -/
def visitFile_input (ops : DoubleOps F) (fuel : Nat) : List Stmt → State F → Except Err (State F)
  | [], st => .ok st
  | s :: rest, st =>
    match visitStmt ops fuel s st with
    | .error e => .error e
    | .ok st1 => if st1.returnFlag then .ok st1 else visitFile_input ops fuel rest st1

/-- What a program writes to `std::cout` when a fresh `EvalVisitor` visits it. -/
def runOutput (ops : DoubleOps F) (fuel : Nat) (program : List Stmt) : Except Err String :=
  match visitFile_input ops fuel program State.init with
  | .error e => .error e
  | .ok st => .ok st.output

end Evaluator

/-! ## Parse trees of programs -/

/-- The `test` with the source text `text` that is the `atom_expr` `a`. -/
def Test.ofAtomExpr (text : String) (a : AtomExpr) : Test :=
  .mk text (.mk (.mk (.comparison (.mk (.mk (.mk (.atomExpr a) []) []) [])) []) [])

/-- The `test` that is the atom `a`. -/
def Test.ofAtom (text : String) (a : Atom) : Test := Test.ofAtomExpr text (.mk a none)

/-- The `test` that is the call `name(args)`. -/
def Test.call (text : String) (name : String) (args : List Argument) : Test :=
  Test.ofAtomExpr text (.mk (.name name) (some (.mk (if args.isEmpty then none else some args))))

/-- The statement that is the expression `t`. -/
def Stmt.exprStmt (t : Test) : Stmt := .simple (.expr ⟨[t], [], none⟩)

/-- The statement `return t`. -/
def Stmt.ret (t : Test) : Stmt := .simple (.flow (.return (some [t])))

/-- The statement `def name(typedargslist):` with the block `body`. -/
def Stmt.define (name : String) (typedargslist : Option (List (String × Option Test)))
    (body : List Stmt) : Stmt :=
  .compound (.funcdef name typedargslist (.block body))

/-- The statement `name = t`. -/
def Stmt.assign (name : String) (t : Test) : Stmt :=
  .simple (.expr ⟨[Test.ofAtom name (.name name)], [[t]], none⟩)

/-- The program
```
def g():
    return 1
def f():
    return g()
    print("later")
    return 2
print(f())
``` -/
def returnCallProgram : List Stmt :=
  [ Stmt.define "g" none [Stmt.ret (Test.ofAtom "1" (.number "1"))],
    Stmt.define "f" none
      [ Stmt.ret (Test.call "g()" "g" []),
        Stmt.exprStmt (Test.call "print(\"later\")" "print"
          [.positional (Test.ofAtom "\"later\"" (.strings ["\"later\""]))]),
        Stmt.ret (Test.ofAtom "2" (.number "2")) ],
    Stmt.exprStmt (Test.call "print(f())" "print" [.positional (Test.call "f()" "f" [])]) ]

/-- The program
```
def g():
    print(x)
def f():
    x = 1
    g()
f()
``` -/
def callerLocalProgram : List Stmt :=
  [ Stmt.define "g" none
      [ Stmt.exprStmt (Test.call "print(x)" "print" [.positional (Test.ofAtom "x" (.name "x"))]) ],
    Stmt.define "f" none
      [ Stmt.assign "x" (Test.ofAtom "1" (.number "1")),
        Stmt.exprStmt (Test.call "g()" "g" []) ],
    Stmt.exprStmt (Test.call "f()" "f" []) ]

/-- Name lookup as the specification words it: the frame on top of the stack, then
the global map, and no other frame. -/
def State.lookupTopThenGlobal {F : Type} (st : State F) (name : String) : Value F :=
  match st.scopes.head?.bind (fun top => top.find name) with
  | some v => v
  | Option.none =>
    match st.globalVars.find name with
    | some v => v
    | Option.none => .none

/-- A state in which a function runs with an empty frame on top of the frame of its
caller, which binds `x` to `1`; there are no globals. -/
def callerLocalState : State Unit :=
  { State.init with scopes := [[], [("x", .int (BigInteger.ofLongLong 1))]] }

/-! ## Tags, display form and repetition -/

/-- Embeds `enum class ValueType`. -/
inductive ValueType where
  | NONE
  | BOOL
  | INT
  | FLOAT
  | STRING
  | TUPLE
  | FUNCTION
  deriving DecidableEq, Repr

/-- The field `type` of a `Value`. -/
def Value.type {F : Type} : Value F → ValueType
  | .none => .NONE
  | .bool _ => .BOOL
  | .int _ => .INT
  | .float _ => .FLOAT
  | .str _ => .STRING
  | .tuple _ => .TUPLE

/-- The two tags are an Int and a Float, in either order. -/
def ValueType.intFloatPair (s t : ValueType) : Bool :=
  (s == .INT && t == .FLOAT) || (s == .FLOAT && t == .INT)

/-- The string made of `k` copies of `s`. -/
def copies (s : String) : Nat → String
  | 0 => ""
  | k + 1 => copies s k ++ s

mutual

/-- The display form of a Value as the specification words it: `None`, `True` or
`False`, the signed decimal of an Int, the six-digit fixed-point text of a Float, the
raw contents of a String, and for a Tuple the displays of the elements separated by a
comma and a blank inside parentheses, with a comma after the only element of a
1-tuple and `()` for the empty tuple. -/
def display {F : Type} (ops : DoubleOps F) : Value F → String
  | .none => "None"
  | .bool true => "True"
  | .bool false => "False"
  | .int i => (BigInteger.toInt i).repr
  | .float f => ops.fixed6 f
  | .str s => s
  | .tuple [] => "()"
  | .tuple [v] => "(" ++ display ops v ++ ",)"
  | .tuple (v :: w :: vs) => "(" ++ ", ".intercalate (displayAll ops (v :: w :: vs)) ++ ")"

/-- The display forms of the elements of a Tuple. -/
def displayAll {F : Type} (ops : DoubleOps F) : List (Value F) → List String
  | [] => []
  | v :: vs => display ops v :: displayAll ops vs

end

mutual

/-- Every Int inside the Value is a canonical BigInteger. -/
def Value.Canonical {F : Type} : Value F → Prop
  | .int i => BigInteger.Canonical i
  | .tuple t => Value.allCanonical t
  | _ => True

/-- Every Int inside the Values of the list is a canonical BigInteger. -/
def Value.allCanonical {F : Type} : List (Value F) → Prop
  | [] => True
  | v :: vs => Value.Canonical v ∧ Value.allCanonical vs

end

/-! ## Fuel -/

/-- More fuel does not change a result: every function of the visitor that returns a
value with `fuel` returns the same value with every larger fuel. -/
structure EvalMono {F : Type} (ops : DoubleOps F) (fuel : Nat) : Prop where
  test : ∀ fuel' t st r, fuel ≤ fuel' → visitTest ops fuel t st = .ok r →
    visitTest ops fuel' t st = .ok r
  orTest : ∀ fuel' t st r, fuel ≤ fuel' → visitOr_test ops fuel t st = .ok r →
    visitOr_test ops fuel' t st = .ok r
  orLoop : ∀ fuel' ts v st r, fuel ≤ fuel' → orLoop ops fuel ts v st = .ok r →
    orLoop ops fuel' ts v st = .ok r
  andTest : ∀ fuel' t st r, fuel ≤ fuel' → visitAnd_test ops fuel t st = .ok r →
    visitAnd_test ops fuel' t st = .ok r
  andLoop : ∀ fuel' ts v st r, fuel ≤ fuel' → andLoop ops fuel ts v st = .ok r →
    andLoop ops fuel' ts v st = .ok r
  notTest : ∀ fuel' t st r, fuel ≤ fuel' → visitNot_test ops fuel t st = .ok r →
    visitNot_test ops fuel' t st = .ok r
  comparison : ∀ fuel' c st r, fuel ≤ fuel' → visitComparison ops fuel c st = .ok r →
    visitComparison ops fuel' c st = .ok r
  comparisonValues : ∀ fuel' es st r, fuel ≤ fuel' →
    comparisonValues ops fuel es st = .ok r → comparisonValues ops fuel' es st = .ok r
  arithExpr : ∀ fuel' e st r, fuel ≤ fuel' → visitArith_expr ops fuel e st = .ok r →
    visitArith_expr ops fuel' e st = .ok r
  arithLoop : ∀ fuel' ts v st r, fuel ≤ fuel' → arithLoop ops fuel ts v st = .ok r →
    arithLoop ops fuel' ts v st = .ok r
  term : ∀ fuel' t st r, fuel ≤ fuel' → visitTerm ops fuel t st = .ok r →
    visitTerm ops fuel' t st = .ok r
  termLoop : ∀ fuel' fs v st r, fuel ≤ fuel' → termLoop ops fuel fs v st = .ok r →
    termLoop ops fuel' fs v st = .ok r
  factor : ∀ fuel' f st r, fuel ≤ fuel' → visitFactor ops fuel f st = .ok r →
    visitFactor ops fuel' f st = .ok r
  atomExpr : ∀ fuel' a st r, fuel ≤ fuel' → visitAtom_expr ops fuel a st = .ok r →
    visitAtom_expr ops fuel' a st = .ok r
  trailer : ∀ fuel' t st r, fuel ≤ fuel' → visitTrailer ops fuel t st = .ok r →
    visitTrailer ops fuel' t st = .ok r
  arglist : ∀ fuel' args pos kw st r, fuel ≤ fuel' →
    visitArglist ops fuel args pos kw st = .ok r → visitArglist ops fuel' args pos kw st = .ok r
  atom : ∀ fuel' a st r, fuel ≤ fuel' → visitAtom ops fuel a st = .ok r →
    visitAtom ops fuel' a st = .ok r
  formatString : ∀ fuel' cs res st r, fuel ≤ fuel' →
    visitFormat_string ops fuel cs res st = .ok r →
    visitFormat_string ops fuel' cs res st = .ok r
  testlist : ∀ fuel' ts st r, fuel ≤ fuel' → visitTestlist ops fuel ts st = .ok r →
    visitTestlist ops fuel' ts st = .ok r
  call : ∀ fuel' name pos kw st r, fuel ≤ fuel' →
    callFunction ops fuel name pos kw st = .ok r → callFunction ops fuel' name pos kw st = .ok r
  suite : ∀ fuel' s st r, fuel ≤ fuel' → visitSuite ops fuel s st = .ok r →
    visitSuite ops fuel' s st = .ok r
  suiteLoop : ∀ fuel' ss st r, fuel ≤ fuel' → suiteLoop ops fuel ss st = .ok r →
    suiteLoop ops fuel' ss st = .ok r
  stmt : ∀ fuel' s st r, fuel ≤ fuel' → visitStmt ops fuel s st = .ok r →
    visitStmt ops fuel' s st = .ok r
  smallStmt : ∀ fuel' s st r, fuel ≤ fuel' → visitSmall_stmt ops fuel s st = .ok r →
    visitSmall_stmt ops fuel' s st = .ok r
  returnStmt : ∀ fuel' tl st r, fuel ≤ fuel' → visitReturn_stmt ops fuel tl st = .ok r →
    visitReturn_stmt ops fuel' tl st = .ok r
  exprStmt : ∀ fuel' e st r, fuel ≤ fuel' → visitExpr_stmt ops fuel e st = .ok r →
    visitExpr_stmt ops fuel' e st = .ok r
  ifStmt : ∀ fuel' bs el st r, fuel ≤ fuel' → visitIf_stmt ops fuel bs el st = .ok r →
    visitIf_stmt ops fuel' bs el st = .ok r
  whileStmt : ∀ fuel' t s st r, fuel ≤ fuel' → visitWhile_stmt ops fuel t s st = .ok r →
    visitWhile_stmt ops fuel' t s st = .ok r
  funcdef : ∀ fuel' name tal s st r, fuel ≤ fuel' →
    visitFuncdef ops fuel name tal s st = .ok r → visitFuncdef ops fuel' name tal s st = .ok r
  typedargslist : ∀ fuel' tests ds names i defaults st r, fuel ≤ fuel' →
    visitTypedargslist ops tests ds fuel names i defaults st = .ok r →
    visitTypedargslist ops tests ds fuel' names i defaults st = .ok r

/-! ## Evaluation as a relation -/

/-- With enough fuel `visitTest` returns the value `v` and leaves the state `st2`. -/
def TestReturns {F : Type} (ops : DoubleOps F) (t : Test) (st : State F) (v : Value F)
    (st2 : State F) : Prop :=
  ∃ fuel, visitTest ops fuel t st = .ok (v, st2)

/-- With enough fuel `visitAnd_test` returns the value `v` and leaves the state `st2`. -/
def AndTestReturns {F : Type} (ops : DoubleOps F) (t : AndTest) (st : State F) (v : Value F)
    (st2 : State F) : Prop :=
  ∃ fuel, visitAnd_test ops fuel t st = .ok (v, st2)

/-- With enough fuel `visitNot_test` returns the value `v` and leaves the state `st2`. -/
def NotTestReturns {F : Type} (ops : DoubleOps F) (t : NotTest) (st : State F) (v : Value F)
    (st2 : State F) : Prop :=
  ∃ fuel, visitNot_test ops fuel t st = .ok (v, st2)

/-- With enough fuel `visitArith_expr` returns the value `v` and leaves the state `st2`. -/
def ArithReturns {F : Type} (ops : DoubleOps F) (e : ArithExpr) (st : State F) (v : Value F)
    (st2 : State F) : Prop :=
  ∃ fuel, visitArith_expr ops fuel e st = .ok (v, st2)

/-- The expressions of a list are evaluated one after the other, each exactly once, from
left to right: each starts in the state that the one before it left, and the values are
collected in the same order. -/
inductive EvalSeq {F α : Type} (eval : α → State F → Value F → State F → Prop) :
    List α → State F → List (Value F) → State F → Prop where
  | nil (st : State F) : EvalSeq eval [] st [] st
  | cons {x : α} {xs : List α} {st st1 st2 : State F} {v : Value F} {vs : List (Value F)} :
    eval x st v st1 → EvalSeq eval xs st1 vs st2 → EvalSeq eval (x :: xs) st (v :: vs) st2

/-- Short-circuit evaluation of the operands `x :: xs` as the specification words it: the
operands are evaluated from left to right until one decides; the result is the value of
that operand, unchanged, or of the last operand when none decides, and the state is the
one that this operand left, for no operand after it is evaluated. -/
inductive ShortCircuit {F α : Type} (eval : α → State F → Value F → State F → Prop)
    (decides : Value F → Prop) : α → List α → State F → Value F → State F → Prop where
  | last {x : α} {st st1 : State F} {v : Value F} :
    eval x st v st1 → ShortCircuit eval decides x [] st v st1
  | decided {x y : α} {ys : List α} {st st1 : State F} {v : Value F} :
    eval x st v st1 → decides v → ShortCircuit eval decides x (y :: ys) st v st1
  | next {x y : α} {ys : List α} {st st1 st2 : State F} {v w : Value F} :
    eval x st v st1 → ¬ decides v → ShortCircuit eval decides y ys st1 w st2 →
    ShortCircuit eval decides x (y :: ys) st w st2

/-- Every adjacent comparison of a chain is truthy: `vals[i] ops[i] vals[i + 1]` for
every operator `ops[i]`. -/
def AdjacentAllTruthy {F : Type} (ops : DoubleOps F) (vals : List (Value F))
    (cmpOps : List String) : Prop :=
  ∀ i op a b, cmpOps[i]? = some op → vals[i]? = some a → vals[i + 1]? = some b →
    (performCompare ops a b op).toBool ops = true

/-- The value of `x and y` on the values of its operands, as the specification words it:
the first operand when it is falsy, else the second. -/
def andValue {F : Type} (ops : DoubleOps F) (x y : Value F) : Value F :=
  if x.toBool ops then y else x

/-- The frame of a call as the specification words it, by the name that is looked up: a
keyword argument of that name wins, else the positional argument at the index of the
parameter, else the default of the parameter when it is one of the last
`defaults.length`, else the name is unbound. -/
def frameLookup {F : Type} (params : List String) (defaults posArgs : List (Value F))
    (kwArgs : StrMap (Value F)) (x : String) : Option (Value F) :=
  match kwArgs.find x with
  | some v => some v
  | Option.none =>
    let i := params.indexOf x
    if i < params.length then
      if i < posArgs.length then posArgs[i]?
      else if params.length - defaults.length ≤ i then
        defaults[i - (params.length - defaults.length)]?
      else Option.none
    else Option.none

/-! ## More parse trees -/

/-- The `arith_expr` that is the `atom_expr` `a`. -/
def ArithExpr.ofAtomExpr (a : AtomExpr) : ArithExpr := .mk (.mk (.atomExpr a) []) []

/-- The `not_test` that is the `atom_expr` `a`. -/
def NotTest.ofAtomExpr (a : AtomExpr) : NotTest := .comparison (.mk (ArithExpr.ofAtomExpr a) [])

/-- The `and_test` that is the `atom_expr` `a`. -/
def AndTest.ofAtomExpr (a : AtomExpr) : AndTest := .mk (NotTest.ofAtomExpr a) []

/-- The `atom_expr` of the number with the text `text`. -/
def AtomExpr.number (text : String) : AtomExpr := .mk (.number text) none

/-- The `atom_expr` that is the call `name(args)`. -/
def AtomExpr.call (name : String) (args : List Argument) : AtomExpr :=
  .mk (.name name) (some (.mk (if args.isEmpty then none else some args)))

/-- The `test` `x or y1 or ... or yn` on operands that are `atom_expr`s. -/
def Test.orOf (text : String) (x : AtomExpr) (ys : List AtomExpr) : Test :=
  .mk text (.mk (AndTest.ofAtomExpr x) (ys.map AndTest.ofAtomExpr))

/-- The `test` `x and y1 and ... and yn` on operands that are `atom_expr`s. -/
def Test.andOf (text : String) (x : AtomExpr) (ys : List AtomExpr) : Test :=
  .mk text (.mk (.mk (NotTest.ofAtomExpr x) (ys.map NotTest.ofAtomExpr)) [])

/-- The `test` that is the chain of comparisons `x op1 y1 ... opn yn` on operands that
are `atom_expr`s. -/
def Test.chain (text : String) (x : AtomExpr) (rest : List (String × AtomExpr)) : Test :=
  .mk text (.mk (.mk (.comparison
    (.mk (ArithExpr.ofAtomExpr x) (rest.map fun p => (p.1, ArithExpr.ofAtomExpr p.2)))) []) [])

/-- The statement `print(t)`. -/
def Stmt.print (t : Test) : Stmt :=
  Stmt.exprStmt (Test.call ("print(" ++ t.text ++ ")") "print" [.positional t])

/-- The program
```
def f(a, b=10, c=20):
    print(a, b, c)
f(1)
f(1, 2)
f(1, c=99)
``` -/
def defaultsProgram : List Stmt :=
  [ Stmt.define "f"
      (some [ ("a", none), ("b", some (Test.ofAtom "10" (.number "10"))),
              ("c", some (Test.ofAtom "20" (.number "20"))) ])
      [ Stmt.exprStmt (Test.call "print(a,b,c)" "print"
          [ .positional (Test.ofAtom "a" (.name "a")), .positional (Test.ofAtom "b" (.name "b")),
            .positional (Test.ofAtom "c" (.name "c")) ]) ],
    Stmt.exprStmt (Test.call "f(1)" "f" [.positional (Test.ofAtom "1" (.number "1"))]),
    Stmt.exprStmt (Test.call "f(1,2)" "f"
      [.positional (Test.ofAtom "1" (.number "1")), .positional (Test.ofAtom "2" (.number "2"))]),
    Stmt.exprStmt (Test.call "f(1,c=99)" "f"
      [ .positional (Test.ofAtom "1" (.number "1")),
        .keyword (Test.ofAtom "c" (.name "c")) (Test.ofAtom "99" (.number "99")) ]) ]

/-- The program
```
x = 1
def f(a=x):
    print(a)
x = 2
f()
``` -/
def defaultAtDefProgram : List Stmt :=
  [ Stmt.assign "x" (Test.ofAtom "1" (.number "1")),
    Stmt.define "f" (some [("a", some (Test.ofAtom "x" (.name "x")))])
      [Stmt.print (Test.ofAtom "a" (.name "a"))],
    Stmt.assign "x" (Test.ofAtom "2" (.number "2")),
    Stmt.exprStmt (Test.call "f()" "f" []) ]

/-- The program
```
print(0 or 7)
print(3 and 0)
print(0 or 0 or 5 or 6)
1 or print("no")
0 and print("no")
0 or print("yes")
``` -/
def shortCircuitProgram : List Stmt :=
  [ Stmt.print (Test.orOf "0or7" (.number "0") [.number "7"]),
    Stmt.print (Test.andOf "3and0" (.number "3") [.number "0"]),
    Stmt.print (Test.orOf "0or0or5or6" (.number "0") [.number "0", .number "5", .number "6"]),
    Stmt.exprStmt (Test.orOf "1orprint(\"no\")" (.number "1")
      [AtomExpr.call "print" [.positional (Test.ofAtom "\"no\"" (.strings ["\"no\""]))]]),
    Stmt.exprStmt (Test.andOf "0andprint(\"no\")" (.number "0")
      [AtomExpr.call "print" [.positional (Test.ofAtom "\"no\"" (.strings ["\"no\""]))]]),
    Stmt.exprStmt (Test.orOf "0orprint(\"yes\")" (.number "0")
      [AtomExpr.call "print" [.positional (Test.ofAtom "\"yes\"" (.strings ["\"yes\""]))]]) ]

/-- The program
```
def g():
    print("g")
    return 2
print(1 < 2 < 3)
print(1 < 3 < 2)
print(1 < g() < 3)
print(3 < 1 < g())
``` -/
def chainProgram : List Stmt :=
  [ Stmt.define "g" none
      [ Stmt.print (Test.ofAtom "\"g\"" (.strings ["\"g\""])),
        Stmt.ret (Test.ofAtom "2" (.number "2")) ],
    Stmt.print (Test.chain "1<2<3" (.number "1") [("<", .number "2"), ("<", .number "3")]),
    Stmt.print (Test.chain "1<3<2" (.number "1") [("<", .number "3"), ("<", .number "2")]),
    Stmt.print (Test.chain "1<g()<3" (.number "1")
      [("<", AtomExpr.call "g" []), ("<", .number "3")]),
    Stmt.print (Test.chain "3<1<g()" (.number "3")
      [("<", .number "1"), ("<", AtomExpr.call "g" [])]) ]

/-! ## Truthiness, braces and more programs -/

/-- Truthiness as the specification words it: None is false, a Bool is itself, an Int
is true when it is not zero, a Float when it is not equal to `0.0`, a String when it is
not empty, and a Tuple when it has at least one element. -/
def truthiness {F : Type} (ops : DoubleOps F) : Value F → Bool
  | .none => false
  | .bool b => b
  | .int i => decide (BigInteger.toInt i ≠ 0)
  | .float f => !(ops.eq f (ops.ofInt 0))
  | .str s => decide (s ≠ "")
  | .tuple t => decide (1 ≤ t.length)

/-- Doubling of the braces of a text: each `{` becomes `{{` and each `}` becomes `}}`. -/
def doubleBraces : List Char → List Char
  | [] => []
  | c :: rest =>
    if c = '{' ∨ c = '}' then c :: c :: doubleBraces rest else c :: doubleBraces rest

/-- No two adjacent characters of the text are the same brace. -/
def NoDoubledBrace : List Char → Prop
  | a :: b :: rest => ¬ (a = b ∧ (a = '{' ∨ a = '}')) ∧ NoDoubledBrace (b :: rest)
  | _ => True

mutual

/-- Equality of same-tag Values as the specification words it: None equals None, Bools,
Ints and Strings are equal when their payloads are, and Tuples when they have the same
length and their elements are pairwise equal. -/
def naturalEq {F : Type} : Value F → Value F → Bool
  | .none, .none => true
  | .bool x, .bool y => x == y
  | .int x, .int y => decide (BigInteger.toInt x = BigInteger.toInt y)
  | .str s, .str t => decide (s = t)
  | .tuple xs, .tuple ys => naturalEqAll xs ys
  | _, _ => false

/-- The elements of two Tuples are as many and pairwise equal. -/
def naturalEqAll {F : Type} : List (Value F) → List (Value F) → Bool
  | [], [] => true
  | x :: xs, y :: ys => naturalEq x y && naturalEqAll xs ys
  | _, _ => false

end

/-- The program
```
def f():
    return 1, 2
print(f() == f())
``` -/
def tupleEqProgram : List Stmt :=
  [ Stmt.define "f" none
      [.simple (.flow (.return (some
        [Test.ofAtom "1" (.number "1"), Test.ofAtom "2" (.number "2")])))],
    Stmt.print (Test.chain "f()==f()" (AtomExpr.call "f" []) [("==", AtomExpr.call "f" [])]) ]

/-- The program
```
print(int("abc"))
print(int("1.5"))
print(int(""))
print(int("-"))
``` -/
def malformedIntProgram : List Stmt :=
  [ Stmt.print (Test.call "int(\"abc\")" "int"
      [.positional (Test.ofAtom "\"abc\"" (.strings ["\"abc\""]))]),
    Stmt.print (Test.call "int(\"1.5\")" "int"
      [.positional (Test.ofAtom "\"1.5\"" (.strings ["\"1.5\""]))]),
    Stmt.print (Test.call "int(\"\")" "int"
      [.positional (Test.ofAtom "\"\"" (.strings ["\"\""]))]),
    Stmt.print (Test.call "int(\"-\")" "int"
      [.positional (Test.ofAtom "\"-\"" (.strings ["\"-\""]))]) ]

/-- The program
```
print(y)
print(foo())
print(foo(1))
``` -/
def unboundProgram : List Stmt :=
  [ Stmt.print (Test.ofAtom "y" (.name "y")),
    Stmt.print (Test.call "foo()" "foo" []),
    Stmt.print (Test.call "foo(1)" "foo" [.positional (Test.ofAtom "1" (.number "1"))]) ]

/-- The `test` `x op y` for a `muldivmod_op`, on operands that are `factor`s. -/
def Test.ofTerm (text : String) (x : Factor) (op : String) (y : Factor) : Test :=
  .mk text (.mk (.mk (.comparison (.mk (.mk (.mk x [(op, y)]) []) [])) []) [])

/-- The program `print(10 // 3, 10 % 3, -10 // 3, -10 % 3)`. -/
def printDivModProgram : List Stmt :=
  [ Stmt.exprStmt (Test.call "print(10//3,10%3,-10//3,-10%3)" "print"
      [ .positional (Test.ofTerm "10//3" (.atomExpr (.number "10")) "//" (.atomExpr (.number "3"))),
        .positional (Test.ofTerm "10%3" (.atomExpr (.number "10")) "%" (.atomExpr (.number "3"))),
        .positional (Test.ofTerm "-10//3" (.signed true (.atomExpr (.number "10"))) "//"
          (.atomExpr (.number "3"))),
        .positional (Test.ofTerm "-10%3" (.signed true (.atomExpr (.number "10"))) "%"
          (.atomExpr (.number "3"))) ]) ]

/-- The program
```
x = 3
print(f"{{x}}={x}")
```
The children of the `format_string` are the opening token, the literal chunk
`{{x}}=`, the opening brace, the `testlist` `x`, the closing brace and the closing
quotation mark. -/
def fstringProgram : List Stmt :=
  [ Stmt.assign "x" (Test.ofAtom "3" (.number "3")),
    Stmt.print (Test.ofAtom "f\"\x7b\x7bx\x7d\x7d=\x7bx\x7d\""
      (.formatString
        [ .token, .literal "\x7b\x7bx\x7d\x7d=", .token, .testlist [Test.ofAtom "x" (.name "x")], .token,
          .token ])) ]

/-! ## Format strings, blocks and loops as relations -/

/-- With enough fuel `visitTestlist` returns the values `vs` and leaves the state `st2`. -/
def TestlistReturns {F : Type} (ops : DoubleOps F) (ts : List Test) (st : State F)
    (vs : List (Value F)) (st2 : State F) : Prop :=
  ∃ fuel, visitTestlist ops fuel ts st = .ok (vs, st2)

/-- With enough fuel `visitStmt` leaves the state `st2`. -/
def StmtReturns {F : Type} (ops : DoubleOps F) (s : Stmt) (st st2 : State F) : Prop :=
  ∃ fuel, visitStmt ops fuel s st = .ok st2

/-- With enough fuel `visitSuite` leaves the state `st2`. -/
def SuiteReturns {F : Type} (ops : DoubleOps F) (s : Suite) (st st2 : State F) : Prop :=
  ∃ fuel, visitSuite ops fuel s st = .ok st2

/-- The pieces of a format string as the specification words it, in the order of the
source: a literal chunk gives its text with the doubled braces replaced, an embedded
`testlist` is evaluated and gives the texts `txt v` of its values joined by a comma and
a blank, and the other tokens give nothing. -/
inductive FormatPieces {F : Type} (ops : DoubleOps F) (txt : Value F → String) :
    List FChild → State F → List String → State F → Prop where
  | nil (st : State F) : FormatPieces ops txt [] st [] st
  | literal {text : String} {rest : List FChild} {st st2 : State F} {ps : List String} :
    FormatPieces ops txt rest st ps st2 →
    FormatPieces ops txt (.literal text :: rest) st
      (String.mk (unescapeBraces text.data) :: ps) st2
  | token {rest : List FChild} {st st2 : State F} {ps : List String} :
    FormatPieces ops txt rest st ps st2 → FormatPieces ops txt (.token :: rest) st ps st2
  | testlist {tests : List Test} {rest : List FChild} {st st1 st2 : State F}
      {values : List (Value F)} {ps : List String} :
    TestlistReturns ops tests st values st1 → FormatPieces ops txt rest st1 ps st2 →
    FormatPieces ops txt (.testlist tests :: rest) st
      (", ".intercalate (values.map txt) :: ps) st2

/-- The statements of a block as the specification words it: they run in their order
until one leaves the break, continue or return flag set; the statements behind that
one are skipped. -/
inductive BlockRuns {F : Type} (ops : DoubleOps F) : List Stmt → State F → State F → Prop where
  | nil (st : State F) : BlockRuns ops [] st st
  | stop {s : Stmt} {rest : List Stmt} {st st1 : State F} :
    StmtReturns ops s st st1 →
    (st1.breakFlag || st1.continueFlag || st1.returnFlag) = true →
    BlockRuns ops (s :: rest) st st1
  | step {s : Stmt} {rest : List Stmt} {st st1 st2 : State F} :
    StmtReturns ops s st st1 →
    (st1.breakFlag || st1.continueFlag || st1.returnFlag) = false →
    BlockRuns ops rest st1 st2 → BlockRuns ops (s :: rest) st st2

/-- The loop `while test: body` as the specification words it. The test is evaluated;
when it is falsy the loop ends. Else the body runs; a break flag ends the loop, with
the flag cleared and the test not evaluated again; a continue flag is cleared and the
loop goes on with the test; a return flag ends the loop and stays set; with no flag
the loop goes on with the test. -/
inductive WhileRuns {F : Type} (ops : DoubleOps F) (test : Test) (body : Suite) :
    State F → State F → Prop where
  | done {st st1 : State F} {c : Value F} :
    TestReturns ops test st c st1 → c.toBool ops = false → WhileRuns ops test body st st1
  | broke {st st1 st2 : State F} {c : Value F} :
    TestReturns ops test st c st1 → c.toBool ops = true → SuiteReturns ops body st1 st2 →
    st2.breakFlag = true → WhileRuns ops test body st { st2 with breakFlag := false }
  | continued {st st1 st2 st3 : State F} {c : Value F} :
    TestReturns ops test st c st1 → c.toBool ops = true → SuiteReturns ops body st1 st2 →
    st2.breakFlag = false → st2.continueFlag = true →
    WhileRuns ops test body { st2 with continueFlag := false } st3 →
    WhileRuns ops test body st st3
  | returned {st st1 st2 : State F} {c : Value F} :
    TestReturns ops test st c st1 → c.toBool ops = true → SuiteReturns ops body st1 st2 →
    st2.breakFlag = false → st2.continueFlag = false → st2.returnFlag = true →
    WhileRuns ops test body st st2
  | again {st st1 st2 st3 : State F} {c : Value F} :
    TestReturns ops test st c st1 → c.toBool ops = true → SuiteReturns ops body st1 st2 →
    st2.breakFlag = false → st2.continueFlag = false → st2.returnFlag = false →
    WhileRuns ops test body st2 st3 → WhileRuns ops test body st st3

/-- The local frames below the top of the stack, and the depth of the stack, are the
same in both states. -/
def SameFrames {F : Type} (st st2 : State F) : Prop :=
  st2.scopes.length = st.scopes.length ∧ st2.scopes.tail = st.scopes.tail

/-- Every function of the visitor that returns with `fuel` leaves the local frames below
the top of the stack, and the depth of the stack, as they were; a call leaves the
whole stack as it was. -/
structure FramesKept {F : Type} (ops : DoubleOps F) (fuel : Nat) : Prop where
  test : ∀ t st r, visitTest ops fuel t st = .ok r → SameFrames st r.2
  orTest : ∀ t st r, visitOr_test ops fuel t st = .ok r → SameFrames st r.2
  orLoop : ∀ ts v st r, orLoop ops fuel ts v st = .ok r → SameFrames st r.2
  andTest : ∀ t st r, visitAnd_test ops fuel t st = .ok r → SameFrames st r.2
  andLoop : ∀ ts v st r, andLoop ops fuel ts v st = .ok r → SameFrames st r.2
  notTest : ∀ t st r, visitNot_test ops fuel t st = .ok r → SameFrames st r.2
  comparison : ∀ c st r, visitComparison ops fuel c st = .ok r → SameFrames st r.2
  comparisonValues : ∀ es st r, comparisonValues ops fuel es st = .ok r → SameFrames st r.2
  arithExpr : ∀ e st r, visitArith_expr ops fuel e st = .ok r → SameFrames st r.2
  arithLoop : ∀ ts v st r, arithLoop ops fuel ts v st = .ok r → SameFrames st r.2
  term : ∀ t st r, visitTerm ops fuel t st = .ok r → SameFrames st r.2
  termLoop : ∀ fs v st r, termLoop ops fuel fs v st = .ok r → SameFrames st r.2
  factor : ∀ f st r, visitFactor ops fuel f st = .ok r → SameFrames st r.2
  atomExpr : ∀ a st r, visitAtom_expr ops fuel a st = .ok r → SameFrames st r.2
  trailer : ∀ t st r, visitTrailer ops fuel t st = .ok r → SameFrames st r.2
  arglist : ∀ args pos kw st r, visitArglist ops fuel args pos kw st = .ok r →
    SameFrames st r.2
  atom : ∀ a st r, visitAtom ops fuel a st = .ok r → SameFrames st r.2
  formatString : ∀ cs res st r, visitFormat_string ops fuel cs res st = .ok r →
    SameFrames st r.2
  testlist : ∀ ts st r, visitTestlist ops fuel ts st = .ok r → SameFrames st r.2
  call : ∀ name pos kw st r, callFunction ops fuel name pos kw st = .ok r →
    r.2.scopes = st.scopes
  suite : ∀ s st r, visitSuite ops fuel s st = .ok r → SameFrames st r
  suiteLoop : ∀ ss st r, suiteLoop ops fuel ss st = .ok r → SameFrames st r
  stmt : ∀ s st r, visitStmt ops fuel s st = .ok r → SameFrames st r
  smallStmt : ∀ s st r, visitSmall_stmt ops fuel s st = .ok r → SameFrames st r
  returnStmt : ∀ tl st r, visitReturn_stmt ops fuel tl st = .ok r → SameFrames st r
  exprStmt : ∀ e st r, visitExpr_stmt ops fuel e st = .ok r → SameFrames st r
  ifStmt : ∀ bs el st r, visitIf_stmt ops fuel bs el st = .ok r → SameFrames st r
  whileStmt : ∀ t s st r, visitWhile_stmt ops fuel t s st = .ok r → SameFrames st r
  funcdef : ∀ name tal s st r, visitFuncdef ops fuel name tal s st = .ok r → SameFrames st r
  typedargslist : ∀ tests ds names i defaults st r,
    visitTypedargslist ops tests ds fuel names i defaults st = .ok r → SameFrames st r.2

/-- The program
```
def g(n):
    z = n
    return z
def f(a):
    b = g(a)
    if b:
        return b
    c = 5
x = 7
f(0)
f(1)
print(x)
``` -/
def framesProgram : List Stmt :=
  [ Stmt.define "g" (some [("n", none)])
      [ Stmt.assign "z" (Test.ofAtom "n" (.name "n")),
        Stmt.ret (Test.ofAtom "z" (.name "z")) ],
    Stmt.define "f" (some [("a", none)])
      [ Stmt.assign "b" (Test.call "g(a)" "g" [.positional (Test.ofAtom "a" (.name "a"))]),
        .compound (.ifStmt [(Test.ofAtom "b" (.name "b"),
          .block [Stmt.ret (Test.ofAtom "b" (.name "b"))])] none),
        Stmt.assign "c" (Test.ofAtom "5" (.number "5")) ],
    Stmt.assign "x" (Test.ofAtom "7" (.number "7")),
    Stmt.exprStmt (Test.call "f(0)" "f" [.positional (Test.ofAtom "0" (.number "0"))]),
    Stmt.exprStmt (Test.call "f(1)" "f" [.positional (Test.ofAtom "1" (.number "1"))]),
    Stmt.print (Test.ofAtom "x" (.name "x")) ]

/-- The `atom_expr` that is the name `n`. -/
def AtomExpr.name (n : String) : AtomExpr := .mk (.name n) none

/-- The program
```
x = 5
print(x())
def f():
    return 1
print(f)
``` -/
def boundCalleeProgram : List Stmt :=
  [ Stmt.assign "x" (Test.ofAtom "5" (.number "5")),
    Stmt.print (Test.call "x()" "x" []),
    Stmt.define "f" none [Stmt.ret (Test.ofAtom "1" (.number "1"))],
    Stmt.print (Test.ofAtom "f" (.name "f")) ]

/-- A state of the interpreter after `x = 5` at the top level. -/
def boundCalleeState : State Unit :=
  { State.init with globalVars := [("x", .int (BigInteger.ofString "5"))] }

/-- A state of the interpreter after `def f(): return 1` at the top level. -/
def functionNameState : State Unit :=
  { State.init with
      functions := [("f", ⟨[], [], .block [Stmt.ret (Test.ofAtom "1" (.number "1"))]⟩)] }

/-! ## Theorems: digit lists and canonical form -/

namespace BigInteger

theorem digVal_append (xs ys : List Int) :
    digVal (xs ++ ys) = digVal xs + 10 ^ xs.length * digVal ys := by
  induction xs with
  | nil => simp [digVal]
  | cons x xs ih =>
    show digVal (x :: (xs ++ ys)) = _
    rw [digVal, ih, digVal, List.length_cons, pow_succ]; ring

theorem digVal_nonneg {ds : List Int} (h : Digits ds) : 0 ≤ digVal ds := by
  induction ds with
  | nil => simp [digVal]
  | cons x xs ih =>
    have hx := h x (List.mem_cons_self _ _)
    have := ih (fun d hd => h d (List.mem_cons_of_mem _ hd))
    simp only [digVal]; omega

theorem digVal_lt {ds : List Int} (h : Digits ds) : digVal ds < 10 ^ ds.length := by
  induction ds with
  | nil => simp [digVal]
  | cons x xs ih =>
    have hx := h x (List.mem_cons_self _ _)
    have := ih (fun d hd => h d (List.mem_cons_of_mem _ hd))
    simp only [digVal, List.length_cons, pow_succ]; omega

theorem Digits.tail {x : Int} {xs : List Int} (h : Digits (x :: xs)) : Digits xs :=
  fun d hd => h d (List.mem_cons_of_mem _ hd)

theorem Digits.head {x : Int} {xs : List Int} (h : Digits (x :: xs)) : 0 ≤ x ∧ x ≤ 9 :=
  h x (List.mem_cons_self _ _)

theorem dropLast_append_last {ds : List Int} {d : Int} (h : ds.getLast? = some d) :
    ds = ds.dropLast ++ [d] := by
  rcases List.eq_nil_or_concat ds with rfl | ⟨l, a, rfl⟩
  · simp at h
  · simp at h; simp [h]

theorem popLoop_digVal (fuel : Nat) (ds : List Int) : digVal (popLoop fuel ds) = digVal ds := by
  induction fuel generalizing ds with
  | zero => rfl
  | succ f ih =>
    simp only [popLoop]
    split
    · rename_i h
      rw [ih]
      conv_rhs => rw [dropLast_append_last h.2]
      simp [digVal_append, digVal]
    · rfl

theorem popLoop_mem (fuel : Nat) (ds : List Int) : ∀ d ∈ popLoop fuel ds, d ∈ ds := by
  induction fuel generalizing ds with
  | zero => intro d h; exact h
  | succ f ih =>
    simp only [popLoop]
    split
    · intro d hd; exact List.mem_of_mem_dropLast (ih _ d hd)
    · intro d h; exact h

theorem popLoop_ne_nil (fuel : Nat) (ds : List Int) (h : ds ≠ []) : popLoop fuel ds ≠ [] := by
  induction fuel generalizing ds with
  | zero => exact h
  | succ f ih =>
    simp only [popLoop]
    split
    · rename_i hc
      apply ih
      intro h0
      have := congrArg List.length h0
      simp at this; omega
    · exact h

theorem popLoop_nolead (fuel : Nat) (ds : List Int) (hf : ds.length ≤ fuel) :
    1 < (popLoop fuel ds).length → NL (popLoop fuel ds) := by
  induction fuel generalizing ds with
  | zero => intro h; simp [popLoop] at h; omega
  | succ f ih =>
    simp only [popLoop]
    split
    · rename_i hc
      apply ih
      simp; omega
    · rename_i hc
      intro h1 h2
      exact hc ⟨h1, h2⟩

theorem popLoop_id (fuel : Nat) (ds : List Int) (h : 1 < ds.length → NL ds) :
    popLoop fuel ds = ds := by
  cases fuel with
  | zero => rfl
  | succ f =>
    simp only [popLoop]
    rw [if_neg]
    intro hc
    exact h hc.1 hc.2

theorem isZero_iff (a : BigInteger) : a.isZero = true ↔ a.digits = [0] := by
  rcases a with ⟨ds, s⟩
  simp only [isZero]
  rcases ds with _ | ⟨x, _ | ⟨y, t⟩⟩ <;> simp

theorem removeLeadingZeros_digits (a : BigInteger) :
    (removeLeadingZeros a).digits = popLoop a.digits.length a.digits := by
  simp only [removeLeadingZeros]; split <;> rfl

theorem removeLeadingZeros_negative (a : BigInteger) :
    (removeLeadingZeros a).negative =
      (a.negative && !(decide (popLoop a.digits.length a.digits = [0]))) := by
  simp only [removeLeadingZeros]
  generalize popLoop a.digits.length a.digits = ds
  rcases ds with _ | ⟨x, _ | ⟨y, t⟩⟩ <;> simp
  by_cases hx : x = 0 <;> simp [hx]

theorem digVal_eq_zero {ds : List Int} (h : Digits ds) (h0 : digVal ds = 0) :
    ∀ d ∈ ds, d = 0 := by
  induction ds with
  | nil => simp
  | cons x xs ih =>
    have hx := h.head
    have := digVal_nonneg h.tail
    simp only [digVal] at h0
    intro d hd
    rcases List.mem_cons.1 hd with rfl | hd
    · omega
    · exact ih h.tail (by omega) d hd

theorem toInt_removeLeadingZeros (a : BigInteger) :
    toInt (removeLeadingZeros a) = toInt a := by
  simp only [toInt, removeLeadingZeros_digits, removeLeadingZeros_negative, popLoop_digVal]
  by_cases h : popLoop a.digits.length a.digits = [0]
  · have hv : digVal a.digits = 0 := by
      rw [← popLoop_digVal a.digits.length, h]; simp [digVal]
    simp [h, hv]
  · simp [h]

theorem removeLeadingZeros_canonical (a : BigInteger) (hne : a.digits ≠ [])
    (hd : Digits a.digits) : Canonical (removeLeadingZeros a) := by
  refine ⟨?_, ?_, ?_, ?_⟩
  · rw [removeLeadingZeros_digits]; exact popLoop_ne_nil _ _ hne
  · rw [removeLeadingZeros_digits]; intro d h; exact hd d (popLoop_mem _ _ d h)
  · rw [removeLeadingZeros_digits]; exact popLoop_nolead _ _ (le_refl _)
  · intro h; rw [removeLeadingZeros_negative]; rw [removeLeadingZeros_digits] at h; simp [h]

theorem removeLeadingZeros_of_canonical (a : BigInteger) (h : Canonical a) :
    removeLeadingZeros a = a := by
  rcases a with ⟨ds, s⟩
  have hp : popLoop ds.length ds = ds := popLoop_id _ _ h.2.2.1
  apply BigInteger.ext
  · rw [removeLeadingZeros_digits]; exact hp
  · rw [removeLeadingZeros_negative]; simp only [hp]
    by_cases h0 : ds = [0]
    · have := h.2.2.2 h0; simp_all
    · simp [h0]

theorem Digits.append {xs ys : List Int} (hx : Digits xs) (hy : Digits ys) :
    Digits (xs ++ ys) := by
  intro d hd
  rcases List.mem_append.1 hd with h | h
  · exact hx d h
  · exact hy d h

theorem Digits.reverse {xs : List Int} (hx : Digits xs) : Digits xs.reverse :=
  fun d hd => hx d (List.mem_reverse.1 hd)

theorem Digits.of_reverse {xs : List Int} (hx : Digits xs.reverse) : Digits xs :=
  fun d hd => hx d (List.mem_reverse.2 hd)

theorem digVal_ge_pow {ds : List Int} (hd : Digits ds) (hne : ds ≠ []) (hnl : NL ds) :
    10 ^ (ds.length - 1) ≤ digVal ds := by
  rcases List.eq_nil_or_concat ds with rfl | ⟨l, a, rfl⟩
  · exact absurd rfl hne
  · simp only [List.concat_eq_append] at hd hne hnl ⊢
    have ha : 0 ≤ a ∧ a ≤ 9 := hd a (by simp)
    have ha0 : a ≠ 0 := by
      intro h; apply hnl; simp [h]
    have hl : Digits l := fun d h => hd d (by simp [h])
    have := digVal_nonneg hl
    rw [digVal_append]
    simp only [List.length_append, List.length_singleton, Nat.add_sub_cancel, digVal, mul_zero,
      add_zero]
    have hp : (0 : Int) < 10 ^ l.length := by positivity
    have : (10 : Int) ^ l.length * 1 ≤ 10 ^ l.length * a :=
      mul_le_mul_of_nonneg_left (by omega) (le_of_lt hp)
    omega

theorem digVal_inj_len : ∀ {xs ys : List Int}, Digits xs → Digits ys →
    xs.length = ys.length → digVal xs = digVal ys → xs = ys
  | [], [], _, _, _, _ => rfl
  | [], _ :: _, _, _, h, _ => by simp at h
  | _ :: _, [], _, _, h, _ => by simp at h
  | x :: xs, y :: ys, hx, hy, hl, hv => by
    have h1 := hx.head
    have h2 := hy.head
    simp only [digVal] at hv
    have hxy : x = y := by omega
    have : digVal xs = digVal ys := by omega
    rw [hxy, digVal_inj_len hx.tail hy.tail (by simpa using hl) this]

theorem absLessLoop_iff : ∀ (xs ys : List Int), Digits xs → Digits ys →
    xs.length = ys.length →
    (absLessLoop xs ys = true ↔ digVal xs.reverse < digVal ys.reverse)
  | [], [], _, _, _ => by simp [absLessLoop, digVal]
  | [], _ :: _, _, _, h => by simp at h
  | _ :: _, [], _, _, h => by simp at h
  | x :: xs, y :: ys, hx, hy, hl => by
    have hl' : xs.length = ys.length := by simpa using hl
    have ih := absLessLoop_iff xs ys hx.tail hy.tail hl'
    have bx := digVal_lt hx.tail.reverse
    have by' := digVal_lt hy.tail.reverse
    have nx := digVal_nonneg hx.tail.reverse
    have ny := digVal_nonneg hy.tail.reverse
    simp only [List.length_reverse] at bx by'
    simp only [absLessLoop, List.reverse_cons, digVal_append, List.length_reverse, digVal,
      mul_zero, add_zero]
    rw [← hl'] at by' ⊢
    have hp : (0 : Int) < 10 ^ xs.length := by positivity
    by_cases hxy : x = y
    · subst hxy
      simp only [ne_eq, not_true_eq_false, if_false, ih]
      omega
    · simp only [ne_eq, hxy, not_false_eq_true, if_true, decide_eq_true_eq]
      constructor
      · intro hlt
        have : (10 : Int) ^ xs.length * (x + 1) ≤ 10 ^ xs.length * y :=
          mul_le_mul_of_nonneg_left (by omega) (le_of_lt hp)
        rw [mul_add] at this; omega
      · intro hlt
        by_contra hge
        have : (10 : Int) ^ xs.length * (y + 1) ≤ 10 ^ xs.length * x :=
          mul_le_mul_of_nonneg_left (by omega) (le_of_lt hp)
        rw [mul_add] at this; omega

theorem Canonical.mag {a : BigInteger} (h : Canonical a) : Mag a.digits :=
  ⟨h.1, h.2.1, h.2.2.1⟩

theorem Mag.len_lt {xs ys : List Int} (hx : Mag xs) (hy : Mag ys)
    (h : xs.length < ys.length) : digVal xs < digVal ys := by
  have h1 := digVal_lt hx.2.1
  have h2 := digVal_ge_pow hy.2.1 hy.1 (hy.2.2 (by
    have : 0 < xs.length := List.length_pos.2 hx.1
    omega))
  have : (10 : Int) ^ xs.length ≤ 10 ^ (ys.length - 1) :=
    pow_le_pow_right₀ (by norm_num) (by omega)
  omega

theorem Mag.len_eq {xs ys : List Int} (hx : Mag xs) (hy : Mag ys)
    (h : digVal xs = digVal ys) : xs.length = ys.length := by
  rcases Nat.lt_trichotomy xs.length ys.length with h1 | h1 | h1
  · have := hx.len_lt hy h1; omega
  · exact h1
  · have := hy.len_lt hx h1; omega

theorem Mag.inj {xs ys : List Int} (hx : Mag xs) (hy : Mag ys)
    (h : digVal xs = digVal ys) : xs = ys :=
  digVal_inj_len hx.2.1 hy.2.1 (hx.len_eq hy h) h

theorem absLess_iff (a b : BigInteger) (ha : Mag a.digits) (hb : Mag b.digits) :
    a.absLess b = true ↔ digVal a.digits < digVal b.digits := by
  simp only [absLess]
  split
  · rename_i hne
    simp only [decide_eq_true_eq]
    constructor
    · exact fun h => ha.len_lt hb h
    · intro h
      by_contra hge
      have := hb.len_lt ha (by omega)
      omega
  · rename_i heq
    simp only [ne_eq, not_not] at heq
    rw [absLessLoop_iff _ _ ha.2.1.reverse hb.2.1.reverse (by simpa using heq)]
    simp

theorem Mag.eq_zero {ds : List Int} (h : Mag ds) (h0 : digVal ds = 0) : ds = [0] := by
  have hz : Mag [0] := ⟨by simp, by intro d hd; simp at hd; omega, by simp⟩
  exact h.inj hz (by simpa [digVal] using h0)

theorem Canonical.digVal_pos {a : BigInteger} (h : Canonical a) (hn : a.negative = true) :
    0 < digVal a.digits := by
  have := digVal_nonneg h.2.1
  rcases Nat.eq_zero_or_pos (digVal a.digits).toNat with h0 | h0
  · have hz := h.mag.eq_zero (by omega)
    have := h.2.2.2 hz
    simp_all
  · omega

theorem toInt_eq_zero_iff {a : BigInteger} (h : Canonical a) :
    toInt a = 0 ↔ a.digits = [0] := by
  constructor
  · intro h0
    apply h.mag.eq_zero
    simp only [toInt] at h0
    split at h0 <;> omega
  · intro hz
    simp [toInt, hz, digVal]

theorem lt_iff (a b : BigInteger) (ha : Canonical a) (hb : Canonical b) :
    a.lt b = true ↔ toInt a < toInt b := by
  rcases a with ⟨da, sa⟩
  rcases b with ⟨db, sb⟩
  have na : 0 ≤ digVal da := digVal_nonneg ha.2.1
  have nb : 0 ≤ digVal db := digVal_nonneg hb.2.1
  cases sa <;> cases sb
  · simp [lt, toInt, absLess_iff _ _ ha.mag hb.mag]
  · have := hb.digVal_pos rfl
    simp only [lt, toInt]; simp at this ⊢; omega
  · have := ha.digVal_pos rfl
    simp only [lt, toInt]; simp at this ⊢; omega
  · simp only [lt, toInt]; simp [absLess_iff _ _ hb.mag ha.mag]

theorem toInt_inj {a b : BigInteger} (ha : Canonical a) (hb : Canonical b)
    (h : toInt a = toInt b) : a = b := by
  rcases a with ⟨da, sa⟩
  rcases b with ⟨db, sb⟩
  have na : 0 ≤ digVal da := digVal_nonneg ha.2.1
  have nb : 0 ≤ digVal db := digVal_nonneg hb.2.1
  cases sa <;> cases sb
  · simp only [toInt] at h; simp at h; have := ha.mag.inj hb.mag h; simp at this; simp [this]
  · have := hb.digVal_pos rfl
    simp only [toInt] at h; simp at h this; omega
  · have := ha.digVal_pos rfl
    simp only [toInt] at h; simp at h this; omega
  · simp only [toInt] at h; simp at h; have := ha.mag.inj hb.mag h; simp at this; simp [this]

theorem eq_iff (a b : BigInteger) (ha : Canonical a) (hb : Canonical b) :
    a.eq b = true ↔ toInt a = toInt b := by
  constructor
  · intro h
    simp only [eq, Bool.and_eq_true, beq_iff_eq] at h
    rw [BigInteger.ext h.2 h.1]
  · intro h
    rw [toInt_inj ha hb h]
    simp [eq]

theorem canonical_iff (a : BigInteger) :
    Canonical a ↔ Mag a.digits ∧ (a.digits = [0] → a.negative = false) :=
  ⟨fun h => ⟨h.mag, h.2.2.2⟩, fun h => ⟨h.1.1, h.1.2.1, h.1.2.2, h.2⟩⟩

theorem tdiv_tmod (s : Int) : s.tmod 10 + 10 * s.tdiv 10 = s := Int.tmod_add_tdiv s 10

theorem tmod_nonneg {s : Int} (h : 0 ≤ s) : s.tmod 10 = s % 10 :=
  Int.tmod_eq_emod h (by norm_num)

theorem tdiv_nonneg {s : Int} (h : 0 ≤ s) : s.tdiv 10 = s / 10 :=
  Int.tdiv_eq_ediv h (by norm_num)

theorem natAbs_tdiv_lt {c : Int} (h : c ≠ 0) : (c.tdiv 10).natAbs < c.natAbs := by
  rcases le_or_lt 0 c with h0 | h0
  · rw [tdiv_nonneg h0]; omega
  · have : c.tdiv 10 = -((-c) / 10) := by
      have h1 : c = -(-c) := by omega
      conv_lhs => rw [h1, Int.neg_tdiv, tdiv_nonneg (by omega)]
    rw [this]; omega

theorem carryLoop_digVal (fuel : Nat) (c : Int) (h : c.natAbs ≤ fuel) :
    digVal (carryLoop fuel c) = c := by
  induction fuel generalizing c with
  | zero =>
    have : c = 0 := by omega
    simp [carryLoop, digVal, this]
  | succ f ih =>
    simp only [carryLoop]
    split
    · rename_i hc
      have := natAbs_tdiv_lt hc
      rw [digVal, ih _ (by omega)]
      exact tdiv_tmod c
    · rename_i hc
      simp only [ne_eq, not_not] at hc
      simp [digVal, hc]

theorem addRest_digVal (xs : List Int) (c : Int) : digVal (addRest xs c) = digVal xs + c := by
  induction xs generalizing c with
  | nil => simp [addRest, carryLoop_digVal, digVal]
  | cons x xs ih =>
    simp only [addRest, digVal, ih]
    have := tdiv_tmod (c + x)
    omega

theorem addLoop_digVal (xs ys : List Int) (c : Int) :
    digVal (addLoop xs ys c) = digVal xs + digVal ys + c := by
  induction xs generalizing ys c with
  | nil =>
    cases ys with
    | nil => simp [addLoop, addRest_digVal, digVal]
    | cons y ys =>
      have h : addLoop [] (y :: ys) c = addRest (y :: ys) c := rfl
      rw [h, addRest_digVal]; simp [digVal]
  | cons x xs ih =>
    cases ys with
    | nil =>
      have h : addLoop (x :: xs) [] c = addRest (x :: xs) c := rfl
      rw [h, addRest_digVal]; simp [digVal]
    | cons y ys =>
      simp only [addLoop, digVal, ih]
      have := tdiv_tmod (c + x + y)
      omega

theorem carryLoop_bit {c : Int} (h : c = 0 ∨ c = 1) :
    carryLoop c.natAbs c = if c = 0 then [] else [1] := by
  rcases h with rfl | rfl <;> decide

theorem NL.of_cons {x : Int} {xs : List Int} (h : NL (x :: xs)) : NL xs := by
  cases xs with
  | nil => simp [NL]
  | cons y ys => simpa [NL, List.getLast?_cons_cons] using h

theorem NL.cons_iff {x : Int} {xs : List Int} (h : xs ≠ []) : NL (x :: xs) ↔ NL xs := by
  cases xs with
  | nil => exact absurd rfl h
  | cons y ys => simp [NL, List.getLast?_cons_cons]

theorem NL.single {x : Int} : NL [x] ↔ x ≠ 0 := by simp [NL]

theorem addRest_spec (xs : List Int) (c : Int) (hx : Digits xs) (hn : NL xs)
    (hc : c = 0 ∨ c = 1) :
    Digits (addRest xs c) ∧ NL (addRest xs c) ∧ (addRest xs c = [] → xs = [] ∧ c = 0) := by
  induction xs generalizing c with
  | nil =>
    simp only [addRest, carryLoop_bit hc]
    rcases hc with rfl | rfl
    · simp [Digits, NL]
    · simp [Digits, NL]
  | cons x xs ih =>
    have hx0 := hx.head
    have hs : 0 ≤ c + x := by omega
    have hc' : (c + x) / 10 = 0 ∨ (c + x) / 10 = 1 := by omega
    obtain ⟨h1, h2, h3⟩ := ih _ hx.tail hn.of_cons hc'
    simp only [addRest, tmod_nonneg hs, tdiv_nonneg hs]
    refine ⟨?_, ?_, by simp⟩
    · intro d hd
      rcases List.mem_cons.1 hd with rfl | hd
      · omega
      · exact h1 d hd
    · by_cases he : addRest xs ((c + x) / 10) = []
      · obtain ⟨rfl, h0⟩ := h3 he
        rw [he, NL.single]
        have := NL.single.1 hn
        omega
      · exact (NL.cons_iff he).2 h2

theorem addLoop_spec (xs ys : List Int) (c : Int) (hx : Digits xs) (hy : Digits ys)
    (hnx : NL xs) (hny : NL ys) (hc : c = 0 ∨ c = 1) :
    Digits (addLoop xs ys c) ∧ NL (addLoop xs ys c) ∧
      (addLoop xs ys c = [] → xs = [] ∧ ys = [] ∧ c = 0) := by
  induction xs generalizing ys c with
  | nil =>
    cases ys with
    | nil =>
      have := addRest_spec [] c hx hnx hc
      simpa [addLoop] using this
    | cons y ys =>
      have := addRest_spec (y :: ys) c hy hny hc
      simp only [addLoop]
      exact ⟨this.1, this.2.1, fun h => absurd (this.2.2 h).1 (by simp)⟩
  | cons x xs ih =>
    cases ys with
    | nil =>
      have := addRest_spec (x :: xs) c hx hnx hc
      simp only [addLoop]
      exact ⟨this.1, this.2.1, fun h => absurd (this.2.2 h).1 (by simp)⟩
    | cons y ys =>
      have hx0 := hx.head
      have hy0 := hy.head
      have hs : 0 ≤ c + x + y := by omega
      have hc' : (c + x + y) / 10 = 0 ∨ (c + x + y) / 10 = 1 := by omega
      obtain ⟨h1, h2, h3⟩ := ih ys _ hx.tail hy.tail hnx.of_cons hny.of_cons hc'
      simp only [addLoop, tmod_nonneg hs, tdiv_nonneg hs]
      refine ⟨?_, ?_, by simp⟩
      · intro d hd
        rcases List.mem_cons.1 hd with rfl | hd
        · omega
        · exact h1 d hd
      · by_cases he : addLoop xs ys ((c + x + y) / 10) = []
        · obtain ⟨rfl, rfl, h0⟩ := h3 he
          rw [he, NL.single]
          have := NL.single.1 hnx
          have := NL.single.1 hny
          omega
        · exact (NL.cons_iff he).2 h2

theorem subLoop_spec (xs ys : List Int) (b : Int) (hx : Digits xs) (hy : Digits ys)
    (hb : b = 0 ∨ b = 1) (hl : ys.length ≤ xs.length) :
    Digits (subLoop xs ys b) ∧ (subLoop xs ys b).length = xs.length ∧
      ∃ bo : Int, (bo = 0 ∨ bo = 1) ∧
        digVal (subLoop xs ys b) = digVal xs - digVal ys - b + 10 ^ xs.length * bo := by
  induction xs generalizing ys b with
  | nil =>
    have : ys = [] := List.length_eq_zero.1 (by simpa using hl)
    subst this
    refine ⟨by simp [subLoop, Digits], by simp [subLoop], b, hb, ?_⟩
    simp [subLoop, digVal]
  | cons x xs ih =>
    have hx0 := hx.head
    cases ys with
    | nil =>
      simp only [subLoop, List.tail_nil, sub_zero]
      split
      · obtain ⟨h1, h2, bo, h3, h4⟩ := ih [] 1 hx.tail hy (Or.inr rfl) (by simp)
        refine ⟨?_, by simp [h2], bo, h3, ?_⟩
        · intro d hd
          rcases List.mem_cons.1 hd with rfl | hd
          · omega
          · exact h1 d hd
        · simp only [digVal, h4, List.length_cons, pow_succ]; ring
      · obtain ⟨h1, h2, bo, h3, h4⟩ := ih [] 0 hx.tail hy (Or.inl rfl) (by simp)
        refine ⟨?_, by simp [h2], bo, h3, ?_⟩
        · intro d hd
          rcases List.mem_cons.1 hd with rfl | hd
          · omega
          · exact h1 d hd
        · simp only [digVal, h4, List.length_cons, pow_succ]; ring
    | cons y ys =>
      have hy0 := hy.head
      have hl' : ys.length ≤ xs.length := by simpa using hl
      simp only [subLoop, List.tail_cons]
      split
      · obtain ⟨h1, h2, bo, h3, h4⟩ := ih ys 1 hx.tail hy.tail (Or.inr rfl) hl'
        refine ⟨?_, by simp [h2], bo, h3, ?_⟩
        · intro d hd
          rcases List.mem_cons.1 hd with rfl | hd
          · omega
          · exact h1 d hd
        · simp only [digVal, h4, List.length_cons, pow_succ]; ring
      · obtain ⟨h1, h2, bo, h3, h4⟩ := ih ys 0 hx.tail hy.tail (Or.inl rfl) hl'
        refine ⟨?_, by simp [h2], bo, h3, ?_⟩
        · intro d hd
          rcases List.mem_cons.1 hd with rfl | hd
          · omega
          · exact h1 d hd
        · simp only [digVal, h4, List.length_cons, pow_succ]; ring

theorem subLoop_digVal (xs ys : List Int) (hx : Digits xs) (hy : Digits ys)
    (hl : ys.length ≤ xs.length) (hv : digVal ys ≤ digVal xs) :
    digVal (subLoop xs ys 0) = digVal xs - digVal ys := by
  obtain ⟨h1, h2, bo, h3, h4⟩ := subLoop_spec xs ys 0 hx hy (Or.inl rfl) hl
  have h5 := digVal_lt h1
  have h6 := digVal_nonneg hy
  have h7 := digVal_lt hx
  rw [h2] at h5
  rcases h3 with rfl | rfl
  · simpa using h4
  · simp only [mul_one] at h4; omega

theorem absLessLoop_asymm : ∀ (xs ys : List Int), absLessLoop xs ys = true →
    absLessLoop ys xs = false
  | [], _, h => by simp [absLessLoop] at h
  | _ :: _, [], h => by simp [absLessLoop] at h
  | x :: xs, y :: ys, h => by
    simp only [absLessLoop] at h ⊢
    by_cases hxy : x = y
    · subst hxy
      simp only [ne_eq, not_true_eq_false, if_false] at h ⊢
      exact absLessLoop_asymm xs ys h
    · have hyx : ¬ y = x := fun e => hxy e.symm
      simp only [ne_eq, hxy, not_false_eq_true, if_true, decide_eq_true_eq] at h
      simp only [ne_eq, hyx, not_false_eq_true, if_true, decide_eq_false_iff_not]
      omega

theorem absLess_asymm (a b : BigInteger) (h : a.absLess b = true) : b.absLess a = false := by
  simp only [absLess] at h ⊢
  by_cases hl : a.digits.length = b.digits.length
  · simp only [hl, ne_eq, not_true_eq_false, if_false] at h ⊢
    exact absLessLoop_asymm _ _ h
  · have hl' : ¬ b.digits.length = a.digits.length := fun e => hl e.symm
    simp only [ne_eq, hl, not_false_eq_true, if_true, decide_eq_true_eq] at h
    simp only [ne_eq, hl', not_false_eq_true, if_true, decide_eq_false_iff_not]
    omega

theorem abs_lt_abs (a b : BigInteger) : a.abs.lt b.abs = a.absLess b := by
  simp [lt, abs, absLess]

theorem abs_abs (a : BigInteger) : a.abs.abs = a.abs := rfl

theorem abs_digits (a : BigInteger) : a.abs.digits = a.digits := rfl

theorem abs_negative (a : BigInteger) : a.abs.negative = false := rfl

theorem addF_same (f : Nat) (a b : BigInteger) (h : a.negative = b.negative) :
    addF (f + 1) a b = some ⟨addLoop a.digits b.digits 0, a.negative⟩ := by
  simp [addF, h]

theorem subF_same_ge (f : Nat) (a b : BigInteger) (h : a.negative = b.negative)
    (hl : a.absLess b = false) : subF (f + 1) a b = some (subDirect a b) := by
  simp [subF, h, abs_lt_abs, hl, subDirect]

theorem subF_same_lt (f : Nat) (a b : BigInteger) (h : a.negative = b.negative)
    (hl : a.absLess b = true) :
    subF (f + 2) a b = some { subDirect b.abs a.abs with negative := !a.negative } := by
  have h2 := subF_same_ge f b.abs a.abs rfl (absLess_asymm a b hl)
  rw [subF]
  simp [h, abs_lt_abs, hl, h2]

theorem subF_mixed (f : Nat) (a b : BigInteger) (h : a.negative ≠ b.negative) :
    subF (f + 2) a b = some ⟨addLoop a.digits b.digits 0, a.negative⟩ := by
  rw [subF]
  simp [h, addF_same f a.abs b.abs rfl, abs_digits]

theorem subF_two (f : Nat) (a b : BigInteger) : subF (f + 2) a b = subF 2 a b := by
  by_cases h : a.negative = b.negative
  · cases hl : a.absLess b
    · rw [subF_same_ge _ a b h hl, subF_same_ge _ a b h hl]
    · rw [subF_same_lt f a b h hl, subF_same_lt 0 a b h hl]
  · rw [subF_mixed f a b h, subF_mixed 0 a b h]

theorem addF_three (f : Nat) (a b : BigInteger) : addF (f + 3) a b = addF 3 a b := by
  rw [addF, addF]
  simp only [subF_two f, subF_two 0]

/-- Embeds `operator-` returns, whatever its operands: the calls between `operator+` and
`operator-` are nested at most two deep. -/
theorem subF_eq_sub (f : Nat) (a b : BigInteger) : subF (f + 2) a b = some (sub a b) := by
  rw [subF_two, sub]
  by_cases h : a.negative = b.negative
  · cases hl : a.absLess b
    · rw [subF_same_ge _ a b h hl]; rfl
    · rw [subF_same_lt 0 a b h hl]; rfl
  · rw [subF_mixed 0 a b h]; rfl

/-- Embeds `operator+` returns, whatever its operands: the calls between `operator+` and
`operator-` are nested at most three deep. -/
theorem addF_eq_add (f : Nat) (a b : BigInteger) : addF (f + 3) a b = some (add a b) := by
  rw [addF_three, add]
  rw [addF]
  split
  · rfl
  · split <;> rw [subF_eq_sub 0] <;> rfl

/-- The model of `operator+` obeys the recursion of the source. -/
theorem add_unfold (a b : BigInteger) :
    add a b =
      if a.negative = b.negative then ⟨addLoop a.digits b.digits 0, a.negative⟩
      else if a.negative then sub b a.abs
      else sub a b.abs := by
  have h := addF_eq_add 0 a b
  rw [addF] at h
  split at h
  · rename_i h1; rw [if_pos h1]; simpa using h.symm
  · rename_i h1; rw [if_neg h1]
    split at h
    · rename_i h2; rw [if_pos h2]; rw [subF_eq_sub 0] at h; simpa using h.symm
    · rename_i h2; rw [if_neg h2]; rw [subF_eq_sub 0] at h; simpa using h.symm

/-- The model of `operator-` obeys the recursion of the source. -/
theorem sub_unfold (a b : BigInteger) :
    sub a b =
      if a.negative ≠ b.negative then { add a.abs b.abs with negative := a.negative }
      else if a.abs.lt b.abs then { sub b.abs a.abs with negative := !a.negative }
      else removeLeadingZeros ⟨subLoop a.digits b.digits 0, a.negative⟩ := by
  have h := subF_eq_sub 2 a b
  rw [subF] at h
  split at h
  · rename_i h1; rw [if_pos h1]; rw [addF_eq_add 0] at h; simpa using h.symm
  · rename_i h1; rw [if_neg h1]
    split at h
    · rename_i h2; rw [if_pos h2]; rw [subF_eq_sub 1] at h; simpa using h.symm
    · rename_i h2; rw [if_neg h2]; simpa using h.symm

theorem Mag.tail_NL {x : Int} {xs : List Int} (h : Mag (x :: xs)) : NL xs := by
  cases xs with
  | nil => simp [NL]
  | cons y ys => exact (h.2.2 (by simp)).of_cons

theorem digVal_single_zero : digVal [0] = 0 := by simp [digVal]

theorem Mag.canonical {ds : List Int} (h : Mag ds) (s : Bool)
    (hs : s = true → digVal ds ≠ 0) : Canonical ⟨ds, s⟩ := by
  refine ⟨h.1, h.2.1, h.2.2, ?_⟩
  intro h0
  simp only at h0
  cases s with
  | false => rfl
  | true => exact absurd (by rw [h0]; exact digVal_single_zero) (hs rfl)

theorem addLoop_mag {xs ys : List Int} (hx : Mag xs) (hy : Mag ys) :
    Mag (addLoop xs ys 0) := by
  rcases xs with _ | ⟨x, xs⟩
  · exact absurd rfl hx.1
  rcases ys with _ | ⟨y, ys⟩
  · exact absurd rfl hy.1
  have hx0 := hx.2.1.head
  have hy0 := hy.2.1.head
  have hs : 0 ≤ 0 + x + y := by omega
  have hc : (0 + x + y) / 10 = 0 ∨ (0 + x + y) / 10 = 1 := by omega
  obtain ⟨h1, h2, h3⟩ :=
    addLoop_spec xs ys _ hx.2.1.tail hy.2.1.tail hx.tail_NL hy.tail_NL hc
  simp only [addLoop, tmod_nonneg hs, tdiv_nonneg hs]
  refine ⟨by simp, ?_, ?_⟩
  · intro d hd
    rcases List.mem_cons.1 hd with rfl | hd
    · omega
    · exact h1 d hd
  · intro hlen
    have he : addLoop xs ys ((0 + x + y) / 10) ≠ [] := by
      intro he; rw [he] at hlen; simp at hlen
    exact (NL.cons_iff he).2 h2

theorem subDirect_spec (a b : BigInteger) (ha : Mag a.digits) (hb : Mag b.digits)
    (hv : digVal b.digits ≤ digVal a.digits) :
    Canonical (subDirect a b) ∧
      toInt (subDirect a b) =
        if a.negative then -(digVal a.digits - digVal b.digits)
        else digVal a.digits - digVal b.digits := by
  have hl : b.digits.length ≤ a.digits.length := by
    by_contra hlt
    have := ha.len_lt hb (by omega)
    omega
  obtain ⟨h1, h2, -⟩ := subLoop_spec a.digits b.digits 0 ha.2.1 hb.2.1 (Or.inl rfl) hl
  have hne : subLoop a.digits b.digits 0 ≠ [] := by
    intro he
    rw [he] at h2
    exact ha.1 (List.length_eq_zero.1 h2.symm)
  refine ⟨removeLeadingZeros_canonical _ hne h1, ?_⟩
  rw [subDirect, toInt_removeLeadingZeros]
  simp only [toInt, subLoop_digVal _ _ ha.2.1 hb.2.1 hl hv]

theorem sub_same_ge (a b : BigInteger) (h : a.negative = b.negative)
    (hl : a.absLess b = false) : sub a b = subDirect a b := by
  have := subF_eq_sub 0 a b
  rw [subF_same_ge _ a b h hl] at this
  exact (Option.some.inj this).symm

theorem sub_same_lt (a b : BigInteger) (h : a.negative = b.negative)
    (hl : a.absLess b = true) :
    sub a b = { subDirect b.abs a.abs with negative := !a.negative } := by
  have := subF_eq_sub 0 a b
  rw [subF_same_lt _ a b h hl] at this
  exact (Option.some.inj this).symm

theorem sub_mixed (a b : BigInteger) (h : a.negative ≠ b.negative) :
    sub a b = ⟨addLoop a.digits b.digits 0, a.negative⟩ := by
  have := subF_eq_sub 0 a b
  rw [subF_mixed _ a b h] at this
  exact (Option.some.inj this).symm

theorem add_same (a b : BigInteger) (h : a.negative = b.negative) :
    add a b = ⟨addLoop a.digits b.digits 0, a.negative⟩ := by
  rw [add_unfold, if_pos h]

theorem addSame_spec (a b : BigInteger) (ha : Canonical a) (hb : Canonical b) (s : Bool)
    (hs : s = true → a.negative = true ∨ b.negative = true) :
    Canonical ⟨addLoop a.digits b.digits 0, s⟩ ∧
      digVal (addLoop a.digits b.digits 0) = digVal a.digits + digVal b.digits := by
  have hv := addLoop_digVal a.digits b.digits 0
  simp only [add_zero] at hv
  refine ⟨(addLoop_mag ha.mag hb.mag).canonical s ?_, hv⟩
  intro h
  have na := digVal_nonneg ha.2.1
  have nb := digVal_nonneg hb.2.1
  rw [hv]
  rcases hs h with h1 | h1
  · have := ha.digVal_pos h1; omega
  · have := hb.digVal_pos h1; omega

/-- Embeds `operator-` is exact and keeps the canonical form. -/
theorem sub_spec (a b : BigInteger) (ha : Canonical a) (hb : Canonical b) :
    Canonical (sub a b) ∧ toInt (sub a b) = toInt a - toInt b := by
  have na := digVal_nonneg ha.2.1
  have nb := digVal_nonneg hb.2.1
  by_cases h : a.negative = b.negative
  · cases hl : a.absLess b
    · have hv : digVal b.digits ≤ digVal a.digits := by
        have := (absLess_iff a b ha.mag hb.mag).not.1 (by simp [hl])
        omega
      obtain ⟨h1, h2⟩ := subDirect_spec a b ha.mag hb.mag hv
      rw [sub_same_ge a b h hl]
      refine ⟨h1, ?_⟩
      rw [h2]; simp only [toInt, ← h]
      split <;> ring
    · have hv : digVal a.digits < digVal b.digits := (absLess_iff a b ha.mag hb.mag).1 hl
      obtain ⟨h1, h2⟩ := subDirect_spec b.abs a.abs hb.mag ha.mag (le_of_lt hv)
      rw [sub_same_lt a b h hl]
      simp only [abs_negative, abs_digits, Bool.false_eq_true, if_false] at h2
      have h3 : digVal (subDirect b.abs a.abs).digits = digVal b.digits - digVal a.digits := by
        have hn : (subDirect b.abs a.abs).negative = false := by
          rw [subDirect, removeLeadingZeros_negative]; simp [abs_negative]
        simpa [toInt, hn] using h2
      refine ⟨h1.mag.canonical _ (fun _ => by rw [h3]; omega), ?_⟩
      simp only [toInt, h3, ← h]
      cases a.negative <;> simp
      ring
  · rw [sub_mixed a b h]
    obtain ⟨h1, h2⟩ := addSame_spec a b ha hb a.negative (fun hs => Or.inl hs)
    refine ⟨h1, ?_⟩
    simp only [toInt, h2]
    rcases a with ⟨da, sa⟩
    rcases b with ⟨db, sb⟩
    cases sa <;> cases sb <;> simp at h ⊢
    ring

theorem abs_canonical {a : BigInteger} (h : Canonical a) : Canonical a.abs :=
  ⟨h.1, h.2.1, h.2.2.1, fun _ => rfl⟩

theorem toInt_abs {a : BigInteger} : toInt a.abs = digVal a.digits := by
  simp [toInt, abs]

/-- Embeds `operator+` is exact and keeps the canonical form. -/
theorem add_spec (a b : BigInteger) (ha : Canonical a) (hb : Canonical b) :
    Canonical (add a b) ∧ toInt (add a b) = toInt a + toInt b := by
  rw [add_unfold]
  split
  · rename_i h
    obtain ⟨h1, h2⟩ := addSame_spec a b ha hb a.negative (fun hs => Or.inl hs)
    refine ⟨h1, ?_⟩
    simp only [toInt, h2, ← h]
    split <;> ring
  · rename_i h
    split
    · rename_i hn
      obtain ⟨h1, h2⟩ := sub_spec b a.abs hb (abs_canonical ha)
      refine ⟨h1, ?_⟩
      rw [h2, toInt_abs]; simp only [toInt, hn, if_true]; ring
    · rename_i hn
      have hbn : b.negative = true := by
        cases hb' : b.negative
        · simp [hb'] at h; simp [h] at hn
        · rfl
      obtain ⟨h1, h2⟩ := sub_spec a b.abs ha (abs_canonical hb)
      refine ⟨h1, ?_⟩
      rw [h2, toInt_abs]; simp only [toInt, hbn, if_true]; ring

theorem digVal_set : ∀ (res : List Int) (k : Nat) (v r : Int), res[k]? = some r →
    digVal (res.set k v) = digVal res + (v - r) * 10 ^ k
  | [], k, v, r, h => by simp at h
  | a :: res, 0, v, r, h => by
    simp at h; subst h
    simp [digVal]; ring
  | a :: res, k + 1, v, r, h => by
    simp at h
    simp only [List.set_cons_succ, digVal, digVal_set res k v r h, pow_succ]; ring

theorem Digits.set {res : List Int} (h : Digits res) (k : Nat) {v : Int}
    (hv : 0 ≤ v ∧ v ≤ 9) : Digits (res.set k v) := by
  intro d hd
  rcases List.mem_or_eq_of_mem_set hd with h1 | h1
  · exact h d h1
  · rw [h1]; exact hv

theorem Digits.getElem? {res : List Int} (h : Digits res) {k : Nat} {r : Int}
    (hr : res[k]? = some r) : 0 ≤ r ∧ r ≤ 9 :=
  h r (List.getElem?_mem hr)

theorem digVal_drop (other : List Int) (j : Nat) (hj : j < other.length) :
    digVal (other.drop j) = other.getD j 0 + 10 * digVal (other.drop (j + 1)) := by
  rw [List.drop_eq_getElem_cons hj]
  simp [digVal, List.getD_eq_getElem?_getD, List.getElem?_eq_getElem hj]

theorem mulInner_spec (x : Int) (other : List Int) (i L : Nat) (hx : 0 ≤ x ∧ x ≤ 9)
    (ho : Digits other) (hL : i + other.length < L) :
    ∀ (fuel j : Nat) (carry : Int) (res : List Int), j ≤ other.length →
      other.length - j + 2 ≤ fuel → 0 ≤ carry ∧ carry ≤ 9 → Buf res L (i + other.length) →
      ∃ res1, mulInner x other i fuel j carry res = .ok res1 ∧
        Buf res1 L (i + other.length + 1) ∧
        digVal res1 = digVal res + (x * digVal (other.drop j) + carry) * 10 ^ (i + j) := by
  intro fuel
  induction fuel with
  | zero => intro j carry res _ hf; omega
  | succ f ih =>
    intro j carry res hj hf hc hb
    obtain ⟨hd, hlen, hz⟩ := hb
    rcases Nat.lt_or_ge j other.length with hjm | hjm
    · -- a round with a digit of `other`
      have hin : i + j < res.length := by omega
      have hr : res[i + j]? = some res[i + j] := List.getElem?_eq_getElem hin
      have hr0 := hd.getElem? hr
      have ho0 : 0 ≤ other.getD j 0 ∧ other.getD j 0 ≤ 9 := by
        rw [List.getD_eq_getElem?_getD, List.getElem?_eq_getElem hjm]
        exact ho _ (List.getElem_mem _)
      have hcur0 : 0 ≤ res[i + j] + x * other.getD j 0 + carry := by
        have := mul_nonneg hx.1 ho0.1; omega
      have hcur1 : res[i + j] + x * other.getD j 0 + carry ≤ 99 := by
        have : x * other.getD j 0 ≤ 9 * 9 := mul_le_mul hx.2 ho0.2 ho0.1 (by norm_num)
        omega
      have hb1 : Buf (res.set (i + j) ((res[i + j] + x * other.getD j 0 + carry) % 10)) L
          (i + other.length) := by
        refine ⟨hd.set _ (by omega), by simp [hlen], ?_⟩
        intro k r hk hkr
        rw [List.getElem?_set] at hkr
        split at hkr
        · omega
        · exact hz k r hk hkr
      obtain ⟨res1, h1, h2, h3⟩ :=
        ih (j + 1) ((res[i + j] + x * other.getD j 0 + carry) / 10) _ hjm (by omega)
          (by omega) hb1
      refine ⟨res1, ?_, h2, ?_⟩
      · rw [mulInner, if_pos (Or.inl hjm), hr]
        simp only [if_pos hjm, tdiv_nonneg hcur0, tmod_nonneg hcur0]
        exact h1
      · rw [h3, digVal_set _ _ _ _ hr, digVal_drop other j hjm]
        have := Int.emod_add_ediv (res[i + j] + x * other.getD j 0 + carry) 10
        generalize (res[i + j] + x * other.getD j 0 + carry) % 10 = dg at this ⊢
        generalize (res[i + j] + x * other.getD j 0 + carry) / 10 = cr at this ⊢
        have e : dg = res[i + j] + x * other.getD j 0 + carry - 10 * cr := by omega
        rw [e, ← add_assoc i j 1, pow_succ]; ring
    · -- the rounds after the last digit of `other`
      have hjeq : j = other.length := by omega
      subst hjeq
      have hdrop : digVal (other.drop other.length) = 0 := by simp [digVal]
      rw [hdrop]
      by_cases hc0 : carry = 0
      · refine ⟨res, ?_, ⟨hd, hlen, fun k r hk => hz k r (by omega)⟩, by simp [hc0]⟩
        rw [mulInner, if_neg]
        simp [hc0]
      · have hin : i + other.length < res.length := by omega
        have hr : res[i + other.length]? = some res[i + other.length] :=
          List.getElem?_eq_getElem hin
        have hr0 : res[i + other.length] = 0 := hz _ _ (le_refl _) hr
        obtain ⟨f', rfl⟩ : ∃ f', f = f' + 1 := ⟨f - 1, by omega⟩
        refine ⟨res.set (i + other.length) carry, ?_, ⟨hd.set _ hc, by simp [hlen], ?_⟩, ?_⟩
        · rw [mulInner, if_pos (Or.inr hc0), hr]
          have hcur : res[i + other.length] + x * (if other.length < other.length then
              other.getD other.length 0 else 0) + carry = carry := by simp [hr0]
          simp only [hcur, tdiv_nonneg hc.1, tmod_nonneg hc.1]
          rw [mulInner, if_neg]
          · congr 2; omega
          · simp; omega
        · intro k r hk hkr
          rw [List.getElem?_set] at hkr
          split at hkr
          · omega
          · exact hz k r (by omega) hkr
        · rw [digVal_set _ _ _ _ hr, hr0]; ring

theorem mulOuter_spec (other : List Int) (L : Nat) (ho : Digits other) :
    ∀ (xs : List Int) (i : Nat) (res : List Int), Digits xs →
      i + xs.length + other.length ≤ L → Buf res L (i + other.length) →
      ∃ res1, mulOuter other xs i res = .ok res1 ∧ Digits res1 ∧ res1.length = L ∧
        digVal res1 = digVal res + digVal xs * digVal other * 10 ^ i := by
  intro xs
  induction xs with
  | nil =>
    intro i res _ _ hb
    exact ⟨res, rfl, hb.1, hb.2.1, by simp [digVal]⟩
  | cons x xs ih =>
    intro i res hx hL hb
    simp only [List.length_cons] at hL
    obtain ⟨res1, h1, h2, h3⟩ :=
      mulInner_spec x other i L hx.head ho (by omega) (res.length + 1) 0 0 res (Nat.zero_le _)
        (by rw [hb.2.1]; omega) (by omega) hb
    have h2' : Buf res1 L (i + 1 + other.length) := by
      have : i + 1 + other.length = i + other.length + 1 := by omega
      rw [this]; exact h2
    obtain ⟨res2, h4, h5, h6, h7⟩ := ih (i + 1) res1 hx.tail (by omega) h2'
    refine ⟨res2, ?_, h5, h6, ?_⟩
    · rw [mulOuter, h1]; exact h4
    · rw [h7, h3]; simp only [List.drop_zero, add_zero, digVal, pow_succ]; ring

theorem digVal_replicate_zero (n : Nat) : digVal (List.replicate n 0) = 0 := by
  induction n with
  | zero => rfl
  | succ n ih => simp [List.replicate_succ, digVal, ih]

theorem buf_replicate (n z : Nat) : Buf (List.replicate n 0) n z := by
  refine ⟨?_, by simp, ?_⟩
  · intro d hd
    have := List.eq_of_mem_replicate hd
    omega
  · intro k r _ hr
    have := List.getElem?_mem hr
    exact List.eq_of_mem_replicate this

/-- Embeds `operator*` returns a value, is exact and keeps the canonical form. -/
theorem mul_spec (a b : BigInteger) (ha : Canonical a) (hb : Canonical b) :
    ∃ r, mul a b = .ok r ∧ Canonical r ∧ toInt r = toInt a * toInt b := by
  obtain ⟨res, h1, h2, h3, h4⟩ :=
    mulOuter_spec b.digits (a.digits.length + b.digits.length) hb.2.1 a.digits 0
      (List.replicate (a.digits.length + b.digits.length) 0) ha.2.1 (by omega)
      (buf_replicate _ _)
  simp only [digVal_replicate_zero, zero_add, pow_zero, mul_one] at h4
  have hne : res ≠ [] := by
    intro he
    rw [he] at h3
    have := List.length_pos.2 ha.1
    simp at h3; omega
  have hc := removeLeadingZeros_canonical ⟨res, false⟩ hne h2
  have hv : digVal (removeLeadingZeros ⟨res, false⟩).digits = digVal a.digits * digVal b.digits := by
    rw [removeLeadingZeros_digits, popLoop_digVal]; exact h4
  refine ⟨_, by rw [mul, h1], ?_, ?_⟩
  · refine hc.mag.canonical _ ?_
    intro hs
    simp only [Bool.and_eq_true, Bool.not_eq_true', bne_iff_ne] at hs
    intro h0
    have := hc.mag.eq_zero h0
    have := (isZero_iff _).2 this
    simp [this] at hs
  · simp only [toInt, hv]
    by_cases hz : (removeLeadingZeros ⟨res, false⟩).isZero = true
    · have h0 : digVal (removeLeadingZeros ⟨res, false⟩).digits = 0 := by
        rw [(isZero_iff _).1 hz]; exact digVal_single_zero
      rw [hv] at h0
      simp only [hz, Bool.not_true, Bool.and_false, Bool.false_eq_true, if_false]
      rcases mul_eq_zero.1 h0 with h | h <;> simp [h]
    · simp only [Bool.not_eq_true] at hz
      simp only [hz, Bool.not_false, Bool.and_true, bne_iff_ne]
      cases a.negative <;> cases b.negative <;> simp

theorem Canonical.nonneg_of {a : BigInteger} (h : Canonical a) (h0 : 0 ≤ toInt a) :
    a.negative = false := by
  cases hn : a.negative
  · rfl
  · have := h.digVal_pos hn
    simp only [toInt, hn, if_true] at h0
    omega

theorem toInt_of_nonneg {a : BigInteger} (h : a.negative = false) :
    toInt a = digVal a.digits := by
  simp [toInt, h]

theorem divWhile_spec (D : BigInteger) (hD : Canonical D) :
    ∀ (fuel : Nat) (cur : BigInteger) (q : Int), Canonical cur → 0 ≤ toInt cur →
      toInt cur < (fuel : Int) * toInt D →
      ∃ cur1 k, divWhile D fuel cur q = .ok (cur1, q + k) ∧ Canonical cur1 ∧ 0 ≤ k ∧
        toInt cur = k * toInt D + toInt cur1 ∧ 0 ≤ toInt cur1 ∧ toInt cur1 < toInt D := by
  intro fuel
  induction fuel with
  | zero => intro cur q _ h0 h1; simp at h1; omega
  | succ f ih =>
    intro cur q hc h0 h1
    by_cases hlt : cur.lt D = true
    · have := (lt_iff cur D hc hD).1 hlt
      refine ⟨cur, 0, ?_, hc, le_refl _, by simp, h0, this⟩
      rw [divWhile]; simp [hlt]
    · have hge : toInt D ≤ toInt cur := by
        have := (lt_iff cur D hc hD).not.1 hlt
        omega
      obtain ⟨hs1, hs2⟩ := sub_spec cur D hc hD
      have hb : toInt (cur.sub D) < (f : Int) * toInt D := by
        rw [hs2]; push_cast at h1; rw [add_mul] at h1; omega
      obtain ⟨cur1, k, h2, h3, h4, h5, h6, h7⟩ := ih (cur.sub D) (q + 1) hs1 (by omega) hb
      refine ⟨cur1, k + 1, ?_, h3, by omega, ?_, h6, h7⟩
      · rw [divWhile]
        simp only [Bool.not_eq_true] at hlt
        simp only [hlt, Bool.not_false, if_true]
        rw [h2]; congr 2; ring
      · rw [add_mul]; omega

theorem divFor_spec (fuel : Nat) (hf : 10 ≤ fuel) (D : BigInteger) (hD : Canonical D)
    (hD0 : 0 < toInt D) :
    ∀ (ds : List Int) (cur : BigInteger) (res : List Int), Digits ds → Digits cur.digits →
      cur.negative = false → digVal cur.digits < toInt D → Digits res →
      ∃ res1 rem, divFor fuel D ds cur res = .ok res1 ∧ Digits res1 ∧
        res1.length = res.length + ds.length ∧ 0 ≤ rem ∧ rem < toInt D ∧
        digVal res1 * toInt D + rem =
          (digVal res * toInt D + digVal cur.digits) * 10 ^ ds.length + digVal ds.reverse := by
  intro ds
  induction ds with
  | nil =>
    intro cur res _ hc _ hlt hr
    exact ⟨res, digVal cur.digits, rfl, hr, rfl, digVal_nonneg hc, hlt, by simp [digVal]⟩
  | cons d ds ih =>
    intro cur res hds hc hn hlt hr
    have hd0 := hds.head
    have hdc : Digits (d :: cur.digits) := by
      intro e he
      rcases List.mem_cons.1 he with rfl | he
      · exact hd0
      · exact hc e he
    have hcan := removeLeadingZeros_canonical { cur with digits := d :: cur.digits }
      (by simp) hdc
    have hval : toInt (removeLeadingZeros { cur with digits := d :: cur.digits }) =
        d + 10 * digVal cur.digits := by
      rw [toInt_removeLeadingZeros]; simp [toInt, hn, digVal]
    have hcn := digVal_nonneg hc
    obtain ⟨cur1, k, h1, h2, h3, h4, h5, h6⟩ :=
      divWhile_spec D hD fuel _ 0 hcan (by rw [hval]; omega)
        (by
          rw [hval]
          have : (10 : Int) * toInt D ≤ (fuel : Int) * toInt D :=
            mul_le_mul_of_nonneg_right (by exact_mod_cast hf) (le_of_lt hD0)
          omega)
    rw [hval] at h4
    have hk : k ≤ 9 := by
      by_contra hk
      have : (10 : Int) * toInt D ≤ k * toInt D :=
        mul_le_mul_of_nonneg_right (by omega) (le_of_lt hD0)
      omega
    have hn1 := h2.nonneg_of h5
    have hr1 : Digits (k :: res) := by
      intro e he
      rcases List.mem_cons.1 he with rfl | he
      · exact ⟨h3, hk⟩
      · exact hr e he
    rw [toInt_of_nonneg hn1] at h4 h6
    obtain ⟨res1, rem, h7, h8, h9, h10, h11, h12⟩ := ih cur1 (k :: res) hds.tail h2.2.1 hn1 h6 hr1
    refine ⟨res1, rem, ?_, h8, by simp [h9]; omega, h10, h11, ?_⟩
    · rw [divFor, h1]; simp only [zero_add]; exact h7
    · rw [h12]
      simp only [digVal, List.reverse_cons, digVal_append, List.length_reverse, List.length_cons,
        pow_succ, mul_zero, add_zero]
      have e : digVal cur1.digits = d + 10 * digVal cur.digits - k * toInt D := by omega
      rw [e]; ring

theorem ofLongLong_zero : ofLongLong 0 = ⟨[0], false⟩ := by decide

theorem canonical_zero : Canonical ⟨[0], false⟩ := by decide

theorem tdiv_signs (x y : Int) (sa sb : Bool) (hx : 0 ≤ x) (hy : 0 ≤ y) :
    (if sa then -x else x).tdiv (if sb then -y else y) =
      if (sa != sb) then -(x / y) else x / y := by
  cases sa <;> cases sb <;>
    simp [Int.tdiv_neg, Int.neg_tdiv, Int.tdiv_eq_ediv hx hy]

/-- Embeds `operator/` with a non-zero divisor returns the quotient rounded toward zero, in
canonical form, as soon as the inner loop is given ten rounds. -/
theorem div_spec (fuel : Nat) (hf : 10 ≤ fuel) (a b : BigInteger) (ha : Canonical a)
    (hb : Canonical b) (hb0 : toInt b ≠ 0) :
    ∃ q, div fuel a b = .ok q ∧ Canonical q ∧ toInt q = (toInt a).tdiv (toInt b) := by
  have hz : b.isZero = false := by
    cases h : b.isZero
    · rfl
    · exact absurd ((toInt_eq_zero_iff hb).2 ((isZero_iff b).1 h)) hb0
  have na := digVal_nonneg ha.2.1
  have nb := digVal_nonneg hb.2.1
  have pb : 0 < digVal b.digits := by
    rcases Nat.eq_zero_or_pos (digVal b.digits).toNat with h0 | h0
    · exact absurd ((toInt_eq_zero_iff hb).2 (hb.mag.eq_zero (by omega))) hb0
    · omega
  have hquot : (toInt a).tdiv (toInt b) =
      if (a.negative != b.negative) then -(digVal a.digits / digVal b.digits)
      else digVal a.digits / digVal b.digits := by
    simp only [toInt]; exact tdiv_signs _ _ _ _ na nb
  rw [hquot]
  by_cases hlt : a.abs.lt b.abs = true
  · refine ⟨⟨[0], false⟩, ?_, canonical_zero, ?_⟩
    · rw [div]; simp [hz, hlt, ofLongLong_zero]
    · rw [abs_lt_abs, absLess_iff a b ha.mag hb.mag] at hlt
      have : digVal a.digits / digVal b.digits = 0 := Int.ediv_eq_zero_of_lt na hlt
      simp [toInt, digVal, this]
  · obtain ⟨res, rem, h1, h2, h3, h4, h5, h6⟩ :=
      divFor_spec fuel hf b.abs (abs_canonical hb) (by rw [toInt_abs]; exact pb)
        a.abs.digits.reverse ⟨[], false⟩ [] ha.mag.2.1.reverse (by intro d hd; simp at hd) rfl
        (by rw [toInt_abs]; simpa [digVal] using pb) (by intro d hd; simp at hd)
    simp only [digVal, zero_mul, add_zero, List.length_reverse, List.reverse_reverse,
      abs_digits, toInt_abs, List.length_nil, zero_add] at h3 h5 h6
    have hq : digVal a.digits / digVal b.digits = digVal res := by
      have := (Int.ediv_emod_unique pb).2
        ⟨show rem + digVal b.digits * digVal res = digVal a.digits by rw [← h6]; ring, h4, h5⟩
      exact this.1
    have hne : res ≠ [] := by
      intro he
      rw [he] at h3
      have := List.length_pos.2 ha.1
      simp at h3; omega
    have hc := removeLeadingZeros_canonical ⟨res, false⟩ hne h2
    have hv : digVal (removeLeadingZeros ⟨res, false⟩).digits = digVal res := by
      rw [removeLeadingZeros_digits, popLoop_digVal]
    have hdiv : div fuel a b = .ok { removeLeadingZeros ⟨res, false⟩ with
        negative := (a.negative != b.negative) && !(removeLeadingZeros ⟨res, false⟩).isZero } := by
      rw [div]; simp only [hz, hlt]; simp only [Bool.false_eq_true, if_false, h1]
    refine ⟨_, hdiv, ?_, ?_⟩
    · refine hc.mag.canonical _ ?_
      intro hs
      simp only [Bool.and_eq_true, Bool.not_eq_true', bne_iff_ne] at hs
      intro h0
      have := (isZero_iff _).2 (hc.mag.eq_zero h0)
      simp [this] at hs
    · simp only [toInt, hv, hq]
      by_cases hz' : (removeLeadingZeros ⟨res, false⟩).isZero = true
      · have h0 : digVal res = 0 := by
          rw [← hv, (isZero_iff _).1 hz']; exact digVal_single_zero
        simp [hz', h0]
      · simp only [Bool.not_eq_true] at hz'
        simp only [hz', Bool.not_false, Bool.and_true]

/-- Embeds `operator%` with a non-zero divisor returns the truncated remainder, in canonical form. -/
theorem mod_spec (fuel : Nat) (hf : 10 ≤ fuel) (a b : BigInteger) (ha : Canonical a)
    (hb : Canonical b) (hb0 : toInt b ≠ 0) :
    ∃ r, mod fuel a b = .ok r ∧ Canonical r ∧ toInt r = (toInt a).tmod (toInt b) := by
  obtain ⟨q, h1, h2, h3⟩ := div_spec fuel hf a b ha hb hb0
  obtain ⟨p, h4, h5, h6⟩ := mul_spec q b h2 hb
  obtain ⟨h7, h8⟩ := sub_spec a p ha h5
  refine ⟨a.sub p, by rw [mod, h1]; simp only [h4], h7, ?_⟩
  rw [h8, h6, h3]
  have := Int.tmod_add_tdiv (toInt a) (toInt b)
  rw [mul_comm]; omega

theorem neg_tmod_int (a b : Int) : (-a).tmod b = -(a.tmod b) := by
  rw [Int.tmod_def, Int.tmod_def, Int.neg_tdiv]; ring

/-- The truncated remainder is zero or has the sign of the dividend, and is smaller
than the divisor in magnitude. -/
theorem tmod_range (a b : Int) (hb : b ≠ 0) :
    (0 ≤ a → 0 ≤ a.tmod b ∧ a.tmod b < |b|) ∧ (a ≤ 0 → -|b| < a.tmod b ∧ a.tmod b ≤ 0) := by
  have key : ∀ x : Int, 0 ≤ x → 0 ≤ x.tmod b ∧ x.tmod b < |b| := by
    intro x hx
    refine ⟨Int.tmod_nonneg b hx, ?_⟩
    rcases lt_or_gt_of_ne hb with h | h
    · rw [abs_of_neg h, ← Int.tmod_neg]
      exact Int.tmod_lt_of_pos x (by omega)
    · rw [abs_of_pos h]
      exact Int.tmod_lt_of_pos x h
  refine ⟨key a, ?_⟩
  intro ha
  have := key (-a) (by omega)
  rw [neg_tmod_int] at this
  omega

/-- The adjustment of `performFloorDiv` turns the truncated quotient into the floor
quotient: the remainder that belongs to it has the sign of the divisor. -/
theorem floor_adjust (a b : Int) (hb : b ≠ 0) (c : Bool)
    (hc : c = true ↔ (a.tmod b ≠ 0 ∧ ¬ ((a < 0) ↔ (b < 0)))) :
    (0 < b → 0 ≤ a - (a.tdiv b - if c then 1 else 0) * b ∧
        a - (a.tdiv b - if c then 1 else 0) * b < b) ∧
      (b < 0 → b < a - (a.tdiv b - if c then 1 else 0) * b ∧
        a - (a.tdiv b - if c then 1 else 0) * b ≤ 0) := by
  have hr := tmod_range a b hb
  have hd := Int.tmod_def a b
  have e : ∀ k : Int, a - (a.tdiv b - k) * b = a.tmod b + k * b := by
    intro k; rw [hd]; ring
  rw [e]
  constructor
  · intro hpos
    rw [abs_of_pos hpos] at hr
    cases c
    · have hc' := hc.not.1 (by simp)
      simp only [Bool.false_eq_true, if_false, zero_mul, add_zero]
      by_cases h0 : a.tmod b = 0
      · omega
      · have : (a < 0) ↔ (b < 0) := by
          by_contra h; exact hc' ⟨h0, h⟩
        have := hr.1 (by omega)
        omega
    · have hc' := hc.1 rfl
      simp only [if_true, one_mul]
      have ha : a < 0 := by
        by_contra h; exact hc'.2 ⟨fun h' => absurd h' h, fun h' => by omega⟩
      have := hr.2 (by omega)
      omega
  · intro hneg
    rw [abs_of_neg hneg] at hr
    cases c
    · have hc' := hc.not.1 (by simp)
      simp only [Bool.false_eq_true, if_false, zero_mul, add_zero]
      by_cases h0 : a.tmod b = 0
      · omega
      · have : (a < 0) ↔ (b < 0) := by
          by_contra h; exact hc' ⟨h0, h⟩
        have := hr.2 (by omega)
        omega
    · have hc' := hc.1 rfl
      simp only [if_true, one_mul]
      have ha : ¬ a < 0 := by
        intro h; exact hc'.2 ⟨fun _ => hneg, fun _ => h⟩
      have := hr.1 (by omega)
      omega

theorem isNegative_iff {a : BigInteger} (h : Canonical a) :
    a.isNegative = true ↔ toInt a < 0 := by
  have na := digVal_nonneg h.2.1
  simp only [isNegative, Bool.and_eq_true, Bool.not_eq_true']
  constructor
  · rintro ⟨hn, -⟩
    have := h.digVal_pos hn
    simp only [toInt, hn, if_true]; omega
  · intro hlt
    cases hn : a.negative
    · simp only [toInt, hn] at hlt; simp at hlt; omega
    · refine ⟨rfl, ?_⟩
      cases hz : a.isZero
      · rfl
      · have := h.2.2.2 ((isZero_iff a).1 hz)
        simp [hn] at this

theorem isZero_iff_toInt {a : BigInteger} (h : Canonical a) :
    a.isZero = true ↔ toInt a = 0 := by
  rw [isZero_iff, toInt_eq_zero_iff h]

theorem ofLongLong_one : ofLongLong 1 = ⟨[1], false⟩ := by decide

theorem canonical_one : Canonical ⟨[1], false⟩ := by decide

theorem toInt_one : toInt ⟨[1], false⟩ = 1 := by decide

theorem floorQuot_spec (a b q0 r0 : BigInteger) (ha : Canonical a) (hb : Canonical b)
    (hq : Canonical q0) (hr : Canonical r0) (hb0 : toInt b ≠ 0)
    (hq0 : toInt q0 = (toInt a).tdiv (toInt b)) (hr0 : toInt r0 = (toInt a).tmod (toInt b)) :
    Canonical (floorQuot a b q0 r0) ∧
      (0 < toInt b → 0 ≤ toInt a - toInt (floorQuot a b q0 r0) * toInt b ∧
        toInt a - toInt (floorQuot a b q0 r0) * toInt b < toInt b) ∧
      (toInt b < 0 → toInt b < toInt a - toInt (floorQuot a b q0 r0) * toInt b ∧
        toInt a - toInt (floorQuot a b q0 r0) * toInt b ≤ 0) := by
  have hc : (!r0.isZero && (a.isNegative != b.isNegative)) = true ↔
      ((toInt a).tmod (toInt b) ≠ 0 ∧ ¬ ((toInt a < 0) ↔ (toInt b < 0))) := by
    rw [← hr0, ← isNegative_iff ha, ← isNegative_iff hb, ne_eq, ← isZero_iff_toInt hr]
    cases r0.isZero <;> cases a.isNegative <;> cases b.isNegative <;> simp
  have hs := sub_spec q0 (ofLongLong 1) hq (by rw [ofLongLong_one]; exact canonical_one)
  rw [ofLongLong_one, toInt_one] at hs
  have hv : toInt (floorQuot a b q0 r0) = (toInt a).tdiv (toInt b) -
      if (!r0.isZero && (a.isNegative != b.isNegative)) then 1 else 0 := by
    rw [floorQuot]
    split
    · rw [ofLongLong_one, hs.2, hq0]
    · rw [hq0]; simp
  refine ⟨?_, ?_⟩
  · rw [floorQuot]; split
    · rw [ofLongLong_one]; exact hs.1
    · exact hq
  · rw [hv]
    exact floor_adjust (toInt a) (toInt b) hb0 _ hc

theorem digit_cases {d : Int} (h : 0 ≤ d ∧ d ≤ 9) :
    d = 0 ∨ d = 1 ∨ d = 2 ∨ d = 3 ∨ d = 4 ∨ d = 5 ∨ d = 6 ∨ d = 7 ∨ d = 8 ∨ d = 9 := by
  omega

theorem charDigit_digitChar {d : Int} (h : 0 ≤ d ∧ d ≤ 9) : charDigit (digitChar d) = d := by
  rcases digit_cases h with rfl | rfl | rfl | rfl | rfl | rfl | rfl | rfl | rfl | rfl <;> decide

theorem digitChar_eq_core {d : Int} (h : 0 ≤ d ∧ d ≤ 9) :
    digitChar d = Nat.digitChar d.toNat := by
  rcases digit_cases h with rfl | rfl | rfl | rfl | rfl | rfl | rfl | rfl | rfl | rfl <;> decide

theorem digitChar_ne_sign {d : Int} (h : 0 ≤ d ∧ d ≤ 9) :
    digitChar d ≠ '-' ∧ digitChar d ≠ '+' := by
  rcases digit_cases h with rfl | rfl | rfl | rfl | rfl | rfl | rfl | rfl | rfl | rfl <;> decide

theorem digitChar_eq_zero {d : Int} (h : 0 ≤ d ∧ d ≤ 9) (h0 : digitChar d = '0') : d = 0 := by
  rcases digit_cases h with rfl | rfl | rfl | rfl | rfl | rfl | rfl | rfl | rfl | rfl <;>
    first | rfl | exact absurd h0 (by decide)

theorem map_charDigit_digitChar {ds : List Int} (h : Digits ds) :
    (ds.map digitChar).map charDigit = ds := by
  induction ds with
  | nil => rfl
  | cons d ds ih =>
    simp only [List.map_cons, charDigit_digitChar h.head, ih h.tail]

/-- A magnitude that is not the single digit zero denotes a positive integer. -/
theorem Mag.pos {ds : List Int} (h : Mag ds) (h0 : ds ≠ [0]) : 0 < digVal ds := by
  have := digVal_nonneg h.2.1
  rcases Nat.eq_zero_or_pos (digVal ds).toNat with hz | hz
  · exact absurd (h.eq_zero (by omega)) h0
  · omega

theorem Mag.tail_mag {d : Int} {ds : List Int} (h : Mag (d :: ds)) (hne : ds ≠ []) :
    Mag ds ∧ ds ≠ [0] := by
  have hnl : NL (d :: ds) := h.2.2 (by
    have := List.length_pos.2 hne
    simp; omega)
  have hnl' : NL ds := (NL.cons_iff hne).1 hnl
  refine ⟨⟨hne, h.2.1.tail, fun _ => hnl'⟩, ?_⟩
  intro h0
  rw [h0] at hnl'
  exact hnl' rfl

/-- The decimal printer of the Lean core gives the digits of a magnitude. -/
theorem toDigitsCore_mag : ∀ (ds : List Int) (fuel : Nat) (acc : List Char), Mag ds →
    (digVal ds).toNat < fuel →
    Nat.toDigitsCore 10 fuel (digVal ds).toNat acc = (ds.reverse.map digitChar) ++ acc
  | [], _, _, h, _ => absurd rfl h.1
  | d :: ds, 0, _, _, hf => by omega
  | d :: ds, fuel + 1, acc, h, hf => by
    have hd := h.2.1.head
    have hnn := digVal_nonneg h.2.1.tail
    have hv : digVal (d :: ds) = d + 10 * digVal ds := rfl
    have e1 : (digVal (d :: ds)).toNat % 10 = d.toNat := by omega
    have e2 : (digVal (d :: ds)).toNat / 10 = (digVal ds).toNat := by omega
    rw [Nat.toDigitsCore]
    simp only [e1, e2]
    by_cases hne : ds = []
    · subst hne
      simp [digVal, digitChar_eq_core hd]
    · obtain ⟨hm, h0⟩ := h.tail_mag hne
      have hp := hm.pos h0
      have hnz : (digVal ds).toNat ≠ 0 := by omega
      rw [if_neg hnz, toDigitsCore_mag ds fuel _ hm (by omega)]
      simp [digitChar_eq_core hd]

theorem nat_repr_mag {ds : List Int} (h : Mag ds) :
    Nat.repr (digVal ds).toNat = String.mk (ds.reverse.map digitChar) := by
  rw [Nat.repr, Nat.toDigits, toDigitsCore_mag ds _ [] h (by omega)]
  simp [List.asString]

/-- `toString` is the decimal text of the Lean core for the denoted integer. -/
theorem toString_eq_repr {a : BigInteger} (h : Canonical a) :
    a.toString = (toInt a).repr := by
  by_cases hz : a.digits = [0]
  · have hn := h.2.2.2 hz
    have : toInt a = 0 := (toInt_eq_zero_iff h).2 hz
    rw [this, toString]
    simp [hz]
    rfl
  · have hp := h.mag.pos hz
    have hcond : ¬ (a.digits = [] ∨ (a.digits.length = 1 ∧ a.digits.head? = some 0)) := by
      rintro (h1 | ⟨h1, h2⟩)
      · exact h.1 h1
      · apply hz
        rcases a with ⟨ds, s⟩
        rcases ds with _ | ⟨x, _ | ⟨y, t⟩⟩ <;> simp_all
    rw [toString, if_neg hcond]
    cases hs : a.negative
    · have e : toInt a = Int.ofNat (digVal a.digits).toNat := by
        simp only [toInt, hs]; simp; omega
      rw [e, Int.repr, nat_repr_mag h.mag]
      simp
    · obtain ⟨m, hm⟩ : ∃ m : Nat, (digVal a.digits).toNat = m + 1 :=
        ⟨(digVal a.digits).toNat - 1, by omega⟩
      have e : toInt a = Int.negSucc m := by
        simp only [toInt, hs, if_true]
        rw [Int.negSucc_eq]; omega
      rw [e, Int.repr, Nat.succ_eq_add_one, ← hm, nat_repr_mag h.mag]
      simp only [if_true]
      rfl

theorem toString_data_of_ne_zero {a : BigInteger} (h : Canonical a) (hz : a.digits ≠ [0]) :
    a.toString = String.mk ((if a.negative then ['-'] else []) ++
      a.digits.reverse.map digitChar) := by
  have hcond : ¬ (a.digits = [] ∨ (a.digits.length = 1 ∧ a.digits.head? = some 0)) := by
    rintro (h1 | ⟨h1, h2⟩)
    · exact h.1 h1
    · apply hz
      rcases a with ⟨ds, s⟩
      rcases ds with _ | ⟨x, _ | ⟨y, t⟩⟩ <;> simp_all
  rw [toString, if_neg hcond]

/-- Reading back the text of a canonical `BigInteger` gives the `BigInteger`. -/
theorem ofString_toString {a : BigInteger} (h : Canonical a) : ofString a.toString = a := by
  by_cases hz : a.digits = [0]
  · have hn := h.2.2.2 hz
    have e : a = ⟨[0], false⟩ := BigInteger.ext hz hn
    rw [e]; decide
  · rw [toString_data_of_ne_zero h hz]
    obtain ⟨l, t, hl⟩ : ∃ l t, a.digits = l ++ [t] := by
      rcases List.eq_nil_or_concat a.digits with h0 | ⟨l, t, h0⟩
      · exact absurd h0 h.1
      · exact ⟨l, t, by rw [h0, List.concat_eq_append]⟩
    have ht : 0 ≤ t ∧ t ≤ 9 := h.2.1 t (by rw [hl]; simp)
    have hrev : a.digits.reverse.map digitChar = digitChar t :: l.reverse.map digitChar := by
      rw [hl]; simp
    have hback : ((a.digits.reverse.map digitChar).reverse).map charDigit = a.digits := by
      rw [← List.map_reverse, List.reverse_reverse, map_charDigit_digitChar h.2.1]
    have hns := digitChar_ne_sign ht
    cases hs : a.negative
    · have hne0 : ¬ (digitChar t = '0' ∧ l = []) := by
        rintro ⟨h1, h2⟩
        apply hz
        rw [hl, h2, digitChar_eq_zero ht h1]; rfl
      have hstr : ¬ ((String.mk (([] : List Char) ++ a.digits.reverse.map digitChar)).data = [] ∨
          String.mk (([] : List Char) ++ a.digits.reverse.map digitChar) = "0") := by
        rw [hrev]
        rintro (h1 | h1)
        · simp at h1
        · have := congrArg String.data h1
          simp at this
          exact hne0 ⟨this.1, by simpa using this.2⟩
      simp only [Bool.false_eq_true, if_false]
      rw [ofString, if_neg hstr]
      simp only [List.nil_append]
      have hhead : (a.digits.reverse.map digitChar).head? = some (digitChar t) := by
        rw [hrev]; rfl
      simp only [hhead, Option.some.injEq, hns.1, hns.2, or_self, if_false, List.drop_zero,
        decide_False, hback]
      have := removeLeadingZeros_of_canonical a h
      rw [← hs]; exact this
    · have hstr : ¬ ((String.mk (['-'] ++ a.digits.reverse.map digitChar)).data = [] ∨
          String.mk (['-'] ++ a.digits.reverse.map digitChar) = "0") := by
        rintro (h1 | h1)
        · simp at h1
        · have := congrArg String.data h1
          simp at this
      simp only [if_true]
      rw [ofString, if_neg hstr]
      simp only [List.singleton_append, List.head?_cons, true_or, if_true, List.drop_succ_cons,
        List.drop_zero, decide_True, hback]
      have := removeLeadingZeros_of_canonical a h
      rw [← hs]; exact this

theorem isDigit_range {c : Char} (h : c.isDigit = true) : 48 ≤ c.toNat ∧ c.toNat ≤ 57 := by
  simp only [Char.isDigit, Bool.and_eq_true, decide_eq_true_eq] at h
  have h1 : (48 : UInt32).toNat ≤ c.val.toNat := h.1
  have h2 : c.val.toNat ≤ (57 : UInt32).toNat := h.2
  exact ⟨h1, h2⟩

theorem charDigit_of_isDigit {c : Char} (h : c.isDigit = true) :
    0 ≤ charDigit c ∧ charDigit c ≤ 9 ∧ charDigit c = ((c.toNat - 48 : Nat) : Int) := by
  have := isDigit_range h
  simp only [charDigit]
  omega

theorem isDigit_ne_sign {c : Char} (h : c.isDigit = true) : c ≠ '-' ∧ c ≠ '+' := by
  have := isDigit_range h
  constructor
  · rintro rfl; revert this; decide
  · rintro rfl; revert this; decide

theorem foldl_decimal (cs : List Char) (hd : ∀ c ∈ cs, c.isDigit = true) (acc : Nat) :
    ((cs.foldl (fun n c => 10 * n + (c.toNat - 48)) acc : Nat) : Int) =
      acc * 10 ^ cs.length + digVal (cs.reverse.map charDigit) := by
  induction cs generalizing acc with
  | nil => simp [digVal]
  | cons c cs ih =>
    have hc := charDigit_of_isDigit (hd c (List.mem_cons_self _ _))
    rw [List.foldl_cons, ih (fun x hx => hd x (List.mem_cons_of_mem _ hx))]
    simp only [List.reverse_cons, List.map_append, List.map_cons, List.map_nil, digVal_append,
      digVal, List.length_map, List.length_reverse, List.length_cons, pow_succ, mul_zero,
      add_zero, hc.2.2]
    push_cast
    ring

theorem digVal_reverse_chars (cs : List Char) (hd : ∀ c ∈ cs, c.isDigit = true) :
    digVal (cs.reverse.map charDigit) = decimalValue cs := by
  have := foldl_decimal cs hd 0
  simp only [Nat.cast_zero, zero_mul, zero_add] at this
  rw [decimalValue, this]

theorem digits_of_chars (cs : List Char) (hd : ∀ c ∈ cs, c.isDigit = true) :
    Digits (cs.reverse.map charDigit) := by
  intro d h
  obtain ⟨c, hc, rfl⟩ := List.mem_map.1 h
  have := charDigit_of_isDigit (hd c (List.mem_reverse.1 hc))
  exact ⟨this.1, this.2.1⟩

/-- The string constructor on an optional sign followed by decimal digits. -/
theorem ofString_signed (sign : List Char) (cs : List Char)
    (hs : sign = [] ∨ sign = ['+'] ∨ sign = ['-']) (hne : cs ≠ [])
    (hd : ∀ c ∈ cs, c.isDigit = true) :
    Canonical (ofString (String.mk (sign ++ cs))) ∧
      toInt (ofString (String.mk (sign ++ cs))) =
        if sign = ['-'] then -(decimalValue cs : Int) else (decimalValue cs : Int) := by
  obtain ⟨c, t, rfl⟩ : ∃ c t, cs = c :: t := by
    cases cs with
    | nil => exact absurd rfl hne
    | cons c t => exact ⟨c, t, rfl⟩
  have hc := isDigit_ne_sign (hd c (List.mem_cons_self _ _))
  have hdig := digits_of_chars (c :: t) hd
  have hval := digVal_reverse_chars (c :: t) hd
  have hnn : ((c :: t).reverse.map charDigit) ≠ [] := by simp
  by_cases h0 : String.mk (sign ++ c :: t) = "0"
  · have hdata := congrArg String.data h0
    have hsign : sign = [] := by
      rcases hs with rfl | rfl | rfl
      · rfl
      · simp at hdata
      · simp at hdata
    subst hsign
    have hct : c = '0' ∧ t = [] := by simpa using hdata
    rw [hct.1, hct.2]
    decide
  · have hstr : ¬ ((String.mk (sign ++ c :: t)).data = [] ∨ String.mk (sign ++ c :: t) = "0") := by
      rintro (h1 | h1)
      · simp at h1
      · exact h0 h1
    rw [ofString, if_neg hstr]
    rcases hs with rfl | rfl | rfl
    · simp only [List.nil_append, List.head?_cons, Option.some.injEq, hc.1, hc.2, or_self,
        if_false, List.drop_zero, decide_False]
      refine ⟨removeLeadingZeros_canonical _ hnn hdig, ?_⟩
      rw [toInt_removeLeadingZeros]
      simp only [toInt, hval]
      simp
    · simp only [List.singleton_append, List.head?_cons, Option.some.injEq, or_true, if_true,
        List.drop_succ_cons, List.drop_zero]
      refine ⟨removeLeadingZeros_canonical _ hnn hdig, ?_⟩
      rw [toInt_removeLeadingZeros]
      simp only [toInt, hval]
      simp
    · simp only [List.singleton_append, List.head?_cons, true_or, if_true,
        List.drop_succ_cons, List.drop_zero, decide_True]
      refine ⟨removeLeadingZeros_canonical _ hnn hdig, ?_⟩
      rw [toInt_removeLeadingZeros]
      simp only [toInt, hval]
      simp

theorem pushLoop_spec (fuel : Nat) (n : Int) (hn : 0 < n) (hf : n.toNat ≤ fuel) :
    Digits (pushLoop fuel n) ∧ NL (pushLoop fuel n) ∧ pushLoop fuel n ≠ [] ∧
      digVal (pushLoop fuel n) = n := by
  induction fuel generalizing n with
  | zero => omega
  | succ f ih =>
    rw [pushLoop, if_pos hn, tmod_nonneg (le_of_lt hn), tdiv_nonneg (le_of_lt hn)]
    by_cases h0 : n / 10 = 0
    · have hp : pushLoop f (n / 10) = [] := by
        rw [h0]; cases f <;> simp [pushLoop]
      rw [hp]
      refine ⟨?_, ?_, by simp, ?_⟩
      · intro d hd; simp at hd; omega
      · rw [NL.single]; omega
      · simp [digVal]; omega
    · obtain ⟨h1, h2, h3, h4⟩ := ih (n / 10) (by omega) (by omega)
      refine ⟨?_, (NL.cons_iff h3).2 h2, by simp, ?_⟩
      · intro d hd
        rcases List.mem_cons.1 hd with rfl | hd
        · omega
        · exact h1 d hd
      · rw [digVal, h4]; omega

/-- The integer constructor on every `long long` but the most negative one. -/
theorem ofLongLong_spec (n : Int) (h1 : -(2 : Int) ^ 63 < n) (h2 : n < (2 : Int) ^ 63) :
    Canonical (ofLongLong n) ∧ toInt (ofLongLong n) = n := by
  by_cases h0 : n = 0
  · subst h0; decide
  · have hl : llabs n = if n < 0 then -n else n := by
      rw [llabs, wrapLL]
      norm_num at h1 h2 ⊢
      split <;> omega
    have hpos : 0 < llabs n := by rw [hl]; split <;> omega
    obtain ⟨p1, p2, p3, p4⟩ := pushLoop_spec (llabs n).toNat (llabs n) hpos (le_refl _)
    rw [ofLongLong, if_neg h0]
    refine ⟨Mag.canonical ⟨p3, p1, fun _ => p2⟩ _ (fun _ => by rw [p4]; omega), ?_⟩
    simp only [toInt, p4, hl, decide_eq_true_eq]
    split <;> simp_all

theorem neg_canonical {a : BigInteger} (h : Canonical a) :
    Canonical a.neg ∧ toInt a.neg = -toInt a := by
  rw [neg]
  by_cases hz : a.isZero = true
  · simp only [hz, Bool.not_true, Bool.false_eq_true, if_false]
    exact ⟨h, by rw [(isZero_iff_toInt h).1 hz]; rfl⟩
  · simp only [Bool.not_eq_true] at hz
    simp only [hz, Bool.not_false, if_true]
    have hne : a.digits ≠ [0] := by
      intro h0; rw [(isZero_iff a).2 h0] at hz; exact absurd hz (by simp)
    refine ⟨Mag.canonical h.mag _ (fun _ => ne_of_gt (h.mag.pos hne)), ?_⟩
    simp only [toInt]
    cases a.negative <;> simp



end BigInteger

/-! ## Claims -/

open BigInteger

/-! ### Operators on two Ints -/

theorem performFloorDiv_int {F : Type} (ops : DoubleOps F) (fuel : Nat) (a b q0 r0 : BigInteger)
    (hq : a.div fuel b = .ok q0) (hr : a.mod fuel b = .ok r0) :
    performFloorDiv ops fuel (.int a) (.int b) = .ok (.int (floorQuot a b q0 r0)) := by
  simp only [performFloorDiv, hq, hr, floorQuot]
  split <;> rfl

theorem performMod_int {F : Type} (ops : DoubleOps F) (fuel : Nat) (a b q0 r0 p : BigInteger)
    (hq : a.div fuel b = .ok q0) (hr : a.mod fuel b = .ok r0)
    (hp : (floorQuot a b q0 r0).mul b = .ok p) :
    performMod ops fuel (.int a) (.int b) = .ok (.int (a.sub p)) := by
  simp only [performMod, hq, hr]
  rw [floorQuot] at hp
  simp only [hp]

/-- Floor division and modulo of two Ints with a non-zero divisor. -/
theorem floorDivMod_spec {F : Type} (ops : DoubleOps F) (fuel : Nat) (hf : 10 ≤ fuel)
    (a b : BigInteger) (ha : Canonical a) (hb : Canonical b) (hb0 : toInt b ≠ 0) :
    ∃ q r, performFloorDiv ops fuel (.int a) (.int b) = .ok (.int q) ∧
      performMod ops fuel (.int a) (.int b) = .ok (.int r) ∧ Canonical q ∧ Canonical r ∧
      toInt q * toInt b + toInt r = toInt a ∧
      (0 < toInt b → 0 ≤ toInt r ∧ toInt r < toInt b) ∧
      (toInt b < 0 → toInt b < toInt r ∧ toInt r ≤ 0) := by
  obtain ⟨q0, h1, h2, h3⟩ := div_spec fuel hf a b ha hb hb0
  obtain ⟨r0, h4, h5, h6⟩ := mod_spec fuel hf a b ha hb hb0
  obtain ⟨h7, h8, h9⟩ := floorQuot_spec a b q0 r0 ha hb h2 h5 hb0 h3 h6
  obtain ⟨p, h10, h11, h12⟩ := mul_spec (floorQuot a b q0 r0) b h7 hb
  obtain ⟨h13, h14⟩ := sub_spec a p ha h11
  refine ⟨_, _, performFloorDiv_int ops fuel a b q0 r0 h1 h4,
    performMod_int ops fuel a b q0 r0 p h1 h4 h10, h7, h13, ?_, ?_, ?_⟩
  · rw [h14, h12]; ring
  · rw [h14, h12]; exact h8
  · rw [h14, h12]; exact h9

/-- The results of `//` and `%` on two small Ints, from their values. -/
theorem floorDivMod_example {F : Type} (ops : DoubleOps F) (fuel : Nat) (hf : 10 ≤ fuel)
    (a b q r : BigInteger) (ha : Canonical a) (hb : Canonical b) (hq : Canonical q)
    (hr : Canonical r) (hb0 : 0 < toInt b) (h : toInt q * toInt b + toInt r = toInt a)
    (h0 : 0 ≤ toInt r) (h1 : toInt r < toInt b) :
    performFloorDiv ops fuel (.int a) (.int b) = .ok (.int q) ∧
      performMod ops fuel (.int a) (.int b) = .ok (.int r) := by
  obtain ⟨q', r', h2, h3, h4, h5, h6, h7, -⟩ :=
    floorDivMod_spec ops fuel hf a b ha hb (by omega)
  have h8 := h7 hb0
  have hrr : toInt r' = toInt r := by
    have e1 : (toInt q' - toInt q) * toInt b = toInt r - toInt r' := by
      rw [sub_mul]; omega
    rcases lt_trichotomy (toInt q') (toInt q) with hlt | heq | hgt
    · have : (toInt q' - toInt q) * toInt b ≤ (-1) * toInt b :=
        mul_le_mul_of_nonneg_right (by omega) (le_of_lt hb0)
      omega
    · rw [heq] at e1; simp at e1; omega
    · have : 1 * toInt b ≤ (toInt q' - toInt q) * toInt b :=
        mul_le_mul_of_nonneg_right (by omega) (le_of_lt hb0)
      omega
  have hqq : toInt q' = toInt q := by
    have e1 : (toInt q' - toInt q) * toInt b = 0 := by rw [sub_mul]; omega
    rcases mul_eq_zero.1 e1 with h9 | h9 <;> omega
  rw [h2, h3, toInt_inj h4 hq hqq, toInt_inj h5 hr hrr]
  exact ⟨rfl, rfl⟩

/-- C1: for all Int values a and b with b != 0, `(a // b) * b + (a % b) == a`, and the
remainder of `%` takes the sign of the divisor: `0 <= a % b < |b|` when `b > 0` and
`-|b| < a % b <= 0` when `b < 0`; so `10 // 3 = 3`, `10 % 3 = 1`, `-10 // 3 = -4`,
`-10 % 3 = 2`. The inner loop of the division needs ten rounds of fuel. -/
theorem C1_floor_div_mod {F : Type} (ops : DoubleOps F) (fuel : Nat) (hf : 10 ≤ fuel)
    (a b : BigInteger) (ha : Canonical a) (hb : Canonical b) (hb0 : toInt b ≠ 0) :
    (∃ q r, performFloorDiv ops fuel (.int a) (.int b) = .ok (.int q) ∧
      performMod ops fuel (.int a) (.int b) = .ok (.int r) ∧ Canonical q ∧ Canonical r ∧
      toInt q * toInt b + toInt r = toInt a ∧
      (0 < toInt b → 0 ≤ toInt r ∧ toInt r < |toInt b|) ∧
      (toInt b < 0 → -|toInt b| < toInt r ∧ toInt r ≤ 0) ∧
      ∃ p, performMul ops fuel (.int q) (.int b) = .ok (.int p) ∧
        performAdd ops fuel (.int p) (.int r) = .ok (.int (p.add r)) ∧
        performCompare ops (.int (p.add r)) (.int a) "==" = .bool true) ∧
    performFloorDiv ops fuel (.int (ofString "10")) (.int (ofString "3")) =
      .ok (.int (ofString "3")) ∧
    performMod ops fuel (.int (ofString "10")) (.int (ofString "3")) =
      .ok (.int (ofString "1")) ∧
    performFloorDiv ops fuel (.int (ofString "10").neg) (.int (ofString "3")) =
      .ok (.int (ofString "-4")) ∧
    performMod ops fuel (.int (ofString "10").neg) (.int (ofString "3")) =
      .ok (.int (ofString "2")) := by
  refine ⟨?_, ?_⟩
  · obtain ⟨q, r, h1, h2, h3, h4, h5, h6, h7⟩ := floorDivMod_spec ops fuel hf a b ha hb hb0
    obtain ⟨p, h8, h9, h10⟩ := mul_spec q b h3 hb
    obtain ⟨h11, h12⟩ := add_spec p r h9 h4
    refine ⟨q, r, h1, h2, h3, h4, h5, ?_, ?_, p, ?_, rfl, ?_⟩
    · intro hpos; rw [abs_of_pos hpos]; exact h6 hpos
    · intro hneg; rw [abs_of_neg hneg]
      have := h7 hneg
      omega
    · simp only [performMul, h8]
    · have he : (p.add r).eq a = true :=
        (eq_iff _ _ h11 ha).2 (by rw [h12, h10]; exact h5)
      simp [performCompare, compareEq, he]
  · have e1 := floorDivMod_example ops fuel hf (ofString "10") (ofString "3") (ofString "3")
      (ofString "1") (by decide) (by decide) (by decide) (by decide) (by decide) (by decide)
      (by decide) (by decide)
    have e2 := floorDivMod_example ops fuel hf (ofString "10").neg (ofString "3")
      (ofString "-4") (ofString "2") (by decide) (by decide) (by decide) (by decide)
      (by decide) (by decide) (by decide) (by decide)
    exact ⟨e1.1, e1.2, e2.1, e2.2⟩

/-- C1 at `a = -7`, `b = 2`. -/
theorem C1_floor_div_mod_witness :
    (10 ≤ 10 ∧ Canonical (ofString "-7") ∧ Canonical (ofString "2") ∧
      toInt (ofString "2") ≠ 0) ∧
    ((∃ q r, performFloorDiv DoubleOps.trivial 10 (.int (ofString "-7")) (.int (ofString "2")) =
        .ok (.int q) ∧
      performMod DoubleOps.trivial 10 (.int (ofString "-7")) (.int (ofString "2")) =
        .ok (.int r) ∧ Canonical q ∧ Canonical r ∧
      toInt q * toInt (ofString "2") + toInt r = toInt (ofString "-7") ∧
      (0 < toInt (ofString "2") → 0 ≤ toInt r ∧ toInt r < |toInt (ofString "2")|) ∧
      (toInt (ofString "2") < 0 → -|toInt (ofString "2")| < toInt r ∧ toInt r ≤ 0) ∧
      ∃ p, performMul DoubleOps.trivial 10 (.int q) (.int (ofString "2")) = .ok (.int p) ∧
        performAdd DoubleOps.trivial 10 (.int p) (.int r) = .ok (.int (p.add r)) ∧
        performCompare DoubleOps.trivial (.int (p.add r)) (.int (ofString "-7")) "==" =
          .bool true) ∧
    performFloorDiv DoubleOps.trivial 10 (.int (ofString "10")) (.int (ofString "3")) =
      .ok (.int (ofString "3")) ∧
    performMod DoubleOps.trivial 10 (.int (ofString "10")) (.int (ofString "3")) =
      .ok (.int (ofString "1")) ∧
    performFloorDiv DoubleOps.trivial 10 (.int (ofString "10").neg) (.int (ofString "3")) =
      .ok (.int (ofString "-4")) ∧
    performMod DoubleOps.trivial 10 (.int (ofString "10").neg) (.int (ofString "3")) =
      .ok (.int (ofString "2"))) :=
  ⟨⟨by decide, by decide, by decide, by decide⟩,
    C1_floor_div_mod DoubleOps.trivial 10 (by decide) (ofString "-7") (ofString "2")
      (by decide) (by decide) (by decide)⟩

/-- C2: BigInt multiplication is exact: for all canonical BigInts a and b, of any
length and sign, `a * b` returns a value, and the integer it denotes is the product of
the integers denoted by a and b; `123456789 * 987654321` is `121932631112635269`. -/
theorem C2_mul_exact {F : Type} (ops : DoubleOps F) (fuel : Nat) (a b : BigInteger)
    (ha : Canonical a) (hb : Canonical b) :
    (∃ r, a.mul b = .ok r ∧ toInt r = toInt a * toInt b ∧
      performMul ops fuel (.int a) (.int b) = .ok (.int r)) ∧
    (ofString "123456789").mul (ofString "987654321") =
      .ok (ofString "121932631112635269") := by
  refine ⟨?_, by decide!⟩
  obtain ⟨r, h1, -, h3⟩ := mul_spec a b ha hb
  exact ⟨r, h1, h3, by simp only [performMul, h1]⟩

/-- C2 at `a = -12`, `b = 34`. -/
theorem C2_mul_exact_witness :
    (Canonical (ofString "-12") ∧ Canonical (ofString "34")) ∧
    ((∃ r, (ofString "-12").mul (ofString "34") = .ok r ∧
      toInt r = toInt (ofString "-12") * toInt (ofString "34") ∧
      performMul DoubleOps.trivial 0 (.int (ofString "-12")) (.int (ofString "34")) =
        .ok (.int r)) ∧
    (ofString "123456789").mul (ofString "987654321") =
      .ok (ofString "121932631112635269")) :=
  ⟨⟨by decide, by decide⟩,
    C2_mul_exact DoubleOps.trivial 0 (ofString "-12") (ofString "34") (by decide) (by decide)⟩

/-- C3: BigInt addition and subtraction are exact for every combination of signs and
lengths: for all canonical BigInts a and b, `a + b` denotes `value(a) + value(b)` and
`a - b` denotes `value(a) - value(b)`; the calls of the two operators to each other
end, three levels of calls being enough for `+` and two for `-`. -/
theorem C3_add_sub_exact {F : Type} (ops : DoubleOps F) (fuel : Nat) (a b : BigInteger)
    (ha : Canonical a) (hb : Canonical b) :
    toInt (a.add b) = toInt a + toInt b ∧ toInt (a.sub b) = toInt a - toInt b ∧
    (∀ n, addF (n + 3) a b = some (a.add b)) ∧ (∀ n, subF (n + 2) a b = some (a.sub b)) ∧
    performAdd ops fuel (.int a) (.int b) = .ok (.int (a.add b)) ∧
    performSub ops (.int a) (.int b) = .int (a.sub b) :=
  ⟨(add_spec a b ha hb).2, (sub_spec a b ha hb).2, fun n => addF_eq_add n a b,
    fun n => subF_eq_sub n a b, rfl, rfl⟩

/-- C3 at `a = -12`, `b = 345`. -/
theorem C3_add_sub_exact_witness :
    (Canonical (ofString "-12") ∧ Canonical (ofString "345")) ∧
    (toInt ((ofString "-12").add (ofString "345")) =
        toInt (ofString "-12") + toInt (ofString "345") ∧
      toInt ((ofString "-12").sub (ofString "345")) =
        toInt (ofString "-12") - toInt (ofString "345") ∧
      (∀ n, addF (n + 3) (ofString "-12") (ofString "345") =
        some ((ofString "-12").add (ofString "345"))) ∧
      (∀ n, subF (n + 2) (ofString "-12") (ofString "345") =
        some ((ofString "-12").sub (ofString "345"))) ∧
      performAdd DoubleOps.trivial 0 (.int (ofString "-12")) (.int (ofString "345")) =
        .ok (.int ((ofString "-12").add (ofString "345"))) ∧
      performSub DoubleOps.trivial (.int (ofString "-12")) (.int (ofString "345")) =
        .int ((ofString "-12").sub (ofString "345"))) :=
  ⟨⟨by decide, by decide⟩,
    C3_add_sub_exact DoubleOps.trivial 0 (ofString "-12") (ofString "345") (by decide)
      (by decide)⟩

/-- C4: BigInt `/` and `%` are the truncated primitives: for all canonical BigInts a
and b with b != 0, `a / b` denotes the quotient of `value(a)` by `value(b)` rounded
toward zero (its magnitude is the floor of `|value(a)| / |value(b)|`), and `a % b`
denotes `value(a) - (a / b) * value(b)`, which is zero or has the sign of a and has a
magnitude below `|b|`. The inner loop of the division needs ten rounds of fuel. -/
theorem C4_div_mod_truncated (fuel : Nat) (hf : 10 ≤ fuel) (a b : BigInteger)
    (ha : Canonical a) (hb : Canonical b) (hb0 : toInt b ≠ 0) :
    ∃ q r, a.div fuel b = .ok q ∧ a.mod fuel b = .ok r ∧
      toInt q = (toInt a).tdiv (toInt b) ∧
      (toInt q).natAbs = (toInt a).natAbs / (toInt b).natAbs ∧
      toInt r = toInt a - toInt q * toInt b ∧
      (toInt r = 0 ∨ (0 < toInt r ∧ 0 < toInt a) ∨ (toInt r < 0 ∧ toInt a < 0)) ∧
      |toInt r| < |toInt b| := by
  obtain ⟨q, h1, -, h3⟩ := div_spec fuel hf a b ha hb hb0
  obtain ⟨r, h4, -, h6⟩ := mod_spec fuel hf a b ha hb hb0
  have hr := tmod_range (toInt a) (toInt b) hb0
  rw [← h6] at hr
  refine ⟨q, r, h1, h4, h3, ?_, ?_, ?_, ?_⟩
  · rw [h3, Int.natAbs_tdiv]; rfl
  · rw [h6, h3, Int.tmod_def]; ring
  · rcases lt_trichotomy (toInt a) 0 with h | h | h
    · have := hr.2 (by omega); omega
    · have := hr.1 (by omega); have := hr.2 (by omega); omega
    · have := hr.1 (by omega); omega
  · rcases le_or_lt 0 (toInt a) with h | h
    · have := hr.1 h
      rw [abs_of_nonneg this.1]; exact this.2
    · have := hr.2 (by omega)
      rw [abs_of_nonpos this.2]; omega

/-- C4 at `a = -17`, `b = 5`. -/
theorem C4_div_mod_truncated_witness :
    (10 ≤ 10 ∧ Canonical (ofString "-17") ∧ Canonical (ofString "5") ∧
      toInt (ofString "5") ≠ 0) ∧
    ∃ q r, (ofString "-17").div 10 (ofString "5") = .ok q ∧
      (ofString "-17").mod 10 (ofString "5") = .ok r ∧
      toInt q = (toInt (ofString "-17")).tdiv (toInt (ofString "5")) ∧
      (toInt q).natAbs = (toInt (ofString "-17")).natAbs / (toInt (ofString "5")).natAbs ∧
      toInt r = toInt (ofString "-17") - toInt q * toInt (ofString "5") ∧
      (toInt r = 0 ∨ (0 < toInt r ∧ 0 < toInt (ofString "-17")) ∨
        (toInt r < 0 ∧ toInt (ofString "-17") < 0)) ∧
      |toInt r| < |toInt (ofString "5")| :=
  ⟨⟨by decide, by decide, by decide, by decide⟩,
    C4_div_mod_truncated 10 (by decide) (ofString "-17") (ofString "5") (by decide)
      (by decide) (by decide)⟩

/-! ### Division by zero -/

theorem divWhile_no_raise (D : BigInteger) (fuel : Nat) (cur : BigInteger) (q : Int) :
    divWhile D fuel cur q ≠ .error .divisionByZero := by
  induction fuel generalizing cur q with
  | zero => simp [divWhile]
  | succ f ih =>
    rw [divWhile]
    split
    · exact ih _ _
    · simp

theorem divFor_no_raise (fuel : Nat) (D : BigInteger) (ds : List Int) (cur : BigInteger)
    (res : List Int) : divFor fuel D ds cur res ≠ .error .divisionByZero := by
  induction ds generalizing cur res with
  | nil => simp [divFor]
  | cons d ds ih =>
    rw [divFor]
    split
    · rename_i e he
      intro h
      injection h with h
      rw [h] at he
      exact divWhile_no_raise _ _ _ _ he
    · exact ih _ _

theorem div_no_raise (fuel : Nat) (a b : BigInteger) (hz : b.isZero = false) :
    a.div fuel b ≠ .error .divisionByZero := by
  rw [BigInteger.div]
  simp only [hz, Bool.false_eq_true, if_false]
  split
  · simp
  · split
    · rename_i e he
      intro h
      injection h with h
      rw [h] at he
      exact divFor_no_raise _ _ _ _ _ he
    · simp

theorem mulInner_no_raise (x : Int) (other : List Int) (i fuel j : Nat) (carry : Int)
    (res : List Int) : mulInner x other i fuel j carry res ≠ .error .divisionByZero := by
  induction fuel generalizing j carry res with
  | zero => simp [mulInner]
  | succ f ih =>
    rw [mulInner]
    split
    · split
      · simp
      · exact ih _ _ _
    · simp

theorem mulOuter_no_raise (other xs : List Int) (i : Nat) (res : List Int) :
    mulOuter other xs i res ≠ .error .divisionByZero := by
  induction xs generalizing i res with
  | nil => simp [mulOuter]
  | cons x xs ih =>
    rw [mulOuter]
    split
    · rename_i e he
      intro h
      injection h with h
      rw [h] at he
      exact mulInner_no_raise _ _ _ _ _ _ _ he
    · exact ih _ _

theorem mul_no_raise (a b : BigInteger) : a.mul b ≠ .error .divisionByZero := by
  rw [BigInteger.mul]
  split
  · rename_i e he
    intro h
    injection h with h
    rw [h] at he
    exact mulOuter_no_raise _ _ _ _ he
  · simp

theorem mod_no_raise (fuel : Nat) (a b : BigInteger) (hz : b.isZero = false) :
    a.mod fuel b ≠ .error .divisionByZero := by
  rw [BigInteger.mod]
  split
  · rename_i e he
    intro h
    injection h with h
    rw [h] at he
    exact div_no_raise fuel a b hz he
  · split
    · rename_i e he
      intro h
      injection h with h
      rw [h] at he
      exact mul_no_raise _ _ he
    · simp

theorem performFloorDiv_no_raise {F : Type} (ops : DoubleOps F) (fuel : Nat)
    (a b : BigInteger) (hz : b.isZero = false) :
    performFloorDiv ops fuel (.int a) (.int b) ≠ .error .divisionByZero := by
  simp only [performFloorDiv]
  split
  · rename_i e he
    intro h
    injection h with h
    rw [h] at he
    exact div_no_raise fuel a b hz he
  · split
    · rename_i e he
      intro h
      injection h with h
      rw [h] at he
      exact mod_no_raise fuel a b hz he
    · split <;> simp

theorem performMod_no_raise {F : Type} (ops : DoubleOps F) (fuel : Nat)
    (a b : BigInteger) (hz : b.isZero = false) :
    performMod ops fuel (.int a) (.int b) ≠ .error .divisionByZero := by
  simp only [performMod]
  split
  · rename_i e he
    intro h
    injection h with h
    rw [h] at he
    exact div_no_raise fuel a b hz he
  · split
    · rename_i e he
      intro h
      injection h with h
      rw [h] at he
      exact mod_no_raise fuel a b hz he
    · split
      · rename_i e he
        intro h
        injection h with h
        rw [h] at he
        exact mul_no_raise _ _ he
      · simp

/-- C5: integer division by zero fails: for every BigInt a and every zero divisor,
`a / 0` and `a % 0` raise the division-by-zero error instead of returning a value, and
so do `Int // Int` and `Int % Int`; for a divisor that is not zero none of the four
raises the error (for operands of any form), and on canonical operands, with ten rounds
of fuel for the inner loop of the division, each of them returns a value. -/
theorem C5_division_by_zero {F : Type} (ops : DoubleOps F) (fuel : Nat) (a b : BigInteger) :
    (b.isZero = true →
      a.div fuel b = .error .divisionByZero ∧ a.mod fuel b = .error .divisionByZero ∧
      performFloorDiv ops fuel (.int a) (.int b) = .error .divisionByZero ∧
      performMod ops fuel (.int a) (.int b) = .error .divisionByZero) ∧
    (b.isZero = false →
      a.div fuel b ≠ .error .divisionByZero ∧ a.mod fuel b ≠ .error .divisionByZero ∧
      performFloorDiv ops fuel (.int a) (.int b) ≠ .error .divisionByZero ∧
      performMod ops fuel (.int a) (.int b) ≠ .error .divisionByZero) ∧
    (b.isZero = false → Canonical a → Canonical b → 10 ≤ fuel →
      ∃ q r fq fr, a.div fuel b = .ok q ∧ a.mod fuel b = .ok r ∧
        performFloorDiv ops fuel (.int a) (.int b) = .ok (.int fq) ∧
        performMod ops fuel (.int a) (.int b) = .ok (.int fr)) := by
  refine ⟨?_, ?_, ?_⟩
  · intro hz
    have h1 : a.div fuel b = .error .divisionByZero := by simp [BigInteger.div, hz]
    have h2 : a.mod fuel b = .error .divisionByZero := by simp [BigInteger.mod, h1]
    exact ⟨h1, h2, by simp [performFloorDiv, h1], by simp [performMod, h1]⟩
  · intro hz
    exact ⟨div_no_raise fuel a b hz, mod_no_raise fuel a b hz,
      performFloorDiv_no_raise ops fuel a b hz, performMod_no_raise ops fuel a b hz⟩
  · intro hz ha hb hf
    have hb0 : toInt b ≠ 0 := by
      intro h
      rw [(isZero_iff_toInt hb).2 h] at hz
      exact absurd hz (by simp)
    obtain ⟨q, h1, -, -⟩ := div_spec fuel hf a b ha hb hb0
    obtain ⟨r, h2, -, -⟩ := mod_spec fuel hf a b ha hb hb0
    obtain ⟨fq, fr, h3, h4, -⟩ := floorDivMod_spec ops fuel hf a b ha hb hb0
    exact ⟨q, r, fq, fr, h1, h2, h3, h4⟩

/-- C5 at `a = 7` with the divisors `0` and `2`. -/
theorem C5_division_by_zero_witness :
    ((ofString "0").isZero = true ∧
      (ofString "7").div 10 (ofString "0") = .error .divisionByZero ∧
      (ofString "7").mod 10 (ofString "0") = .error .divisionByZero ∧
      performFloorDiv DoubleOps.trivial 10 (.int (ofString "7")) (.int (ofString "0")) =
        .error .divisionByZero ∧
      performMod DoubleOps.trivial 10 (.int (ofString "7")) (.int (ofString "0")) =
        .error .divisionByZero) ∧
    ((ofString "2").isZero = false ∧ Canonical (ofString "7") ∧ Canonical (ofString "2") ∧
      10 ≤ 10 ∧
      ((ofString "7").div 10 (ofString "2") ≠ .error .divisionByZero ∧
        (ofString "7").mod 10 (ofString "2") ≠ .error .divisionByZero ∧
        performFloorDiv DoubleOps.trivial 10 (.int (ofString "7")) (.int (ofString "2")) ≠
          .error .divisionByZero ∧
        performMod DoubleOps.trivial 10 (.int (ofString "7")) (.int (ofString "2")) ≠
          .error .divisionByZero) ∧
      ∃ q r fq fr, (ofString "7").div 10 (ofString "2") = .ok q ∧
        (ofString "7").mod 10 (ofString "2") = .ok r ∧
        performFloorDiv DoubleOps.trivial 10 (.int (ofString "7")) (.int (ofString "2")) =
          .ok (.int fq) ∧
        performMod DoubleOps.trivial 10 (.int (ofString "7")) (.int (ofString "2")) =
          .ok (.int fr)) :=
  ⟨⟨by decide,
      (C5_division_by_zero DoubleOps.trivial 10 (ofString "7") (ofString "0")).1 (by decide)⟩,
    by decide, by decide, by decide, by decide,
    (C5_division_by_zero DoubleOps.trivial 10 (ofString "7") (ofString "2")).2.1 (by decide),
    (C5_division_by_zero DoubleOps.trivial 10 (ofString "7") (ofString "2")).2.2 (by decide)
      (by decide) (by decide) (by decide)⟩

theorem decide_lt_not_le (x y : Int) : decide (y < x) = !decide (x ≤ y) := by
  by_cases h : x ≤ y
  · simp [h, not_lt.2 h]
  · simp [h, not_le.1 h]

/-- C8: BigInt comparison agrees with the integers: for all canonical BigInts a and b,
`a < b` holds exactly when `value(a) < value(b)` and `a == b` exactly when
`value(a) = value(b)`; `>`, `<=`, `>=`, `!=` are the matching integer relations, exactly
one of `a < b`, `a == b`, `b < a` holds, and the Int,Int cases of the six comparison
operators of the language return the integer comparison as a Bool. -/
theorem C8_compare_total_order {F : Type} (ops : DoubleOps F) (a b : BigInteger)
    (ha : Canonical a) (hb : Canonical b) :
    (a.lt b = true ↔ toInt a < toInt b) ∧ (a.eq b = true ↔ toInt a = toInt b) ∧
    (a.gt b = true ↔ toInt b < toInt a) ∧ (a.le b = true ↔ toInt a ≤ toInt b) ∧
    (a.ge b = true ↔ toInt b ≤ toInt a) ∧ (a.ne b = true ↔ toInt a ≠ toInt b) ∧
    ((a.lt b = true ∧ a.eq b = false ∧ b.lt a = false) ∨
      (a.lt b = false ∧ a.eq b = true ∧ b.lt a = false) ∨
      (a.lt b = false ∧ a.eq b = false ∧ b.lt a = true)) ∧
    performCompare ops (.int a) (.int b) "<" = .bool (decide (toInt a < toInt b)) ∧
    performCompare ops (.int a) (.int b) "<=" = .bool (decide (toInt a ≤ toInt b)) ∧
    performCompare ops (.int a) (.int b) ">" = .bool (decide (toInt b < toInt a)) ∧
    performCompare ops (.int a) (.int b) ">=" = .bool (decide (toInt b ≤ toInt a)) ∧
    performCompare ops (.int a) (.int b) "==" = .bool (decide (toInt a = toInt b)) ∧
    performCompare ops (.int a) (.int b) "!=" = .bool (decide (toInt a ≠ toInt b)) := by
  have h1 := lt_iff a b ha hb
  have h2 := eq_iff a b ha hb
  have h3 := lt_iff b a hb ha
  have e1 : a.lt b = decide (toInt a < toInt b) := by
    cases h : a.lt b
    · exact (decide_eq_false (by rw [← h1, h]; simp)).symm
    · exact (decide_eq_true (h1.1 h)).symm
  have e2 : a.eq b = decide (toInt a = toInt b) := by
    cases h : a.eq b
    · exact (decide_eq_false (by rw [← h2, h]; simp)).symm
    · exact (decide_eq_true (h2.1 h)).symm
  have e3 : b.lt a = decide (toInt b < toInt a) := by
    cases h : b.lt a
    · exact (decide_eq_false (by rw [← h3, h]; simp)).symm
    · exact (decide_eq_true (h3.1 h)).symm
  refine ⟨h1, h2, ?_, ?_, ?_, ?_, ?_, ?_, ?_, ?_, ?_, ?_, ?_⟩
  · rw [BigInteger.gt, e3]; simp
  · rw [BigInteger.le, e3]; simp
  · rw [BigInteger.ge, e1]; simp
  · rw [BigInteger.ne, e2]; simp
  · rw [e1, e2, e3]
    rcases lt_trichotomy (toInt a) (toInt b) with h | h | h
    · left; simp; omega
    · right; left; simp; omega
    · right; right; simp; omega
  · simp [performCompare, compareLt, e1]
  · simp only [performCompare, compareLt, e3, Value.boolVal]
    simp [decide_lt_not_le]
  · simp [performCompare, compareLt, e3]
  · simp only [performCompare, compareLt, e1, Value.boolVal]
    simp [decide_lt_not_le]
  · simp [performCompare, compareEq, e2]
  · simp [performCompare, compareEq, e2, Value.boolVal]

/-- C8 at `a = -12`, `b = 7`. -/
theorem C8_compare_total_order_witness :
    (Canonical (ofString "-12") ∧ Canonical (ofString "7")) ∧
    ((ofString "-12").lt (ofString "7") = true ↔ toInt (ofString "-12") < toInt (ofString "7")) ∧
    ((ofString "-12").eq (ofString "7") = true ↔ toInt (ofString "-12") = toInt (ofString "7")) :=
  ⟨⟨by decide, by decide⟩,
    (C8_compare_total_order DoubleOps.trivial (ofString "-12") (ofString "7") (by decide)
      (by decide)).1,
    (C8_compare_total_order DoubleOps.trivial (ofString "-12") (ofString "7") (by decide)
      (by decide)).2.1⟩

/-- C6 (code defect): canonical form is meant to be an invariant of BigInt, but the
constructor from a machine integer breaks it on the most negative `long long`:
`std::abs` overflows there and gives the same negative number again, the digit loop
`while (num > 0)` does not run, and the value has no digit at all and a negative sign.
It is not canonical, not zero for `isZero`, and prints as `0`. -/
theorem C6_long_long_min_not_canonical :
    ofLongLong (-9223372036854775808) = ⟨[], true⟩ ∧
    ¬ Canonical (ofLongLong (-9223372036854775808)) ∧
    (ofLongLong (-9223372036854775808)).isZero = false ∧
    (ofLongLong (-9223372036854775808)).toString = "0" := by
  decide

/-- C7: the decimal text of a BigInt round-trips: for every canonical BigInt x,
`toString(x)` is the usual signed decimal of its value (the text that the decimal
printer of the Lean core gives for the integer: a `-` only for negative values, no
leading zeros, `0` for zero), and constructing a BigInt from `toString(x)` gives x;
constructing from a string of an optional `+` or `-` followed by one or more decimal
digits, leading zeros allowed, gives the canonical BigInt of the denoted integer, as
for `+007` and `-0`. -/
theorem C7_decimal_text_round_trip (x : BigInteger) (hx : Canonical x) :
    x.toString = (toInt x).repr ∧ ofString x.toString = x ∧
    (∀ sign cs : List Char, (sign = [] ∨ sign = ['+'] ∨ sign = ['-']) → cs ≠ [] →
      (∀ c ∈ cs, c.isDigit = true) →
      Canonical (ofString (String.mk (sign ++ cs))) ∧
        toInt (ofString (String.mk (sign ++ cs))) =
          if sign = ['-'] then -(decimalValue cs : Int) else (decimalValue cs : Int)) ∧
    ofString "+007" = ⟨[7], false⟩ ∧ ofString "-0" = ⟨[0], false⟩ ∧
    ofString "-0012" = ⟨[2, 1], true⟩ :=
  ⟨toString_eq_repr hx, ofString_toString hx,
    fun sign cs hs hne hd => ofString_signed sign cs hs hne hd, by decide, by decide,
    by decide⟩

/-- C7 at `x = -120`. -/
theorem C7_decimal_text_round_trip_witness :
    Canonical (⟨[0, 2, 1], true⟩ : BigInteger) ∧
    (⟨[0, 2, 1], true⟩ : BigInteger).toString = (toInt ⟨[0, 2, 1], true⟩).repr ∧
    ofString (⟨[0, 2, 1], true⟩ : BigInteger).toString = ⟨[0, 2, 1], true⟩ :=
  ⟨by decide, (C7_decimal_text_round_trip ⟨[0, 2, 1], true⟩ (by decide)).1,
    (C7_decimal_text_round_trip ⟨[0, 2, 1], true⟩ (by decide)).2.1⟩

/-- C9 (code defect): a `return` whose expression calls a user-defined function does
not end the body. `visitReturn_stmt` sets the return flag before it evaluates the
expression, and the call inside the expression clears the flag when it ends; so in
```
def g():
    return 1
def f():
    return g()
    print("later")
    return 2
print(f())
```
the statements after `return g()` run: the program prints `later` and `2`, where a
return that ends the body gives the single line `1`. -/
theorem C9_return_with_call_runs_on :
    runOutput DoubleOps.trivial 100 returnCallProgram = .ok "later\n2\n" ∧
    runOutput DoubleOps.trivial 100 returnCallProgram ≠ .ok "1\n" := by
  decide!

/-- C10, as stated, fails: lookup that consults only the top frame and the global map
gives None for `x` in a function called from a function whose frame binds `x`, but
`getVariable` finds the binding of the caller; and the program
```
def g():
    print(x)
def f():
    x = 1
    g()
f()
```
prints `1`. -/
theorem C10_caller_local_is_visible :
    callerLocalState.getVariable "x" = .int (ofLongLong 1) ∧
    callerLocalState.lookupTopThenGlobal "x" = .none ∧
    callerLocalState.getVariable "x" ≠ callerLocalState.lookupTopThenGlobal "x" ∧
    runOutput DoubleOps.trivial 100 callerLocalProgram = .ok "1\n" := by
  refine ⟨rfl, rfl, ?_, by decide!⟩
  intro h
  have h1 : callerLocalState.getVariable "x" = .int (ofLongLong 1) := rfl
  have h2 : callerLocalState.lookupTopThenGlobal "x" = .none := rfl
  rw [h1, h2] at h
  cases h

theorem findInScopes_append {F : Type} (name : String) (above : List (StrMap (Value F)))
    (rest : List (StrMap (Value F))) (h : ∀ f ∈ above, f.find name = none) :
    State.findInScopes (above ++ rest) name = State.findInScopes rest name := by
  induction above with
  | nil => rfl
  | cons f fs ih =>
    have hf := h f (List.mem_cons_self _ _)
    simp only [List.cons_append, State.findInScopes, hf]
    exact ih (fun g hg => h g (List.mem_cons_of_mem _ hg))

theorem findInScopes_none {F : Type} (name : String) (scopes : List (StrMap (Value F)))
    (h : ∀ f ∈ scopes, f.find name = none) : State.findInScopes scopes name = none := by
  have := findInScopes_append name scopes [] h
  simpa [State.findInScopes] using this

/-- C10, amended: name lookup consults the local frames from the top of the stack down
to the bottom and then the global map: `get(name)` is the binding of the topmost frame
that binds the name (so the top frame's binding when the top frame binds it, and the
binding of a caller's frame when no frame above it binds the name), otherwise the
global binding when there is one, otherwise None. -/
theorem C10_lookup_all_frames {F : Type} (st : State F) (name : String) :
    (∀ top below v, st.scopes = top :: below → top.find name = some v →
      st.getVariable name = v) ∧
    (∀ above frame below v, st.scopes = above ++ frame :: below →
      (∀ f ∈ above, f.find name = none) → frame.find name = some v →
      st.getVariable name = v) ∧
    ((∀ f ∈ st.scopes, f.find name = none) → ∀ v, st.globalVars.find name = some v →
      st.getVariable name = v) ∧
    ((∀ f ∈ st.scopes, f.find name = none) → st.globalVars.find name = none →
      st.getVariable name = .none) := by
  refine ⟨?_, ?_, ?_, ?_⟩
  · intro top below v hs hv
    simp [State.getVariable, hs, State.findInScopes, hv]
  · intro above frame below v hs ha hv
    simp [State.getVariable, hs, findInScopes_append name above _ ha, State.findInScopes, hv]
  · intro hn v hv
    simp [State.getVariable, findInScopes_none name _ hn, hv]
  · intro hn hv
    simp [State.getVariable, findInScopes_none name _ hn, hv]

/-- C10, amended, at the state of a call from a function whose frame binds `x`. -/
theorem C10_lookup_all_frames_witness :
    (callerLocalState.scopes = [[]] ++ [("x", Value.int (ofLongLong 1))] :: [] ∧
      (∀ f ∈ ([[]] : List (StrMap (Value Unit))), f.find "x" = none) ∧
      StrMap.find [("x", (Value.int (ofLongLong 1) : Value Unit))] "x" =
        some (.int (ofLongLong 1))) ∧
    callerLocalState.getVariable "x" = .int (ofLongLong 1) :=
  ⟨⟨rfl, by intro f hf; simp at hf; subst hf; rfl, rfl⟩,
    (C10_lookup_all_frames callerLocalState "x").2.1 [[]] [("x", .int (ofLongLong 1))] []
      (.int (ofLongLong 1)) rfl (by intro f hf; simp at hf; subst hf; rfl) rfl⟩

/-! ### Repetition of a String -/

theorem copies_comm (s : String) (k : Nat) : s ++ copies s k = copies s k ++ s := by
  induction k with
  | zero => simp [copies]
  | succ k ih => rw [copies, ← String.append_assoc, ih]

theorem copies_length (s : String) (k : Nat) : (copies s k).length = s.length * k := by
  induction k with
  | zero => rfl
  | succ k ih => rw [copies, String.length_append, ih]; ring

theorem copies_data (s : String) (k : Nat) :
    (copies s k).data = (List.replicate k s.data).flatten := by
  induction k with
  | zero => rfl
  | succ k ih =>
    rw [copies, ← copies_comm, String.data_append, ih, List.replicate_succ, List.flatten_cons]

/-- The repetition loop on a canonical counter appends as many copies as the counter
says, none when the counter is not positive. -/
theorem repeatLoop_spec (s : String) : ∀ (k fuel : Nat) (count : BigInteger) (acc : String),
    Canonical count → (toInt count).toNat = k → k < fuel →
    repeatLoop s fuel count acc = .ok (acc ++ copies s k) := by
  intro k
  induction k with
  | zero =>
    intro fuel count acc hc hk hf
    obtain ⟨f, rfl⟩ : ∃ f, fuel = f + 1 := ⟨fuel - 1, by omega⟩
    have hgt : count.gt (ofLongLong 0) = false := by
      cases h : count.gt (ofLongLong 0)
      · rfl
      · rw [BigInteger.gt, lt_iff _ _ (by rw [ofLongLong_zero]; exact canonical_zero) hc] at h
        have : toInt (ofLongLong 0) = 0 := by decide
        omega
    simp [repeatLoop, hgt, copies]
  | succ k ih =>
    intro fuel count acc hc hk hf
    obtain ⟨f, rfl⟩ : ∃ f, fuel = f + 1 := ⟨fuel - 1, by omega⟩
    have hgt : count.gt (ofLongLong 0) = true := by
      rw [BigInteger.gt, lt_iff _ _ (by rw [ofLongLong_zero]; exact canonical_zero) hc]
      have : toInt (ofLongLong 0) = 0 := by decide
      omega
    obtain ⟨h1, h2⟩ := sub_spec count (ofLongLong 1) hc (by rw [ofLongLong_one]; exact canonical_one)
    have h3 : toInt (ofLongLong 1) = 1 := by decide
    rw [repeatLoop, if_pos hgt, ih f _ _ h1 (by rw [h2, h3]; omega) (by omega)]
    rw [copies, String.append_assoc, copies_comm]

theorem mulStr_spec {F : Type} (s : String) (fuel : Nat) (n : BigInteger) (hn : Canonical n)
    (hf : (toInt n).toNat < fuel) :
    mulStr (F := F) fuel s n = .ok (.str (copies s (toInt n).toNat)) := by
  rw [mulStr, repeatLoop_spec s _ fuel n "" hn rfl hf]
  simp

/-- C18: string repetition: for every String s and every canonical Int n, with more
rounds of fuel than n, `s * n` is s concatenated n times (no copy at all, the empty
String, when n <= 0), so its length is `len(s) * n`, and `n * s` is the same String. -/
theorem C18_string_repetition {F : Type} (ops : DoubleOps F) (fuel : Nat) (s : String)
    (n : BigInteger) (hn : Canonical n) (hf : (toInt n).toNat < fuel) :
    performMul ops fuel (.str s) (.int n) = .ok (.str (copies s (toInt n).toNat)) ∧
    performMul ops fuel (.int n) (.str s) = .ok (.str (copies s (toInt n).toNat)) ∧
    (copies s (toInt n).toNat).data = (List.replicate (toInt n).toNat s.data).flatten ∧
    (copies s (toInt n).toNat).length = s.length * (toInt n).toNat ∧
    (toInt n ≤ 0 → performMul ops fuel (.str s) (.int n) = .ok (.str "") ∧
      performMul ops fuel (.int n) (.str s) = .ok (.str "")) := by
  have h1 : performMul ops fuel (.str s) (.int n) = .ok (.str (copies s (toInt n).toNat)) := by
    simp only [performMul, Value.isFloat, Bool.or_self, Bool.false_eq_true, if_false]
    exact mulStr_spec s fuel n hn hf
  have h2 : performMul ops fuel (.int n) (.str s) = .ok (.str (copies s (toInt n).toNat)) := by
    simp only [performMul, Value.isFloat, Bool.or_self, Bool.false_eq_true, if_false]
    exact mulStr_spec s fuel n hn hf
  refine ⟨h1, h2, copies_data _ _, copies_length _ _, ?_⟩
  intro h0
  have : (toInt n).toNat = 0 := by omega
  rw [h1, h2, this]
  exact ⟨rfl, rfl⟩

/-- C18 at `s = "ab"`, `n = 3`. -/
theorem C18_string_repetition_witness :
    (Canonical (ofString "3") ∧ (toInt (ofString "3")).toNat < 4) ∧
    performMul DoubleOps.trivial 4 (.str "ab") (.int (ofString "3")) =
      .ok (.str (copies "ab" (toInt (ofString "3")).toNat)) ∧
    performMul DoubleOps.trivial 4 (.int (ofString "3")) (.str "ab") =
      .ok (.str (copies "ab" (toInt (ofString "3")).toNat)) ∧
    copies "ab" (toInt (ofString "3")).toNat = "ababab" :=
  ⟨⟨by decide, by decide⟩,
    (C18_string_repetition DoubleOps.trivial 4 "ab" (ofString "3") (by decide) (by decide)).1,
    (C18_string_repetition DoubleOps.trivial 4 "ab" (ofString "3") (by decide) (by decide)).2.1,
    by decide⟩

/-- C19: `+` applied to a String s and an Int n repeats the string: for every String s
and canonical Int n, with more rounds of fuel than n, `s + n` is the String made of n
copies of s, the same value as `s * n`, while String + String is concatenation. -/
theorem C19_string_plus_int_repeats {F : Type} (ops : DoubleOps F) (fuel : Nat) (s t : String)
    (n : BigInteger) (hn : Canonical n) (hf : (toInt n).toNat < fuel) :
    performAdd ops fuel (.str s) (.int n) = .ok (.str (copies s (toInt n).toNat)) ∧
    performAdd ops fuel (.str s) (.int n) = performMul ops fuel (.str s) (.int n) ∧
    performAdd ops fuel (.str s) (.str t) = .ok (.str (s ++ t)) := by
  have h1 : performAdd ops fuel (.str s) (.int n) = .ok (.str (copies s (toInt n).toNat)) := by
    simp only [performAdd, Value.isFloat, Bool.or_self, Bool.false_eq_true, if_false]
    rw [repeatLoop_spec s _ fuel n "" hn rfl hf]
    simp
  have h2 : performMul ops fuel (.str s) (.int n) = .ok (.str (copies s (toInt n).toNat)) := by
    simp only [performMul, Value.isFloat, Bool.or_self, Bool.false_eq_true, if_false]
    exact mulStr_spec s fuel n hn hf
  refine ⟨h1, by rw [h1, h2], ?_⟩
  simp [performAdd, Value.isFloat]

/-- C19 at `s = "ab"`, `n = 2`. -/
theorem C19_string_plus_int_repeats_witness :
    (Canonical (ofString "2") ∧ (toInt (ofString "2")).toNat < 3) ∧
    performAdd DoubleOps.trivial 3 (.str "ab") (.int (ofString "2")) =
      .ok (.str (copies "ab" (toInt (ofString "2")).toNat)) ∧
    copies "ab" (toInt (ofString "2")).toNat = "abab" :=
  ⟨⟨by decide, by decide⟩,
    (C19_string_plus_int_repeats DoubleOps.trivial 3 "ab" "" (ofString "2") (by decide)
      (by decide)).1,
    by decide⟩

/-! ### Operators on operands of different types -/

/-- Where `+`, `-` and `*` do give None: no operand is a Float and the pair of types
has no branch of its own. -/
theorem arith_none_spec {F : Type} (ops : DoubleOps F) (fuel : Nat) (a b : Value F)
    (ha : a.isFloat = false) (hb : b.isFloat = false) :
    (¬ (a.type = .INT ∧ b.type = .INT) → performSub ops a b = .none) ∧
    (¬ (a.type = .INT ∧ b.type = .INT) → ¬ (a.type = .STRING ∧ b.type = .STRING) →
      ¬ (a.type = .STRING ∧ b.type = .INT) → performAdd ops fuel a b = .ok .none) ∧
    (¬ (a.type = .INT ∧ b.type = .INT) → ¬ (a.type = .INT ∧ b.type = .STRING) →
      ¬ (a.type = .STRING ∧ b.type = .INT) → performMul ops fuel a b = .ok .none) := by
  cases a <;> cases b <;>
    simp_all [performSub, performAdd, performMul, Value.isFloat, Value.type]

/-- C15 (code defect): type-incompatible arithmetic is meant to give None, and `+`, `-`
and `*` do so when no operand is a Float (`None + 1` is None), but `/` has no check of
the types at all and `//` and `%` send every pair that is not two Ints to the Float
branch, where an operand that is no number counts as `0`: `None / 1`, `"abc" / 2`,
`None // 1` and `True % 2` are Floats; and `+`, `-`, `*` with a Float on one side and
None on the other are Floats too. -/
theorem C15_incompatible_division_is_float {F : Type} (ops : DoubleOps F) (fuel : Nat)
    (f : F) :
    (∀ a b : Value F, ∃ x, performDiv ops a b = .float x) ∧
    performDiv ops .none (.int (ofString "1")) =
      .float (ops.div (BigInteger.zero.toDouble ops) ((ofString "1").toDouble ops)) ∧
    performDiv ops (.str "abc") (.int (ofString "2")) =
      .float (ops.div (BigInteger.zero.toDouble ops) ((ofString "2").toDouble ops)) ∧
    performFloorDiv ops fuel .none (.int (ofString "1")) =
      .ok (.float (ops.floor
        (ops.div (BigInteger.zero.toDouble ops) ((ofString "1").toDouble ops)))) ∧
    (∃ x, performMod ops fuel (.bool true) (.int (ofString "2")) = .ok (.float x)) ∧
    performAdd ops fuel .none (.float f) =
      .ok (.float (ops.add (BigInteger.zero.toDouble ops) f)) ∧
    performSub ops (.float f) .none = .float (ops.sub f (BigInteger.zero.toDouble ops)) ∧
    performMul ops fuel (.bool true) (.float f) =
      .ok (.float (ops.mul (BigInteger.zero.toDouble ops) f)) ∧
    performAdd ops fuel .none (.int (ofString "1")) = .ok .none :=
  ⟨fun _ _ => ⟨_, rfl⟩, rfl, rfl, rfl, ⟨_, rfl⟩, rfl, rfl, rfl, rfl⟩

/-- C16, as stated, fails: for a String and an Int, whose tags differ and are no
Int/Float pair, `<=` and `>=` evaluate to True, not to False. -/
theorem C16_cross_tag_le_is_true :
    (Value.str "a" : Value Unit).type ≠ (Value.int (ofLongLong 1) : Value Unit).type ∧
    ValueType.intFloatPair (Value.str "a" : Value Unit).type
      (Value.int (ofLongLong 1) : Value Unit).type = false ∧
    performCompare DoubleOps.trivial (.str "a") (.int (ofLongLong 1)) "<=" = .bool true ∧
    performCompare DoubleOps.trivial (.str "a") (.int (ofLongLong 1)) ">=" = .bool true ∧
    performCompare DoubleOps.trivial (.str "a") (.int (ofLongLong 1)) "<=" ≠ .bool false := by
  refine ⟨by decide, by decide, rfl, rfl, ?_⟩
  intro h
  have h1 : performCompare DoubleOps.trivial (.str "a") (.int (ofLongLong 1)) "<=" =
      .bool true := rfl
  rw [h1] at h
  cases h

/-- C16, amended: for all Values a and b whose tags differ and are not an Int/Float
pair, `a < b` and `a > b` evaluate to Bool(false), and `a <= b` and `a >= b`, which are
the negations of `b < a` and of `a < b`, evaluate to Bool(true). -/
theorem C16_cross_tag_ordering {F : Type} (ops : DoubleOps F) (a b : Value F)
    (ht : a.type ≠ b.type) (hp : ValueType.intFloatPair a.type b.type = false) :
    performCompare ops a b "<" = .bool false ∧ performCompare ops a b ">" = .bool false ∧
    performCompare ops a b "<=" = .bool true ∧ performCompare ops a b ">=" = .bool true := by
  cases a <;> cases b <;>
    simp_all [performCompare, compareLt, Value.type, ValueType.intFloatPair, Value.boolVal]

/-- C16, amended, at a String and an Int. -/
theorem C16_cross_tag_ordering_witness :
    ((Value.str "a" : Value Unit).type ≠ (Value.int (ofLongLong 1) : Value Unit).type ∧
      ValueType.intFloatPair (Value.str "a" : Value Unit).type
        (Value.int (ofLongLong 1) : Value Unit).type = false) ∧
    performCompare DoubleOps.trivial (.str "a") (.int (ofLongLong 1)) "<" = .bool false ∧
    performCompare DoubleOps.trivial (.str "a") (.int (ofLongLong 1)) ">" = .bool false ∧
    performCompare DoubleOps.trivial (.str "a") (.int (ofLongLong 1)) "<=" = .bool true ∧
    performCompare DoubleOps.trivial (.str "a") (.int (ofLongLong 1)) ">=" = .bool true :=
  ⟨⟨by decide, by decide⟩,
    C16_cross_tag_ordering DoubleOps.trivial (.str "a") (.int (ofLongLong 1)) (by decide)
      (by decide)⟩

/-- C17: cross-tag equality is false: for all Values a and b whose tags differ and are
not an Int/Float pair, `a == b` is Bool(false) and `a != b` is Bool(true); Bool is not
promoted, so `True == 1` is false; and for every pair of Values `a != b` is the
negation of `a == b`. -/
theorem C17_cross_tag_equality {F : Type} (ops : DoubleOps F) (a b : Value F) :
    (a.type ≠ b.type → ValueType.intFloatPair a.type b.type = false →
      performCompare ops a b "==" = .bool false ∧ performCompare ops a b "!=" = .bool true) ∧
    performCompare ops (.bool true) (.int (ofString "1")) "==" = .bool false ∧
    (∃ e, performCompare ops a b "==" = .bool e ∧ performCompare ops a b "!=" = .bool (!e)) := by
  refine ⟨?_, rfl, ⟨compareEq ops a b, rfl, rfl⟩⟩
  intro ht hp
  cases a <;> cases b <;>
    simp_all [performCompare, compareEq, Value.type, ValueType.intFloatPair, Value.boolVal]

/-- C17 at `True` and `1`. -/
theorem C17_cross_tag_equality_witness :
    ((Value.bool true : Value Unit).type ≠ (Value.int (ofString "1") : Value Unit).type ∧
      ValueType.intFloatPair (Value.bool true : Value Unit).type
        (Value.int (ofString "1") : Value Unit).type = false) ∧
    performCompare DoubleOps.trivial (.bool true) (.int (ofString "1")) "==" = .bool false ∧
    performCompare DoubleOps.trivial (.bool true) (.int (ofString "1")) "!=" = .bool true :=
  ⟨⟨by decide, by decide⟩,
    (C17_cross_tag_equality DoubleOps.trivial (.bool true) (.int (ofString "1"))).1 (by decide)
      (by decide)⟩

/-! ### The display form -/

theorem intercalate_go (sep : String) (l : List String) (acc : String) :
    String.intercalate.go acc sep l = acc ++ l.foldr (fun a r => sep ++ a ++ r) "" := by
  induction l generalizing acc with
  | nil => simp [String.intercalate.go]
  | cons a l ih =>
    rw [String.intercalate.go, ih]
    simp [String.append_assoc]

mutual

/-- The text that `Value::toString` gives is the display form. -/
theorem toString_eq_display {F : Type} (ops : DoubleOps F) :
    ∀ v : Value F, v.Canonical → v.toString ops = display ops v
  | .none, _ => rfl
  | .bool true, _ => rfl
  | .bool false, _ => rfl
  | .int i, h => by
    rw [Value.toString, display]
    exact toString_eq_repr h
  | .float _, _ => rfl
  | .str _, _ => rfl
  | .tuple [], _ => rfl
  | .tuple [v], h => by
    have hv : v.Canonical := by
      simp only [Value.Canonical, Value.allCanonical] at h
      exact h.1
    rw [Value.toString, display]
    simp only [List.isEmpty_cons, Bool.false_eq_true, if_false, List.length_singleton, if_true,
      Value.toStringElems, String.empty_append, String.append_empty]
    rw [toString_eq_display ops v hv, String.append_assoc, String.append_assoc]
    rfl
  | .tuple (v :: w :: vs), h => by
    have hv : v.Canonical ∧ Value.allCanonical (w :: vs) := by
      simp only [Value.Canonical, Value.allCanonical] at h
      exact ⟨h.1, by simp only [Value.allCanonical]; exact h.2⟩
    rw [Value.toString, display]
    have hlen : ¬ (v :: w :: vs).length = 1 := by simp
    simp only [List.isEmpty_cons, Bool.false_eq_true, if_false, hlen, String.append_empty]
    rw [Value.toStringElems, toString_eq_display ops v hv.1,
      toStringElems_eq_display ops (w :: vs) hv.2]
    simp only [if_true, String.empty_append]
    show _ = "(" ++ String.intercalate.go (display ops v) ", " (displayAll ops (w :: vs)) ++ ")"
    rw [intercalate_go]

/-- The loop of `Value::toString` after the first element puts a comma and a blank in
front of every display form. -/
theorem toStringElems_eq_display {F : Type} (ops : DoubleOps F) :
    ∀ vs : List (Value F), Value.allCanonical vs →
      Value.toStringElems ops vs false =
        (displayAll ops vs).foldr (fun a r => ", " ++ a ++ r) ""
  | [], _ => rfl
  | v :: vs, h => by
    have hv : v.Canonical ∧ Value.allCanonical vs := by
      simp only [Value.allCanonical] at h
      exact h
    rw [Value.toStringElems, toString_eq_display ops v hv.1,
      toStringElems_eq_display ops vs hv.2, displayAll]
    simp

end

/-- C20: `str(v)` equals the display form: a String is returned as itself, and for
every other Value whose Ints are canonical the result is the String holding
`display(v)`, where display gives `None` for None, `True` or `False` for Bool, the
signed decimal for Int, and for a Tuple the element displays separated by a comma and a
blank inside parentheses, with a trailing comma for a 1-tuple and `()` for the empty
tuple, applied recursively to nested tuples (for a Float it is the fixed-point text
that the output stream gives, which is a parameter here). -/
theorem C20_str_is_display {F : Type} (ops : DoubleOps F) (v : Value F) (hv : v.Canonical)
    (st : State F) :
    convertToStr ops v = .str (display ops v) ∧
    (∀ s, convertToStr ops (.str s) = .str s) ∧
    callBuiltinFunction ops "str" [v] st = .ok (.str (display ops v), st) ∧
    display ops (.tuple []) = "()" ∧
    display ops (.tuple [.int (ofString "1")]) = "(1,)" ∧
    display ops (.tuple [.int (ofString "-1"), .tuple [.none, .bool true], .str "a"]) =
      "(-1, (None, True), a)" := by
  have h1 : convertToStr ops v = .str (display ops v) := by
    cases v with
    | str s => rfl
    | none => rfl
    | bool b =>
      show Value.str (Value.toString ops (.bool b)) = _
      rw [toString_eq_display ops _ hv]
    | int i =>
      show Value.str (Value.toString ops (.int i)) = _
      rw [toString_eq_display ops _ hv]
    | float f => rfl
    | tuple t =>
      show Value.str (Value.toString ops (.tuple t)) = _
      rw [toString_eq_display ops _ hv]
  refine ⟨h1, fun _ => rfl, ?_, rfl, rfl, rfl⟩
  simp [callBuiltinFunction, h1]

/-- C20 at the Tuple `(-1, (None, True), "a")`. -/
theorem C20_str_is_display_witness :
    (Value.tuple [.int (ofString "-1"), .tuple [.none, .bool true], .str "a"] :
      Value Unit).Canonical ∧
    convertToStr DoubleOps.trivial
        (.tuple [.int (ofString "-1"), .tuple [.none, .bool true], .str "a"]) =
      .str (display DoubleOps.trivial
        (.tuple [.int (ofString "-1"), .tuple [.none, .bool true], .str "a"])) ∧
    display DoubleOps.trivial
        (.tuple [.int (ofString "-1"), .tuple [.none, .bool true], .str "a"]) =
      "(-1, (None, True), a)" :=
  ⟨by simp [Value.Canonical, Value.allCanonical]; decide,
    (C20_str_is_display DoubleOps.trivial _ (by simp [Value.Canonical, Value.allCanonical]; decide)
      State.init).1,
    by decide⟩

/-! ### More fuel gives the same result -/

theorem repeatLoop_mono (s : String) (fuel fuel' : Nat) (count : BigInteger) (acc r : String)
    (hle : fuel ≤ fuel') (h : repeatLoop s fuel count acc = .ok r) :
    repeatLoop s fuel' count acc = .ok r := by
  induction fuel generalizing fuel' count acc with
  | zero => rw [repeatLoop] at h; cases h
  | succ n ih =>
    obtain ⟨m, rfl⟩ : ∃ m, fuel' = m + 1 := ⟨fuel' - 1, by omega⟩
    rw [repeatLoop] at h ⊢
    split at h
    · rename_i hc; rw [if_pos hc]; exact ih m _ _ (by omega) h
    · rename_i hc; rw [if_neg hc]; exact h

theorem divWhile_mono (D : BigInteger) (fuel fuel' : Nat) (cur : BigInteger) (q : Int)
    (r : BigInteger × Int) (hle : fuel ≤ fuel') (h : divWhile D fuel cur q = .ok r) :
    divWhile D fuel' cur q = .ok r := by
  induction fuel generalizing fuel' cur q with
  | zero => rw [divWhile] at h; cases h
  | succ n ih =>
    obtain ⟨m, rfl⟩ : ∃ m, fuel' = m + 1 := ⟨fuel' - 1, by omega⟩
    rw [divWhile] at h ⊢
    split at h
    · rename_i hc; rw [if_pos hc]; exact ih m _ _ (by omega) h
    · rename_i hc; rw [if_neg hc]; exact h

theorem divFor_mono (fuel fuel' : Nat) (D : BigInteger) (ds : List Int) (cur : BigInteger)
    (res r : List Int) (hle : fuel ≤ fuel') (h : divFor fuel D ds cur res = .ok r) :
    divFor fuel' D ds cur res = .ok r := by
  induction ds generalizing cur res with
  | nil => rw [divFor] at h ⊢; exact h
  | cons d ds ih =>
    rw [divFor] at h ⊢
    cases h1 : divWhile D fuel (removeLeadingZeros { cur with digits := d :: cur.digits }) 0 with
    | error e => rw [h1] at h; cases h
    | ok p =>
      obtain ⟨c1, q⟩ := p
      rw [h1] at h
      rw [divWhile_mono D fuel fuel' _ _ _ hle h1]
      exact ih _ _ h

theorem div_mono (fuel fuel' : Nat) (a b r : BigInteger) (hle : fuel ≤ fuel')
    (h : a.div fuel b = .ok r) : a.div fuel' b = .ok r := by
  rw [BigInteger.div] at h ⊢
  split at h
  · cases h
  · rename_i hz
    rw [if_neg hz]
    split at h
    · rename_i hl; rw [if_pos hl]; exact h
    · rename_i hl
      rw [if_neg hl]
      cases h1 : divFor fuel b.abs a.abs.digits.reverse ⟨[], false⟩ [] with
      | error e => rw [h1] at h; cases h
      | ok res =>
        rw [h1] at h
        rw [divFor_mono fuel fuel' _ _ _ _ _ hle h1]
        exact h

theorem mod_mono (fuel fuel' : Nat) (a b r : BigInteger) (hle : fuel ≤ fuel')
    (h : a.mod fuel b = .ok r) : a.mod fuel' b = .ok r := by
  rw [BigInteger.mod] at h ⊢
  cases h1 : a.div fuel b with
  | error e => rw [h1] at h; cases h
  | ok q =>
    rw [h1] at h
    rw [div_mono fuel fuel' a b q hle h1]
    exact h

theorem performAdd_mono {F : Type} (ops : DoubleOps F) (fuel fuel' : Nat) (a b r : Value F)
    (hle : fuel ≤ fuel') (h : performAdd ops fuel a b = .ok r) :
    performAdd ops fuel' a b = .ok r := by
  cases a <;> cases b <;> simp only [performAdd] at h ⊢ <;> try exact h
  rename_i s n
  simp only [Value.isFloat, Bool.or_self, Bool.false_eq_true, if_false] at h ⊢
  cases h1 : repeatLoop s fuel n "" with
  | error e => rw [h1] at h; cases h
  | ok x =>
    rw [h1] at h
    rw [repeatLoop_mono s fuel fuel' n "" x hle h1]
    exact h

theorem mulStr_mono {F : Type} (fuel fuel' : Nat) (s : String) (n : BigInteger) (r : Value F)
    (hle : fuel ≤ fuel') (h : mulStr fuel s n = .ok r) : mulStr fuel' s n = .ok r := by
  rw [mulStr] at h ⊢
  cases h1 : repeatLoop s fuel n "" with
  | error e => rw [h1] at h; cases h
  | ok x =>
    rw [h1] at h
    rw [repeatLoop_mono s fuel fuel' n "" x hle h1]
    exact h

theorem performMul_mono {F : Type} (ops : DoubleOps F) (fuel fuel' : Nat) (a b r : Value F)
    (hle : fuel ≤ fuel') (h : performMul ops fuel a b = .ok r) :
    performMul ops fuel' a b = .ok r := by
  cases a <;> cases b <;> simp only [performMul] at h ⊢ <;> try exact h
  all_goals
    simp only [Value.isFloat, Bool.or_self, Bool.false_eq_true, if_false] at h ⊢
    exact mulStr_mono fuel fuel' _ _ r hle h

theorem performFloorDiv_mono {F : Type} (ops : DoubleOps F) (fuel fuel' : Nat)
    (a b r : Value F) (hle : fuel ≤ fuel') (h : performFloorDiv ops fuel a b = .ok r) :
    performFloorDiv ops fuel' a b = .ok r := by
  cases a <;> cases b <;> simp only [performFloorDiv] at h ⊢ <;> try exact h
  rename_i x y
  cases h1 : x.div fuel y with
  | error e => rw [h1] at h; cases h
  | ok q =>
    rw [h1] at h
    rw [div_mono fuel fuel' x y q hle h1]
    cases h2 : x.mod fuel y with
    | error e => rw [h2] at h; cases h
    | ok m =>
      rw [h2] at h
      rw [mod_mono fuel fuel' x y m hle h2]
      exact h

theorem performMod_mono {F : Type} (ops : DoubleOps F) (fuel fuel' : Nat)
    (a b r : Value F) (hle : fuel ≤ fuel') (h : performMod ops fuel a b = .ok r) :
    performMod ops fuel' a b = .ok r := by
  cases a <;> cases b <;> simp only [performMod] at h ⊢ <;> try exact h
  rename_i x y
  cases h1 : x.div fuel y with
  | error e => rw [h1] at h; cases h
  | ok q =>
    rw [h1] at h
    rw [div_mono fuel fuel' x y q hle h1]
    cases h2 : x.mod fuel y with
    | error e => rw [h2] at h; cases h
    | ok m =>
      rw [h2] at h
      rw [mod_mono fuel fuel' x y m hle h2]
      exact h

theorem applyAugassign_mono {F : Type} (ops : DoubleOps F) (fuel fuel' : Nat) (op : String)
    (a b r : Value F) (hle : fuel ≤ fuel') (h : applyAugassign ops fuel op a b = .ok r) :
    applyAugassign ops fuel' op a b = .ok r := by
  rw [applyAugassign] at h ⊢
  split
  · rename_i hc; rw [if_pos hc] at h; exact performAdd_mono ops fuel fuel' a b r hle h
  · rename_i hc; rw [if_neg hc] at h
    split
    · rename_i hc; rw [if_pos hc] at h; exact h
    · rename_i hc; rw [if_neg hc] at h
      split
      · rename_i hc; rw [if_pos hc] at h; exact performMul_mono ops fuel fuel' a b r hle h
      · rename_i hc; rw [if_neg hc] at h
        split
        · rename_i hc; rw [if_pos hc] at h; exact h
        · rename_i hc; rw [if_neg hc] at h
          split
          · rename_i hc; rw [if_pos hc] at h
            exact performFloorDiv_mono ops fuel fuel' a b r hle h
          · rename_i hc; rw [if_neg hc] at h
            split
            · rename_i hc; rw [if_pos hc] at h
              exact performMod_mono ops fuel fuel' a b r hle h
            · rename_i hc; rw [if_neg hc] at h; exact h

theorem applyTermOp_mono {F : Type} (ops : DoubleOps F) (fuel fuel' : Nat) (op : String)
    (a b r : Value F) (hle : fuel ≤ fuel') (h : applyTermOp ops fuel op a b = .ok r) :
    applyTermOp ops fuel' op a b = .ok r := by
  rw [applyTermOp] at h ⊢
  split
  · rename_i hc; rw [if_pos hc] at h; exact performMul_mono ops fuel fuel' a b r hle h
  · rename_i hc; rw [if_neg hc] at h
    split
    · rename_i hc; rw [if_pos hc] at h; exact h
    · rename_i hc; rw [if_neg hc] at h
      split
      · rename_i hc; rw [if_pos hc] at h
        exact performFloorDiv_mono ops fuel fuel' a b r hle h
      · rename_i hc; rw [if_neg hc] at h
        split
        · rename_i hc; rw [if_pos hc] at h
          exact performMod_mono ops fuel fuel' a b r hle h
        · rename_i hc; rw [if_neg hc] at h; exact h

theorem mono_test_step {F : Type} {ops : DoubleOps F} {n : Nat} (ih : EvalMono ops n) :
    ∀ fuel' t st r, n + 1 ≤ fuel' → visitTest ops (n + 1) t st = .ok r →
      visitTest ops fuel' t st = .ok r := by
  intro fuel' t st r hle h
  obtain ⟨m, rfl⟩ : ∃ m, fuel' = m + 1 := ⟨fuel' - 1, by omega⟩
  cases t with
  | mk text o =>
    rw [visitTest] at h ⊢
    exact ih.orTest m o st r (by omega) h

theorem mono_orTest_step {F : Type} {ops : DoubleOps F} {n : Nat} (ih : EvalMono ops n) :
    ∀ fuel' t st r, n + 1 ≤ fuel' → visitOr_test ops (n + 1) t st = .ok r →
      visitOr_test ops fuel' t st = .ok r := by
  intro fuel' t st r hle h
  obtain ⟨m, rfl⟩ : ∃ m, fuel' = m + 1 := ⟨fuel' - 1, by omega⟩
  cases t with
  | mk first rest =>
    rw [visitOr_test] at h ⊢
    cases h1 : visitAnd_test ops n first st with
    | error e => rw [h1] at h; cases h
    | ok p =>
      obtain ⟨v, st1⟩ := p
      rw [h1] at h
      rw [ih.andTest m first st _ (by omega) h1]
      exact ih.orLoop m _ _ _ r (by omega) h

theorem mono_orLoop_step {F : Type} {ops : DoubleOps F} {n : Nat} (ih : EvalMono ops n) :
    ∀ fuel' ts v st r, n + 1 ≤ fuel' → orLoop ops (n + 1) ts v st = .ok r →
      orLoop ops fuel' ts v st = .ok r := by
  intro fuel' ts v st r hle h
  obtain ⟨m, rfl⟩ : ∃ m, fuel' = m + 1 := ⟨fuel' - 1, by omega⟩
  cases ts with
  | nil => rw [orLoop] at h ⊢; exact h
  | cons t ts =>
    rw [orLoop] at h ⊢
    split at h
    · rename_i hb; rw [if_pos hb]; exact h
    · rename_i hb
      rw [if_neg hb]
      cases h1 : visitAnd_test ops n t st with
      | error e => rw [h1] at h; cases h
      | ok p =>
        obtain ⟨v1, st1⟩ := p
        rw [h1] at h
        rw [ih.andTest m t st _ (by omega) h1]
        exact ih.orLoop m _ _ _ r (by omega) h

theorem mono_andTest_step {F : Type} {ops : DoubleOps F} {n : Nat} (ih : EvalMono ops n) :
    ∀ fuel' t st r, n + 1 ≤ fuel' → visitAnd_test ops (n + 1) t st = .ok r →
      visitAnd_test ops fuel' t st = .ok r := by
  intro fuel' t st r hle h
  obtain ⟨m, rfl⟩ : ∃ m, fuel' = m + 1 := ⟨fuel' - 1, by omega⟩
  cases t with
  | mk first rest =>
    rw [visitAnd_test] at h ⊢
    cases h1 : visitNot_test ops n first st with
    | error e => rw [h1] at h; cases h
    | ok p =>
      obtain ⟨v, st1⟩ := p
      rw [h1] at h
      rw [ih.notTest m first st _ (by omega) h1]
      exact ih.andLoop m _ _ _ r (by omega) h

theorem mono_andLoop_step {F : Type} {ops : DoubleOps F} {n : Nat} (ih : EvalMono ops n) :
    ∀ fuel' ts v st r, n + 1 ≤ fuel' → andLoop ops (n + 1) ts v st = .ok r →
      andLoop ops fuel' ts v st = .ok r := by
  intro fuel' ts v st r hle h
  obtain ⟨m, rfl⟩ : ∃ m, fuel' = m + 1 := ⟨fuel' - 1, by omega⟩
  cases ts with
  | nil => rw [andLoop] at h ⊢; exact h
  | cons t ts =>
    rw [andLoop] at h ⊢
    split at h
    · rename_i hb; rw [if_pos hb]; exact h
    · rename_i hb
      rw [if_neg hb]
      cases h1 : visitNot_test ops n t st with
      | error e => rw [h1] at h; cases h
      | ok p =>
        obtain ⟨v1, st1⟩ := p
        rw [h1] at h
        rw [ih.notTest m t st _ (by omega) h1]
        exact ih.andLoop m _ _ _ r (by omega) h

theorem mono_notTest_step {F : Type} {ops : DoubleOps F} {n : Nat} (ih : EvalMono ops n) :
    ∀ fuel' t st r, n + 1 ≤ fuel' → visitNot_test ops (n + 1) t st = .ok r →
      visitNot_test ops fuel' t st = .ok r := by
  intro fuel' t st r hle h
  obtain ⟨m, rfl⟩ : ∃ m, fuel' = m + 1 := ⟨fuel' - 1, by omega⟩
  cases t with
  | not t =>
    rw [visitNot_test] at h ⊢
    cases h1 : visitNot_test ops n t st with
    | error e => rw [h1] at h; cases h
    | ok p =>
      obtain ⟨v1, st1⟩ := p
      rw [h1] at h
      rw [ih.notTest m t st _ (by omega) h1]
      exact h
  | comparison c =>
    rw [visitNot_test] at h ⊢
    exact ih.comparison m c st r (by omega) h

theorem mono_comparison_step {F : Type} {ops : DoubleOps F} {n : Nat} (ih : EvalMono ops n) :
    ∀ fuel' c st r, n + 1 ≤ fuel' → visitComparison ops (n + 1) c st = .ok r →
      visitComparison ops fuel' c st = .ok r := by
  intro fuel' c st r hle h
  obtain ⟨m, rfl⟩ : ∃ m, fuel' = m + 1 := ⟨fuel' - 1, by omega⟩
  cases c with
  | mk first rest =>
    cases rest with
    | nil =>
      rw [visitComparison] at h ⊢
      exact ih.arithExpr m first st r (by omega) h
    | cons x rest =>
      rw [visitComparison] at h ⊢
      cases h1 : visitArith_expr ops n first st with
      | error e => rw [h1] at h; cases h
      | ok p =>
        obtain ⟨v1, st1⟩ := p
        rw [h1] at h
        rw [ih.arithExpr m first st _ (by omega) h1]
        cases h2 : comparisonValues ops n (x :: rest) st1 with
        | error e => simp only [h2] at h; cases h
        | ok p2 =>
          obtain ⟨vs, st2⟩ := p2
          simp only [h2] at h
          simp only [ih.comparisonValues m _ st1 _ (by omega) h2]
          exact h

theorem mono_comparisonValues_step {F : Type} {ops : DoubleOps F} {n : Nat}
    (ih : EvalMono ops n) :
    ∀ fuel' es st r, n + 1 ≤ fuel' → comparisonValues ops (n + 1) es st = .ok r →
      comparisonValues ops fuel' es st = .ok r := by
  intro fuel' es st r hle h
  obtain ⟨m, rfl⟩ : ∃ m, fuel' = m + 1 := ⟨fuel' - 1, by omega⟩
  cases es with
  | nil => rw [comparisonValues] at h ⊢; exact h
  | cons x rest =>
    obtain ⟨op, e⟩ := x
    rw [comparisonValues] at h ⊢
    cases h1 : visitArith_expr ops n e st with
    | error e => rw [h1] at h; cases h
    | ok p =>
      obtain ⟨v1, st1⟩ := p
      rw [h1] at h
      rw [ih.arithExpr m e st _ (by omega) h1]
      cases h2 : comparisonValues ops n rest st1 with
      | error e => simp only [h2] at h; cases h
      | ok p2 =>
        obtain ⟨vs, st2⟩ := p2
        simp only [h2] at h
        simp only [ih.comparisonValues m _ st1 _ (by omega) h2]
        exact h

theorem mono_arithExpr_step {F : Type} {ops : DoubleOps F} {n : Nat} (ih : EvalMono ops n) :
    ∀ fuel' e st r, n + 1 ≤ fuel' → visitArith_expr ops (n + 1) e st = .ok r →
      visitArith_expr ops fuel' e st = .ok r := by
  intro fuel' e st r hle h
  obtain ⟨m, rfl⟩ : ∃ m, fuel' = m + 1 := ⟨fuel' - 1, by omega⟩
  cases e with
  | mk first rest =>
    rw [visitArith_expr] at h ⊢
    cases h1 : visitTerm ops n first st with
    | error e => rw [h1] at h; cases h
    | ok p =>
      obtain ⟨v, st1⟩ := p
      rw [h1] at h
      rw [ih.term m first st _ (by omega) h1]
      exact ih.arithLoop m _ _ _ r (by omega) h

theorem mono_arithLoop_step {F : Type} {ops : DoubleOps F} {n : Nat} (ih : EvalMono ops n) :
    ∀ fuel' ts v st r, n + 1 ≤ fuel' → arithLoop ops (n + 1) ts v st = .ok r →
      arithLoop ops fuel' ts v st = .ok r := by
  intro fuel' ts v st r hle h
  obtain ⟨m, rfl⟩ : ∃ m, fuel' = m + 1 := ⟨fuel' - 1, by omega⟩
  cases ts with
  | nil => rw [arithLoop] at h ⊢; exact h
  | cons x rest =>
    obtain ⟨op, t⟩ := x
    rw [arithLoop] at h ⊢
    cases h1 : visitTerm ops n t st with
    | error e => rw [h1] at h; cases h
    | ok p =>
      obtain ⟨right, st1⟩ := p
      rw [h1] at h
      rw [ih.term m t st _ (by omega) h1]
      simp only at h ⊢
      split at h
      · rename_i hop
        rw [if_pos hop]
        cases h2 : performAdd ops n v right with
        | error e => simp only [h2] at h; cases h
        | ok v2 =>
          simp only [h2] at h
          simp only [performAdd_mono ops n m v right v2 (by omega) h2]
          exact ih.arithLoop m _ _ _ r (by omega) h
      · rename_i hop
        rw [if_neg hop]
        exact ih.arithLoop m _ _ _ r (by omega) h

theorem mono_term_step {F : Type} {ops : DoubleOps F} {n : Nat} (ih : EvalMono ops n) :
    ∀ fuel' t st r, n + 1 ≤ fuel' → visitTerm ops (n + 1) t st = .ok r →
      visitTerm ops fuel' t st = .ok r := by
  intro fuel' t st r hle h
  obtain ⟨m, rfl⟩ : ∃ m, fuel' = m + 1 := ⟨fuel' - 1, by omega⟩
  cases t with
  | mk first rest =>
    rw [visitTerm] at h ⊢
    cases h1 : visitFactor ops n first st with
    | error e => rw [h1] at h; cases h
    | ok p =>
      obtain ⟨v, st1⟩ := p
      rw [h1] at h
      rw [ih.factor m first st _ (by omega) h1]
      exact ih.termLoop m _ _ _ r (by omega) h

theorem mono_termLoop_step {F : Type} {ops : DoubleOps F} {n : Nat} (ih : EvalMono ops n) :
    ∀ fuel' fs v st r, n + 1 ≤ fuel' → termLoop ops (n + 1) fs v st = .ok r →
      termLoop ops fuel' fs v st = .ok r := by
  intro fuel' fs v st r hle h
  obtain ⟨m, rfl⟩ : ∃ m, fuel' = m + 1 := ⟨fuel' - 1, by omega⟩
  cases fs with
  | nil => rw [termLoop] at h ⊢; exact h
  | cons x rest =>
    obtain ⟨op, f⟩ := x
    rw [termLoop] at h ⊢
    cases h1 : visitFactor ops n f st with
    | error e => rw [h1] at h; cases h
    | ok p =>
      obtain ⟨right, st1⟩ := p
      rw [h1] at h
      rw [ih.factor m f st _ (by omega) h1]
      simp only at h ⊢
      cases h2 : applyTermOp ops n op v right with
      | error e => simp only [h2] at h; cases h
      | ok v2 =>
        simp only [h2] at h
        simp only [applyTermOp_mono ops n m op v right v2 (by omega) h2]
        exact ih.termLoop m _ _ _ r (by omega) h

theorem mono_factor_step {F : Type} {ops : DoubleOps F} {n : Nat} (ih : EvalMono ops n) :
    ∀ fuel' f st r, n + 1 ≤ fuel' → visitFactor ops (n + 1) f st = .ok r →
      visitFactor ops fuel' f st = .ok r := by
  intro fuel' f st r hle h
  obtain ⟨m, rfl⟩ : ∃ m, fuel' = m + 1 := ⟨fuel' - 1, by omega⟩
  cases f with
  | signed minus f =>
    rw [visitFactor] at h ⊢
    cases h1 : visitFactor ops n f st with
    | error e => rw [h1] at h; cases h
    | ok p =>
      obtain ⟨v1, st1⟩ := p
      rw [h1] at h
      rw [ih.factor m f st _ (by omega) h1]
      exact h
  | atomExpr a =>
    rw [visitFactor] at h ⊢
    exact ih.atomExpr m a st r (by omega) h

theorem mono_atomExpr_step {F : Type} {ops : DoubleOps F} {n : Nat} (ih : EvalMono ops n) :
    ∀ fuel' a st r, n + 1 ≤ fuel' → visitAtom_expr ops (n + 1) a st = .ok r →
      visitAtom_expr ops fuel' a st = .ok r := by
  intro fuel' a st r hle h
  obtain ⟨m, rfl⟩ : ∃ m, fuel' = m + 1 := ⟨fuel' - 1, by omega⟩
  cases a with
  | mk atom tr =>
    cases tr with
    | none =>
      rw [visitAtom_expr] at h ⊢
      exact ih.atom m atom st r (by omega) h
    | some trailer =>
      rw [visitAtom_expr] at h ⊢
      cases h1 : visitAtom ops n atom st with
      | error e => rw [h1] at h; cases h
      | ok p =>
        obtain ⟨v1, st1⟩ := p
        rw [h1] at h
        rw [ih.atom m atom st _ (by omega) h1]
        cases h2 : visitTrailer ops n trailer st1 with
        | error e => simp only [h2] at h; cases h
        | ok p2 =>
          obtain ⟨⟨pos, kw⟩, st2⟩ := p2
          simp only [h2] at h
          simp only [ih.trailer m _ st1 _ (by omega) h2]
          cases v1 with
          | str fn => exact ih.call m _ _ _ _ r (by omega) h
          | none => exact h
          | bool b => exact h
          | int i => exact h
          | float x => exact h
          | tuple vs => exact h

theorem mono_trailer_step {F : Type} {ops : DoubleOps F} {n : Nat} (ih : EvalMono ops n) :
    ∀ fuel' t st r, n + 1 ≤ fuel' → visitTrailer ops (n + 1) t st = .ok r →
      visitTrailer ops fuel' t st = .ok r := by
  intro fuel' t st r hle h
  obtain ⟨m, rfl⟩ : ∃ m, fuel' = m + 1 := ⟨fuel' - 1, by omega⟩
  cases t with
  | mk args =>
    cases args with
    | none => rw [visitTrailer] at h ⊢; exact h
    | some args =>
      rw [visitTrailer] at h ⊢
      exact ih.arglist m _ _ _ _ r (by omega) h

theorem mono_arglist_step {F : Type} {ops : DoubleOps F} {n : Nat} (ih : EvalMono ops n) :
    ∀ fuel' args pos kw st r, n + 1 ≤ fuel' → visitArglist ops (n + 1) args pos kw st = .ok r →
      visitArglist ops fuel' args pos kw st = .ok r := by
  intro fuel' args pos kw st r hle h
  obtain ⟨m, rfl⟩ : ∃ m, fuel' = m + 1 := ⟨fuel' - 1, by omega⟩
  cases args with
  | nil => rw [visitArglist] at h ⊢; exact h
  | cons a rest =>
    cases a with
    | positional t =>
      rw [visitArglist] at h ⊢
      cases h1 : visitTest ops n t st with
      | error e => rw [h1] at h; cases h
      | ok p =>
        obtain ⟨v1, st1⟩ := p
        rw [h1] at h
        rw [ih.test m t st _ (by omega) h1]
        exact ih.arglist m _ _ _ _ r (by omega) h
    | keyword name value =>
      rw [visitArglist] at h ⊢
      cases h1 : visitTest ops n value st with
      | error e => rw [h1] at h; cases h
      | ok p =>
        obtain ⟨v1, st1⟩ := p
        rw [h1] at h
        rw [ih.test m value st _ (by omega) h1]
        exact ih.arglist m _ _ _ _ r (by omega) h

theorem mono_atom_step {F : Type} {ops : DoubleOps F} {n : Nat} (ih : EvalMono ops n) :
    ∀ fuel' a st r, n + 1 ≤ fuel' → visitAtom ops (n + 1) a st = .ok r →
      visitAtom ops fuel' a st = .ok r := by
  intro fuel' a st r hle h
  obtain ⟨m, rfl⟩ : ∃ m, fuel' = m + 1 := ⟨fuel' - 1, by omega⟩
  cases a with
  | none => rw [visitAtom] at h ⊢; exact h
  | true => rw [visitAtom] at h ⊢; exact h
  | false => rw [visitAtom] at h ⊢; exact h
  | name x => rw [visitAtom] at h ⊢; exact h
  | number text => rw [visitAtom] at h ⊢; exact h
  | strings tokens => rw [visitAtom] at h ⊢; exact h
  | formatString children =>
    rw [visitAtom] at h ⊢
    exact ih.formatString m _ _ _ r (by omega) h
  | paren t =>
    rw [visitAtom] at h ⊢
    exact ih.test m _ _ r (by omega) h

theorem mono_formatString_step {F : Type} {ops : DoubleOps F} {n : Nat}
    (ih : EvalMono ops n) :
    ∀ fuel' cs res st r, n + 1 ≤ fuel' → visitFormat_string ops (n + 1) cs res st = .ok r →
      visitFormat_string ops fuel' cs res st = .ok r := by
  intro fuel' cs res st r hle h
  obtain ⟨m, rfl⟩ : ∃ m, fuel' = m + 1 := ⟨fuel' - 1, by omega⟩
  cases cs with
  | nil => rw [visitFormat_string] at h ⊢; exact h
  | cons c rest =>
    cases c with
    | literal text =>
      rw [visitFormat_string] at h ⊢
      exact ih.formatString m _ _ _ r (by omega) h
    | token =>
      rw [visitFormat_string] at h ⊢
      exact ih.formatString m _ _ _ r (by omega) h
    | testlist tests =>
      rw [visitFormat_string] at h ⊢
      cases h1 : visitTestlist ops n tests st with
      | error e => rw [h1] at h; cases h
      | ok p =>
        obtain ⟨v1, st1⟩ := p
        rw [h1] at h
        rw [ih.testlist m tests st _ (by omega) h1]
        exact ih.formatString m _ _ _ r (by omega) h

theorem mono_testlist_step {F : Type} {ops : DoubleOps F} {n : Nat} (ih : EvalMono ops n) :
    ∀ fuel' ts st r, n + 1 ≤ fuel' → visitTestlist ops (n + 1) ts st = .ok r →
      visitTestlist ops fuel' ts st = .ok r := by
  intro fuel' ts st r hle h
  obtain ⟨m, rfl⟩ : ∃ m, fuel' = m + 1 := ⟨fuel' - 1, by omega⟩
  cases ts with
  | nil => rw [visitTestlist] at h ⊢; exact h
  | cons t rest =>
    rw [visitTestlist] at h ⊢
    cases h1 : visitTest ops n t st with
    | error e => rw [h1] at h; cases h
    | ok p =>
      obtain ⟨v1, st1⟩ := p
      rw [h1] at h
      rw [ih.test m t st _ (by omega) h1]
      cases h2 : visitTestlist ops n rest st1 with
      | error e => simp only [h2] at h; cases h
      | ok p2 =>
        obtain ⟨vs, st2⟩ := p2
        simp only [h2] at h
        simp only [ih.testlist m _ st1 _ (by omega) h2]
        exact h

theorem mono_call_step {F : Type} {ops : DoubleOps F} {n : Nat} (ih : EvalMono ops n) :
    ∀ fuel' name pos kw st r, n + 1 ≤ fuel' → callFunction ops (n + 1) name pos kw st = .ok r →
      callFunction ops fuel' name pos kw st = .ok r := by
  intro fuel' name pos kw st r hle h
  obtain ⟨m, rfl⟩ : ∃ m, fuel' = m + 1 := ⟨fuel' - 1, by omega⟩
  rw [callFunction] at h ⊢
  split at h
  · rename_i hb; rw [if_pos hb]; exact h
  · rename_i hb
    rw [if_neg hb]
    cases hf : st.functions.find name with
    | none => simp only [hf] at h ⊢; exact h
    | some func =>
      simp only [hf] at h ⊢
      cases hd : bindDefaults func.defaults (func.params.length - func.defaults.length)
          func.params 0 (bindKeywords kw (bindPositional func.params pos [])) with
      | error e => simp only [hd] at h; cases h
      | ok scope1 =>
        simp only [hd] at h ⊢
        cases h1 : visitSuite ops n func.body
            { st with scopes := scope1 :: st.scopes, returnFlag := false,
                      returnValue := .none } with
        | error e => simp only [h1] at h; cases h
        | ok st1 =>
          simp only [h1] at h
          simp only [ih.suite m _ _ _ (by omega) h1]
          exact h

theorem mono_suite_step {F : Type} {ops : DoubleOps F} {n : Nat} (ih : EvalMono ops n) :
    ∀ fuel' s st r, n + 1 ≤ fuel' → visitSuite ops (n + 1) s st = .ok r →
      visitSuite ops fuel' s st = .ok r := by
  intro fuel' s st r hle h
  obtain ⟨m, rfl⟩ : ∃ m, fuel' = m + 1 := ⟨fuel' - 1, by omega⟩
  cases s with
  | simple s =>
    rw [visitSuite] at h ⊢
    exact ih.smallStmt m _ _ r (by omega) h
  | block stmts =>
    rw [visitSuite] at h ⊢
    exact ih.suiteLoop m _ _ r (by omega) h

theorem mono_suiteLoop_step {F : Type} {ops : DoubleOps F} {n : Nat} (ih : EvalMono ops n) :
    ∀ fuel' ss st r, n + 1 ≤ fuel' → suiteLoop ops (n + 1) ss st = .ok r →
      suiteLoop ops fuel' ss st = .ok r := by
  intro fuel' ss st r hle h
  obtain ⟨m, rfl⟩ : ∃ m, fuel' = m + 1 := ⟨fuel' - 1, by omega⟩
  cases ss with
  | nil => rw [suiteLoop] at h ⊢; exact h
  | cons s rest =>
    rw [suiteLoop] at h ⊢
    cases h1 : visitStmt ops n s st with
    | error e => rw [h1] at h; cases h
    | ok st1 =>
      rw [h1] at h
      rw [ih.stmt m s st _ (by omega) h1]
      simp only at h ⊢
      split at h
      · rename_i hb; rw [if_pos hb]; exact h
      · rename_i hb; rw [if_neg hb]; exact ih.suiteLoop m _ _ r (by omega) h

theorem mono_stmt_step {F : Type} {ops : DoubleOps F} {n : Nat} (ih : EvalMono ops n) :
    ∀ fuel' s st r, n + 1 ≤ fuel' → visitStmt ops (n + 1) s st = .ok r →
      visitStmt ops fuel' s st = .ok r := by
  intro fuel' s st r hle h
  obtain ⟨m, rfl⟩ : ∃ m, fuel' = m + 1 := ⟨fuel' - 1, by omega⟩
  cases s with
  | simple s =>
    rw [visitStmt] at h ⊢
    exact ih.smallStmt m _ _ r (by omega) h
  | compound c =>
    cases c with
    | ifStmt branches elseSuite =>
      rw [visitStmt] at h ⊢
      exact ih.ifStmt m _ _ _ r (by omega) h
    | whileStmt test suite =>
      rw [visitStmt] at h ⊢
      exact ih.whileStmt m _ _ _ r (by omega) h
    | funcdef name tal suite =>
      rw [visitStmt] at h ⊢
      exact ih.funcdef m _ _ _ _ r (by omega) h

theorem mono_smallStmt_step {F : Type} {ops : DoubleOps F} {n : Nat} (ih : EvalMono ops n) :
    ∀ fuel' s st r, n + 1 ≤ fuel' → visitSmall_stmt ops (n + 1) s st = .ok r →
      visitSmall_stmt ops fuel' s st = .ok r := by
  intro fuel' s st r hle h
  obtain ⟨m, rfl⟩ : ∃ m, fuel' = m + 1 := ⟨fuel' - 1, by omega⟩
  cases s with
  | expr e =>
    rw [visitSmall_stmt] at h ⊢
    exact ih.exprStmt m _ _ r (by omega) h
  | flow f =>
    cases f with
    | «break» => rw [visitSmall_stmt] at h ⊢; exact h
    | «continue» => rw [visitSmall_stmt] at h ⊢; exact h
    | «return» tl =>
      rw [visitSmall_stmt] at h ⊢
      exact ih.returnStmt m _ _ r (by omega) h

theorem mono_returnStmt_step {F : Type} {ops : DoubleOps F} {n : Nat} (ih : EvalMono ops n) :
    ∀ fuel' tl st r, n + 1 ≤ fuel' → visitReturn_stmt ops (n + 1) tl st = .ok r →
      visitReturn_stmt ops fuel' tl st = .ok r := by
  intro fuel' tl st r hle h
  obtain ⟨m, rfl⟩ : ∃ m, fuel' = m + 1 := ⟨fuel' - 1, by omega⟩
  cases tl with
  | none => rw [visitReturn_stmt] at h ⊢; exact h
  | some testlist =>
    rw [visitReturn_stmt] at h ⊢
    cases h1 : visitTestlist ops n testlist { st with returnFlag := true } with
    | error e => rw [h1] at h; cases h
    | ok p =>
      obtain ⟨vs, st1⟩ := p
      rw [h1] at h
      rw [ih.testlist m _ _ _ (by omega) h1]
      exact h

theorem mono_exprStmt_step {F : Type} {ops : DoubleOps F} {n : Nat} (ih : EvalMono ops n) :
    ∀ fuel' e st r, n + 1 ≤ fuel' → visitExpr_stmt ops (n + 1) e st = .ok r →
      visitExpr_stmt ops fuel' e st = .ok r := by
  intro fuel' e st r hle h
  obtain ⟨m, rfl⟩ : ∃ m, fuel' = m + 1 := ⟨fuel' - 1, by omega⟩
  rw [visitExpr_stmt] at h ⊢
  split at h
  · rename_i hrest
    cases h1 : visitTestlist ops n e.first st with
    | error e => simp only [h1] at h; cases h
    | ok p =>
      obtain ⟨vs, st1⟩ := p
      simp only [h1] at h
      simp only [ih.testlist m _ _ _ (by omega) h1]
      exact h
  · rename_i second others hrest
    split at h
    · rename_i op hop
      split at h
      · rename_i target hfirst
        cases h1 : visitTestlist ops n second st with
        | error e => simp only [h1] at h; cases h
        | ok p =>
          obtain ⟨vs, st1⟩ := p
          simp only [h1] at h
          simp only [ih.testlist m _ _ _ (by omega) h1]
          cases vs with
          | nil => simp only at h; cases h
          | cons right rs =>
            simp only at h ⊢
            cases h2 : applyAugassign ops n op (st.getVariable target.text) right with
            | error e => simp only [h2] at h; cases h
            | ok res =>
              simp only [h2] at h
              simp only [applyAugassign_mono ops n m op _ right res (by omega) h2]
              exact h
      · exact h
    · rename_i hop
      cases h1 : visitTestlist ops n ((second :: others).getLast (by simp)) st with
      | error e => simp only [h1] at h; cases h
      | ok p =>
        obtain ⟨vs, st1⟩ := p
        simp only [h1] at h
        simp only [ih.testlist m _ _ _ (by omega) h1]
        exact h

theorem mono_ifStmt_step {F : Type} {ops : DoubleOps F} {n : Nat} (ih : EvalMono ops n) :
    ∀ fuel' bs el st r, n + 1 ≤ fuel' → visitIf_stmt ops (n + 1) bs el st = .ok r →
      visitIf_stmt ops fuel' bs el st = .ok r := by
  intro fuel' bs el st r hle h
  obtain ⟨m, rfl⟩ : ∃ m, fuel' = m + 1 := ⟨fuel' - 1, by omega⟩
  cases bs with
  | nil =>
    cases el with
    | none => rw [visitIf_stmt] at h ⊢; exact h
    | some suite =>
      rw [visitIf_stmt] at h ⊢
      exact ih.suite m _ _ r (by omega) h
  | cons b rest =>
    obtain ⟨test, suite⟩ := b
    rw [visitIf_stmt] at h ⊢
    cases h1 : visitTest ops n test st with
    | error e => rw [h1] at h; cases h
    | ok p =>
      obtain ⟨c, st1⟩ := p
      rw [h1] at h
      rw [ih.test m _ _ _ (by omega) h1]
      simp only at h ⊢
      split at h
      · rename_i hb; rw [if_pos hb]; exact ih.suite m _ _ r (by omega) h
      · rename_i hb; rw [if_neg hb]; exact ih.ifStmt m _ _ _ r (by omega) h

theorem mono_whileStmt_step {F : Type} {ops : DoubleOps F} {n : Nat} (ih : EvalMono ops n) :
    ∀ fuel' t s st r, n + 1 ≤ fuel' → visitWhile_stmt ops (n + 1) t s st = .ok r →
      visitWhile_stmt ops fuel' t s st = .ok r := by
  intro fuel' t s st r hle h
  obtain ⟨m, rfl⟩ : ∃ m, fuel' = m + 1 := ⟨fuel' - 1, by omega⟩
  rw [visitWhile_stmt] at h ⊢
  cases h1 : visitTest ops n t st with
  | error e => rw [h1] at h; cases h
  | ok p =>
    obtain ⟨c, st1⟩ := p
    rw [h1] at h
    rw [ih.test m _ _ _ (by omega) h1]
    simp only at h ⊢
    split at h
    · rename_i hb; rw [if_pos hb]; exact h
    · rename_i hb
      rw [if_neg hb]
      cases h2 : visitSuite ops n s st1 with
      | error e => simp only [h2] at h; cases h
      | ok st2 =>
        simp only [h2] at h
        simp only [ih.suite m _ _ _ (by omega) h2]
        split at h
        · rename_i hb1; rw [if_pos hb1]; exact h
        · rename_i hb1
          rw [if_neg hb1]
          split at h
          · rename_i hb2; rw [if_pos hb2]; exact ih.whileStmt m _ _ _ r (by omega) h
          · rename_i hb2
            rw [if_neg hb2]
            split at h
            · rename_i hb3; rw [if_pos hb3]; exact h
            · rename_i hb3; rw [if_neg hb3]; exact ih.whileStmt m _ _ _ r (by omega) h

theorem mono_funcdef_step {F : Type} {ops : DoubleOps F} {n : Nat} (ih : EvalMono ops n) :
    ∀ fuel' name tal s st r, n + 1 ≤ fuel' → visitFuncdef ops (n + 1) name tal s st = .ok r →
      visitFuncdef ops fuel' name tal s st = .ok r := by
  intro fuel' name tal s st r hle h
  obtain ⟨m, rfl⟩ : ∃ m, fuel' = m + 1 := ⟨fuel' - 1, by omega⟩
  cases tal with
  | none => rw [visitFuncdef] at h ⊢; exact h
  | some tal =>
    rw [visitFuncdef] at h ⊢
    cases h1 : visitTypedargslist ops (typedargsTests tal)
        ((tal.map Prod.fst).length - (typedargsTests tal).length) n (tal.map Prod.fst) 0 [] st with
    | error e => simp only [h1] at h; cases h
    | ok p =>
      obtain ⟨ds, st1⟩ := p
      simp only [h1] at h
      simp only [ih.typedargslist m _ _ _ _ _ _ _ (by omega) h1]
      exact h

theorem mono_typedargslist_step {F : Type} {ops : DoubleOps F} {n : Nat}
    (ih : EvalMono ops n) :
    ∀ fuel' tests ds names i defaults st r, n + 1 ≤ fuel' →
      visitTypedargslist ops tests ds (n + 1) names i defaults st = .ok r →
      visitTypedargslist ops tests ds fuel' names i defaults st = .ok r := by
  intro fuel' tests ds names i defaults st r hle h
  obtain ⟨m, rfl⟩ : ∃ m, fuel' = m + 1 := ⟨fuel' - 1, by omega⟩
  cases names with
  | nil => rw [visitTypedargslist] at h ⊢; exact h
  | cons x names =>
    rw [visitTypedargslist] at h ⊢
    split at h
    · rename_i hb
      rw [if_pos hb]
      cases ht : tests[i - ds]? with
      | none => simp only [ht] at h; cases h
      | some t =>
        simp only [ht] at h ⊢
        cases h1 : visitTest ops n t st with
        | error e => simp only [h1] at h; cases h
        | ok p =>
          obtain ⟨v, st1⟩ := p
          simp only [h1] at h
          simp only [ih.test m _ _ _ (by omega) h1]
          exact ih.typedargslist m _ _ _ _ _ _ r (by omega) h
    · rename_i hb
      rw [if_neg hb]
      exact ih.typedargslist m _ _ _ _ _ _ r (by omega) h

theorem evalMono_zero {F : Type} (ops : DoubleOps F) : EvalMono ops 0 := by
  constructor
  all_goals intros
  all_goals rename_i h
  · rw [visitTest] at h; cases h
  · rw [visitOr_test] at h; cases h
  · rw [orLoop] at h; cases h
  · rw [visitAnd_test] at h; cases h
  · rw [andLoop] at h; cases h
  · rw [visitNot_test] at h; cases h
  · rw [visitComparison] at h; cases h
  · rw [comparisonValues] at h; cases h
  · rw [visitArith_expr] at h; cases h
  · rw [arithLoop] at h; cases h
  · rw [visitTerm] at h; cases h
  · rw [termLoop] at h; cases h
  · rw [visitFactor] at h; cases h
  · rw [visitAtom_expr] at h; cases h
  · rw [visitTrailer] at h; cases h
  · rw [visitArglist] at h; cases h
  · rw [visitAtom] at h; cases h
  · rw [visitFormat_string] at h; cases h
  · rw [visitTestlist] at h; cases h
  · rw [callFunction] at h; cases h
  · rw [visitSuite] at h; cases h
  · rw [suiteLoop] at h; cases h
  · rw [visitStmt] at h; cases h
  · rw [visitSmall_stmt] at h; cases h
  · rw [visitReturn_stmt] at h; cases h
  · rw [visitExpr_stmt] at h; cases h
  · rw [visitIf_stmt] at h; cases h
  · rw [visitWhile_stmt] at h; cases h
  · rw [visitFuncdef] at h; cases h
  · rw [visitTypedargslist] at h; cases h

/-- More fuel never changes a result: what a visitor returns with `fuel` it returns with
every larger `fuel`. -/
theorem evalMono {F : Type} (ops : DoubleOps F) : ∀ fuel, EvalMono ops fuel := by
  intro fuel
  induction fuel with
  | zero => exact evalMono_zero ops
  | succ n ih =>
    exact
      { test := mono_test_step ih
        orTest := mono_orTest_step ih
        orLoop := mono_orLoop_step ih
        andTest := mono_andTest_step ih
        andLoop := mono_andLoop_step ih
        notTest := mono_notTest_step ih
        comparison := mono_comparison_step ih
        comparisonValues := mono_comparisonValues_step ih
        arithExpr := mono_arithExpr_step ih
        arithLoop := mono_arithLoop_step ih
        term := mono_term_step ih
        termLoop := mono_termLoop_step ih
        factor := mono_factor_step ih
        atomExpr := mono_atomExpr_step ih
        trailer := mono_trailer_step ih
        arglist := mono_arglist_step ih
        atom := mono_atom_step ih
        formatString := mono_formatString_step ih
        testlist := mono_testlist_step ih
        call := mono_call_step ih
        suite := mono_suite_step ih
        suiteLoop := mono_suiteLoop_step ih
        stmt := mono_stmt_step ih
        smallStmt := mono_smallStmt_step ih
        returnStmt := mono_returnStmt_step ih
        exprStmt := mono_exprStmt_step ih
        ifStmt := mono_ifStmt_step ih
        whileStmt := mono_whileStmt_step ih
        funcdef := mono_funcdef_step ih
        typedargslist := mono_typedargslist_step ih }

/-! ### The frame of a call -/

theorem StrMap.find_insert {α : Type} (m : StrMap α) (k x : String) (v : α) :
    (m.insert k v).find x = if k = x then some v else m.find x := by
  induction m with
  | nil => simp [StrMap.insert, StrMap.find]
  | cons kv rest ih =>
    obtain ⟨k1, v1⟩ := kv
    by_cases h1 : k1 = k
    · subst h1
      by_cases h2 : k1 = x <;> simp [StrMap.insert, StrMap.find, h2]
    · by_cases h2 : k1 = x
      · subst h2
        have h3 : ¬ k = k1 := fun h => h1 h.symm
        simp [StrMap.insert, StrMap.find, h1, h3]
      · simp [StrMap.insert, StrMap.find, h1, h2, ih]

theorem StrMap.find_none_of_not_mem {α : Type} (m : StrMap α) (x : String)
    (h : x ∉ m.map Prod.fst) : m.find x = none := by
  induction m with
  | nil => rfl
  | cons kv rest ih =>
    obtain ⟨k1, v1⟩ := kv
    simp only [List.map_cons, List.mem_cons, not_or] at h
    have h1 : ¬ k1 = x := fun e => h.1 e.symm
    simp [StrMap.find, h1, ih h.2]

theorem bindPositional_find {F : Type} (ps : List String) (vs : List (Value F))
    (scope : StrMap (Value F)) (x : String) (hnd : ps.Nodup) :
    (bindPositional ps vs scope).find x =
      if ps.indexOf x < ps.length ∧ ps.indexOf x < vs.length then vs[ps.indexOf x]?
      else scope.find x := by
  induction ps generalizing vs scope with
  | nil => simp [bindPositional]
  | cons p ps ih =>
    cases vs with
    | nil => simp [bindPositional]
    | cons v vs =>
      rw [bindPositional, ih vs _ (List.nodup_cons.mp hnd).2, StrMap.find_insert]
      by_cases hp : p = x
      · subst hp
        have hnot : p ∉ ps := (List.nodup_cons.mp hnd).1
        have : ps.indexOf p = ps.length := List.indexOf_eq_length.mpr hnot
        simp [this]
      · have hidx : (p :: ps).indexOf x = ps.indexOf x + 1 := by
          rw [List.indexOf_cons_ne _ hp]
        simp [hidx, hp]

theorem bindKeywords_find {F : Type} (kws : List (String × Value F))
    (scope : StrMap (Value F)) (x : String) (hnd : (kws.map Prod.fst).Nodup) :
    (bindKeywords kws scope).find x =
      match StrMap.find kws x with
      | some v => some v
      | Option.none => scope.find x := by
  induction kws generalizing scope with
  | nil => simp [bindKeywords, StrMap.find]
  | cons kv kws ih =>
    obtain ⟨k, v⟩ := kv
    simp only [List.map_cons, List.nodup_cons] at hnd
    rw [bindKeywords, ih _ hnd.2, StrMap.find_insert]
    by_cases hk : k = x
    · subst hk
      rw [StrMap.find_none_of_not_mem kws k hnd.1]
      simp [StrMap.find]
    · simp [StrMap.find, hk]

theorem bindDefaults_find {F : Type} (defaults : List (Value F)) (fdi : Nat)
    (ps : List String) (i : Nat) (scope : StrMap (Value F)) (hnd : ps.Nodup)
    (hlen : i + ps.length ≤ fdi + defaults.length) :
    ∃ scope1, bindDefaults defaults fdi ps i scope = .ok scope1 ∧
      ∀ x, scope1.find x =
        match scope.find x with
        | some v => some v
        | Option.none =>
          if ps.indexOf x < ps.length ∧ fdi ≤ i + ps.indexOf x then
            defaults[i + ps.indexOf x - fdi]?
          else Option.none := by
  induction ps generalizing i scope with
  | nil =>
    refine ⟨scope, rfl, fun x => ?_⟩
    cases scope.find x <;> simp
  | cons p ps ih =>
    have hnot : p ∉ ps := (List.nodup_cons.mp hnd).1
    have hidxp : ps.indexOf p = ps.length := List.indexOf_eq_length.mpr hnot
    have hlen1 : i + 1 + ps.length ≤ fdi + defaults.length := by
      simp only [List.length_cons] at hlen; omega
    have hne : ∀ x, ¬ p = x → (p :: ps).indexOf x = ps.indexOf x + 1 := fun x hp => by
      rw [List.indexOf_cons_ne _ hp]
    rw [bindDefaults]
    cases hfp : scope.find p with
    | some u =>
      obtain ⟨scope1, h1, h2⟩ := ih (i + 1) scope (List.nodup_cons.mp hnd).2 hlen1
      refine ⟨scope1, h1, fun x => ?_⟩
      rw [h2 x]
      cases hfx : scope.find x with
      | some w => rfl
      | none =>
        have hp : ¬ p = x := fun e => by rw [e, hfx] at hfp; cases hfp
        simp only [hne x hp, List.length_cons, Nat.add_lt_add_iff_right]
        have e1 : i + (ps.indexOf x + 1) = i + 1 + ps.indexOf x := by omega
        rw [e1]
    | none =>
      simp only
      by_cases hi : fdi ≤ i
      · rw [if_pos hi]
        have hlt : i - fdi < defaults.length := by
          simp only [List.length_cons] at hlen; omega
        obtain ⟨d, hd⟩ : ∃ d, defaults[i - fdi]? = some d :=
          ⟨defaults[i - fdi], List.getElem?_eq_getElem hlt⟩
        simp only [hd]
        obtain ⟨scope1, h1, h2⟩ :=
          ih (i + 1) (scope.insert p d) (List.nodup_cons.mp hnd).2 hlen1
        refine ⟨scope1, h1, fun x => ?_⟩
        rw [h2 x, StrMap.find_insert]
        by_cases hp : p = x
        · subst hp
          simp [hfp, hi, hd]
        · simp only [if_neg hp]
          cases hfx : scope.find x with
          | some w => rfl
          | none =>
            simp only [hne x hp, List.length_cons, Nat.add_lt_add_iff_right]
            have e1 : i + (ps.indexOf x + 1) = i + 1 + ps.indexOf x := by omega
            rw [e1]
      · rw [if_neg hi]
        obtain ⟨scope1, h1, h2⟩ := ih (i + 1) scope (List.nodup_cons.mp hnd).2 hlen1
        refine ⟨scope1, h1, fun x => ?_⟩
        rw [h2 x]
        by_cases hp : p = x
        · subst hp
          simp [hfp, hi, hidxp]
        · cases hfx : scope.find x with
          | some w => rfl
          | none =>
            simp only [hne x hp, List.length_cons, Nat.add_lt_add_iff_right]
            have e1 : i + (ps.indexOf x + 1) = i + 1 + ps.indexOf x := by omega
            rw [e1]

/-- The frame that `callFunction` builds looks every name up as `frameLookup` says, and
the body runs in the state with this frame pushed and nothing else changed. -/
theorem callFunction_frame {F : Type} (ops : DoubleOps F) (fuel : Nat) (name : String)
    (func : FunctionDef F) (posArgs : List (Value F)) (kwArgs : StrMap (Value F))
    (st : State F) (hname : isBuiltinName name = false)
    (hfunc : st.functions.find name = some func) (hparams : func.params.Nodup)
    (hkw : (kwArgs.map Prod.fst).Nodup) (hdef : func.defaults.length ≤ func.params.length) :
    ∃ frame : StrMap (Value F),
      (∀ x, frame.find x = frameLookup func.params func.defaults posArgs kwArgs x) ∧
      callFunction ops (fuel + 1) name posArgs kwArgs st =
        (visitSuite ops fuel func.body
            { st with scopes := frame :: st.scopes, returnFlag := false,
                      returnValue := .none }).map
          (fun st1 => (st1.returnValue,
            { st1 with returnFlag := false, returnValue := .none,
                       scopes := st1.scopes.tail })) := by
  obtain ⟨frame, h1, h2⟩ := bindDefaults_find func.defaults
    (func.params.length - func.defaults.length) func.params 0
    (bindKeywords kwArgs (bindPositional func.params posArgs [])) hparams (by omega)
  refine ⟨frame, fun x => ?_, ?_⟩
  · rw [h2 x, bindKeywords_find _ _ _ hkw, bindPositional_find _ _ _ _ hparams, frameLookup]
    cases hk : StrMap.find kwArgs x with
    | some v => rfl
    | none =>
      simp only [Nat.zero_add, StrMap.find]
      by_cases hi : func.params.indexOf x < func.params.length
      · by_cases hj : func.params.indexOf x < posArgs.length
        · simp [hi, hj]
        · simp [hi, hj]
      · simp [hi]
  · rw [callFunction]
    simp only [hname, Bool.false_eq_true, if_false, hfunc, h1]
    cases visitSuite ops fuel func.body
      { st with scopes := frame :: st.scopes, returnFlag := false, returnValue := .none } <;> rfl

theorem visitFile_input_mono {F : Type} (ops : DoubleOps F) (fuel fuel' : Nat)
    (prog : List Stmt) (st r : State F) (hle : fuel ≤ fuel')
    (h : visitFile_input ops fuel prog st = .ok r) :
    visitFile_input ops fuel' prog st = .ok r := by
  induction prog generalizing st with
  | nil => exact h
  | cons s rest ih =>
    rw [visitFile_input] at h ⊢
    cases h1 : visitStmt ops fuel s st with
    | error e => rw [h1] at h; cases h
    | ok st1 =>
      rw [h1] at h
      rw [(evalMono ops fuel).stmt fuel' s st st1 hle h1]
      simp only at h ⊢
      split at h
      · rename_i hb; rw [if_pos hb]; exact h
      · rename_i hb; rw [if_neg hb]; exact ih st1 h

/-- A program that writes `out` with `fuel` writes `out` with every larger fuel. -/
theorem runOutput_mono {F : Type} (ops : DoubleOps F) (fuel fuel' : Nat) (prog : List Stmt)
    (out : String) (hle : fuel ≤ fuel') (h : runOutput ops fuel prog = .ok out) :
    runOutput ops fuel' prog = .ok out := by
  rw [runOutput] at h ⊢
  cases h1 : visitFile_input ops fuel prog State.init with
  | error e => rw [h1] at h; cases h
  | ok st1 =>
    rw [h1] at h
    rw [visitFile_input_mono ops fuel fuel' prog _ st1 hle h1]
    exact h

theorem defaultsProgram_output :
    runOutput DoubleOps.trivial 60 defaultsProgram = .ok "1 10 20\n1 2 20\n1 10 99\n" := by
  decide!

/-- C11: argument binding of a call of a user function. For a function with distinct
parameter names, of which the last `defaults.length` carry defaults, and keyword
arguments in a map, the call runs the body in the state with one fresh frame pushed,
and this frame looks a name up as the specification says: a keyword argument of that
name wins, else the positional argument at the index of the parameter (positionals
beyond the parameters bind nothing), else the default of the parameter when it is one
of the last `defaults.length`, else the name is unbound. For `f(a, b=10, c=20)` the
calls `f(1)`, `f(1, 2)`, `f(1, c=99)` bind `(a, b, c)` to `(1, 10, 20)`, `(1, 2, 20)`,
`(1, 10, 99)`, and the example program prints these three lines. -/
theorem C11_argument_binding {F : Type} (ops : DoubleOps F) (fuel : Nat) (name : String)
    (func : FunctionDef F) (posArgs : List (Value F)) (kwArgs : StrMap (Value F))
    (st : State F) (hname : isBuiltinName name = false)
    (hfunc : st.functions.find name = some func) (hparams : func.params.Nodup)
    (hkw : (kwArgs.map Prod.fst).Nodup) (hdef : func.defaults.length ≤ func.params.length) :
    (∃ frame : StrMap (Value F),
      (∀ x, frame.find x = frameLookup func.params func.defaults posArgs kwArgs x) ∧
      callFunction ops (fuel + 1) name posArgs kwArgs st =
        (visitSuite ops fuel func.body
            { st with scopes := frame :: st.scopes, returnFlag := false,
                      returnValue := .none }).map
          (fun st1 => (st1.returnValue,
            { st1 with returnFlag := false, returnValue := .none,
                       scopes := st1.scopes.tail }))) ∧
    (∀ (ten twenty one two ninetyNine : Value F),
      (["a", "b", "c"].map (frameLookup ["a", "b", "c"] [ten, twenty] [one] []) =
        [some one, some ten, some twenty]) ∧
      (["a", "b", "c"].map (frameLookup ["a", "b", "c"] [ten, twenty] [one, two] []) =
        [some one, some two, some twenty]) ∧
      (["a", "b", "c"].map
          (frameLookup ["a", "b", "c"] [ten, twenty] [one] [("c", ninetyNine)]) =
        [some one, some ten, some ninetyNine])) ∧
    (∀ fuel', 60 ≤ fuel' →
      runOutput DoubleOps.trivial fuel' defaultsProgram = .ok "1 10 20\n1 2 20\n1 10 99\n") := by
  refine ⟨callFunction_frame ops fuel name func posArgs kwArgs st hname hfunc hparams hkw hdef,
    fun ten twenty one two ninetyNine => ⟨?_, ?_, ?_⟩,
    fun fuel' h => runOutput_mono _ 60 fuel' _ _ h defaultsProgram_output⟩
  · simp [frameLookup, StrMap.find, List.indexOf_cons]
  · simp [frameLookup, StrMap.find, List.indexOf_cons]
  · simp [frameLookup, StrMap.find, List.indexOf_cons]

/-- C11 at the call `f(1, c=99)` of `f(a, b=10, c=20)`, with an empty body. -/
theorem C11_argument_binding_witness :
    (isBuiltinName "f" = false ∧ ["a", "b", "c"].Nodup ∧ ["c"].Nodup) ∧
    ∃ frame : StrMap (Value Unit),
      (∀ x, frame.find x =
        frameLookup ["a", "b", "c"] [.int (ofString "10"), .int (ofString "20")]
          [.int (ofString "1")] [("c", .int (ofString "99"))] x) ∧
      callFunction DoubleOps.trivial (3 + 1) "f" [.int (ofString "1")]
          [("c", .int (ofString "99"))]
          { State.init with functions :=
              [("f", ⟨["a", "b", "c"], [.int (ofString "10"), .int (ofString "20")],
                .block []⟩)] } =
        (visitSuite DoubleOps.trivial 3 (.block [])
            { State.init with
                functions :=
                  [("f", ⟨["a", "b", "c"], [.int (ofString "10"), .int (ofString "20")],
                    .block []⟩)],
                scopes := [frame], returnFlag := false, returnValue := .none }).map
          (fun st1 => (st1.returnValue,
            { st1 with returnFlag := false, returnValue := .none,
                       scopes := st1.scopes.tail })) :=
  ⟨⟨by decide, by decide, by decide⟩,
    (C11_argument_binding DoubleOps.trivial 3 "f"
      ⟨["a", "b", "c"], [.int (ofString "10"), .int (ofString "20")], .block []⟩
      [.int (ofString "1")] [("c", .int (ofString "99"))]
      { State.init with functions :=
          [("f", ⟨["a", "b", "c"], [.int (ofString "10"), .int (ofString "20")],
            .block []⟩)] }
      (by decide) (by simp [StrMap.find]) (by decide) (by decide) (by decide)).1⟩

/-! ### Short-circuit evaluation -/

/-- The explicit form of `ShortCircuit`: the operands split into those before the
deciding one, which are evaluated in order and do not decide, the deciding one, which
gives the result, and those after it, which are not evaluated. -/
theorem shortCircuit_iff_split {F α : Type} (eval : α → State F → Value F → State F → Prop)
    (decides : Value F → Prop) (x : α) (xs : List α) (st : State F) (v : Value F)
    (st2 : State F) :
    ShortCircuit eval decides x xs st v st2 ↔
      ∃ (pre : List α) (d : α) (post : List α) (vs : List (Value F)) (st1 : State F),
        x :: xs = pre ++ d :: post ∧ EvalSeq eval pre st vs st1 ∧ (∀ u ∈ vs, ¬ decides u) ∧
        eval d st1 v st2 ∧ (decides v ∨ post = []) := by
  constructor
  · intro h
    induction h with
    | last he => exact ⟨[], _, [], [], _, rfl, EvalSeq.nil _, by simp, he, Or.inr rfl⟩
    | decided he hd => exact ⟨[], _, _, [], _, rfl, EvalSeq.nil _, by simp, he, Or.inl hd⟩
    | next he hnd _ ih =>
      obtain ⟨pre, d, post, vs, st1, hsplit, hseq, hall, hev, hdec⟩ := ih
      refine ⟨_ :: pre, d, post, _ :: vs, st1, by rw [hsplit]; rfl, EvalSeq.cons he hseq, ?_,
        hev, hdec⟩
      intro u hu
      rcases List.mem_cons.mp hu with rfl | hu
      · exact hnd
      · exact hall u hu
  · rintro ⟨pre, d, post, vs, st1, hsplit, hseq, hall, hev, hdec⟩
    induction pre generalizing x xs st vs with
    | nil =>
      simp only [List.nil_append, List.cons.injEq] at hsplit
      obtain ⟨rfl, rfl⟩ := hsplit
      cases hseq
      cases xs with
      | nil => exact ShortCircuit.last hev
      | cons y ys =>
        rcases hdec with hd | hd
        · exact ShortCircuit.decided hev hd
        · cases hd
    | cons p pre ih =>
      simp only [List.cons_append, List.cons.injEq] at hsplit
      obtain ⟨rfl, rfl⟩ := hsplit
      cases hseq with
      | cons he hrest =>
        obtain ⟨y, ys, hy⟩ : ∃ y ys, pre ++ d :: post = y :: ys := by
          cases pre with
          | nil => exact ⟨d, post, rfl⟩
          | cons q qs => exact ⟨q, qs ++ d :: post, rfl⟩
        rw [hy]
        exact ShortCircuit.next he (hall _ (List.mem_cons_self _ _))
          (ih y ys _ _ hy.symm hrest (fun u hu => hall u (List.mem_cons_of_mem _ hu)))

theorem orLoop_returns_iff {F : Type} (ops : DoubleOps F) (xs : List AndTest) (r : Value F)
    (st1 : State F) (v : Value F) (st2 : State F) :
    (∃ fuel, orLoop ops fuel xs r st1 = .ok (v, st2)) ↔
      ((xs = [] ∨ r.toBool ops = true) ∧ v = r ∧ st2 = st1) ∨
      (r.toBool ops = false ∧ ∃ y ys w st, xs = y :: ys ∧ AndTestReturns ops y st1 w st ∧
        ∃ fuel, orLoop ops fuel ys w st = .ok (v, st2)) := by
  constructor
  · rintro ⟨fuel, h⟩
    cases fuel with
    | zero => rw [orLoop] at h; cases h
    | succ f =>
      cases xs with
      | nil =>
        rw [orLoop] at h
        cases h
        exact Or.inl ⟨Or.inl rfl, rfl, rfl⟩
      | cons y ys =>
        rw [orLoop] at h
        split at h
        · rename_i hb
          cases h
          exact Or.inl ⟨Or.inr hb, rfl, rfl⟩
        · rename_i hb
          cases h1 : visitAnd_test ops f y st1 with
          | error e => rw [h1] at h; cases h
          | ok p =>
            obtain ⟨w, st⟩ := p
            rw [h1] at h
            exact Or.inr ⟨by simpa using hb, y, ys, w, st, rfl, ⟨f, h1⟩, ⟨f, h⟩⟩
  · rintro (⟨hx, rfl, rfl⟩ | ⟨hb, y, ys, w, st, rfl, ⟨f1, h1⟩, ⟨f2, h2⟩⟩)
    · refine ⟨1, ?_⟩
      cases xs with
      | nil => rw [orLoop]
      | cons y ys =>
        rcases hx with hx | hx
        · cases hx
        · rw [orLoop, if_pos hx]
    · refine ⟨max f1 f2 + 1, ?_⟩
      rw [orLoop, if_neg (by simp [hb]),
        (evalMono ops f1).andTest (max f1 f2) y st1 _ (le_max_left _ _) h1]
      exact (evalMono ops f2).orLoop (max f1 f2) ys w st _ (le_max_right _ _) h2

theorem andLoop_returns_iff {F : Type} (ops : DoubleOps F) (xs : List NotTest) (r : Value F)
    (st1 : State F) (v : Value F) (st2 : State F) :
    (∃ fuel, andLoop ops fuel xs r st1 = .ok (v, st2)) ↔
      ((xs = [] ∨ r.toBool ops = false) ∧ v = r ∧ st2 = st1) ∨
      (r.toBool ops = true ∧ ∃ y ys w st, xs = y :: ys ∧ NotTestReturns ops y st1 w st ∧
        ∃ fuel, andLoop ops fuel ys w st = .ok (v, st2)) := by
  constructor
  · rintro ⟨fuel, h⟩
    cases fuel with
    | zero => rw [andLoop] at h; cases h
    | succ f =>
      cases xs with
      | nil =>
        rw [andLoop] at h
        cases h
        exact Or.inl ⟨Or.inl rfl, rfl, rfl⟩
      | cons y ys =>
        rw [andLoop] at h
        split at h
        · rename_i hb
          cases h
          exact Or.inl ⟨Or.inr (by simpa using hb), rfl, rfl⟩
        · rename_i hb
          cases h1 : visitNot_test ops f y st1 with
          | error e => rw [h1] at h; cases h
          | ok p =>
            obtain ⟨w, st⟩ := p
            rw [h1] at h
            exact Or.inr ⟨by simpa using hb, y, ys, w, st, rfl, ⟨f, h1⟩, ⟨f, h⟩⟩
  · rintro (⟨hx, rfl, rfl⟩ | ⟨hb, y, ys, w, st, rfl, ⟨f1, h1⟩, ⟨f2, h2⟩⟩)
    · refine ⟨1, ?_⟩
      cases xs with
      | nil => rw [andLoop]
      | cons y ys =>
        rcases hx with hx | hx
        · cases hx
        · rw [andLoop, if_pos (by simp [hx])]
    · refine ⟨max f1 f2 + 1, ?_⟩
      rw [andLoop, if_neg (by simp [hb]),
        (evalMono ops f1).notTest (max f1 f2) y st1 _ (le_max_left _ _) h1]
      exact (evalMono ops f2).andLoop (max f1 f2) ys w st _ (le_max_right _ _) h2

theorem orLoop_shortCircuit {F : Type} (ops : DoubleOps F) (x : AndTest) (xs : List AndTest)
    (st : State F) (v : Value F) (st2 : State F) :
    ShortCircuit (AndTestReturns ops) (fun u => u.toBool ops = true) x xs st v st2 ↔
      ∃ r st1, AndTestReturns ops x st r st1 ∧ ∃ fuel, orLoop ops fuel xs r st1 = .ok (v, st2) := by
  constructor
  · intro h
    induction h with
    | last he => exact ⟨_, _, he, (orLoop_returns_iff ops _ _ _ _ _).mpr (Or.inl ⟨Or.inl rfl, rfl, rfl⟩)⟩
    | decided he hd =>
      exact ⟨_, _, he, (orLoop_returns_iff ops _ _ _ _ _).mpr (Or.inl ⟨Or.inr hd, rfl, rfl⟩)⟩
    | next he hnd _ ih =>
      obtain ⟨r, st1, hr, hloop⟩ := ih
      exact ⟨_, _, he, (orLoop_returns_iff ops _ _ _ _ _).mpr
        (Or.inr ⟨by simpa using hnd, _, _, r, st1, rfl, hr, hloop⟩)⟩
  · rintro ⟨r, st1, hr, hloop⟩
    induction xs generalizing x st r st1 with
    | nil =>
      rcases (orLoop_returns_iff ops _ _ _ _ _).mp hloop with ⟨_, rfl, rfl⟩ | ⟨_, y, ys, _, _, hxs, _⟩
      · exact ShortCircuit.last hr
      · cases hxs
    | cons y ys ih =>
      rcases (orLoop_returns_iff ops _ _ _ _ _).mp hloop with
        ⟨hx, rfl, rfl⟩ | ⟨hb, y1, ys1, w, st3, hxs, hw, hrest⟩
      · rcases hx with hx | hx
        · cases hx
        · exact ShortCircuit.decided hr hx
      · cases hxs
        exact ShortCircuit.next hr (by simp [hb]) (ih y st1 w st3 hw hrest)

theorem andLoop_shortCircuit {F : Type} (ops : DoubleOps F) (x : NotTest) (xs : List NotTest)
    (st : State F) (v : Value F) (st2 : State F) :
    ShortCircuit (NotTestReturns ops) (fun u => u.toBool ops = false) x xs st v st2 ↔
      ∃ r st1, NotTestReturns ops x st r st1 ∧
        ∃ fuel, andLoop ops fuel xs r st1 = .ok (v, st2) := by
  constructor
  · intro h
    induction h with
    | last he => exact ⟨_, _, he, (andLoop_returns_iff ops _ _ _ _ _).mpr (Or.inl ⟨Or.inl rfl, rfl, rfl⟩)⟩
    | decided he hd =>
      exact ⟨_, _, he, (andLoop_returns_iff ops _ _ _ _ _).mpr (Or.inl ⟨Or.inr hd, rfl, rfl⟩)⟩
    | next he hnd _ ih =>
      obtain ⟨r, st1, hr, hloop⟩ := ih
      exact ⟨_, _, he, (andLoop_returns_iff ops _ _ _ _ _).mpr
        (Or.inr ⟨by simpa using hnd, _, _, r, st1, rfl, hr, hloop⟩)⟩
  · rintro ⟨r, st1, hr, hloop⟩
    induction xs generalizing x st r st1 with
    | nil =>
      rcases (andLoop_returns_iff ops _ _ _ _ _).mp hloop with ⟨_, rfl, rfl⟩ | ⟨_, y, ys, _, _, hxs, _⟩
      · exact ShortCircuit.last hr
      · cases hxs
    | cons y ys ih =>
      rcases (andLoop_returns_iff ops _ _ _ _ _).mp hloop with
        ⟨hx, rfl, rfl⟩ | ⟨hb, y1, ys1, w, st3, hxs, hw, hrest⟩
      · rcases hx with hx | hx
        · cases hx
        · exact ShortCircuit.decided hr hx
      · cases hxs
        exact ShortCircuit.next hr (by simp [hb]) (ih y st1 w st3 hw hrest)

theorem visitOr_test_returns_iff {F : Type} (ops : DoubleOps F) (x : AndTest)
    (xs : List AndTest) (st : State F) (v : Value F) (st2 : State F) :
    (∃ fuel, visitOr_test ops fuel (.mk x xs) st = .ok (v, st2)) ↔
      ShortCircuit (AndTestReturns ops) (fun u => u.toBool ops = true) x xs st v st2 := by
  rw [orLoop_shortCircuit]
  constructor
  · rintro ⟨fuel, h⟩
    cases fuel with
    | zero => rw [visitOr_test] at h; cases h
    | succ f =>
      rw [visitOr_test] at h
      cases h1 : visitAnd_test ops f x st with
      | error e => rw [h1] at h; cases h
      | ok p =>
        obtain ⟨r, st1⟩ := p
        rw [h1] at h
        exact ⟨r, st1, ⟨f, h1⟩, ⟨f, h⟩⟩
  · rintro ⟨r, st1, ⟨f1, h1⟩, ⟨f2, h2⟩⟩
    refine ⟨max f1 f2 + 1, ?_⟩
    rw [visitOr_test, (evalMono ops f1).andTest (max f1 f2) x st _ (le_max_left _ _) h1]
    exact (evalMono ops f2).orLoop (max f1 f2) xs r st1 _ (le_max_right _ _) h2

theorem visitAnd_test_returns_iff {F : Type} (ops : DoubleOps F) (x : NotTest)
    (xs : List NotTest) (st : State F) (v : Value F) (st2 : State F) :
    AndTestReturns ops (.mk x xs) st v st2 ↔
      ShortCircuit (NotTestReturns ops) (fun u => u.toBool ops = false) x xs st v st2 := by
  rw [andLoop_shortCircuit]
  constructor
  · rintro ⟨fuel, h⟩
    cases fuel with
    | zero => rw [visitAnd_test] at h; cases h
    | succ f =>
      rw [visitAnd_test] at h
      cases h1 : visitNot_test ops f x st with
      | error e => rw [h1] at h; cases h
      | ok p =>
        obtain ⟨r, st1⟩ := p
        rw [h1] at h
        exact ⟨r, st1, ⟨f, h1⟩, ⟨f, h⟩⟩
  · rintro ⟨r, st1, ⟨f1, h1⟩, ⟨f2, h2⟩⟩
    refine ⟨max f1 f2 + 1, ?_⟩
    rw [visitAnd_test, (evalMono ops f1).notTest (max f1 f2) x st _ (le_max_left _ _) h1]
    exact (evalMono ops f2).andLoop (max f1 f2) xs r st1 _ (le_max_right _ _) h2

theorem shortCircuitProgram_output :
    runOutput DoubleOps.trivial 30 shortCircuitProgram = .ok "7\n0\n5\nyes\n" := by
  decide!

/-- C13: `or` and `and` return one of their operands and short-circuit. With enough
fuel `x or y1 or ... or yn` returns the value `v` and leaves the state `st2` exactly
when evaluating the operands from left to right until the first truthy one gives `v`,
unchanged, as the value of that operand, or of the last operand when none is truthy,
and `st2` is the state behind that operand: the operands before it were evaluated in
order and are falsy, those after it are not evaluated. `and` is the same with the
first falsy operand. In the example program the `print` behind `1 or` and `0 and` does
not run, and the one behind `0 or` does. -/
theorem C13_or_and_short_circuit {F : Type} (ops : DoubleOps F) :
    (∀ (x : AndTest) (xs : List AndTest) (st : State F) (v : Value F) (st2 : State F),
      ((∃ fuel, visitOr_test ops fuel (.mk x xs) st = .ok (v, st2)) ↔
        ShortCircuit (AndTestReturns ops) (fun u => u.toBool ops = true) x xs st v st2) ∧
      ((∃ fuel, visitOr_test ops fuel (.mk x xs) st = .ok (v, st2)) ↔
        ∃ (pre : List AndTest) (d : AndTest) (post : List AndTest) (vs : List (Value F))
          (st1 : State F),
          x :: xs = pre ++ d :: post ∧ EvalSeq (AndTestReturns ops) pre st vs st1 ∧
          (∀ u ∈ vs, ¬ u.toBool ops = true) ∧ (∃ fuel, visitAnd_test ops fuel d st1 = .ok (v, st2)) ∧
          (v.toBool ops = true ∨ post = []))) ∧
    (∀ (x : NotTest) (xs : List NotTest) (st : State F) (v : Value F) (st2 : State F),
      ((∃ fuel, visitAnd_test ops fuel (.mk x xs) st = .ok (v, st2)) ↔
        ShortCircuit (NotTestReturns ops) (fun u => u.toBool ops = false) x xs st v st2) ∧
      ((∃ fuel, visitAnd_test ops fuel (.mk x xs) st = .ok (v, st2)) ↔
        ∃ (pre : List NotTest) (d : NotTest) (post : List NotTest) (vs : List (Value F))
          (st1 : State F),
          x :: xs = pre ++ d :: post ∧ EvalSeq (NotTestReturns ops) pre st vs st1 ∧
          (∀ u ∈ vs, ¬ u.toBool ops = false) ∧ (∃ fuel, visitNot_test ops fuel d st1 = .ok (v, st2)) ∧
          (v.toBool ops = false ∨ post = []))) ∧
    (∀ fuel, 30 ≤ fuel →
      runOutput DoubleOps.trivial fuel shortCircuitProgram = .ok "7\n0\n5\nyes\n") := by
  refine ⟨fun x xs st v st2 => ⟨visitOr_test_returns_iff ops x xs st v st2, ?_⟩,
    fun x xs st v st2 => ⟨visitAnd_test_returns_iff ops x xs st v st2, ?_⟩,
    fun fuel h => runOutput_mono _ 30 fuel _ _ h shortCircuitProgram_output⟩
  · rw [visitOr_test_returns_iff, shortCircuit_iff_split]; rfl
  · rw [show (∃ fuel, visitAnd_test ops fuel (.mk x xs) st = .ok (v, st2)) ↔
        AndTestReturns ops (.mk x xs) st v st2 from Iff.rfl,
      visitAnd_test_returns_iff, shortCircuit_iff_split]; rfl

/-! ### Chained comparisons -/

theorem performCompare_bool {F : Type} (ops : DoubleOps F) (a b : Value F) (op : String) :
    ∃ r, performCompare ops a b op = .bool r := by
  unfold performCompare
  repeat' split
  all_goals exact ⟨_, rfl⟩

theorem EvalSeq.length_eq {F α : Type} {eval : α → State F → Value F → State F → Prop}
    {xs : List α} {st st2 : State F} {vs : List (Value F)} (h : EvalSeq eval xs st vs st2) :
    vs.length = xs.length := by
  induction h with
  | nil => rfl
  | cons _ _ ih => simp [ih]

theorem adjacentAllTruthy_cons {F : Type} (ops : DoubleOps F) (v w : Value F)
    (vals : List (Value F)) (op : String) (cmpOps : List String) :
    AdjacentAllTruthy ops (v :: w :: vals) (op :: cmpOps) ↔
      (performCompare ops v w op).toBool ops = true ∧
      AdjacentAllTruthy ops (w :: vals) cmpOps := by
  constructor
  · intro h
    refine ⟨h 0 op v w (by simp) (by simp) (by simp), fun i o a b ho ha hb => ?_⟩
    exact h (i + 1) o a b (by simpa using ho) (by simpa using ha) (by simpa using hb)
  · rintro ⟨h0, hrest⟩ i o a b ho ha hb
    cases i with
    | zero =>
      simp only [List.getElem?_cons_zero, Option.some.injEq, zero_add,
        List.getElem?_cons_succ] at ho ha hb
      subst ho ha hb
      exact h0
    | succ j =>
      exact hrest j o a b (by simpa using ho) (by simpa using ha) (by simpa using hb)

theorem compareChain_spec {F : Type} (ops : DoubleOps F) (v0 : Value F)
    (pairs : List (String × Value F)) :
    (compareChain ops v0 pairs = .bool true ∧
      AdjacentAllTruthy ops (v0 :: pairs.map Prod.snd) (pairs.map Prod.fst)) ∨
    (compareChain ops v0 pairs = .bool false ∧
      ¬ AdjacentAllTruthy ops (v0 :: pairs.map Prod.snd) (pairs.map Prod.fst)) := by
  induction pairs generalizing v0 with
  | nil =>
    left
    refine ⟨rfl, fun i o a b ho _ _ => ?_⟩
    simp at ho
  | cons p rest ih =>
    obtain ⟨op, w⟩ := p
    simp only [List.map_cons, adjacentAllTruthy_cons]
    rw [compareChain]
    by_cases hc : (performCompare ops v0 w op).toBool ops = true
    · rw [if_neg (by simp [hc])]
      rcases ih w with ⟨h1, h2⟩ | ⟨h1, h2⟩
      · exact Or.inl ⟨h1, hc, h2⟩
      · exact Or.inr ⟨h1, fun h => h2 h.2⟩
    · rw [if_pos (by simpa using hc)]
      exact Or.inr ⟨rfl, fun h => hc h.1⟩

theorem comparisonValues_returns_iff {F : Type} (ops : DoubleOps F)
    (es : List (String × ArithExpr)) (st : State F) (r : List (String × Value F))
    (st2 : State F) :
    (∃ fuel, comparisonValues ops fuel es st = .ok (r, st2)) ↔
      ∃ ws, EvalSeq (ArithReturns ops) (es.map Prod.snd) st ws st2 ∧
        r = (es.map Prod.fst).zip ws := by
  constructor
  · rintro ⟨fuel, h⟩
    induction es generalizing fuel st r with
    | nil =>
      cases fuel with
      | zero => rw [comparisonValues] at h; cases h
      | succ f =>
        rw [comparisonValues] at h
        cases h
        exact ⟨[], EvalSeq.nil _, rfl⟩
    | cons e es ih =>
      obtain ⟨op, e⟩ := e
      cases fuel with
      | zero => rw [comparisonValues] at h; cases h
      | succ f =>
        rw [comparisonValues] at h
        cases h1 : visitArith_expr ops f e st with
        | error err => rw [h1] at h; cases h
        | ok p =>
          obtain ⟨v, st1⟩ := p
          rw [h1] at h
          cases h2 : comparisonValues ops f es st1 with
          | error err => simp only [h2] at h; cases h
          | ok p2 =>
            obtain ⟨vs, st3⟩ := p2
            simp only [h2] at h
            cases h
            obtain ⟨ws, hseq, rfl⟩ := ih st1 vs f h2
            exact ⟨v :: ws, EvalSeq.cons ⟨f, h1⟩ hseq, rfl⟩
  · rintro ⟨ws, hseq, rfl⟩
    induction es generalizing st ws with
    | nil =>
      cases hseq
      exact ⟨1, rfl⟩
    | cons e es ih =>
      obtain ⟨op, e⟩ := e
      cases hseq with
      | cons he hrest =>
        obtain ⟨f1, h1⟩ := he
        obtain ⟨f2, h2⟩ := ih _ _ hrest
        refine ⟨max f1 f2 + 1, ?_⟩
        rw [comparisonValues,
          (evalMono ops f1).arithExpr (max f1 f2) e st _ (le_max_left _ _) h1]
        simp only [(evalMono ops f2).comparisonValues (max f1 f2) es _ _ (le_max_right _ _) h2]
        rfl

theorem visitComparison_returns_iff {F : Type} (ops : DoubleOps F) (a : ArithExpr)
    (e : String × ArithExpr) (es : List (String × ArithExpr)) (st : State F) (v : Value F)
    (st2 : State F) :
    (∃ fuel, visitComparison ops fuel (.mk a (e :: es)) st = .ok (v, st2)) ↔
      ∃ w ws, EvalSeq (ArithReturns ops) (a :: (e :: es).map Prod.snd) st (w :: ws) st2 ∧
        v = compareChain ops w (((e :: es).map Prod.fst).zip ws) := by
  constructor
  · rintro ⟨fuel, h⟩
    cases fuel with
    | zero => rw [visitComparison] at h; cases h
    | succ f =>
      rw [visitComparison] at h
      cases h1 : visitArith_expr ops f a st with
      | error err => rw [h1] at h; cases h
      | ok p =>
        obtain ⟨w, st1⟩ := p
        rw [h1] at h
        cases h2 : comparisonValues ops f (e :: es) st1 with
        | error err => simp only [h2] at h; cases h
        | ok p2 =>
          obtain ⟨vs, st3⟩ := p2
          simp only [h2] at h
          cases h
          obtain ⟨ws, hseq, rfl⟩ := (comparisonValues_returns_iff ops _ _ _ _).mp ⟨f, h2⟩
          exact ⟨w, ws, EvalSeq.cons ⟨f, h1⟩ hseq, rfl⟩
  · rintro ⟨w, ws, hseq, rfl⟩
    cases hseq with
    | cons he hrest =>
      obtain ⟨f1, h1⟩ := he
      obtain ⟨f2, h2⟩ := (comparisonValues_returns_iff ops (e :: es) _ _ _).mpr ⟨ws, hrest, rfl⟩
      refine ⟨max f1 f2 + 1, ?_⟩
      rw [visitComparison,
        (evalMono ops f1).arithExpr (max f1 f2) a st _ (le_max_left _ _) h1]
      simp only [(evalMono ops f2).comparisonValues (max f1 f2) _ _ _ (le_max_right _ _) h2]

theorem notTest_comparison_returns {F : Type} (ops : DoubleOps F) (c : Comparison)
    (st : State F) (v : Value F) (st2 : State F)
    (h : ∃ fuel, visitComparison ops fuel c st = .ok (v, st2)) :
    NotTestReturns ops (.comparison c) st v st2 := by
  obtain ⟨f, h⟩ := h
  exact ⟨f + 1, by rw [visitNot_test]; exact h⟩

theorem compareChain_single {F : Type} (ops : DoubleOps F) (a b : Value F) (op : String) :
    compareChain ops a [(op, b)] = performCompare ops a b op := by
  obtain ⟨r, hr⟩ := performCompare_bool ops a b op
  rw [compareChain, compareChain, hr]
  cases r <;> simp [Value.toBool]

theorem compareChain_pair {F : Type} (ops : DoubleOps F) (a b c : Value F) (op1 op2 : String) :
    compareChain ops a [(op1, b), (op2, c)] =
      andValue ops (performCompare ops a b op1) (performCompare ops b c op2) := by
  obtain ⟨r1, hr1⟩ := performCompare_bool ops a b op1
  rw [compareChain, compareChain_single, andValue, hr1]
  cases r1 <;> simp [Value.toBool]

theorem chain_as_and {F : Type} (ops : DoubleOps F) (a b c : ArithExpr) (op1 op2 : String)
    (st : State F) (va vb vc : Value F) (ha : ArithReturns ops a st va st)
    (hb : ArithReturns ops b st vb st) (hc : ArithReturns ops c st vc st) :
    NotTestReturns ops (.comparison (.mk a [(op1, b), (op2, c)])) st
        (andValue ops (performCompare ops va vb op1) (performCompare ops vb vc op2)) st ∧
    AndTestReturns ops (.mk (.comparison (.mk a [(op1, b)])) [.comparison (.mk b [(op2, c)])])
        st (andValue ops (performCompare ops va vb op1) (performCompare ops vb vc op2)) st := by
  have h1 : NotTestReturns ops (.comparison (.mk a [(op1, b)])) st
      (performCompare ops va vb op1) st :=
    notTest_comparison_returns ops _ _ _ _ ((visitComparison_returns_iff ops _ _ _ _ _ _).mpr
      ⟨va, [vb], EvalSeq.cons ha (EvalSeq.cons hb (EvalSeq.nil _)),
        (compareChain_single ops va vb op1).symm⟩)
  have h2 : NotTestReturns ops (.comparison (.mk b [(op2, c)])) st
      (performCompare ops vb vc op2) st :=
    notTest_comparison_returns ops _ _ _ _ ((visitComparison_returns_iff ops _ _ _ _ _ _).mpr
      ⟨vb, [vc], EvalSeq.cons hb (EvalSeq.cons hc (EvalSeq.nil _)),
        (compareChain_single ops vb vc op2).symm⟩)
  refine ⟨notTest_comparison_returns ops _ _ _ _
    ((visitComparison_returns_iff ops _ _ _ _ _ _).mpr
      ⟨va, [vb, vc], EvalSeq.cons ha (EvalSeq.cons hb (EvalSeq.cons hc (EvalSeq.nil _))),
        (compareChain_pair ops va vb vc op1 op2).symm⟩), ?_⟩
  rw [visitAnd_test_returns_iff, andValue]
  by_cases ht : (performCompare ops va vb op1).toBool ops = true
  · rw [if_pos ht]
    exact ShortCircuit.next h1 (by simp [ht]) (ShortCircuit.last h2)
  · rw [if_neg ht]
    exact ShortCircuit.decided h1 (by simpa using ht)

theorem chainProgram_output :
    runOutput DoubleOps.trivial 60 chainProgram = .ok "True\nFalse\ng\nTrue\ng\nFalse\n" := by
  decide!

/-- C14: a chained comparison `a1 op1 a2 ... an` with at least one operator returns, with
enough fuel, the value `v` and the state `st2` exactly when the operands, each
evaluated once and from left to right, give values `vals` and leave `st2`, and `v` is
`Bool(true)` when every adjacent comparison `vals[i] op_i vals[i+1]` is truthy and
`Bool(false)` when not. On values, `a op1 b op2 c` is the value of
`(a op1 b) and (b op2 c)`; and when evaluating the operands does not change the state,
the chain and the `and` of the two comparisons return the same value. In the example
program `g()` runs once in `1 < g() < 3`, and also in `3 < 1 < g()`. -/
theorem C14_chained_comparison {F : Type} (ops : DoubleOps F) :
    (∀ (a : ArithExpr) (e : String × ArithExpr) (es : List (String × ArithExpr))
        (st : State F) (v : Value F) (st2 : State F),
      (∃ fuel, visitComparison ops fuel (.mk a (e :: es)) st = .ok (v, st2)) ↔
        ∃ vals, EvalSeq (ArithReturns ops) (a :: (e :: es).map Prod.snd) st vals st2 ∧
          ((v = .bool true ∧ AdjacentAllTruthy ops vals ((e :: es).map Prod.fst)) ∨
           (v = .bool false ∧ ¬ AdjacentAllTruthy ops vals ((e :: es).map Prod.fst)))) ∧
    (∀ (va vb vc : Value F) (op1 op2 : String),
      compareChain ops va [(op1, vb), (op2, vc)] =
        andValue ops (performCompare ops va vb op1) (performCompare ops vb vc op2)) ∧
    (∀ (a b c : ArithExpr) (op1 op2 : String) (st : State F) (va vb vc : Value F),
      ArithReturns ops a st va st → ArithReturns ops b st vb st → ArithReturns ops c st vc st →
      NotTestReturns ops (.comparison (.mk a [(op1, b), (op2, c)])) st
          (andValue ops (performCompare ops va vb op1) (performCompare ops vb vc op2)) st ∧
      AndTestReturns ops (.mk (.comparison (.mk a [(op1, b)])) [.comparison (.mk b [(op2, c)])])
          st (andValue ops (performCompare ops va vb op1) (performCompare ops vb vc op2)) st) ∧
    (∀ fuel, 60 ≤ fuel →
      runOutput DoubleOps.trivial fuel chainProgram =
        .ok "True\nFalse\ng\nTrue\ng\nFalse\n") := by
  refine ⟨fun a e es st v st2 => ?_, compareChain_pair ops,
    fun a b c op1 op2 st va vb vc => chain_as_and ops a b c op1 op2 st va vb vc,
    fun fuel h => runOutput_mono _ 60 fuel _ _ h chainProgram_output⟩
  rw [visitComparison_returns_iff]
  constructor
  · rintro ⟨w, ws, hseq, rfl⟩
    have hlen : ws.length = ((e :: es).map Prod.fst).length := by
      have := hseq.length_eq
      simpa using this
    refine ⟨w :: ws, hseq, ?_⟩
    have hspec := compareChain_spec ops w (((e :: es).map Prod.fst).zip ws)
    rw [List.map_snd_zip _ _ (le_of_eq hlen), List.map_fst_zip _ _ (le_of_eq hlen.symm)] at hspec
    exact hspec
  · rintro ⟨vals, hseq, hv⟩
    cases hseq with
    | cons he hrest =>
      rename_i st1 w ws
      have hseq := EvalSeq.cons he hrest
      have hlen : ws.length = ((e :: es).map Prod.fst).length := by
        have := hseq.length_eq
        simpa using this
      refine ⟨w, ws, hseq, ?_⟩
      have hspec := compareChain_spec ops w (((e :: es).map Prod.fst).zip ws)
      rw [List.map_snd_zip _ _ (le_of_eq hlen), List.map_fst_zip _ _ (le_of_eq hlen.symm)]
        at hspec
      rcases hv with ⟨rfl, hadj⟩ | ⟨rfl, hadj⟩
      · rcases hspec with ⟨h1, _⟩ | ⟨_, h2⟩
        · exact h1.symm
        · exact absurd hadj h2
      · rcases hspec with ⟨_, h2⟩ | ⟨h1, _⟩
        · exact absurd h2 hadj
        · exact h1.symm

/-- C14 at `1 < 2 < 3` and `1 < 2 and 2 < 3` in the state of a fresh interpreter. -/
theorem C14_chained_comparison_witness :
    (ArithReturns DoubleOps.trivial (ArithExpr.ofAtomExpr (.number "1")) State.init
        (.int (ofString "1")) State.init ∧
      ArithReturns DoubleOps.trivial (ArithExpr.ofAtomExpr (.number "2")) State.init
        (.int (ofString "2")) State.init ∧
      ArithReturns DoubleOps.trivial (ArithExpr.ofAtomExpr (.number "3")) State.init
        (.int (ofString "3")) State.init) ∧
    AndTestReturns DoubleOps.trivial
      (.mk (.comparison (.mk (ArithExpr.ofAtomExpr (.number "1"))
          [("<", ArithExpr.ofAtomExpr (.number "2"))]))
        [.comparison (.mk (ArithExpr.ofAtomExpr (.number "2"))
          [("<", ArithExpr.ofAtomExpr (.number "3"))])])
      State.init
      (andValue DoubleOps.trivial
        (performCompare DoubleOps.trivial (.int (ofString "1")) (.int (ofString "2")) "<")
        (performCompare DoubleOps.trivial (.int (ofString "2")) (.int (ofString "3")) "<"))
      State.init ∧
    andValue DoubleOps.trivial
        (performCompare DoubleOps.trivial (.int (ofString "1")) (.int (ofString "2")) "<")
        (performCompare DoubleOps.trivial (.int (ofString "2")) (.int (ofString "3")) "<") =
      (.bool true : Value Unit) :=
  ⟨⟨⟨6, rfl⟩, ⟨6, rfl⟩, ⟨6, rfl⟩⟩,
    ((C14_chained_comparison DoubleOps.trivial).2.2.1 (ArithExpr.ofAtomExpr (.number "1"))
      (ArithExpr.ofAtomExpr (.number "2")) (ArithExpr.ofAtomExpr (.number "3")) "<" "<"
      State.init (.int (ofString "1")) (.int (ofString "2")) (.int (ofString "3"))
      ⟨6, rfl⟩ ⟨6, rfl⟩ ⟨6, rfl⟩).2,
    by rfl⟩

/-! ### Defaults of parameters -/

theorem typedargsTests_length_le (tal : List (String × Option Test)) :
    (typedargsTests tal).length ≤ tal.length := by
  induction tal with
  | nil => simp [typedargsTests]
  | cons p rest ih =>
    obtain ⟨nm, t⟩ := p
    cases t with
    | none => simp only [typedargsTests, List.length_cons]; omega
    | some t => simp only [typedargsTests, List.length_cons]; omega

theorem visitTypedargslist_returns_iff {F : Type} (ops : DoubleOps F) (tests : List Test)
    (ds : Nat) (names : List String) (i : Nat) (acc : List (Value F)) (st : State F)
    (r : List (Value F)) (st2 : State F) (hinv : i + names.length = ds + tests.length) :
    (∃ fuel, visitTypedargslist ops tests ds fuel names i acc st = .ok (r, st2)) ↔
      ∃ vs, EvalSeq (TestReturns ops) (tests.drop (i - ds)) st vs st2 ∧ r = acc ++ vs := by
  induction names generalizing i acc st with
  | nil =>
    have hdrop : tests.drop (i - ds) = [] := by
      apply List.drop_eq_nil_of_le
      simp only [List.length_nil] at hinv; omega
    rw [hdrop]
    constructor
    · rintro ⟨fuel, h⟩
      cases fuel with
      | zero => rw [visitTypedargslist] at h; cases h
      | succ f =>
        rw [visitTypedargslist] at h
        cases h
        exact ⟨[], EvalSeq.nil _, by simp⟩
    · rintro ⟨vs, hseq, rfl⟩
      cases hseq
      exact ⟨1, by rw [visitTypedargslist]; simp⟩
  | cons nm names ih =>
    have hinv1 : i + 1 + names.length = ds + tests.length := by
      simp only [List.length_cons] at hinv; omega
    by_cases hi : ds ≤ i
    · have hlt : i - ds < tests.length := by omega
      have hdrop : tests.drop (i - ds) = tests[i - ds] :: tests.drop (i + 1 - ds) := by
        rw [show i + 1 - ds = i - ds + 1 by omega]
        exact List.drop_eq_getElem_cons hlt
      have hget : tests[i - ds]? = some tests[i - ds] := List.getElem?_eq_getElem hlt
      rw [hdrop]
      constructor
      · rintro ⟨fuel, h⟩
        cases fuel with
        | zero => rw [visitTypedargslist] at h; cases h
        | succ f =>
          rw [visitTypedargslist, if_pos hi] at h
          simp only [hget] at h
          cases h1 : visitTest ops f tests[i - ds] st with
          | error err => simp only [h1] at h; cases h
          | ok p =>
            obtain ⟨v, st1⟩ := p
            simp only [h1] at h
            obtain ⟨vs, hseq, rfl⟩ := (ih (i + 1) (acc ++ [v]) st1 hinv1).mp ⟨f, h⟩
            exact ⟨v :: vs, EvalSeq.cons ⟨f, h1⟩ hseq, by simp⟩
      · rintro ⟨vs, hseq, rfl⟩
        cases hseq with
        | cons he hrest =>
          rename_i st1 v vs1
          obtain ⟨f1, h1⟩ := he
          obtain ⟨f2, h2⟩ := (ih (i + 1) (acc ++ [v]) st1 hinv1).mpr ⟨vs1, hrest, by simp⟩
          refine ⟨max f1 f2 + 1, ?_⟩
          rw [visitTypedargslist, if_pos hi]
          simp only [hget, (evalMono ops f1).test (max f1 f2) _ st _ (le_max_left _ _) h1]
          rw [(evalMono ops f2).typedargslist (max f1 f2) _ _ _ _ _ _ _ (le_max_right _ _) h2]
    · have e1 : i - ds = 0 := by omega
      have e2 : i + 1 - ds = 0 := by omega
      have ih1 := ih (i + 1) acc st hinv1
      rw [e2] at ih1
      rw [e1, ← ih1]
      constructor
      · rintro ⟨fuel, h⟩
        cases fuel with
        | zero => rw [visitTypedargslist] at h; cases h
        | succ f =>
          rw [visitTypedargslist, if_neg hi] at h
          exact ⟨f, h⟩
      · rintro ⟨f, h⟩
        exact ⟨f + 1, by rw [visitTypedargslist, if_neg hi]; exact h⟩

/-- What `visitFuncdef` does with a `typedargslist`: the default expressions are
evaluated one after the other, and the function is stored with the values. -/
theorem visitFuncdef_returns_iff {F : Type} (ops : DoubleOps F) (name : String)
    (tal : List (String × Option Test)) (suite : Suite) (st st2 : State F) :
    (∃ fuel, visitFuncdef ops fuel name (some tal) suite st = .ok st2) ↔
      ∃ defaults st1, EvalSeq (TestReturns ops) (typedargsTests tal) st defaults st1 ∧
        st2 = { st1 with functions :=
          st1.functions.insert name ⟨tal.map Prod.fst, defaults, suite⟩ } := by
  have hle := typedargsTests_length_le tal
  have hinv : 0 + (tal.map Prod.fst).length =
      ((tal.map Prod.fst).length - (typedargsTests tal).length) +
        (typedargsTests tal).length := by
    simp only [List.length_map]; omega
  have key := fun r st1 => visitTypedargslist_returns_iff ops (typedargsTests tal)
    ((tal.map Prod.fst).length - (typedargsTests tal).length) (tal.map Prod.fst) 0 [] st r st1
    hinv
  simp only [Nat.zero_sub, List.drop_zero, List.nil_append] at key
  constructor
  · rintro ⟨fuel, h⟩
    cases fuel with
    | zero => rw [visitFuncdef] at h; cases h
    | succ f =>
      rw [visitFuncdef] at h
      cases h1 : visitTypedargslist ops (typedargsTests tal)
          ((tal.map Prod.fst).length - (typedargsTests tal).length) f (tal.map Prod.fst) 0 []
          st with
      | error err => simp only [h1] at h; cases h
      | ok p =>
        obtain ⟨defaults, st1⟩ := p
        simp only [h1] at h
        cases h
        obtain ⟨vs, hseq, hvs⟩ := (key defaults st1).mp ⟨f, h1⟩
        subst hvs
        exact ⟨defaults, st1, hseq, rfl⟩
  · rintro ⟨defaults, st1, hseq, rfl⟩
    obtain ⟨f, h1⟩ := (key defaults st1).mpr ⟨defaults, hseq, rfl⟩
    refine ⟨f + 1, ?_⟩
    rw [visitFuncdef]
    simp only [h1]

theorem frameLookup_default {F : Type} (params : List String) (defaults posArgs : List (Value F))
    (kwArgs : StrMap (Value F)) (i : Nat) (x : String) (hnd : params.Nodup)
    (hx : params[i]? = some x) (hpos : posArgs.length ≤ i) (hkw : kwArgs.find x = none)
    (hi : params.length - defaults.length ≤ i) :
    frameLookup params defaults posArgs kwArgs x =
      defaults[i - (params.length - defaults.length)]? := by
  obtain ⟨hlt, rfl⟩ := List.getElem?_eq_some_iff.mp hx
  have hidx : params.indexOf params[i] = i := List.indexOf_getElem hnd i hlt
  rw [frameLookup, hkw]
  simp only [hidx, hlt, if_true, hi, if_neg (Nat.not_lt.mpr hpos)]

theorem defaultAtDefProgram_output :
    runOutput DoubleOps.trivial 60 defaultAtDefProgram = .ok "1\n" := by
  decide!

/-- C12: default values are evaluated when the `def` statement runs. With enough fuel
`visitFuncdef` returns exactly when the default expressions, each evaluated once and in
the order of the declaration, give the values `defaults`, and then the function is
stored with its parameter names and these values: as many values as there are default
expressions. A later call, in whatever state `st` the function is still stored, binds
a parameter at an index `i` of the last `defaults.length` that no positional and no
keyword argument binds to the stored value `defaults[i - (n - k)]`, and runs the body
in `st` with the frame pushed: the binding evaluates no expression. The example program
`x = 1; def f(a=x): print(a); x = 2; f()` prints `1`. -/
theorem C12_defaults_at_definition {F : Type} (ops : DoubleOps F) :
    (∀ (name : String) (tal : List (String × Option Test)) (suite : Suite) (st st2 : State F),
      ((∃ fuel, visitFuncdef ops fuel name (some tal) suite st = .ok st2) ↔
        ∃ defaults st1, EvalSeq (TestReturns ops) (typedargsTests tal) st defaults st1 ∧
          st2 = { st1 with functions :=
            st1.functions.insert name ⟨tal.map Prod.fst, defaults, suite⟩ }) ∧
      ((∃ fuel, visitFuncdef ops fuel name (some tal) suite st = .ok st2) →
        ∃ defaults, st2.functions.find name = some ⟨tal.map Prod.fst, defaults, suite⟩ ∧
          defaults.length = (typedargsTests tal).length)) ∧
    (∀ (fuel : Nat) (name : String) (func : FunctionDef F) (posArgs : List (Value F))
        (kwArgs : StrMap (Value F)) (st : State F) (i : Nat) (x : String),
      isBuiltinName name = false → st.functions.find name = some func → func.params.Nodup →
      (kwArgs.map Prod.fst).Nodup → func.defaults.length ≤ func.params.length →
      func.params[i]? = some x → posArgs.length ≤ i → kwArgs.find x = none →
      func.params.length - func.defaults.length ≤ i →
      ∃ frame : StrMap (Value F),
        frame.find x = func.defaults[i - (func.params.length - func.defaults.length)]? ∧
        callFunction ops (fuel + 1) name posArgs kwArgs st =
          (visitSuite ops fuel func.body
              { st with scopes := frame :: st.scopes, returnFlag := false,
                        returnValue := .none }).map
            (fun st1 => (st1.returnValue,
              { st1 with returnFlag := false, returnValue := .none,
                         scopes := st1.scopes.tail }))) ∧
    (∀ fuel, 60 ≤ fuel → runOutput DoubleOps.trivial fuel defaultAtDefProgram = .ok "1\n") := by
  refine ⟨fun name tal suite st st2 => ⟨visitFuncdef_returns_iff ops name tal suite st st2, ?_⟩,
    ?_, fun fuel h => runOutput_mono _ 60 fuel _ _ h defaultAtDefProgram_output⟩
  · intro h
    obtain ⟨defaults, st1, hseq, rfl⟩ := (visitFuncdef_returns_iff ops name tal suite st st2).mp h
    refine ⟨defaults, ?_, hseq.length_eq⟩
    simp [StrMap.find_insert]
  · intro fuel name func posArgs kwArgs st i x hname hfunc hparams hkw hdef hx hpos hkx hi
    obtain ⟨frame, h1, h2⟩ :=
      callFunction_frame ops fuel name func posArgs kwArgs st hname hfunc hparams hkw hdef
    exact ⟨frame, by rw [h1 x, frameLookup_default _ _ _ _ i x hparams hx hpos hkx hi], h2⟩

/-- C12 at the call `f()` of a function stored with the parameter `a` and the default
value `1`. -/
theorem C12_defaults_at_definition_witness :
    (isBuiltinName "f" = false ∧ ["a"].Nodup ∧
      (["a"] : List String)[0]? = some "a") ∧
    ∃ frame : StrMap (Value Unit),
      frame.find "a" = some (.int (ofString "1")) ∧
      callFunction DoubleOps.trivial (3 + 1) "f" [] []
          { State.init with functions := [("f", ⟨["a"], [.int (ofString "1")], .block []⟩)] } =
        (visitSuite DoubleOps.trivial 3 (.block [])
            { State.init with
                functions := [("f", ⟨["a"], [.int (ofString "1")], .block []⟩)],
                scopes := [frame], returnFlag := false, returnValue := .none }).map
          (fun st1 => (st1.returnValue,
            { st1 with returnFlag := false, returnValue := .none,
                       scopes := st1.scopes.tail })) :=
  ⟨⟨by decide, by decide, by decide⟩,
    (C12_defaults_at_definition DoubleOps.trivial).2.1 3 "f"
      ⟨["a"], [.int (ofString "1")], .block []⟩ [] []
      { State.init with functions := [("f", ⟨["a"], [.int (ofString "1")], .block []⟩)] }
      0 "a" (by decide) (by simp [StrMap.find]) (by decide) (by decide) (by decide)
      (by decide) (by decide) (by simp [StrMap.find]) (by decide)⟩

/-! ### Truthiness -/

theorem toBool_eq_truthiness {F : Type} (ops : DoubleOps F) (v : Value F)
    (hv : ∀ i, v = .int i → Canonical i) : v.toBool ops = truthiness ops v := by
  cases v with
  | none => rfl
  | bool b => rfl
  | int i =>
    have hc := hv i rfl
    simp only [Value.toBool, truthiness]
    by_cases hz : i.isZero = true
    · have := (isZero_iff_toInt hc).mp hz
      simp [hz, this]
    · have h0 : ¬ toInt i = 0 := fun h => hz ((isZero_iff_toInt hc).mpr h)
      simp [hz, h0]
  | float f => rfl
  | str s =>
    simp only [Value.toBool, truthiness]
    rcases s with ⟨cs⟩
    cases cs <;> simp [String.ext_iff]
  | tuple t =>
    simp only [Value.toBool, truthiness]
    cases t <;> simp

/-- C21: `bool(v)` is the truthiness of `v`, for every Value whose Int, when it is one,
is canonical: None is false, a Bool is itself, an Int is true exactly when it is not
zero (the Ints built from the texts `000` and `-0` are false, the one from `7` is
true), a String exactly when it is not empty, a Tuple exactly when it has an element;
and `not e` is the Bool negation of the truthiness of the value of `e`. -/
theorem C21_bool_is_truthiness {F : Type} (ops : DoubleOps F) (v : Value F)
    (hv : ∀ i, v = .int i → Canonical i) (st : State F) :
    convertToBool ops v = .bool (truthiness ops v) ∧
    callBuiltinFunction ops "bool" [v] st = .ok (.bool (truthiness ops v), st) ∧
    (∀ fuel t st1 st2, visitNot_test ops fuel t st1 = .ok (v, st2) →
      visitNot_test ops (fuel + 1) (.not t) st1 = .ok (.bool (!truthiness ops v), st2)) ∧
    truthiness ops .none = false ∧
    (∀ b, truthiness ops (.bool b) = b) ∧
    (∀ i, truthiness ops (.int i) = true ↔ toInt i ≠ 0) ∧
    (∀ s, truthiness ops (.str s) = true ↔ s ≠ "") ∧
    (∀ t, truthiness ops (.tuple t) = true ↔ 1 ≤ t.length) ∧
    convertToBool ops (.int (ofString "000")) = .bool false ∧
    convertToBool ops (.int (ofString "-0")) = .bool false ∧
    convertToBool ops (.int (ofString "7")) = .bool true := by
  have h1 : convertToBool ops v = .bool (truthiness ops v) := by
    rw [convertToBool, toBool_eq_truthiness ops v hv]
  refine ⟨h1, ?_, ?_, rfl, fun _ => rfl, fun i => by simp [truthiness],
    fun s => by simp [truthiness], fun t => by simp [truthiness], rfl, rfl, rfl⟩
  · simp [callBuiltinFunction, h1]
  · intro fuel t st1 st2 h
    rw [visitNot_test, h]
    simp only [toBool_eq_truthiness ops v hv]

/-- C21 at the Int built from the text `000`. -/
theorem C21_bool_is_truthiness_witness :
    (∀ i, (Value.int (ofString "000") : Value Unit) = .int i → Canonical i) ∧
    convertToBool DoubleOps.trivial (.int (ofString "000")) =
      .bool (truthiness DoubleOps.trivial (.int (ofString "000"))) ∧
    truthiness DoubleOps.trivial (.int (ofString "000")) = false :=
  ⟨fun i h => by cases h; decide,
    (C21_bool_is_truthiness DoubleOps.trivial (.int (ofString "000"))
      (fun i h => by cases h; decide) State.init).1,
    by decide⟩

/-! ### Assignment -/

/-- C26: assignment writes to the frame on top of the stack when there is one and to the
global map otherwise. After `setVariable name v` the lookup of `name` gives `v` and the
lookup of every other name is as before; with no frame the stack stays empty and the
global map changes at `name` only; with a frame the global map and every frame below
the top are the same and the top frame changes at `name` only; the function table, the
flags, the return value and the output are as before. -/
theorem C26_assignment_frame_effect {F : Type} (st : State F) (name : String) (v : Value F) :
    (st.setVariable name v).getVariable name = v ∧
    (∀ x, x ≠ name → (st.setVariable name v).getVariable x = st.getVariable x) ∧
    (st.scopes = [] →
      (st.setVariable name v).scopes = [] ∧
      (st.setVariable name v).globalVars.find name = some v ∧
      ∀ x, x ≠ name → (st.setVariable name v).globalVars.find x = st.globalVars.find x) ∧
    (∀ top below, st.scopes = top :: below →
      (st.setVariable name v).globalVars = st.globalVars ∧
      ∃ top1, (st.setVariable name v).scopes = top1 :: below ∧
        top1.find name = some v ∧ ∀ x, x ≠ name → top1.find x = top.find x) ∧
    (st.setVariable name v).functions = st.functions ∧
    (st.setVariable name v).breakFlag = st.breakFlag ∧
    (st.setVariable name v).continueFlag = st.continueFlag ∧
    (st.setVariable name v).returnFlag = st.returnFlag ∧
    (st.setVariable name v).returnValue = st.returnValue ∧
    (st.setVariable name v).output = st.output := by
  rcases st with ⟨g, scopes, fs, bf, cf, rf, rv, out⟩
  cases scopes with
  | nil =>
    refine ⟨?_, ?_, ?_, ?_, rfl, rfl, rfl, rfl, rfl, rfl⟩
    · simp [State.setVariable, State.getVariable, State.findInScopes, StrMap.find_insert]
    · intro x hx
      have hx1 : ¬ name = x := fun e => hx e.symm
      simp [State.setVariable, State.getVariable, State.findInScopes, StrMap.find_insert, hx1]
    · intro _
      refine ⟨rfl, ?_, ?_⟩
      · simp [State.setVariable, StrMap.find_insert]
      · intro x hx
        have hx1 : ¬ name = x := fun e => hx e.symm
        simp [State.setVariable, StrMap.find_insert, hx1]
    · intro top below h
      cases h
  | cons top below =>
    refine ⟨?_, ?_, ?_, ?_, rfl, rfl, rfl, rfl, rfl, rfl⟩
    · simp [State.setVariable, State.getVariable, State.findInScopes, StrMap.find_insert]
    · intro x hx
      have hx1 : ¬ name = x := fun e => hx e.symm
      simp [State.setVariable, State.getVariable, State.findInScopes, StrMap.find_insert, hx1]
    · intro h
      cases h
    · intro top1 below1 h
      simp only [List.cons.injEq] at h
      obtain ⟨rfl, rfl⟩ := h
      refine ⟨rfl, top.insert name v, rfl, by simp [StrMap.find_insert], ?_⟩
      intro x hx
      have hx1 : ¬ name = x := fun e => hx e.symm
      simp [StrMap.find_insert, hx1]

/-! ### Equality of Values of the same type -/

theorem tupleEqProgram_output :
    runOutput DoubleOps.trivial 60 tupleEqProgram = .ok "False\n" := by
  decide!

/-- Where `==` on Values of the same type is the natural equality: None, Bool, canonical
Ints and Strings. -/
theorem same_tag_eq_spec {F : Type} (ops : DoubleOps F) :
    performCompare ops (.none : Value F) .none "==" = .bool true ∧
    (∀ x y : Bool, performCompare ops (.bool x : Value F) (.bool y) "==" = .bool (x == y)) ∧
    (∀ x y : BigInteger, Canonical x → Canonical y →
      performCompare ops (.int x : Value F) (.int y) "==" = .bool (decide (toInt x = toInt y))) ∧
    (∀ s t : String, performCompare ops (.str s : Value F) (.str t) "==" =
      .bool (decide (s = t))) := by
  refine ⟨rfl, fun _ _ => rfl, fun x y hx hy => ?_, fun _ _ => rfl⟩
  simp only [performCompare, if_true, compareEq]
  congr 1
  by_cases h : toInt x = toInt y
  · simp [h, (eq_iff x y hx hy).mpr h]
  · have : ¬ x.eq y = true := fun e => h ((eq_iff x y hx hy).mp e)
    simp [h, this]

/-- C29 (code defect): `==` on two Tuples is always False, also for a Tuple and itself,
where the natural equality is True: the branch `a.type == b.type` of `performCompare`
has no case for Tuples. `(1, 2) == (1, 2)` and `() == ()` are False, and the example
program prints `False`. For None, Bool, canonical Int and String operands `==` is the
natural equality. -/
theorem C29_tuple_equality_is_false {F : Type} (ops : DoubleOps F) :
    (∀ t u : List (Value F), performCompare ops (.tuple t) (.tuple u) "==" = .bool false) ∧
    (∀ t : List (Value F), naturalEq (.tuple t : Value F) (.tuple t) = true →
      performCompare ops (.tuple t) (.tuple t) "==" ≠ .bool (naturalEq (.tuple t : Value F) (.tuple t))) ∧
    naturalEq (.tuple [.int (ofString "1"), .int (ofString "2")] : Value F)
      (.tuple [.int (ofString "1"), .int (ofString "2")]) = true ∧
    performCompare ops (.tuple [.int (ofString "1"), .int (ofString "2")])
      (.tuple [.int (ofString "1"), .int (ofString "2")]) "==" = .bool false ∧
    performCompare ops (.tuple [] : Value F) (.tuple []) "==" = .bool false ∧
    (∀ fuel, 60 ≤ fuel → runOutput DoubleOps.trivial fuel tupleEqProgram = .ok "False\n") ∧
    (∀ a b : Value F, a.type = b.type → a.type ≠ .FLOAT → a.type ≠ .TUPLE → a.Canonical →
      b.Canonical → performCompare ops a b "==" = .bool (naturalEq a b)) := by
  refine ⟨fun _ _ => rfl, ?_, by simp [naturalEq, naturalEqAll], rfl, rfl,
    fun fuel h => runOutput_mono _ 60 fuel _ _ h tupleEqProgram_output, ?_⟩
  · intro t ht h
    rw [ht] at h
    have h2 : performCompare ops (.tuple t) (.tuple t) "==" = .bool false := rfl
    rw [h2] at h
    cases h
  · intro a b hab hf ht ha hb
    cases a <;> cases b <;> simp [Value.type] at hab hf ht
    · simp [naturalEq, performCompare, compareEq]
    · simp [naturalEq, performCompare, compareEq]
    · rw [(same_tag_eq_spec ops).2.2.1 _ _ ha hb, naturalEq]
    · simp [naturalEq, performCompare, compareEq]

/-! ### Braces in the literal chunks of a format string -/

theorem unescapeBraces_cons_other (c : Char) (rest : List Char) (h1 : c ≠ '{') (h2 : c ≠ '}') :
    unescapeBraces (c :: rest) = c :: unescapeBraces rest := by
  rw [unescapeBraces]
  · intro r e; exact absurd e h1
  · intro r e; exact absurd e h2

theorem unescapeBraces_doubleBraces (t : List Char) : unescapeBraces (doubleBraces t) = t := by
  induction t with
  | nil => rfl
  | cons c rest ih =>
    rw [doubleBraces]
    by_cases h1 : c = '{'
    · subst h1
      rw [if_pos (Or.inl rfl), unescapeBraces, ih]
    · by_cases h2 : c = '}'
      · subst h2
        rw [if_pos (Or.inr rfl), unescapeBraces, ih]
      · rw [if_neg (by simp [h1, h2]), unescapeBraces_cons_other c _ h1 h2, ih]

theorem unescapeBraces_of_noDoubledBrace (t : List Char) (h : NoDoubledBrace t) :
    unescapeBraces t = t := by
  induction t with
  | nil => rfl
  | cons c rest ih =>
    cases rest with
    | nil =>
      rw [unescapeBraces]
      · rfl
      · intro r e1 e2; cases e2
      · intro r e1 e2; cases e2
    | cons d rest =>
      rw [NoDoubledBrace] at h
      rw [unescapeBraces, ih h.2]
      · intro r e1 e2
        cases e1
        cases e2
        exact h.1 ⟨rfl, Or.inl rfl⟩
      · intro r e1 e2
        cases e1
        cases e2
        exact h.1 ⟨rfl, Or.inr rfl⟩

/-- C30: the loop of `visitFormat_string` over a literal chunk undoes the doubling of
braces: for every text `t`, the loop on `t` with each brace doubled gives `t` again; and
a chunk in which no two adjacent characters are the same brace is left as it is. -/
theorem C30_unescape_undoes_doubling (t : List Char) :
    unescapeBraces (doubleBraces t) = t ∧
    String.mk (unescapeBraces (String.mk (doubleBraces t)).data) = String.mk t ∧
    (NoDoubledBrace t → unescapeBraces t = t) ∧
    doubleBraces "a\x7bb\x7d".data = "a\x7b\x7bb\x7d\x7d".data ∧
    unescapeBraces "\x7b\x7d\x7b".data = "\x7b\x7d\x7b".data :=
  ⟨unescapeBraces_doubleBraces t, by simp [unescapeBraces_doubleBraces],
    unescapeBraces_of_noDoubledBrace t, by decide, by decide⟩

/-- C30 at the chunk `{}{`, which has no doubled brace. -/
theorem C30_unescape_undoes_doubling_witness :
    NoDoubledBrace "\x7b\x7d\x7b".data ∧ unescapeBraces "\x7b\x7d\x7b".data = "\x7b\x7d\x7b".data :=
  ⟨by simp [NoDoubledBrace], (C30_unescape_undoes_doubling "\x7b\x7d\x7b".data).2.2.1
    (by simp [NoDoubledBrace])⟩

/-! ### Conversion to Int -/

theorem malformedIntProgram_output :
    runOutput DoubleOps.trivial 60 malformedIntProgram = .ok "abc\n1.5\n0\n0\n" := by
  decide!

/-- What `int(x)` does where the specification is right: an Int is returned as it is, a
Bool gives `1` or `0`, None and a Tuple give `0`, and a String that is an optional sign
and one or more decimal digits gives the canonical Int that it denotes. -/
theorem convertToInt_spec {F : Type} (ops : DoubleOps F) :
    (∀ i, convertToInt ops (.int i : Value F) = .int i) ∧
    convertToInt ops (.bool true : Value F) = .int ⟨[1], false⟩ ∧
    convertToInt ops (.bool false : Value F) = .int ⟨[0], false⟩ ∧
    convertToInt ops (.none : Value F) = .int ⟨[0], false⟩ ∧
    (∀ t, convertToInt ops (.tuple t : Value F) = .int ⟨[0], false⟩) ∧
    (∀ sign cs, (sign = [] ∨ sign = ['+'] ∨ sign = ['-']) → cs ≠ [] →
      (∀ c ∈ cs, c.isDigit = true) →
      ∃ i, convertToInt ops (.str (String.mk (sign ++ cs)) : Value F) = .int i ∧ Canonical i ∧
        toInt i = if sign = ['-'] then -(decimalValue cs : Int) else (decimalValue cs : Int)) := by
  refine ⟨fun _ => rfl, rfl, rfl, rfl, fun _ => rfl, fun sign cs hs hne hd => ?_⟩
  obtain ⟨h1, h2⟩ := ofString_signed sign cs hs hne hd
  exact ⟨_, rfl, h1, h2⟩

/-- C23 (code defect): `int` of a malformed String is no fatal error. The constructor
`BigInteger(const std::string&)` checks no character: `int("abc")` returns an Int with
the digits 51, 50, 49 (`'c' - '0'`, `'b' - '0'`, `'a' - '0'`), `int("1.5")` one with
the digit -2, `int("-")` one with no digit at all and the sign set, and `int("")` is
`0`; every call returns a value and leaves the state as it is, and the example program
prints `abc`, `1.5`, `0`, `0`. -/
theorem C23_malformed_int_returns {F : Type} (ops : DoubleOps F) (st : State F) :
    (∀ s, ∃ i, callBuiltinFunction ops "int" [.str s] st = .ok (.int i, st)) ∧
    callBuiltinFunction ops "int" [.str "abc"] st = .ok (.int ⟨[51, 50, 49], false⟩, st) ∧
    callBuiltinFunction ops "int" [.str "1.5"] st = .ok (.int ⟨[5, -2, 1], false⟩, st) ∧
    callBuiltinFunction ops "int" [.str "-"] st = .ok (.int ⟨[], true⟩, st) ∧
    callBuiltinFunction ops "int" [.str ""] st = .ok (.int ⟨[0], false⟩, st) ∧
    ¬ Canonical ⟨[51, 50, 49], false⟩ ∧ ¬ Canonical ⟨[5, -2, 1], false⟩ ∧
    ¬ Canonical ⟨[], true⟩ ∧
    (∀ fuel, 60 ≤ fuel →
      runOutput DoubleOps.trivial fuel malformedIntProgram = .ok "abc\n1.5\n0\n0\n") := by
  refine ⟨fun s => ⟨ofString s, by simp [callBuiltinFunction, convertToInt]⟩, ?_, ?_, ?_, ?_,
    by decide, by decide, by decide,
    fun fuel h => runOutput_mono _ 60 fuel _ _ h malformedIntProgram_output⟩
  · have : ofString "abc" = ⟨[51, 50, 49], false⟩ := by decide
    simp [callBuiltinFunction, convertToInt, this]
  · have : ofString "1.5" = ⟨[5, -2, 1], false⟩ := by decide
    simp [callBuiltinFunction, convertToInt, this]
  · have : ofString "-" = ⟨[], true⟩ := by decide
    simp [callBuiltinFunction, convertToInt, this]
  · have : ofString "" = ⟨[0], false⟩ := by decide
    simp [callBuiltinFunction, convertToInt, this]

/-! ### Unbound names and unknown callees -/

theorem unboundProgram_output :
    runOutput DoubleOps.trivial 60 unboundProgram = .ok "None\nNone\nNone\n" := by
  decide!

theorem boundCalleeProgram_output :
    runOutput DoubleOps.trivial 60 boundCalleeProgram = .ok "5\nf\n" := by
  decide!

/-- C25, as stated, fails for expressions. After `x = 5` the name `x` is neither a builtin
nor in the function table, but the call `x()` yields 5, not None; and after
`def f(): return 1` the name `f` is bound in no frame and not in the global map, but
reading `f` yields the String `f`, not None. The program
```
x = 5
print(x())
def f():
    return 1
print(f)
```
prints `5` and `f`. -/
theorem C25_bound_callee_is_not_none :
    (isBuiltinName "x" = false ∧ boundCalleeState.functions.find "x" = none ∧
      visitAtom_expr DoubleOps.trivial 3 (.mk (.name "x") (some (.mk none))) boundCalleeState =
        .ok (.int (ofString "5"), boundCalleeState) ∧
      visitAtom_expr DoubleOps.trivial 3 (.mk (.name "x") (some (.mk none))) boundCalleeState ≠
        .ok (.none, boundCalleeState)) ∧
    ((∀ f ∈ functionNameState.scopes, f.find "f" = none) ∧
      functionNameState.globalVars.find "f" = none ∧
      visitAtom DoubleOps.trivial 2 (.name "f") functionNameState =
        .ok (.str "f", functionNameState) ∧
      visitAtom DoubleOps.trivial 2 (.name "f") functionNameState ≠
        .ok (.none, functionNameState)) ∧
    runOutput DoubleOps.trivial 60 boundCalleeProgram = .ok "5\nf\n" := by
  have h1 : visitAtom_expr DoubleOps.trivial 3 (.mk (.name "x") (some (.mk none)))
      boundCalleeState = .ok (.int (ofString "5"), boundCalleeState) := rfl
  have h2 : visitAtom DoubleOps.trivial 2 (.name "f") functionNameState =
      .ok (.str "f", functionNameState) := rfl
  refine ⟨⟨by decide, rfl, h1, ?_⟩, ⟨by simp [functionNameState, State.init], rfl, h2, ?_⟩,
    boundCalleeProgram_output⟩
  · rw [h1]
    intro h
    cases h
  · rw [h2]
    intro h
    cases h

/-- C25, amended. `getVariable` on a name that no frame and not the global map binds gives
None, and `callFunction` on a name that is no builtin and not in the function table
gives None for every list of arguments and leaves the state as it is, so the global
map, the frames, the function table, the flags and the output are the same; neither
raises. As expressions: reading a name that is a builtin or in the function table
yields the String of the name, and reading any other name yields what `getVariable`
gives, None when the name is unbound, and the state is unchanged; the call expression
on a name that is no builtin and not in the function table evaluates its arguments and
then yields the value of the variable when this is no String, so None when the name is
unbound, and calls the function named by the String when it is one. -/
theorem C25_unbound_is_none {F : Type} (ops : DoubleOps F) (fuel : Nat) (st : State F)
    (name : String) :
    ((∀ f ∈ st.scopes, f.find name = none) → st.globalVars.find name = none →
      st.getVariable name = .none) ∧
    (isBuiltinName name = false → st.functions.find name = none →
      ∀ posArgs kwArgs, callFunction ops (fuel + 1) name posArgs kwArgs st = .ok (.none, st)) ∧
    visitAtom ops (fuel + 1) (.name name) st =
      .ok (if (st.functions.find name).isSome || isBuiltinName name then .str name
        else st.getVariable name, st) ∧
    (isBuiltinName name = false → st.functions.find name = none →
      (∀ f ∈ st.scopes, f.find name = none) → st.globalVars.find name = none →
      visitAtom ops (fuel + 1) (.name name) st = .ok (.none, st)) ∧
    (isBuiltinName name = false → st.functions.find name = none →
      ∀ trailer posArgs kwArgs st2,
        visitTrailer ops (fuel + 1) trailer st = .ok ((posArgs, kwArgs), st2) →
        ((∀ s, st.getVariable name ≠ .str s) →
          visitAtom_expr ops (fuel + 2) (.mk (.name name) (some trailer)) st =
            .ok (st.getVariable name, st2)) ∧
        (∀ s, st.getVariable name = .str s →
          visitAtom_expr ops (fuel + 2) (.mk (.name name) (some trailer)) st =
            callFunction ops (fuel + 1) s posArgs kwArgs st2)) ∧
    (isBuiltinName name = false → st.functions.find name = none →
      (∀ f ∈ st.scopes, f.find name = none) → st.globalVars.find name = none →
      visitAtom_expr ops (fuel + 2) (.mk (.name name) (some (.mk none))) st = .ok (.none, st)) ∧
    (∀ fuel1, 60 ≤ fuel1 →
      runOutput DoubleOps.trivial fuel1 unboundProgram = .ok "None\nNone\nNone\n") := by
  have h1 : (∀ f ∈ st.scopes, f.find name = none) → st.globalVars.find name = none →
      st.getVariable name = .none := by
    intro hframes hglobal
    rw [State.getVariable, findInScopes_none name st.scopes hframes, hglobal]
  have h3 : visitAtom ops (fuel + 1) (.name name) st =
      .ok (if (st.functions.find name).isSome || isBuiltinName name then .str name
        else st.getVariable name, st) := by
    rw [visitAtom]
    split <;> rfl
  have h3a : isBuiltinName name = false → st.functions.find name = none →
      visitAtom ops (fuel + 1) (.name name) st = .ok (st.getVariable name, st) := by
    intro hname hfunc
    rw [h3]
    simp [hname, hfunc]
  refine ⟨h1, ?_, h3, ?_, ?_, ?_,
    fun fuel1 h => runOutput_mono _ 60 fuel1 _ _ h unboundProgram_output⟩
  · intro hname hfunc posArgs kwArgs
    rw [callFunction]
    simp [hname, hfunc]
  · intro hname hfunc hframes hglobal
    rw [h3a hname hfunc, h1 hframes hglobal]
  · intro hname hfunc trailer posArgs kwArgs st2 htr
    constructor
    · intro hns
      rw [visitAtom_expr, h3a hname hfunc]
      simp only [htr]
    · intro s hs
      rw [visitAtom_expr, h3a hname hfunc]
      simp only [htr, hs]
  · intro hname hfunc hframes hglobal
    rw [visitAtom_expr, h3a hname hfunc, h1 hframes hglobal]
    simp only [visitTrailer]

/-- C25, amended, at the name `y` in the state of a fresh interpreter, and at the call
`x()` after `x = 5`. -/
theorem C25_unbound_is_none_witness :
    ((∀ f ∈ (State.init : State Unit).scopes, f.find "y" = none) ∧
      (State.init : State Unit).globalVars.find "y" = none ∧ isBuiltinName "y" = false ∧
      (State.init : State Unit).functions.find "y" = none) ∧
    (State.init : State Unit).getVariable "y" = .none ∧
    callFunction DoubleOps.trivial (1 + 1) "y" [] [] State.init = .ok (.none, State.init) ∧
    visitAtom_expr DoubleOps.trivial (1 + 2) (.mk (.name "y") (some (.mk none))) State.init =
      .ok (.none, State.init) ∧
    ((isBuiltinName "x" = false ∧ boundCalleeState.functions.find "x" = none ∧
        visitTrailer DoubleOps.trivial (1 + 1) (.mk none) boundCalleeState =
          .ok (([], []), boundCalleeState) ∧
        ∀ s, boundCalleeState.getVariable "x" ≠ .str s) ∧
      visitAtom_expr DoubleOps.trivial (1 + 2) (.mk (.name "x") (some (.mk none)))
          boundCalleeState =
        .ok (boundCalleeState.getVariable "x", boundCalleeState)) :=
  ⟨⟨by simp [State.init], rfl, by decide, rfl⟩,
    (C25_unbound_is_none DoubleOps.trivial 1 State.init "y").1 (by simp [State.init]) rfl,
    (C25_unbound_is_none DoubleOps.trivial 1 State.init "y").2.1 (by decide) rfl [] [],
    (C25_unbound_is_none DoubleOps.trivial 1 State.init "y").2.2.2.2.2.1 (by decide) rfl
      (by simp [State.init]) rfl,
    ⟨by decide, rfl, rfl, fun s h => by cases h⟩,
    ((C25_unbound_is_none DoubleOps.trivial 1 boundCalleeState "x").2.2.2.2.1 (by decide) rfl
      (.mk none) [] [] boundCalleeState rfl).1 (fun s h => by cases h)⟩

/-! ### print -/

theorem printValue_display {F : Type} (ops : DoubleOps F) (v : Value F) (hv : v.Canonical)
    (st : State F) :
    printValue ops v st = { st with output := st.output ++ display ops v } := by
  cases v with
  | str s => rfl
  | none => rfl
  | bool b =>
    show ({ st with output := st.output ++ Value.toString ops _ } : State F) = _
    rw [toString_eq_display ops _ hv]
  | int i =>
    show ({ st with output := st.output ++ Value.toString ops _ } : State F) = _
    rw [toString_eq_display ops _ hv]
  | float f => rfl
  | tuple t =>
    show ({ st with output := st.output ++ Value.toString ops _ } : State F) = _
    rw [toString_eq_display ops _ hv]

theorem printLoop_rest {F : Type} (ops : DoubleOps F) (vs : List (Value F))
    (hvs : Value.allCanonical vs) (st : State F) :
    printLoop ops vs false st =
      { st with output :=
          st.output ++ (displayAll ops vs).foldr (fun a r => " " ++ a ++ r) "" } := by
  induction vs generalizing st with
  | nil => simp [printLoop, displayAll]
  | cons v vs ih =>
    have hv : v.Canonical ∧ Value.allCanonical vs := by
      simp only [Value.allCanonical] at hvs
      exact hvs
    rw [printLoop, ih hv.2, printValue_display ops v hv.1]
    simp [displayAll, String.append_assoc]

theorem printLoop_spec {F : Type} (ops : DoubleOps F) (vs : List (Value F))
    (hvs : Value.allCanonical vs) (st : State F) :
    printLoop ops vs true st =
      { st with output := st.output ++ " ".intercalate (displayAll ops vs) } := by
  cases vs with
  | nil => simp [printLoop, displayAll, String.intercalate]
  | cons v vs =>
    have hv : v.Canonical ∧ Value.allCanonical vs := by
      simp only [Value.allCanonical] at hvs
      exact hvs
    rw [printLoop, printLoop_rest ops vs hv.2, printValue_display ops v hv.1]
    simp [displayAll, String.intercalate, intercalate_go, String.append_assoc]

theorem printDivModProgram_output :
    runOutput DoubleOps.trivial 60 printDivModProgram = .ok "3 1 -4 2\n" := by
  decide!

/-- C22: `print` appends to the output the display forms of its positional arguments, in
their order, with one blank between two of them, and then one newline (for no argument
the newline alone); a String is written as it is, without quotes; the call returns
None and changes nothing but the output, and keyword arguments are not looked at. The
Ints 3, 1, -4, 2 give `3 1 -4 2` and a newline, and so does the program
`print(10 // 3, 10 % 3, -10 // 3, -10 % 3)`. -/
theorem C22_print_output {F : Type} (ops : DoubleOps F) (args : List (Value F))
    (hargs : Value.allCanonical args) (st : State F) :
    callBuiltinFunction ops "print" args st =
      .ok (.none, { st with output :=
        st.output ++ " ".intercalate (displayAll ops args) ++ "\n" }) ∧
    (∀ fuel kwArgs, callFunction ops (fuel + 1) "print" args kwArgs st =
      .ok (.none, { st with output :=
        st.output ++ " ".intercalate (displayAll ops args) ++ "\n" })) ∧
    callBuiltinFunction ops "print" [] st = .ok (.none, { st with output := st.output ++ "\n" }) ∧
    (∀ s, display ops (.str s) = s) ∧
    callBuiltinFunction ops "print"
        [.int (ofString "3"), .int (ofString "1"), .int (ofString "-4"), .int (ofString "2")] st =
      .ok (.none, { st with output := st.output ++ "3 1 -4 2\n" }) ∧
    (∀ fuel, 60 ≤ fuel →
      runOutput DoubleOps.trivial fuel printDivModProgram = .ok "3 1 -4 2\n") := by
  have key : ∀ vs : List (Value F), Value.allCanonical vs →
      callBuiltinFunction ops "print" vs st =
        .ok (.none, { st with output :=
          st.output ++ " ".intercalate (displayAll ops vs) ++ "\n" }) := by
    intro vs hvs
    simp only [callBuiltinFunction, if_true]
    rw [printLoop_spec ops vs hvs]
  refine ⟨key args hargs, fun fuel kwArgs => ?_, ?_, fun _ => rfl, ?_,
    fun fuel h => runOutput_mono _ 60 fuel _ _ h printDivModProgram_output⟩
  · rw [callFunction]
    simp only [show isBuiltinName "print" = true by decide, if_true]
    exact key args hargs
  · rw [key [] trivial]
    simp [displayAll, String.intercalate]
  · rw [key _ (by simp only [Value.allCanonical, Value.Canonical]; decide)]
    have e : " ".intercalate (displayAll ops
        [.int (ofString "3"), .int (ofString "1"), .int (ofString "-4"), .int (ofString "2")]) =
        "3 1 -4 2" := by
      simp only [displayAll, display]
      decide
    rw [e, String.append_assoc]
    rfl

/-- C22 at the arguments `"a"` and `(1,)`. -/
theorem C22_print_output_witness :
    Value.allCanonical ([.str "a", .tuple [.int (ofString "1")]] : List (Value Unit)) ∧
    callBuiltinFunction DoubleOps.trivial "print" [.str "a", .tuple [.int (ofString "1")]]
        State.init =
      .ok (.none, { State.init with output :=
        (@State.init Unit).output ++ " ".intercalate (displayAll DoubleOps.trivial
          [.str "a", .tuple [.int (ofString "1")]]) ++ "\n" }) ∧
    " ".intercalate (displayAll DoubleOps.trivial
      ([.str "a", .tuple [.int (ofString "1")]] : List (Value Unit))) = "a (1,)" :=
  ⟨by simp only [Value.allCanonical, Value.Canonical]; decide,
    (C22_print_output DoubleOps.trivial [.str "a", .tuple [.int (ofString "1")]]
      (by simp only [Value.allCanonical, Value.Canonical]; decide) State.init).1,
    by decide⟩

/-! ### Format strings -/

theorem formatValues_rest {F : Type} (ops : DoubleOps F) (vs : List (Value F)) :
    formatValues ops vs false =
      (vs.map (formatValue ops)).foldr (fun a r => ", " ++ a ++ r) "" := by
  induction vs with
  | nil => rfl
  | cons v vs ih =>
    rw [formatValues, ih]
    simp [String.append_assoc]

theorem formatValues_spec {F : Type} (ops : DoubleOps F) (vs : List (Value F)) :
    formatValues ops vs true = ", ".intercalate (vs.map (formatValue ops)) := by
  cases vs with
  | nil => rfl
  | cons v vs =>
    rw [formatValues, formatValues_rest]
    simp [String.intercalate, intercalate_go]

theorem formatValue_display {F : Type} (ops : DoubleOps F) (v : Value F) (hv : v.Canonical) :
    formatValue ops v = display ops v := by
  cases v with
  | str s => rfl
  | none => rfl
  | bool b => cases b <;> rfl
  | int i =>
    show Value.toString ops _ = _
    rw [toString_eq_display ops _ hv]
  | float f => rfl
  | tuple t =>
    show Value.toString ops _ = _
    rw [toString_eq_display ops _ hv]

theorem join_cons (a : String) (ps : List String) :
    String.join (a :: ps) = a ++ String.join ps := by
  have key : ∀ (l : List String) (x : String),
      List.foldl (fun r s => r ++ s) x l = x ++ List.foldl (fun r s => r ++ s) "" l := by
    intro l
    induction l with
    | nil => intro x; simp
    | cons b l ih =>
      intro x
      rw [List.foldl_cons, ih, List.foldl_cons, ih ("" ++ b)]
      simp [String.append_assoc]
  show List.foldl (fun r s => r ++ s) "" (a :: ps) = a ++ List.foldl (fun r s => r ++ s) "" ps
  rw [List.foldl_cons, key]
  simp

theorem visitFormat_string_returns_iff {F : Type} (ops : DoubleOps F) (children : List FChild)
    (acc : String) (st : State F) (v : Value F) (st2 : State F) :
    (∃ fuel, visitFormat_string ops fuel children acc st = .ok (v, st2)) ↔
      ∃ ps, FormatPieces ops (formatValue ops) children st ps st2 ∧
        v = .str (acc ++ String.join ps) := by
  constructor
  · rintro ⟨fuel, h⟩
    induction children generalizing fuel acc st with
    | nil =>
      cases fuel with
      | zero => rw [visitFormat_string] at h; cases h
      | succ f =>
        rw [visitFormat_string] at h
        cases h
        exact ⟨[], FormatPieces.nil _, by simp [String.join]⟩
    | cons c rest ih =>
      cases fuel with
      | zero => rw [visitFormat_string] at h; cases h
      | succ f =>
        cases c with
        | literal text =>
          rw [visitFormat_string] at h
          obtain ⟨ps, hps, hv⟩ := ih _ st f h
          exact ⟨_ :: ps, FormatPieces.literal hps, by
            rw [hv, join_cons, String.append_assoc]⟩
        | token =>
          rw [visitFormat_string] at h
          obtain ⟨ps, hps, hv⟩ := ih _ st f h
          exact ⟨ps, FormatPieces.token hps, hv⟩
        | testlist tests =>
          rw [visitFormat_string] at h
          cases h1 : visitTestlist ops f tests st with
          | error err => rw [h1] at h; cases h
          | ok p =>
            obtain ⟨values, st1⟩ := p
            rw [h1] at h
            obtain ⟨ps, hps, hv⟩ := ih _ st1 f h
            refine ⟨_ :: ps, FormatPieces.testlist ⟨f, h1⟩ hps, ?_⟩
            rw [hv, join_cons, formatValues_spec, String.append_assoc]
  · rintro ⟨ps, hps, hv⟩
    subst hv
    induction hps generalizing acc with
    | nil st => exact ⟨1, by rw [visitFormat_string]; simp [String.join]⟩
    | @literal text rest st3 st4 ps1 _ ih =>
      obtain ⟨f, h⟩ := ih (acc ++ String.mk (unescapeBraces text.data))
      refine ⟨f + 1, ?_⟩
      rw [visitFormat_string, h, join_cons, String.append_assoc]
    | token _ ih =>
      obtain ⟨f, h⟩ := ih acc
      exact ⟨f + 1, by rw [visitFormat_string, h]⟩
    | @testlist tests rest st3 st4 st5 values ps1 ht _ ih =>
      obtain ⟨f1, h1⟩ := ht
      obtain ⟨f2, h2⟩ := ih (acc ++ formatValues ops values true)
      refine ⟨max f1 f2 + 1, ?_⟩
      rw [visitFormat_string,
        (evalMono ops f1).testlist (max f1 f2) tests _ _ (le_max_left _ _) h1]
      simp only
      rw [(evalMono ops f2).formatString (max f1 f2) _ _ _ _ (le_max_right _ _) h2,
        join_cons, formatValues_spec, String.append_assoc]

theorem fstringProgram_output :
    runOutput DoubleOps.trivial 60 fstringProgram = .ok "\x7bx\x7d=3\n" := by
  decide!

/-- C24: the value of a format string. With enough fuel `visitFormat_string` returns
exactly the String that is the concatenation, in the order of the source, of its
pieces: every literal chunk with each doubled brace replaced by one, from left to
right, and for every embedded `testlist`, which is evaluated at its place, the texts of
its values joined by a comma and a blank. The text of a value is `True` or `False` for
a Bool, the String itself for a String, and the display form for every Value whose
Ints are canonical. With `x` bound to the Int 3 the chunks `{{x}}=` and `{x}` give
`{x}=3`. -/
theorem C24_format_string_value {F : Type} (ops : DoubleOps F) :
    (∀ (children : List FChild) (acc : String) (st : State F) (v : Value F) (st2 : State F),
      (∃ fuel, visitFormat_string ops fuel children acc st = .ok (v, st2)) ↔
        ∃ ps, FormatPieces ops (formatValue ops) children st ps st2 ∧
          v = .str (acc ++ String.join ps)) ∧
    (∀ (children : List FChild) (st : State F) (fuel : Nat),
      visitAtom ops (fuel + 1) (.formatString children) st =
        visitFormat_string ops fuel children "" st) ∧
    (∀ v : Value F, v.Canonical → formatValue ops v = display ops v) ∧
    formatValue ops (.bool true) = "True" ∧ formatValue ops (.bool false) = "False" ∧
    (∀ s, formatValue ops (.str s) = s) ∧
    (∀ (st : State F), st.getVariable "x" = .int (ofString "3") →
      st.functions.find "x" = none →
      visitAtom ops 20
        (.formatString [.token, .literal "\x7b\x7bx\x7d\x7d=", .token,
          .testlist [Test.ofAtom "x" (.name "x")], .token, .token]) st =
        .ok (.str "\x7bx\x7d=3", st)) ∧
    (∀ fuel, 60 ≤ fuel →
      runOutput DoubleOps.trivial fuel fstringProgram = .ok "\x7bx\x7d=3\n") := by
  refine ⟨visitFormat_string_returns_iff ops, fun _ _ _ => by rw [visitAtom],
    formatValue_display ops, rfl, rfl, fun _ => rfl, ?_,
    fun fuel h => runOutput_mono _ 60 fuel _ _ h fstringProgram_output⟩
  intro st hx hf
  have hb : isBuiltinName "x" = false := by decide
  have e1 : String.mk (unescapeBraces "\x7b\x7bx\x7d\x7d=".data) = "\x7bx\x7d=" := by decide
  have e2 : (Value.int (ofString "3") : Value F).toString ops = "3" := by
    show BigInteger.toString (ofString "3") = "3"
    decide
  simp [visitAtom, visitFormat_string, visitTestlist, Test.ofAtom, Test.ofAtomExpr, visitTest,
    visitOr_test, visitAnd_test, visitNot_test, visitComparison, visitArith_expr, visitTerm,
    visitFactor, visitAtom_expr, orLoop, andLoop, arithLoop, termLoop, hx, hf, hb, formatValues,
    formatValue, e1, e2]

/-- C24 at the Tuple `(3, "a")` as a value of an embedded `testlist`, and at the example
program. -/
theorem C24_format_string_value_witness :
    (Value.Canonical (.tuple [.int (ofString "3"), .str "a"] : Value Unit) ∧ 60 ≤ 60) ∧
    formatValue DoubleOps.trivial (.tuple [.int (ofString "3"), .str "a"]) =
      display DoubleOps.trivial (.tuple [.int (ofString "3"), .str "a"]) ∧
    runOutput DoubleOps.trivial 60 fstringProgram = .ok "\x7bx\x7d=3\n" :=
  ⟨⟨by simp only [Value.Canonical, Value.allCanonical]; decide, le_refl 60⟩,
    (C24_format_string_value DoubleOps.trivial).2.2.1 _
      (by simp only [Value.Canonical, Value.allCanonical]; decide),
    (C24_format_string_value DoubleOps.trivial).2.2.2.2.2.2.2 60 (le_refl 60)⟩

/-- C13 at the example program with 30 rounds of fuel. -/
theorem C13_or_and_short_circuit_witness :
    30 ≤ 30 ∧ runOutput DoubleOps.trivial 30 shortCircuitProgram = .ok "7\n0\n5\nyes\n" :=
  ⟨le_refl 30, (C13_or_and_short_circuit DoubleOps.trivial).2.2 30 (le_refl 30)⟩

/-! ### Calls leave the frames of the caller as they were -/

theorem SameFrames.refl {F : Type} (st : State F) : SameFrames st st := ⟨rfl, rfl⟩

theorem SameFrames.trans {F : Type} {a b c : State F} (h1 : SameFrames a b)
    (h2 : SameFrames b c) : SameFrames a c :=
  ⟨h2.1.trans h1.1, h2.2.trans h1.2⟩

theorem SameFrames.of_scopes_eq {F : Type} {a b : State F} (h : b.scopes = a.scopes) :
    SameFrames a b := by
  unfold SameFrames
  rw [h]
  exact ⟨rfl, rfl⟩

theorem sameFrames_setVariable {F : Type} (st : State F) (name : String) (v : Value F) :
    SameFrames st (st.setVariable name v) := by
  rcases st with ⟨g, scopes, fs, bf, cf, rf, rv, out⟩
  cases scopes <;> exact ⟨rfl, rfl⟩

theorem sameFrames_assignTargets {F : Type} (st : State F) (ts : List Test)
    (vs : List (Value F)) : SameFrames st (assignTargets st ts vs) := by
  induction ts generalizing st vs with
  | nil => simp only [assignTargets]; exact SameFrames.refl st
  | cons t ts ih =>
    cases vs with
    | nil => simp only [assignTargets]; exact SameFrames.refl st
    | cons v vs =>
      rw [assignTargets]
      exact (sameFrames_setVariable st _ _).trans (ih _ _)

theorem sameFrames_assignAll {F : Type} (st : State F) (tls : List (List Test))
    (vs : List (Value F)) : SameFrames st (assignAll st tls vs) := by
  induction tls generalizing st with
  | nil => rw [assignAll]; exact SameFrames.refl st
  | cons tl tls ih =>
    rw [assignAll]
    exact (sameFrames_assignTargets st tl vs).trans (ih _)

theorem printLoop_scopes {F : Type} (ops : DoubleOps F) (vs : List (Value F)) (first : Bool)
    (st : State F) : (printLoop ops vs first st).scopes = st.scopes := by
  induction vs generalizing first st with
  | nil => rfl
  | cons v vs ih =>
    rw [printLoop, ih]
    cases v <;> cases first <;> rfl

theorem callBuiltinFunction_scopes {F : Type} (ops : DoubleOps F) (name : String)
    (args : List (Value F)) (st : State F) (r : Value F × State F)
    (h : callBuiltinFunction ops name args st = .ok r) : r.2.scopes = st.scopes := by
  unfold callBuiltinFunction at h
  split at h
  · cases h
    exact printLoop_scopes ops args true st
  · split at h
    · split at h <;> cases h <;> rfl
    · split at h
      · split at h
        · split at h
          · cases h
          · cases h; rfl
        · cases h; rfl
      · split at h
        · split at h <;> cases h <;> rfl
        · split at h
          · split at h <;> cases h <;> rfl
          · cases h; rfl

theorem frames_test_step {F : Type} {ops : DoubleOps F} {n : Nat} (ih : FramesKept ops n) :
    ∀ t st r, visitTest ops (n + 1) t st = .ok r → SameFrames st r.2 := by
  intro t st r h
  cases t with
  | mk text o =>
    rw [visitTest] at h
    exact ih.orTest o st r h

theorem frames_orTest_step {F : Type} {ops : DoubleOps F} {n : Nat} (ih : FramesKept ops n) :
    ∀ t st r, visitOr_test ops (n + 1) t st = .ok r → SameFrames st r.2 := by
  intro t st r h
  cases t with
  | mk first rest =>
    rw [visitOr_test] at h
    cases h1 : visitAnd_test ops n first st with
    | error e => rw [h1] at h; cases h
    | ok p =>
      obtain ⟨v, st1⟩ := p
      rw [h1] at h
      exact (ih.andTest _ _ _ h1).trans (ih.orLoop _ _ _ _ h)

theorem frames_orLoop_step {F : Type} {ops : DoubleOps F} {n : Nat} (ih : FramesKept ops n) :
    ∀ ts v st r, orLoop ops (n + 1) ts v st = .ok r → SameFrames st r.2 := by
  intro ts v st r h
  cases ts with
  | nil => rw [orLoop] at h; cases h; exact SameFrames.refl st
  | cons t ts =>
    rw [orLoop] at h
    split at h
    · cases h; exact SameFrames.refl st
    · cases h1 : visitAnd_test ops n t st with
      | error e => rw [h1] at h; cases h
      | ok p =>
        obtain ⟨v1, st1⟩ := p
        rw [h1] at h
        exact (ih.andTest _ _ _ h1).trans (ih.orLoop _ _ _ _ h)

theorem frames_andTest_step {F : Type} {ops : DoubleOps F} {n : Nat} (ih : FramesKept ops n) :
    ∀ t st r, visitAnd_test ops (n + 1) t st = .ok r → SameFrames st r.2 := by
  intro t st r h
  cases t with
  | mk first rest =>
    rw [visitAnd_test] at h
    cases h1 : visitNot_test ops n first st with
    | error e => rw [h1] at h; cases h
    | ok p =>
      obtain ⟨v, st1⟩ := p
      rw [h1] at h
      exact (ih.notTest _ _ _ h1).trans (ih.andLoop _ _ _ _ h)

theorem frames_andLoop_step {F : Type} {ops : DoubleOps F} {n : Nat} (ih : FramesKept ops n) :
    ∀ ts v st r, andLoop ops (n + 1) ts v st = .ok r → SameFrames st r.2 := by
  intro ts v st r h
  cases ts with
  | nil => rw [andLoop] at h; cases h; exact SameFrames.refl st
  | cons t ts =>
    rw [andLoop] at h
    split at h
    · cases h; exact SameFrames.refl st
    · cases h1 : visitNot_test ops n t st with
      | error e => rw [h1] at h; cases h
      | ok p =>
        obtain ⟨v1, st1⟩ := p
        rw [h1] at h
        exact (ih.notTest _ _ _ h1).trans (ih.andLoop _ _ _ _ h)

theorem frames_notTest_step {F : Type} {ops : DoubleOps F} {n : Nat} (ih : FramesKept ops n) :
    ∀ t st r, visitNot_test ops (n + 1) t st = .ok r → SameFrames st r.2 := by
  intro t st r h
  cases t with
  | not t =>
    rw [visitNot_test] at h
    cases h1 : visitNot_test ops n t st with
    | error e => rw [h1] at h; cases h
    | ok p =>
      obtain ⟨v1, st1⟩ := p
      rw [h1] at h
      cases h
      exact ih.notTest _ _ (v1, st1) h1
  | comparison c =>
    rw [visitNot_test] at h
    exact ih.comparison c st r h

theorem frames_comparison_step {F : Type} {ops : DoubleOps F} {n : Nat}
    (ih : FramesKept ops n) :
    ∀ c st r, visitComparison ops (n + 1) c st = .ok r → SameFrames st r.2 := by
  intro c st r h
  cases c with
  | mk first rest =>
    cases rest with
    | nil =>
      rw [visitComparison] at h
      exact ih.arithExpr first st r h
    | cons x rest =>
      rw [visitComparison] at h
      cases h1 : visitArith_expr ops n first st with
      | error e => rw [h1] at h; cases h
      | ok p =>
        obtain ⟨v1, st1⟩ := p
        rw [h1] at h
        cases h2 : comparisonValues ops n (x :: rest) st1 with
        | error e => simp only [h2] at h; cases h
        | ok p2 =>
          obtain ⟨vs, st2⟩ := p2
          simp only [h2] at h
          cases h
          exact (ih.arithExpr _ _ (v1, st1) h1).trans (ih.comparisonValues _ _ (vs, st2) h2)

theorem frames_comparisonValues_step {F : Type} {ops : DoubleOps F} {n : Nat}
    (ih : FramesKept ops n) :
    ∀ es st r, comparisonValues ops (n + 1) es st = .ok r → SameFrames st r.2 := by
  intro es st r h
  cases es with
  | nil => rw [comparisonValues] at h; cases h; exact SameFrames.refl st
  | cons x rest =>
    obtain ⟨op, e⟩ := x
    rw [comparisonValues] at h
    cases h1 : visitArith_expr ops n e st with
    | error e => rw [h1] at h; cases h
    | ok p =>
      obtain ⟨v1, st1⟩ := p
      rw [h1] at h
      cases h2 : comparisonValues ops n rest st1 with
      | error e => simp only [h2] at h; cases h
      | ok p2 =>
        obtain ⟨vs, st2⟩ := p2
        simp only [h2] at h
        cases h
        exact (ih.arithExpr _ _ (v1, st1) h1).trans (ih.comparisonValues _ _ (vs, st2) h2)

theorem frames_arithExpr_step {F : Type} {ops : DoubleOps F} {n : Nat}
    (ih : FramesKept ops n) :
    ∀ e st r, visitArith_expr ops (n + 1) e st = .ok r → SameFrames st r.2 := by
  intro e st r h
  cases e with
  | mk first rest =>
    rw [visitArith_expr] at h
    cases h1 : visitTerm ops n first st with
    | error e => rw [h1] at h; cases h
    | ok p =>
      obtain ⟨v, st1⟩ := p
      rw [h1] at h
      exact (ih.term _ _ _ h1).trans (ih.arithLoop _ _ _ _ h)

theorem frames_arithLoop_step {F : Type} {ops : DoubleOps F} {n : Nat}
    (ih : FramesKept ops n) :
    ∀ ts v st r, arithLoop ops (n + 1) ts v st = .ok r → SameFrames st r.2 := by
  intro ts v st r h
  cases ts with
  | nil => rw [arithLoop] at h; cases h; exact SameFrames.refl st
  | cons x rest =>
    obtain ⟨op, t⟩ := x
    rw [arithLoop] at h
    cases h1 : visitTerm ops n t st with
    | error e => rw [h1] at h; cases h
    | ok p =>
      obtain ⟨right, st1⟩ := p
      rw [h1] at h
      simp only at h
      split at h
      · cases h2 : performAdd ops n v right with
        | error e => simp only [h2] at h; cases h
        | ok v2 =>
          simp only [h2] at h
          exact (ih.term _ _ _ h1).trans (ih.arithLoop _ _ _ _ h)
      · exact (ih.term _ _ _ h1).trans (ih.arithLoop _ _ _ _ h)

theorem frames_term_step {F : Type} {ops : DoubleOps F} {n : Nat} (ih : FramesKept ops n) :
    ∀ t st r, visitTerm ops (n + 1) t st = .ok r → SameFrames st r.2 := by
  intro t st r h
  cases t with
  | mk first rest =>
    rw [visitTerm] at h
    cases h1 : visitFactor ops n first st with
    | error e => rw [h1] at h; cases h
    | ok p =>
      obtain ⟨v, st1⟩ := p
      rw [h1] at h
      exact (ih.factor _ _ _ h1).trans (ih.termLoop _ _ _ _ h)

theorem frames_termLoop_step {F : Type} {ops : DoubleOps F} {n : Nat}
    (ih : FramesKept ops n) :
    ∀ fs v st r, termLoop ops (n + 1) fs v st = .ok r → SameFrames st r.2 := by
  intro fs v st r h
  cases fs with
  | nil => rw [termLoop] at h; cases h; exact SameFrames.refl st
  | cons x rest =>
    obtain ⟨op, f⟩ := x
    rw [termLoop] at h
    cases h1 : visitFactor ops n f st with
    | error e => rw [h1] at h; cases h
    | ok p =>
      obtain ⟨right, st1⟩ := p
      rw [h1] at h
      simp only at h
      cases h2 : applyTermOp ops n op v right with
      | error e => simp only [h2] at h; cases h
      | ok v2 =>
        simp only [h2] at h
        exact (ih.factor _ _ _ h1).trans (ih.termLoop _ _ _ _ h)

theorem frames_factor_step {F : Type} {ops : DoubleOps F} {n : Nat} (ih : FramesKept ops n) :
    ∀ f st r, visitFactor ops (n + 1) f st = .ok r → SameFrames st r.2 := by
  intro f st r h
  cases f with
  | signed minus f =>
    rw [visitFactor] at h
    cases h1 : visitFactor ops n f st with
    | error e => rw [h1] at h; cases h
    | ok p =>
      obtain ⟨v1, st1⟩ := p
      rw [h1] at h
      have hf : SameFrames st st1 := ih.factor _ _ (v1, st1) h1
      simp only at h
      split at h
      · split at h <;> cases h <;> exact hf
      · cases h; exact hf
  | atomExpr a =>
    rw [visitFactor] at h
    exact ih.atomExpr a st r h

theorem frames_atomExpr_step {F : Type} {ops : DoubleOps F} {n : Nat}
    (ih : FramesKept ops n) :
    ∀ a st r, visitAtom_expr ops (n + 1) a st = .ok r → SameFrames st r.2 := by
  intro a st r h
  cases a with
  | mk atom tr =>
    cases tr with
    | none =>
      rw [visitAtom_expr] at h
      exact ih.atom atom st r h
    | some trailer =>
      rw [visitAtom_expr] at h
      cases h1 : visitAtom ops n atom st with
      | error e => rw [h1] at h; cases h
      | ok p =>
        obtain ⟨v1, st1⟩ := p
        rw [h1] at h
        cases h2 : visitTrailer ops n trailer st1 with
        | error e => simp only [h2] at h; cases h
        | ok p2 =>
          obtain ⟨⟨pos, kw⟩, st2⟩ := p2
          simp only [h2] at h
          have h12 : SameFrames st st2 := (ih.atom _ _ _ h1).trans (ih.trailer _ _ _ h2)
          cases v1 with
          | str fn => exact h12.trans (SameFrames.of_scopes_eq (ih.call _ _ _ _ _ h))
          | none => cases h; exact h12
          | bool b => cases h; exact h12
          | int i => cases h; exact h12
          | float x => cases h; exact h12
          | tuple vs => cases h; exact h12

theorem frames_trailer_step {F : Type} {ops : DoubleOps F} {n : Nat}
    (ih : FramesKept ops n) :
    ∀ t st r, visitTrailer ops (n + 1) t st = .ok r → SameFrames st r.2 := by
  intro t st r h
  cases t with
  | mk args =>
    cases args with
    | none => rw [visitTrailer] at h; cases h; exact SameFrames.refl st
    | some args =>
      rw [visitTrailer] at h
      exact ih.arglist _ _ _ _ r h

theorem frames_arglist_step {F : Type} {ops : DoubleOps F} {n : Nat}
    (ih : FramesKept ops n) :
    ∀ args pos kw st r, visitArglist ops (n + 1) args pos kw st = .ok r →
      SameFrames st r.2 := by
  intro args pos kw st r h
  cases args with
  | nil => rw [visitArglist] at h; cases h; exact SameFrames.refl st
  | cons a rest =>
    cases a with
    | positional t =>
      rw [visitArglist] at h
      cases h1 : visitTest ops n t st with
      | error e => rw [h1] at h; cases h
      | ok p =>
        obtain ⟨v1, st1⟩ := p
        rw [h1] at h
        exact (ih.test _ _ _ h1).trans (ih.arglist _ _ _ _ _ h)
    | keyword name value =>
      rw [visitArglist] at h
      cases h1 : visitTest ops n value st with
      | error e => rw [h1] at h; cases h
      | ok p =>
        obtain ⟨v1, st1⟩ := p
        rw [h1] at h
        exact (ih.test _ _ _ h1).trans (ih.arglist _ _ _ _ _ h)

theorem frames_atom_step {F : Type} {ops : DoubleOps F} {n : Nat} (ih : FramesKept ops n) :
    ∀ a st r, visitAtom ops (n + 1) a st = .ok r → SameFrames st r.2 := by
  intro a st r h
  cases a with
  | none => rw [visitAtom] at h; cases h; exact SameFrames.refl st
  | true => rw [visitAtom] at h; cases h; exact SameFrames.refl st
  | false => rw [visitAtom] at h; cases h; exact SameFrames.refl st
  | name x =>
    rw [visitAtom] at h
    split at h <;> cases h <;> exact SameFrames.refl st
  | number text =>
    rw [visitAtom] at h
    split at h
    · split at h
      · cases h; exact SameFrames.refl st
      · cases h
    · cases h; exact SameFrames.refl st
  | strings tokens => rw [visitAtom] at h; cases h; exact SameFrames.refl st
  | formatString children =>
    rw [visitAtom] at h
    exact ih.formatString _ _ _ r h
  | paren t =>
    rw [visitAtom] at h
    exact ih.test _ _ r h

theorem frames_formatString_step {F : Type} {ops : DoubleOps F} {n : Nat}
    (ih : FramesKept ops n) :
    ∀ cs res st r, visitFormat_string ops (n + 1) cs res st = .ok r → SameFrames st r.2 := by
  intro cs res st r h
  cases cs with
  | nil => rw [visitFormat_string] at h; cases h; exact SameFrames.refl st
  | cons c rest =>
    cases c with
    | literal text =>
      rw [visitFormat_string] at h
      exact ih.formatString _ _ _ r h
    | token =>
      rw [visitFormat_string] at h
      exact ih.formatString _ _ _ r h
    | testlist tests =>
      rw [visitFormat_string] at h
      cases h1 : visitTestlist ops n tests st with
      | error e => rw [h1] at h; cases h
      | ok p =>
        obtain ⟨v1, st1⟩ := p
        rw [h1] at h
        exact (ih.testlist _ _ _ h1).trans (ih.formatString _ _ _ _ h)

theorem frames_testlist_step {F : Type} {ops : DoubleOps F} {n : Nat}
    (ih : FramesKept ops n) :
    ∀ ts st r, visitTestlist ops (n + 1) ts st = .ok r → SameFrames st r.2 := by
  intro ts st r h
  cases ts with
  | nil => rw [visitTestlist] at h; cases h; exact SameFrames.refl st
  | cons t rest =>
    rw [visitTestlist] at h
    cases h1 : visitTest ops n t st with
    | error e => rw [h1] at h; cases h
    | ok p =>
      obtain ⟨v1, st1⟩ := p
      rw [h1] at h
      cases h2 : visitTestlist ops n rest st1 with
      | error e => simp only [h2] at h; cases h
      | ok p2 =>
        obtain ⟨vs, st2⟩ := p2
        simp only [h2] at h
        cases h
        exact (ih.test _ _ (v1, st1) h1).trans (ih.testlist _ _ (vs, st2) h2)

theorem frames_call_step {F : Type} {ops : DoubleOps F} {n : Nat} (ih : FramesKept ops n) :
    ∀ name pos kw st r, callFunction ops (n + 1) name pos kw st = .ok r →
      r.2.scopes = st.scopes := by
  intro name pos kw st r h
  rw [callFunction] at h
  split at h
  · exact callBuiltinFunction_scopes ops name pos st r h
  · cases hf : st.functions.find name with
    | none => simp only [hf] at h; cases h; rfl
    | some func =>
      simp only [hf] at h
      cases hd : bindDefaults func.defaults (func.params.length - func.defaults.length)
          func.params 0 (bindKeywords kw (bindPositional func.params pos [])) with
      | error e => simp only [hd] at h; cases h
      | ok scope1 =>
        simp only [hd] at h
        cases h1 : visitSuite ops n func.body
            { st with scopes := scope1 :: st.scopes, returnFlag := false,
                      returnValue := .none } with
        | error e => simp only [h1] at h; cases h
        | ok st1 =>
          simp only [h1] at h
          cases h
          exact (ih.suite _ _ _ h1).2

theorem frames_suite_step {F : Type} {ops : DoubleOps F} {n : Nat} (ih : FramesKept ops n) :
    ∀ s st r, visitSuite ops (n + 1) s st = .ok r → SameFrames st r := by
  intro s st r h
  cases s with
  | simple s =>
    rw [visitSuite] at h
    exact ih.smallStmt _ _ r h
  | block stmts =>
    rw [visitSuite] at h
    exact ih.suiteLoop _ _ r h

theorem frames_suiteLoop_step {F : Type} {ops : DoubleOps F} {n : Nat}
    (ih : FramesKept ops n) :
    ∀ ss st r, suiteLoop ops (n + 1) ss st = .ok r → SameFrames st r := by
  intro ss st r h
  cases ss with
  | nil => rw [suiteLoop] at h; cases h; exact SameFrames.refl st
  | cons s rest =>
    rw [suiteLoop] at h
    cases h1 : visitStmt ops n s st with
    | error e => rw [h1] at h; cases h
    | ok st1 =>
      rw [h1] at h
      simp only at h
      split at h
      · cases h; exact ih.stmt _ _ _ h1
      · exact (ih.stmt _ _ _ h1).trans (ih.suiteLoop _ _ _ h)

theorem frames_stmt_step {F : Type} {ops : DoubleOps F} {n : Nat} (ih : FramesKept ops n) :
    ∀ s st r, visitStmt ops (n + 1) s st = .ok r → SameFrames st r := by
  intro s st r h
  cases s with
  | simple s =>
    rw [visitStmt] at h
    exact ih.smallStmt _ _ r h
  | compound c =>
    cases c with
    | ifStmt branches elseSuite =>
      rw [visitStmt] at h
      exact ih.ifStmt _ _ _ r h
    | whileStmt test suite =>
      rw [visitStmt] at h
      exact ih.whileStmt _ _ _ r h
    | funcdef name tal suite =>
      rw [visitStmt] at h
      exact ih.funcdef _ _ _ _ r h

theorem frames_smallStmt_step {F : Type} {ops : DoubleOps F} {n : Nat}
    (ih : FramesKept ops n) :
    ∀ s st r, visitSmall_stmt ops (n + 1) s st = .ok r → SameFrames st r := by
  intro s st r h
  cases s with
  | expr e =>
    rw [visitSmall_stmt] at h
    exact ih.exprStmt _ _ r h
  | flow f =>
    cases f with
    | «break» => rw [visitSmall_stmt] at h; cases h; exact SameFrames.refl st
    | «continue» => rw [visitSmall_stmt] at h; cases h; exact SameFrames.refl st
    | «return» tl =>
      rw [visitSmall_stmt] at h
      exact ih.returnStmt _ _ r h

theorem frames_returnStmt_step {F : Type} {ops : DoubleOps F} {n : Nat}
    (ih : FramesKept ops n) :
    ∀ tl st r, visitReturn_stmt ops (n + 1) tl st = .ok r → SameFrames st r := by
  intro tl st r h
  cases tl with
  | none => rw [visitReturn_stmt] at h; cases h; exact SameFrames.refl st
  | some testlist =>
    rw [visitReturn_stmt] at h
    cases h1 : visitTestlist ops n testlist { st with returnFlag := true } with
    | error e => rw [h1] at h; cases h
    | ok p =>
      obtain ⟨vs, st1⟩ := p
      rw [h1] at h
      have hf : SameFrames st st1 :=
        SameFrames.trans (b := { st with returnFlag := true }) ⟨rfl, rfl⟩
          (ih.testlist _ _ (vs, st1) h1)
      simp only at h
      split at h <;> cases h <;> exact hf

theorem frames_exprStmt_step {F : Type} {ops : DoubleOps F} {n : Nat}
    (ih : FramesKept ops n) :
    ∀ e st r, visitExpr_stmt ops (n + 1) e st = .ok r → SameFrames st r := by
  intro e st r h
  rw [visitExpr_stmt] at h
  split at h
  · cases h1 : visitTestlist ops n e.first st with
    | error e => simp only [h1] at h; cases h
    | ok p =>
      obtain ⟨vs, st1⟩ := p
      simp only [h1] at h
      have hf : SameFrames st st1 := ih.testlist _ _ (vs, st1) h1
      cases h
      exact hf
  · rename_i second others hrest
    split at h
    · rename_i op hop
      split at h
      · rename_i target hfirst
        cases h1 : visitTestlist ops n second st with
        | error e => simp only [h1] at h; cases h
        | ok p =>
          obtain ⟨vs, st1⟩ := p
          simp only [h1] at h
          have hf : SameFrames st st1 := ih.testlist _ _ (vs, st1) h1
          cases vs with
          | nil => simp only at h; cases h
          | cons right rs =>
            simp only at h
            cases h2 : applyAugassign ops n op (st.getVariable target.text) right with
            | error e => simp only [h2] at h; cases h
            | ok res =>
              simp only [h2] at h
              cases h
              exact hf.trans (sameFrames_setVariable _ _ _)
      · cases h; exact SameFrames.refl st
    · cases h1 : visitTestlist ops n ((second :: others).getLast (by simp)) st with
      | error e => simp only [h1] at h; cases h
      | ok p =>
        obtain ⟨vs, st1⟩ := p
        simp only [h1] at h
        have hf : SameFrames st st1 := ih.testlist _ _ (vs, st1) h1
        cases h
        exact hf.trans (sameFrames_assignAll _ _ _)

theorem frames_ifStmt_step {F : Type} {ops : DoubleOps F} {n : Nat} (ih : FramesKept ops n) :
    ∀ bs el st r, visitIf_stmt ops (n + 1) bs el st = .ok r → SameFrames st r := by
  intro bs el st r h
  cases bs with
  | nil =>
    cases el with
    | none => rw [visitIf_stmt] at h; cases h; exact SameFrames.refl st
    | some suite =>
      rw [visitIf_stmt] at h
      exact ih.suite _ _ r h
  | cons b rest =>
    obtain ⟨test, suite⟩ := b
    rw [visitIf_stmt] at h
    cases h1 : visitTest ops n test st with
    | error e => rw [h1] at h; cases h
    | ok p =>
      obtain ⟨c, st1⟩ := p
      rw [h1] at h
      have hf : SameFrames st st1 := ih.test _ _ (c, st1) h1
      simp only at h
      split at h
      · exact hf.trans (ih.suite _ _ r h)
      · exact hf.trans (ih.ifStmt _ _ _ r h)

theorem frames_whileStmt_step {F : Type} {ops : DoubleOps F} {n : Nat}
    (ih : FramesKept ops n) :
    ∀ t s st r, visitWhile_stmt ops (n + 1) t s st = .ok r → SameFrames st r := by
  intro t s st r h
  rw [visitWhile_stmt] at h
  cases h1 : visitTest ops n t st with
  | error e => rw [h1] at h; cases h
  | ok p =>
    obtain ⟨c, st1⟩ := p
    rw [h1] at h
    have hf : SameFrames st st1 := ih.test _ _ (c, st1) h1
    simp only at h
    split at h
    · cases h; exact hf
    · cases h2 : visitSuite ops n s st1 with
      | error e => simp only [h2] at h; cases h
      | ok st2 =>
        simp only [h2] at h
        have hf2 : SameFrames st st2 := hf.trans (ih.suite _ _ _ h2)
        split at h
        · cases h; exact hf2
        · split at h
          · exact SameFrames.trans (b := { st2 with continueFlag := false }) hf2
              (ih.whileStmt _ _ _ r h)
          · split at h
            · cases h; exact hf2
            · exact hf2.trans (ih.whileStmt _ _ _ r h)

theorem frames_typedargslist_step {F : Type} {ops : DoubleOps F} {n : Nat}
    (ih : FramesKept ops n) :
    ∀ tests ds names i defaults st r,
      visitTypedargslist ops tests ds (n + 1) names i defaults st = .ok r →
      SameFrames st r.2 := by
  intro tests ds names i defaults st r h
  cases names with
  | nil => rw [visitTypedargslist] at h; cases h; exact SameFrames.refl st
  | cons x names =>
    rw [visitTypedargslist] at h
    split at h
    · cases ht : tests[i - ds]? with
      | none => simp only [ht] at h; cases h
      | some t =>
        simp only [ht] at h
        cases h1 : visitTest ops n t st with
        | error e => simp only [h1] at h; cases h
        | ok p =>
          obtain ⟨v, st1⟩ := p
          simp only [h1] at h
          exact (ih.test _ _ (v, st1) h1).trans (ih.typedargslist _ _ _ _ _ _ r h)
    · exact ih.typedargslist _ _ _ _ _ _ r h

theorem frames_funcdef_step {F : Type} {ops : DoubleOps F} {n : Nat}
    (ih : FramesKept ops n) :
    ∀ name tal s st r, visitFuncdef ops (n + 1) name tal s st = .ok r → SameFrames st r := by
  intro name tal s st r h
  cases tal with
  | none => rw [visitFuncdef] at h; cases h; exact SameFrames.refl st
  | some tal =>
    rw [visitFuncdef] at h
    cases h1 : visitTypedargslist ops (typedargsTests tal)
        ((tal.map Prod.fst).length - (typedargsTests tal).length) n (tal.map Prod.fst) 0 [] st with
    | error e => simp only [h1] at h; cases h
    | ok p =>
      obtain ⟨ds, st1⟩ := p
      simp only [h1] at h
      have hf : SameFrames st st1 := ih.typedargslist _ _ _ _ _ _ (ds, st1) h1
      cases h
      exact hf

theorem framesKept_zero {F : Type} (ops : DoubleOps F) : FramesKept ops 0 := by
  constructor
  all_goals intros
  all_goals rename_i h
  · rw [visitTest] at h; cases h
  · rw [visitOr_test] at h; cases h
  · rw [orLoop] at h; cases h
  · rw [visitAnd_test] at h; cases h
  · rw [andLoop] at h; cases h
  · rw [visitNot_test] at h; cases h
  · rw [visitComparison] at h; cases h
  · rw [comparisonValues] at h; cases h
  · rw [visitArith_expr] at h; cases h
  · rw [arithLoop] at h; cases h
  · rw [visitTerm] at h; cases h
  · rw [termLoop] at h; cases h
  · rw [visitFactor] at h; cases h
  · rw [visitAtom_expr] at h; cases h
  · rw [visitTrailer] at h; cases h
  · rw [visitArglist] at h; cases h
  · rw [visitAtom] at h; cases h
  · rw [visitFormat_string] at h; cases h
  · rw [visitTestlist] at h; cases h
  · rw [callFunction] at h; cases h
  · rw [visitSuite] at h; cases h
  · rw [suiteLoop] at h; cases h
  · rw [visitStmt] at h; cases h
  · rw [visitSmall_stmt] at h; cases h
  · rw [visitReturn_stmt] at h; cases h
  · rw [visitExpr_stmt] at h; cases h
  · rw [visitIf_stmt] at h; cases h
  · rw [visitWhile_stmt] at h; cases h
  · rw [visitFuncdef] at h; cases h
  · rw [visitTypedargslist] at h; cases h

/-- Whatever a function of the visitor does, the frames below the top of the stack and
the depth of the stack are the same when it returns, and a call leaves the whole stack
as it was. -/
theorem framesKept {F : Type} (ops : DoubleOps F) : ∀ fuel, FramesKept ops fuel := by
  intro fuel
  induction fuel with
  | zero => exact framesKept_zero ops
  | succ n ih =>
    exact
      { test := frames_test_step ih
        orTest := frames_orTest_step ih
        orLoop := frames_orLoop_step ih
        andTest := frames_andTest_step ih
        andLoop := frames_andLoop_step ih
        notTest := frames_notTest_step ih
        comparison := frames_comparison_step ih
        comparisonValues := frames_comparisonValues_step ih
        arithExpr := frames_arithExpr_step ih
        arithLoop := frames_arithLoop_step ih
        term := frames_term_step ih
        termLoop := frames_termLoop_step ih
        factor := frames_factor_step ih
        atomExpr := frames_atomExpr_step ih
        trailer := frames_trailer_step ih
        arglist := frames_arglist_step ih
        atom := frames_atom_step ih
        formatString := frames_formatString_step ih
        testlist := frames_testlist_step ih
        call := frames_call_step ih
        suite := frames_suite_step ih
        suiteLoop := frames_suiteLoop_step ih
        stmt := frames_stmt_step ih
        smallStmt := frames_smallStmt_step ih
        returnStmt := frames_returnStmt_step ih
        exprStmt := frames_exprStmt_step ih
        ifStmt := frames_ifStmt_step ih
        whileStmt := frames_whileStmt_step ih
        funcdef := frames_funcdef_step ih
        typedargslist := frames_typedargslist_step ih }

theorem framesProgram_run :
    (visitFile_input DoubleOps.trivial 80 framesProgram State.init).map
        (fun st => (st.scopes.length, st.returnFlag, st.output)) = .ok (0, false, "7\n") := by
  decide!

/-- C27: calls are frame-balanced. Every call of a user-defined function that returns,
with whatever fuel, arguments and body, and however many calls its body makes, leaves
the stack of local frames exactly as it was before the call, and leaves the return flag
cleared; while the body runs, the frames of the caller lie unchanged below the frame
of the call. More generally every expression and every statement that returns leaves
the depth of the stack and the frames below the top as they were. In the example
program `f` ends once at the end of its body and once through `return`, after a call
of `g` each time, and the stack is empty again afterwards. -/
theorem C27_calls_frame_balanced {F : Type} (ops : DoubleOps F) (fuel : Nat) (name : String)
    (func : FunctionDef F) (posArgs : List (Value F)) (kwArgs : StrMap (Value F))
    (st : State F) (v : Value F) (st2 : State F) (hname : isBuiltinName name = false)
    (hfunc : st.functions.find name = some func)
    (h : callFunction ops fuel name posArgs kwArgs st = .ok (v, st2)) :
    st2.scopes = st.scopes ∧ st2.returnFlag = false ∧
    (∀ fuel1 body frame st1,
      visitSuite ops fuel1 body { st with scopes := frame :: st.scopes } = .ok st1 →
      st1.scopes.tail = st.scopes ∧ st1.scopes.length = st.scopes.length + 1) ∧
    (∀ fuel1 t st0 r, visitTest ops fuel1 t st0 = .ok r → SameFrames st0 r.2) ∧
    (∀ fuel1 s st0 r, visitStmt ops fuel1 s st0 = .ok r → SameFrames st0 r) ∧
    (visitFile_input DoubleOps.trivial 80 framesProgram State.init).map
        (fun st => (st.scopes.length, st.returnFlag, st.output)) = .ok (0, false, "7\n") := by
  refine ⟨(framesKept ops fuel).call name posArgs kwArgs st (v, st2) h, ?_, ?_,
    fun fuel1 => (framesKept ops fuel1).test, fun fuel1 => (framesKept ops fuel1).stmt,
    framesProgram_run⟩
  · cases fuel with
    | zero => rw [callFunction] at h; cases h
    | succ n =>
      rw [callFunction] at h
      simp only [hname, Bool.false_eq_true, if_false, hfunc] at h
      cases hd : bindDefaults func.defaults (func.params.length - func.defaults.length)
          func.params 0 (bindKeywords kwArgs (bindPositional func.params posArgs [])) with
      | error e => simp only [hd] at h; cases h
      | ok scope1 =>
        simp only [hd] at h
        cases h1 : visitSuite ops n func.body
            { st with scopes := scope1 :: st.scopes, returnFlag := false,
                      returnValue := .none } with
        | error e => simp only [h1] at h; cases h
        | ok st1 =>
          simp only [h1] at h
          cases h
          rfl
  · intro fuel1 body frame st1 h1
    have hs := (framesKept ops fuel1).suite body _ st1 h1
    exact ⟨hs.2, hs.1⟩

/-- C27 at a call of `def f(): return 1` from a state with one frame. -/
theorem C27_calls_frame_balanced_witness :
    (isBuiltinName "f" = false ∧
      StrMap.find [("f", (⟨[], [], .block [Stmt.ret (Test.ofAtom "1" (.number "1"))]⟩ :
        FunctionDef Unit))] "f" =
        some ⟨[], [], .block [Stmt.ret (Test.ofAtom "1" (.number "1"))]⟩ ∧
      callFunction DoubleOps.trivial 20 "f" [] []
          { State.init with
              functions := [("f", ⟨[], [], .block [Stmt.ret (Test.ofAtom "1" (.number "1"))]⟩)],
              scopes := [[("x", .int (ofString "5"))]] } =
        .ok (.int (ofString "1"),
          { State.init with
              functions := [("f", ⟨[], [], .block [Stmt.ret (Test.ofAtom "1" (.number "1"))]⟩)],
              scopes := [[("x", .int (ofString "5"))]] })) ∧
    ({ State.init with
        functions := [("f", ⟨[], [], .block [Stmt.ret (Test.ofAtom "1" (.number "1"))]⟩)],
        scopes := [[("x", .int (ofString "5"))]] } : State Unit).scopes =
      [[("x", .int (ofString "5"))]] :=
  ⟨⟨by decide, rfl, rfl⟩,
    (C27_calls_frame_balanced DoubleOps.trivial 20 "f"
      ⟨[], [], .block [Stmt.ret (Test.ofAtom "1" (.number "1"))]⟩ [] []
      { State.init with
          functions := [("f", ⟨[], [], .block [Stmt.ret (Test.ofAtom "1" (.number "1"))]⟩)],
          scopes := [[("x", .int (ofString "5"))]] }
      (.int (ofString "1")) _ (by decide) rfl rfl).1⟩

/-! ### Blocks and while loops -/

theorem suiteLoop_returns_iff {F : Type} (ops : DoubleOps F) (ss : List Stmt)
    (st st2 : State F) :
    (∃ fuel, suiteLoop ops fuel ss st = .ok st2) ↔ BlockRuns ops ss st st2 := by
  constructor
  · rintro ⟨fuel, h⟩
    induction ss generalizing fuel st with
    | nil =>
      cases fuel with
      | zero => rw [suiteLoop] at h; cases h
      | succ f =>
        rw [suiteLoop] at h
        cases h
        exact BlockRuns.nil _
    | cons s rest ih =>
      cases fuel with
      | zero => rw [suiteLoop] at h; cases h
      | succ f =>
        rw [suiteLoop] at h
        cases h1 : visitStmt ops f s st with
        | error e => rw [h1] at h; cases h
        | ok st1 =>
          rw [h1] at h
          simp only at h
          split at h
          · rename_i hb
            cases h
            exact BlockRuns.stop ⟨f, h1⟩ hb
          · rename_i hb
            exact BlockRuns.step ⟨f, h1⟩ (by simpa using hb) (ih st1 f h)
  · intro h
    induction h with
    | nil st => exact ⟨1, rfl⟩
    | @stop s rest st st1 hs hb =>
      obtain ⟨f, h1⟩ := hs
      exact ⟨f + 1, by rw [suiteLoop, h1]; simp only [hb, if_true]⟩
    | @step s rest st st1 st3 hs hb _ ih =>
      obtain ⟨f1, h1⟩ := hs
      obtain ⟨f2, h2⟩ := ih
      refine ⟨max f1 f2 + 1, ?_⟩
      rw [suiteLoop, (evalMono ops f1).stmt (max f1 f2) s st _ (le_max_left _ _) h1]
      simp only [hb, Bool.false_eq_true, if_false]
      exact (evalMono ops f2).suiteLoop (max f1 f2) rest st1 _ (le_max_right _ _) h2

theorem visitSuite_block_iff {F : Type} (ops : DoubleOps F) (ss : List Stmt)
    (st st2 : State F) : SuiteReturns ops (.block ss) st st2 ↔ BlockRuns ops ss st st2 := by
  rw [← suiteLoop_returns_iff]
  constructor
  · rintro ⟨fuel, h⟩
    cases fuel with
    | zero => rw [visitSuite] at h; cases h
    | succ f => rw [visitSuite] at h; exact ⟨f, h⟩
  · rintro ⟨f, h⟩
    exact ⟨f + 1, by rw [visitSuite]; exact h⟩

theorem visitWhile_returns_iff {F : Type} (ops : DoubleOps F) (t : Test) (s : Suite)
    (st st2 : State F) :
    (∃ fuel, visitWhile_stmt ops fuel t s st = .ok st2) ↔ WhileRuns ops t s st st2 := by
  constructor
  · rintro ⟨fuel, h⟩
    induction fuel generalizing st with
    | zero => rw [visitWhile_stmt] at h; cases h
    | succ f ih =>
      rw [visitWhile_stmt] at h
      cases h1 : visitTest ops f t st with
      | error e => rw [h1] at h; cases h
      | ok p =>
        obtain ⟨c, st1⟩ := p
        rw [h1] at h
        simp only at h
        split at h
        · rename_i hc
          cases h
          exact WhileRuns.done ⟨f, h1⟩ (by simpa using hc)
        · rename_i hc
          have hc1 : c.toBool ops = true := by simpa using hc
          cases h2 : visitSuite ops f s st1 with
          | error e => simp only [h2] at h; cases h
          | ok st3 =>
            simp only [h2] at h
            split at h
            · rename_i hb
              cases h
              exact WhileRuns.broke ⟨f, h1⟩ hc1 ⟨f, h2⟩ hb
            · rename_i hb
              have hb1 : st3.breakFlag = false := by simpa using hb
              split at h
              · rename_i hk
                exact WhileRuns.continued ⟨f, h1⟩ hc1 ⟨f, h2⟩ hb1 hk (ih _ h)
              · rename_i hk
                have hk1 : st3.continueFlag = false := by simpa using hk
                split at h
                · rename_i hr
                  cases h
                  exact WhileRuns.returned ⟨f, h1⟩ hc1 ⟨f, h2⟩ hb1 hk1 hr
                · rename_i hr
                  exact WhileRuns.again ⟨f, h1⟩ hc1 ⟨f, h2⟩ hb1 hk1 (by simpa using hr)
                    (ih _ h)
  · intro h
    induction h with
    | @done st st1 c ht hc =>
      obtain ⟨f, h1⟩ := ht
      exact ⟨f + 1, by rw [visitWhile_stmt, h1]; simp [hc]⟩
    | @broke st st1 st3 c ht hc hs hb =>
      obtain ⟨f1, h1⟩ := ht
      obtain ⟨f2, h2⟩ := hs
      refine ⟨max f1 f2 + 1, ?_⟩
      rw [visitWhile_stmt, (evalMono ops f1).test (max f1 f2) t st _ (le_max_left _ _) h1]
      simp only [hc, Bool.not_true, Bool.false_eq_true, if_false,
        (evalMono ops f2).suite (max f1 f2) s st1 _ (le_max_right _ _) h2, hb, if_true]
    | @continued st st1 st3 st4 c ht hc hs hb hk _ ih =>
      obtain ⟨f1, h1⟩ := ht
      obtain ⟨f2, h2⟩ := hs
      obtain ⟨f3, h3⟩ := ih
      refine ⟨max (max f1 f2) f3 + 1, ?_⟩
      rw [visitWhile_stmt, (evalMono ops f1).test (max (max f1 f2) f3) t st _
        (le_trans (le_max_left _ _) (le_max_left _ _)) h1]
      simp only [hc, Bool.not_true, Bool.false_eq_true, if_false,
        (evalMono ops f2).suite (max (max f1 f2) f3) s st1 _
          (le_trans (le_max_right _ _) (le_max_left _ _)) h2, hb, hk, if_true]
      simp only [hb] at h3
      exact (evalMono ops f3).whileStmt (max (max f1 f2) f3) t s _ _ (le_max_right _ _) h3
    | @returned st st1 st3 c ht hc hs hb hk hr =>
      obtain ⟨f1, h1⟩ := ht
      obtain ⟨f2, h2⟩ := hs
      refine ⟨max f1 f2 + 1, ?_⟩
      rw [visitWhile_stmt, (evalMono ops f1).test (max f1 f2) t st _ (le_max_left _ _) h1]
      simp only [hc, Bool.not_true, Bool.false_eq_true, if_false,
        (evalMono ops f2).suite (max f1 f2) s st1 _ (le_max_right _ _) h2, hb, hk, hr, if_true]
    | @again st st1 st3 st4 c ht hc hs hb hk hr _ ih =>
      obtain ⟨f1, h1⟩ := ht
      obtain ⟨f2, h2⟩ := hs
      obtain ⟨f3, h3⟩ := ih
      refine ⟨max (max f1 f2) f3 + 1, ?_⟩
      rw [visitWhile_stmt, (evalMono ops f1).test (max (max f1 f2) f3) t st _
        (le_trans (le_max_left _ _) (le_max_left _ _)) h1]
      simp only [hc, Bool.not_true, Bool.false_eq_true, if_false,
        (evalMono ops f2).suite (max (max f1 f2) f3) s st1 _
          (le_trans (le_max_right _ _) (le_max_left _ _)) h2, hb, hk, hr]
      exact (evalMono ops f3).whileStmt (max (max f1 f2) f3) t s _ _ (le_max_right _ _) h3

theorem stmt_while_iff {F : Type} (ops : DoubleOps F) (t : Test) (s : Suite)
    (st st2 : State F) :
    StmtReturns ops (.compound (.whileStmt t s)) st st2 ↔ WhileRuns ops t s st st2 := by
  rw [← visitWhile_returns_iff]
  constructor
  · rintro ⟨fuel, h⟩
    cases fuel with
    | zero => rw [visitStmt] at h; cases h
    | succ f => rw [visitStmt] at h; exact ⟨f, h⟩
  · rintro ⟨f, h⟩
    exact ⟨f + 1, by rw [visitStmt]; exact h⟩

theorem mulInnerLog_fst (x : Int) (other : List Int) (i fuel j : Nat) (carry : Int)
    (res : List Int) :
    (mulInnerLog x other i fuel j carry res).map Prod.fst =
      mulInner x other i fuel j carry res := by
  induction fuel generalizing j carry res with
  | zero => rfl
  | succ f ih =>
    rw [mulInnerLog, mulInner]
    split
    · cases hr : res[i + j]? with
      | none => rfl
      | some r =>
        simp only
        rw [← ih]
        cases mulInnerLog x other i f (j + 1)
          ((r + x * (if j < other.length then other.getD j 0 else 0) + carry).tdiv 10)
          (res.set (i + j)
            ((r + x * (if j < other.length then other.getD j 0 else 0) + carry).tmod 10)) <;> rfl
    · rfl

theorem mulOuterLog_fst (other xs : List Int) (i : Nat) (res : List Int) :
    (mulOuterLog other xs i res).map Prod.fst = mulOuter other xs i res := by
  induction xs generalizing i res with
  | nil => rfl
  | cons x xs ih =>
    rw [mulOuterLog, mulOuter, ← mulInnerLog_fst]
    cases h1 : mulInnerLog x other i (res.length + 1) 0 0 res with
    | error e => rfl
    | ok p =>
      obtain ⟨res1, log1⟩ := p
      simp only [Except.map]
      rw [← ih]
      cases mulOuterLog other xs (i + 1) res1 <;> rfl

theorem mulInnerLog_bounds (x : Int) (other : List Int) (i L : Nat) (hx : 0 ≤ x ∧ x ≤ 9)
    (ho : Digits other) :
    ∀ (fuel j : Nat) (carry : Int) (res res1 : List Int) (log : List MulWrite),
      (carry = 0 ∧ other.length < j) ∨
        (j ≤ other.length ∧ 0 ≤ carry ∧ carry ≤ 9 ∧ Buf res L (i + other.length)) →
      mulInnerLog x other i fuel j carry res = .ok (res1, log) →
      ∀ w ∈ log, w.i = i ∧ w.j ≤ other.length ∧ w.i + w.j < L ∧
        (0 ≤ w.digit ∧ w.digit ≤ 9) ∧ (0 ≤ w.carry ∧ w.carry ≤ 9) := by
  intro fuel
  induction fuel with
  | zero => intro j carry res res1 log _ h; rw [mulInnerLog] at h; cases h
  | succ f ih =>
    intro j carry res res1 log hinv h
    rw [mulInnerLog] at h
    split at h
    · rename_i hcond
      rcases hinv with ⟨hc0, hj⟩ | ⟨hj, hc1, hc2, hd, hlen, hz⟩
      · rcases hcond with hlt | hne
        · omega
        · exact absurd hc0 hne
      · cases hr : res[i + j]? with
        | none => rw [hr] at h; cases h
        | some r =>
          rw [hr] at h
          simp only at h
          have hin : i + j < res.length := by
            by_contra hge
            rw [List.getElem?_eq_none (by omega)] at hr
            cases hr
          have hr0 := hd.getElem? hr
          have hy : 0 ≤ (if j < other.length then other.getD j 0 else 0) ∧
              (if j < other.length then other.getD j 0 else 0) ≤ 9 := by
            split
            · rename_i hjm
              rw [List.getD_eq_getElem?_getD, List.getElem?_eq_getElem hjm]
              exact ho _ (List.getElem_mem _)
            · omega
          have hyz : ¬ j < other.length →
              (if j < other.length then other.getD j 0 else 0) = 0 := fun hn => if_neg hn
          generalize (if j < other.length then other.getD j 0 else 0) = y at h hy hyz
          have hxy0 : 0 ≤ x * y := mul_nonneg hx.1 hy.1
          have hxy1 : x * y ≤ 9 * 9 := mul_le_mul hx.2 hy.2 hy.1 (by norm_num)
          have hcur0 : 0 ≤ r + x * y + carry := by omega
          have hcur1 : r + x * y + carry ≤ 99 := by omega
          rw [tdiv_nonneg hcur0, tmod_nonneg hcur0] at h
          cases hrec : mulInnerLog x other i f (j + 1) ((r + x * y + carry) / 10)
              (res.set (i + j) ((r + x * y + carry) % 10)) with
          | error e => rw [hrec] at h; cases h
          | ok p =>
            obtain ⟨res2, log2⟩ := p
            rw [hrec] at h
            cases h
            have hinv2 : ((r + x * y + carry) / 10 = 0 ∧ other.length < j + 1) ∨
                (j + 1 ≤ other.length ∧ 0 ≤ (r + x * y + carry) / 10 ∧
                  (r + x * y + carry) / 10 ≤ 9 ∧
                  Buf (res.set (i + j) ((r + x * y + carry) % 10)) L (i + other.length)) := by
              rcases Nat.lt_or_ge j other.length with hjm | hjm
              · right
                refine ⟨hjm, by omega, by omega, hd.set _ (by omega), by simp [hlen], ?_⟩
                intro k r1 hk hkr
                rw [List.getElem?_set] at hkr
                split at hkr
                · omega
                · exact hz k r1 hk hkr
              · left
                have hrz : r = 0 := hz (i + j) r (by omega) hr
                have hy0 : y = 0 := hyz (by omega)
                rw [hrz, hy0]
                refine ⟨?_, by omega⟩
                simp only [mul_zero, zero_add]
                omega
            intro w hw
            rcases List.mem_cons.mp hw with rfl | hw2
            · refine ⟨rfl, hj, by rw [← hlen]; exact hin, ⟨?_, ?_⟩, ?_, ?_⟩
              · show 0 ≤ (r + x * y + carry) % 10
                omega
              · show (r + x * y + carry) % 10 ≤ 9
                omega
              · show 0 ≤ (r + x * y + carry) / 10
                omega
              · show (r + x * y + carry) / 10 ≤ 9
                omega
            · exact ih (j + 1) _ _ res1 log2 hinv2 hrec w hw2
    · cases h
      intro w hw
      cases hw

theorem mulOuterLog_bounds (other : List Int) (L : Nat) (ho : Digits other) :
    ∀ (xs : List Int) (i : Nat) (res res1 : List Int) (log : List MulWrite), Digits xs →
      i + xs.length + other.length ≤ L → Buf res L (i + other.length) →
      mulOuterLog other xs i res = .ok (res1, log) →
      ∀ w ∈ log, (i ≤ w.i ∧ w.i < i + xs.length) ∧ w.j ≤ other.length ∧ w.i + w.j < L ∧
        (0 ≤ w.digit ∧ w.digit ≤ 9) ∧ (0 ≤ w.carry ∧ w.carry ≤ 9) := by
  intro xs
  induction xs with
  | nil =>
    intro i res res1 log _ _ _ h
    rw [mulOuterLog] at h
    cases h
    intro w hw
    cases hw
  | cons x xs ih =>
    intro i res res1 log hxs hL hb h
    simp only [List.length_cons] at hL
    rw [mulOuterLog] at h
    cases h1 : mulInnerLog x other i (res.length + 1) 0 0 res with
    | error e => rw [h1] at h; cases h
    | ok p =>
      obtain ⟨res2, log1⟩ := p
      rw [h1] at h
      simp only at h
      cases h2 : mulOuterLog other xs (i + 1) res2 with
      | error e => rw [h2] at h; cases h
      | ok p2 =>
        obtain ⟨res3, log2⟩ := p2
        rw [h2] at h
        cases h
        have hin := mulInnerLog_bounds x other i L hxs.head ho (res.length + 1) 0 0 res res2 log1
          (Or.inr ⟨Nat.zero_le _, le_refl _, by norm_num, hb⟩) h1
        obtain ⟨res2a, h3, h4, -⟩ :=
          mulInner_spec x other i L hxs.head ho (by omega) (res.length + 1) 0 0 res
            (Nat.zero_le _) (by rw [hb.2.1]; omega) (by omega) hb
        rw [← mulInnerLog_fst, h1] at h3
        cases h3
        have hb2 : Buf res2 L (i + 1 + other.length) := by
          have e : i + 1 + other.length = i + other.length + 1 := by omega
          rw [e]
          exact h4
        have hout := ih (i + 1) res2 res1 log2 hxs.tail (by omega) hb2 h2
        intro w hw
        rcases List.mem_append.mp hw with hw1 | hw2
        · obtain ⟨e1, e2, e3, e4, e5⟩ := hin w hw1
          exact ⟨⟨by omega, by simp only [List.length_cons]; omega⟩, e2, e3, e4, e5⟩
        · obtain ⟨⟨e0, e1⟩, e2, e3, e4, e5⟩ := hout w hw2
          exact ⟨⟨by omega, by simp only [List.length_cons]; omega⟩, e2, e3, e4, e5⟩

/-- C31: schoolbook multiplication never leaves its result buffer. For canonical `a`
with `n` digits and `b` with `m` digits the loops of `a * b` run to their end on the
buffer of `n + m` zeros: no round reads or writes outside the buffer. Every round,
also a round that runs only because a carry is pending, has `i < n` and `j <= m` (so
there is at most one such extra round for each `i`) and its index `i + j` is below
`n + m`; the digit it stores is in `0..9` and the carry it leaves is in `0..9`; the
buffer in the end has `n + m` digits in `0..9`, and `operator*` returns. The loops that
list their rounds compute the same buffer as the loops of `mul`, on every input. For
`99 * 99` there is one extra round for each `i`, at the indices 2 and 3, and the carry 9
is reached. -/
theorem C31_mul_stays_in_buffer (a b : BigInteger) (ha : Canonical a) (hb : Canonical b) :
    (∃ res log, mulLog a b = .ok (res, log) ∧
      mulOuter b.digits a.digits 0
        (List.replicate (a.digits.length + b.digits.length) 0) = .ok res ∧
      (∀ w ∈ log, w.i < a.digits.length ∧ w.j ≤ b.digits.length ∧
        w.i + w.j < a.digits.length + b.digits.length ∧
        (0 ≤ w.digit ∧ w.digit ≤ 9) ∧ (0 ≤ w.carry ∧ w.carry ≤ 9)) ∧
      Digits res ∧ res.length = a.digits.length + b.digits.length) ∧
    (∃ r, a.mul b = .ok r) ∧
    (∀ (other xs : List Int) (i : Nat) (res0 : List Int),
      (mulOuterLog other xs i res0).map Prod.fst = mulOuter other xs i res0) ∧
    (∀ (x : Int) (other : List Int) (i fuel j : Nat) (carry : Int) (res0 : List Int),
      (mulInnerLog x other i fuel j carry res0).map Prod.fst =
        mulInner x other i fuel j carry res0) ∧
    mulLog (ofString "99") (ofString "99") =
      .ok ([1, 0, 8, 9],
        [⟨0, 0, 1, 8⟩, ⟨0, 1, 9, 8⟩, ⟨0, 2, 8, 0⟩, ⟨1, 0, 0, 9⟩, ⟨1, 1, 8, 9⟩, ⟨1, 2, 9, 0⟩]) := by
  refine ⟨?_, ?_, mulOuterLog_fst, mulInnerLog_fst, by decide⟩
  · obtain ⟨res, h1, h2, h3, -⟩ :=
      mulOuter_spec b.digits (a.digits.length + b.digits.length) hb.2.1 a.digits 0
        (List.replicate (a.digits.length + b.digits.length) 0) ha.2.1 (by omega)
        (buf_replicate _ _)
    have h4 := h1
    rw [← mulOuterLog_fst] at h4
    cases hlog : mulOuterLog b.digits a.digits 0
        (List.replicate (a.digits.length + b.digits.length) 0) with
    | error e => rw [hlog] at h4; cases h4
    | ok p =>
      obtain ⟨res1, log⟩ := p
      rw [hlog] at h4
      have e : res1 = res := by
        simp only [Except.map, Except.ok.injEq] at h4
        exact h4
      rw [← e] at h1 h2 h3
      refine ⟨res1, log, hlog, h1, ?_, h2, h3⟩
      intro w hw
      obtain ⟨⟨-, e1⟩, e2, e3, e4, e5⟩ :=
        mulOuterLog_bounds b.digits (a.digits.length + b.digits.length) hb.2.1 a.digits 0
          (List.replicate (a.digits.length + b.digits.length) 0) res1 log ha.2.1 (by omega)
          (buf_replicate _ _) hlog w hw
      exact ⟨by omega, e2, e3, e4, e5⟩
  · obtain ⟨r, h1, -⟩ := mul_spec a b ha hb
    exact ⟨r, h1⟩

/-- C31 at `a = 99`, `b = 99`. -/
theorem C31_mul_stays_in_buffer_witness :
    (Canonical (ofString "99") ∧ Canonical (ofString "99")) ∧
    ∃ res log, mulLog (ofString "99") (ofString "99") = .ok (res, log) ∧
      mulOuter (ofString "99").digits (ofString "99").digits 0
        (List.replicate ((ofString "99").digits.length + (ofString "99").digits.length) 0) =
          .ok res ∧
      (∀ w ∈ log, w.i < (ofString "99").digits.length ∧ w.j ≤ (ofString "99").digits.length ∧
        w.i + w.j < (ofString "99").digits.length + (ofString "99").digits.length ∧
        (0 ≤ w.digit ∧ w.digit ≤ 9) ∧ (0 ≤ w.carry ∧ w.carry ≤ 9)) ∧
      Digits res ∧
      res.length = (ofString "99").digits.length + (ofString "99").digits.length :=
  ⟨⟨by decide, by decide⟩,
    (C31_mul_stays_in_buffer (ofString "99") (ofString "99") (by decide) (by decide)).1⟩

end PyInterp
